import Mathlib

/-!
# Region allocators: a shallow embedding of `allocator.cc`

Machine words (`size_t`, `uintptr_t`) are natural numbers below `WORD = 2 ^ 64`,
with every C arithmetic operation reduced modulo `WORD`.  Pointers are words and
`NULL` is `0`.  Memory is a map from byte addresses to byte values.  A call
either returns (`Except.ok`) or stops the program (`Except.error`): a failed
`assert`, a division by zero, a `memset`/`memcpy` through `NULL` or across the
end of the address space, or the overflow of an `int` counter.  Loops over
linked structures in memory take a step budget; `out_of_fuel` reports that the
budget was too small, and the theorems show which budget suffices.
-/

namespace Alloc

/-! ## Machine words -/

/-- Number of values of a 64-bit machine word. -/
def WORD : Nat := 2 ^ 64

/-- Unsigned addition of `size_t`. -/
def wadd (a b : Nat) : Nat := (a + b) % WORD

/-- Unsigned subtraction of `size_t`. -/
def wsub (a b : Nat) : Nat := (a + (WORD - b % WORD)) % WORD

/-- Unsigned multiplication of `size_t`. -/
def wmul (a b : Nat) : Nat := (a * b) % WORD

/-- Ways in which a call stops the program instead of returning. -/
inductive Fault where
  | assertion
  | div_by_zero
  | segfault
  | signed_overflow
  | out_of_fuel
  deriving DecidableEq, Repr

/-- Unsigned division of `size_t`; dividing by zero traps. -/
def wdiv (a b : Nat) : Except Fault Nat :=
  if b = 0 then .error .div_by_zero else .ok (a / b)

/-! ## Alignment helpers (`allocator.cc` lines 11-51) -/

/-- `bool is_power_of_two(uintptr_t x)`: `(x & (x - 1)) == 0`. -/
def is_power_of_two (x : Nat) : Bool := (x &&& wsub x 1) == 0

/-- `uintptr_t align_forward(uintptr_t address, size_t align)`. -/
def align_forward (address align : Nat) : Except Fault Nat :=
  if is_power_of_two align then
    let mod := address &&& wsub align 1
    if mod ≠ 0 then .ok (wadd address (wsub align mod)) else .ok address
  else .error .assertion

/-- `size_t get_padding_with_header(uintptr_t address, size_t header_size, size_t align)`. -/
def get_padding_with_header (address header_size align : Nat) : Except Fault Nat :=
  if is_power_of_two align then
    let mod := address &&& wsub align 1
    let padding := if mod ≠ 0 then wadd 0 (wsub align mod) else 0
    if padding < header_size then
      let remain := wsub header_size padding
      if (remain &&& wsub align 1) = 0 then
        match wdiv remain align with
        | .error e => .error e
        | .ok q => .ok (wadd padding (wmul align q))
      else
        match wdiv remain align with
        | .error e => .error e
        | .ok q => .ok (wadd padding (wmul align (wadd q 1)))
    else .ok padding
  else .error .assertion

/-! ## Memory -/

/-- Byte-addressed memory: the byte stored at every address. -/
abbrev Mem := Nat → Nat

/-- `memset(ptr, val, n)`: traps on a null destination or a range leaving the address space. -/
def memset (mem : Mem) (ptr val n : Nat) : Except Fault Mem :=
  if n = 0 then .ok mem
  else if ptr = 0 ∨ WORD < ptr + n then .error .segfault
  else .ok (fun a => if ptr ≤ a ∧ a < ptr + n then val else mem a)

/-- `memcpy(dst, src, n)`: traps on a null pointer or a range leaving the address space. -/
def memcpy (mem : Mem) (dst src n : Nat) : Except Fault Mem :=
  if n = 0 then .ok mem
  else if dst = 0 ∨ src = 0 ∨ WORD < dst + n ∨ WORD < src + n then .error .segfault
  else .ok (fun a => if dst ≤ a ∧ a < dst + n then mem (src + (a - dst)) else mem a)

/-- Store of a `uint8_t` field. -/
def store8 (mem : Mem) (addr val : Nat) : Mem :=
  fun a => if a = addr then val % 256 else mem a

/-- Store of a `size_t` field: eight bytes, least significant first. -/
def store64 (mem : Mem) (addr val : Nat) : Mem :=
  fun a => if addr ≤ a ∧ a < addr + 8 then (val / 256 ^ (a - addr)) % 256 else mem a

/-- Load of a `size_t` field. -/
def load64 (mem : Mem) (addr : Nat) : Nat :=
  mem addr + mem (addr + 1) * 256 + mem (addr + 2) * 256 ^ 2 + mem (addr + 3) * 256 ^ 3 +
    mem (addr + 4) * 256 ^ 4 + mem (addr + 5) * 256 ^ 5 + mem (addr + 6) * 256 ^ 6 +
    mem (addr + 7) * 256 ^ 7

/-! ## Arena allocator (`allocator.cc` lines 53-150) -/

/-- `struct ArenaAllocator`. -/
structure ArenaAllocator where
  buffer : Nat
  buffer_size : Nat
  offset : Nat
  deriving DecidableEq, Repr

/-- `void arena_init(ArenaAllocator*, void* buffer, size_t buffer_size)`. -/
def arena_init (buffer buffer_size : Nat) : ArenaAllocator :=
  { buffer := buffer, buffer_size := buffer_size, offset := 0 }

/-- `void* arena_alloc(ArenaAllocator*, size_t size, size_t align)`: the returned pointer
(`0` is `NULL`), the arena and the memory after the call. -/
def arena_alloc (arena : ArenaAllocator) (mem : Mem) (size align : Nat) :
    Except Fault (Nat × ArenaAllocator × Mem) :=
  if is_power_of_two align then
    match align_forward (wadd arena.buffer arena.offset) align with
    | .error e => .error e
    | .ok next_address =>
      let offset := wsub next_address arena.buffer
      if wadd offset size ≤ arena.buffer_size then
        let arena1 := { arena with offset := wadd offset size }
        let ptr := wadd arena.buffer offset
        match memset mem ptr 0 size with
        | .error e => .error e
        | .ok mem1 => .ok (ptr, arena1, mem1)
      else .ok (0, arena, mem)
  else .error .assertion

/-- `void* arena_resize(ArenaAllocator*, void* old_ptr, size_t old_size, size_t new_size,
size_t align)`. -/
def arena_resize (arena : ArenaAllocator) (mem : Mem) (old_ptr old_size new_size align : Nat) :
    Except Fault (Nat × ArenaAllocator × Mem) :=
  if is_power_of_two align then
    if old_ptr = 0 ∨ old_size = 0 then arena_alloc arena mem new_size align
    else if arena.buffer ≤ old_ptr ∧ old_ptr < wadd arena.buffer arena.buffer_size then
      let old_offset := wsub old_ptr arena.buffer
      if wadd old_offset old_size = arena.offset then
        if wadd old_offset new_size > arena.buffer_size then .ok (0, arena, mem)
        else
          let arena1 := { arena with offset := wadd old_offset new_size }
          if new_size > old_size then
            match memset mem
                (wadd arena1.buffer (wsub arena1.offset (wsub new_size old_size))) 0
                (wsub new_size old_size) with
            | .error e => .error e
            | .ok mem1 => .ok (old_ptr, arena1, mem1)
          else .ok (old_ptr, arena1, mem)
      else
        match arena_alloc arena mem new_size align with
        | .error e => .error e
        | .ok (new_ptr, arena1, mem1) =>
          match memset mem1 new_ptr 0 new_size with
          | .error e => .error e
          | .ok mem2 =>
            let min_size := if old_size < new_size then old_size else new_size
            match memcpy mem2 new_ptr old_ptr min_size with
            | .error e => .error e
            | .ok mem3 => .ok (new_ptr, arena1, mem3)
    else .ok (0, arena, mem)
  else .error .assertion

/-- `void arena_free(ArenaAllocator*, void* ptr)`: does nothing. -/
def arena_free (arena : ArenaAllocator) (_ptr : Nat) : ArenaAllocator := arena

/-- `void arena_free_all(ArenaAllocator*)`. -/
def arena_free_all (arena : ArenaAllocator) : ArenaAllocator := { arena with offset := 0 }

/-- `struct TempArenaAllocator`; the `arena` pointer is the arena passed along with it. -/
structure TempArenaAllocator where
  offset : Nat
  deriving DecidableEq, Repr

/-- `TempArenaAllocator temp_arena_start(ArenaAllocator*)`. -/
def temp_arena_start (arena : ArenaAllocator) : TempArenaAllocator :=
  { offset := arena.offset }

/-- `void temp_arena_end(TempArenaAllocator*)`, acting on the arena it points to. -/
def temp_arena_end (temp_arena : TempArenaAllocator) (arena : ArenaAllocator) :
    ArenaAllocator :=
  { arena with offset := temp_arena.offset }

/-- One call on an arena, as made between `temp_arena_start` and `temp_arena_end`. -/
inductive ArenaOp where
  | alloc (size align : Nat)
  | resize (old_ptr old_size new_size align : Nat)
  | free (ptr : Nat)
  | free_all
  deriving DecidableEq, Repr

/-- Runs a sequence of arena calls in program order, discarding the returned pointers. -/
def arena_run (arena : ArenaAllocator) (mem : Mem) :
    List ArenaOp → Except Fault (ArenaAllocator × Mem)
  | [] => .ok (arena, mem)
  | .alloc size align :: ops =>
    match arena_alloc arena mem size align with
    | .error e => .error e
    | .ok (_, arena1, mem1) => arena_run arena1 mem1 ops
  | .resize old_ptr old_size new_size align :: ops =>
    match arena_resize arena mem old_ptr old_size new_size align with
    | .error e => .error e
    | .ok (_, arena1, mem1) => arena_run arena1 mem1 ops
  | .free ptr :: ops => arena_run (arena_free arena ptr) mem ops
  | .free_all :: ops => arena_run (arena_free_all arena) mem ops

/-- Runs `arena_alloc` on a list of `(size, align)` requests, collecting the pointers. -/
def arena_alloc_seq (arena : ArenaAllocator) (mem : Mem) :
    List (Nat × Nat) → Except Fault (List Nat × ArenaAllocator × Mem)
  | [] => .ok ([], arena, mem)
  | (size, align) :: reqs =>
    match arena_alloc arena mem size align with
    | .error e => .error e
    | .ok (ptr, arena1, mem1) =>
      match arena_alloc_seq arena1 mem1 reqs with
      | .error e => .error e
      | .ok (ptrs, arena2, mem2) => .ok (ptr :: ptrs, arena2, mem2)

/-! ## Stack allocator (`allocator.cc` lines 152-269) -/

/-- `struct StackAllocator`. -/
structure StackAllocator where
  buffer : Nat
  buffer_size : Nat
  offset : Nat
  prev_offset : Nat
  deriving DecidableEq, Repr

/-- `sizeof(StackAllocationHeader)`: a `size_t prev_offset` at byte 0 and a
`uint8_t padding` at byte 8, padded to 16 bytes. -/
def STACK_HEADER_SIZE : Nat := 16

/-- `void stack_init(StackAllocator*, void* buffer, size_t buffer_size)`. -/
def stack_init (buffer buffer_size : Nat) : StackAllocator :=
  { buffer := buffer, buffer_size := buffer_size, offset := 0, prev_offset := 0 }

/-- `void* stack_alloc(StackAllocator*, size_t size, size_t align)`. -/
def stack_alloc (stack : StackAllocator) (mem : Mem) (size align : Nat) :
    Except Fault (Nat × StackAllocator × Mem) :=
  let start_address := wadd stack.buffer stack.offset
  let max_align := 2 ^ (8 * 1 - 1)
  let align := if align > max_align then max_align else align
  match get_padding_with_header start_address STACK_HEADER_SIZE align with
  | .error e => .error e
  | .ok padding =>
    if wadd (wadd stack.offset padding) size > stack.buffer_size then .ok (0, stack, mem)
    else
      let ptr := wadd stack.buffer (wadd stack.offset padding)
      let header := wsub ptr STACK_HEADER_SIZE
      let mem1 := store8 mem (wadd header 8) padding
      let mem2 := store64 mem1 header stack.prev_offset
      let stack1 := { stack with
        prev_offset := stack.offset, offset := wadd stack.offset (wadd padding size) }
      match memset mem2 ptr 0 size with
      | .error e => .error e
      | .ok mem3 => .ok (ptr, stack1, mem3)

/-- `void stack_free(StackAllocator*, void* ptr)`. -/
def stack_free (stack : StackAllocator) (mem : Mem) (ptr : Nat) : StackAllocator :=
  if ptr < stack.buffer ∨ ptr ≥ wadd stack.buffer stack.buffer_size then stack
  else if ptr > wadd stack.buffer stack.offset then stack
  else
    let header := wsub ptr STACK_HEADER_SIZE
    let prev_offset := wsub (wsub ptr stack.buffer) (mem (wadd header 8))
    if prev_offset ≠ stack.prev_offset then stack
    else { stack with offset := stack.prev_offset, prev_offset := load64 mem header }

/-- `void stack_free_all(StackAllocator*)`. -/
def stack_free_all (stack : StackAllocator) : StackAllocator :=
  { stack with offset := 0, prev_offset := 0 }

/-! ## Arithmetic counterparts used in the statements -/

/-- The alignment gap of `n`: distance to the next multiple of `a`. -/
def gap (a n : Nat) : Nat := if n % a ≠ 0 then a - n % a else 0

/-- Padding that `get_padding_with_header` computes, over unbounded naturals. -/
def padding_nat (a n H : Nat) : Nat :=
  if gap a n < H then
    if (H - gap a n) % a = 0 then gap a n + a * ((H - gap a n) / a)
    else gap a n + a * ((H - gap a n) / a + 1)
  else gap a n

/-- Padding and pointer of each allocation of a request list laid out from offset `off`,
over unbounded naturals: the gap to the next multiple of `align`, then `size` bytes. -/
def arena_plan (buffer off : Nat) : List (Nat × Nat) → List (Nat × Nat)
  | [] => []
  | (size, align) :: reqs =>
    (gap align (buffer + off), buffer + off + gap align (buffer + off)) ::
      arena_plan buffer (off + gap align (buffer + off) + size) reqs

/-- `void* stack_resize(StackAllocator*, void* old_ptr, size_t old_size, size_t new_size,
size_t align)`. -/
def stack_resize (stack : StackAllocator) (mem : Mem) (old_ptr old_size new_size align : Nat) :
    Except Fault (Nat × StackAllocator × Mem) :=
  let min_size := if old_size < new_size then old_size else new_size
  if old_ptr = 0 then stack_alloc stack mem new_size align
  else if new_size = 0 then .ok (0, stack_free stack mem old_ptr, mem)
  else if old_ptr < stack.buffer ∨ old_ptr ≥ wadd stack.buffer stack.buffer_size then
    .ok (0, stack, mem)
  else if old_ptr > wadd stack.buffer stack.offset then .ok (0, stack, mem)
  else if wadd old_ptr old_size ≠ wadd stack.buffer stack.offset then
    match stack_alloc stack mem new_size align with
    | .error e => .error e
    | .ok (new_ptr, stack1, mem1) =>
      match memcpy mem1 new_ptr old_ptr min_size with
      | .error e => .error e
      | .ok mem2 => .ok (new_ptr, stack1, mem2)
  else
    let stack1 := { stack with offset := wadd (wsub stack.offset old_size) new_size }
    if new_size > old_size then
      match memset mem (wadd stack1.buffer (wsub stack1.offset (wsub new_size old_size))) 0
          (wsub new_size old_size) with
      | .error e => .error e
      | .ok mem1 => .ok (old_ptr, stack1, mem1)
    else .ok (old_ptr, stack1, mem)

/-- Header chain of the live blocks of a stack, top first, each block given as
`(pointer, start offset)`: the allocator's `prev_offset` is the start of the top block, the
block's header sits between its start and its pointer and records the padding and the
`prev_offset` of the stack below it; an empty stack has both offsets at 0. -/
def StackChain (buffer : Nat) (mem : Mem) : Nat → Nat → List (Nat × Nat) → Prop
  | offset, prev, [] => offset = 0 ∧ prev = 0
  | offset, prev, (p, st) :: live =>
    prev = st ∧ buffer + st + 16 ≤ p ∧ p < buffer + offset ∧ mem (p - 8) = p - (buffer + st) ∧
      StackChain buffer mem st (load64 mem (p - 16)) live

/-- Stack states built from `stack_init` by successful `stack_alloc` calls with sizes at
least 1 and frees of the top, together with the list of live blocks, top first, each given
as `(pointer, start offset)`. -/
inductive StackReach (buffer buffer_size : Nat) :
    StackAllocator → Mem → List (Nat × Nat) → Prop where
  | init (mem : Mem) : StackReach buffer buffer_size (stack_init buffer buffer_size) mem []
  | alloc {stack stack1 : StackAllocator} {mem mem1 : Mem} {live : List (Nat × Nat)}
      (size k p : Nat) :
      StackReach buffer buffer_size stack mem live → 1 ≤ size → size < WORD → 2 ^ k < WORD →
      stack_alloc stack mem size (2 ^ k) = .ok (p, stack1, mem1) → p ≠ 0 →
      StackReach buffer buffer_size stack1 mem1 ((p, stack.offset) :: live)
  | free_top {stack : StackAllocator} {mem : Mem} {live : List (Nat × Nat)} (p st : Nat) :
      StackReach buffer buffer_size stack mem ((p, st) :: live) →
      StackReach buffer buffer_size (stack_free stack mem p) mem live

/-! ## Pool allocator (`allocator.cc` lines 271-333) -/

/-- `struct PoolAllocator`; `head` is the address of the first free chunk, `0` when none. -/
structure PoolAllocator where
  buffer : Nat
  buffer_size : Nat
  chunk_size : Nat
  head : Nat
  deriving DecidableEq, Repr

/-- Largest value of an `int`. -/
def INT_MAX : Nat := 2 ^ 31 - 1

/-- `sizeof(PoolListNode)`: one pointer. -/
def POOL_NODE_SIZE : Nat := 8

/-- The loop `for (int i = 0; i < chunk_count; i++)` of `pool_free_all`, with
`remaining = chunk_count - i` iterations left: chunk `i` gets `next = head` and becomes the
head.  Incrementing `i` past `INT_MAX` is a fault. -/
def pool_free_all_loop : Nat → Nat → PoolAllocator → Mem → Except Fault (PoolAllocator × Mem)
  | 0, _, pool, mem => .ok (pool, mem)
  | remaining + 1, i, pool, mem =>
    let ptr := wadd pool.buffer (wmul i pool.chunk_size)
    let mem1 := store64 mem ptr pool.head
    let pool1 := { pool with head := ptr }
    if INT_MAX < i + 1 then .error .signed_overflow
    else pool_free_all_loop remaining (i + 1) pool1 mem1

/-- `void pool_free_all(PoolAllocator*)`. -/
def pool_free_all (pool : PoolAllocator) (mem : Mem) : Except Fault (PoolAllocator × Mem) :=
  match wdiv pool.buffer_size pool.chunk_size with
  | .error e => .error e
  | .ok chunk_count => pool_free_all_loop chunk_count 0 { pool with head := 0 } mem

/-- `void pool_init(PoolAllocator*, void* buffer, size_t buffer_size, size_t chunk_size,
size_t align)`. -/
def pool_init (mem : Mem) (buffer buffer_size chunk_size align : Nat) :
    Except Fault (PoolAllocator × Mem) :=
  match align_forward buffer align with
  | .error e => .error e
  | .ok start_addr_align =>
    let buffer_size_align := wsub buffer_size (wsub start_addr_align buffer)
    match align_forward chunk_size align with
    | .error e => .error e
    | .ok chunk_size_align =>
      if chunk_size_align ≥ POOL_NODE_SIZE then
        pool_free_all
          { buffer := start_addr_align, buffer_size := buffer_size_align,
            chunk_size := chunk_size_align, head := 0 } mem
      else .error .assertion

/-- `void* pool_alloc(PoolAllocator*)`. -/
def pool_alloc (pool : PoolAllocator) (mem : Mem) : Except Fault (Nat × PoolAllocator × Mem) :=
  if pool.head = 0 then .ok (0, pool, mem)
  else
    let pool1 := { pool with head := load64 mem pool.head }
    match memset mem pool.head 0 pool.chunk_size with
    | .error e => .error e
    | .ok mem1 => .ok (pool.head, pool1, mem1)

/-- `void pool_free(PoolAllocator*, void* ptr)`. -/
def pool_free (pool : PoolAllocator) (mem : Mem) (ptr : Nat) : PoolAllocator × Mem :=
  if ptr = 0 then (pool, mem)
  else if ptr < pool.buffer ∨ ptr ≥ wadd pool.buffer pool.buffer_size then (pool, mem)
  else ({ pool with head := ptr }, store64 mem ptr pool.head)

/-- Runs `pool_alloc` the given number of times, collecting the pointers. -/
def pool_alloc_n : Nat → PoolAllocator → Mem → Except Fault (List Nat × PoolAllocator × Mem)
  | 0, pool, mem => .ok ([], pool, mem)
  | k + 1, pool, mem =>
    match pool_alloc pool mem with
    | .error e => .error e
    | .ok (ptr, pool1, mem1) =>
      match pool_alloc_n k pool1 mem1 with
      | .error e => .error e
      | .ok (ptrs, pool2, mem2) => .ok (ptr :: ptrs, pool2, mem2)

/-- One call on a pool after `pool_init`. -/
inductive PoolOp where
  | alloc
  | free (ptr : Nat)
  deriving DecidableEq, Repr

/-- Runs a sequence of `pool_alloc` and `pool_free` calls in program order. -/
def pool_run (pool : PoolAllocator) (mem : Mem) :
    List PoolOp → Except Fault (PoolAllocator × Mem)
  | [] => .ok (pool, mem)
  | .alloc :: ops =>
    match pool_alloc pool mem with
    | .error e => .error e
    | .ok (_, pool1, mem1) => pool_run pool1 mem1 ops
  | .free ptr :: ops => pool_run (pool_free pool mem ptr).1 (pool_free pool mem ptr).2 ops

/-- The free list in memory: starting at `head`, following the `next` field of each node
visits exactly the addresses of the list, in order, and ends at `NULL`. -/
def PoolList (mem : Mem) : Nat → List Nat → Prop
  | head, [] => head = 0
  | head, a :: rest => head = a ∧ a ≠ 0 ∧ PoolList mem (load64 mem a) rest

/-- Addresses of the first `m` chunks of size `c` from `b`, highest first. -/
def pool_chunks (b c : Nat) : Nat → List Nat
  | 0 => []
  | m + 1 => (b + m * c) :: pool_chunks b c m

/-! ## Free-list allocator (`allocator.cc` lines 335-516) -/

/-- `enum FreeListAllocationPolicy`. -/
inductive FreeListAllocationPolicy where
  | Allocation_Policy_First_Fit
  | Allocation_Policy_Best_Fit
  deriving DecidableEq, Repr

/-- `struct FreeListAllocator`; `head` is the address of the first free node, `0` when none. -/
structure FreeListAllocator where
  buffer : Nat
  buffer_size : Nat
  buffer_used : Nat
  head : Nat
  allocation_policy : FreeListAllocationPolicy
  deriving DecidableEq, Repr

/-- `sizeof(FreeListAllocationHeader)`: `size_t padding` at byte 0, `size_t block_size` at
byte 8. -/
def FREE_LIST_HEADER_SIZE : Nat := 16

/-- `sizeof(FreeListNode)`: `FreeListNode* next` at byte 0, `size_t block_size` at byte 8. -/
def FREE_LIST_NODE_SIZE : Nat := 16

/-- `void free_list_free_all(FreeListAllocator*)`. -/
def free_list_free_all (free_list : FreeListAllocator) (mem : Mem) : FreeListAllocator × Mem :=
  let node := free_list.buffer
  let mem1 := store64 mem (wadd node 8) free_list.buffer_size
  let mem2 := store64 mem1 node 0
  ({ free_list with buffer_used := 0, head := node }, mem2)

/-- `void free_list_init(FreeListAllocator*, void* buffer, size_t buffer_size,
FreeListAllocationPolicy)`; `buffer_used` and `head` of the argument are overwritten. -/
def free_list_init (mem : Mem) (buffer buffer_size : Nat)
    (allocation_policy : FreeListAllocationPolicy) : Except Fault (FreeListAllocator × Mem) :=
  if buffer_size ≥ FREE_LIST_NODE_SIZE then
    .ok (free_list_free_all
      { buffer := buffer, buffer_size := buffer_size, buffer_used := 0, head := 0,
        allocation_policy := allocation_policy } mem)
  else .error .assertion

/-- `void free_list_insert_node(FreeListAllocator*, FreeListNode* prev_node,
FreeListNode* node)`. -/
def free_list_insert_node (free_list : FreeListAllocator) (mem : Mem) (prev_node node : Nat) :
    FreeListAllocator × Mem :=
  if prev_node = 0 then ({ free_list with head := node }, store64 mem node free_list.head)
  else (free_list, store64 (store64 mem node (load64 mem prev_node)) prev_node node)

/-- `void free_list_remove_node(FreeListAllocator*, FreeListNode* prev_node,
FreeListNode* node)`. -/
def free_list_remove_node (free_list : FreeListAllocator) (mem : Mem) (prev_node node : Nat) :
    FreeListAllocator × Mem :=
  if prev_node = 0 then ({ free_list with head := load64 mem node }, mem)
  else (free_list, store64 mem prev_node (load64 mem node))

/-- `void free_list_coalescence_node(FreeListNode* prev_node, FreeListNode* node)`. -/
def free_list_coalescence_node (mem : Mem) (prev_node node : Nat) : Mem :=
  let mem2 :=
    if node ≠ 0 ∧ load64 mem node ≠ 0 ∧
        wadd node (load64 mem (wadd node 8)) = load64 mem node then
      let mem1 := store64 mem (wadd node 8)
        (wadd (load64 mem (wadd node 8)) (load64 mem (wadd (load64 mem node) 8)))
      store64 mem1 node (load64 mem1 (load64 mem1 node))
    else mem
  if prev_node ≠ 0 ∧ node ≠ 0 ∧ wadd prev_node (load64 mem2 (wadd prev_node 8)) = node then
    let mem3 := store64 mem2 (wadd prev_node 8)
      (wadd (load64 mem2 (wadd prev_node 8)) (load64 mem2 (wadd node 8)))
    store64 mem3 prev_node (load64 mem3 node)
  else mem2

/-- The first-fit loop of `free_list_alloc`, from `node` with predecessor `prev_node`:
`(prev_node, found_node, require_size, padding)` when the loop ends. -/
def free_list_first_fit (mem : Mem) (size align : Nat) :
    Nat → Nat → Nat → Except Fault (Nat × Nat × Nat × Nat)
  | 0, _, _ => .error .out_of_fuel
  | fuel + 1, prev_node, node =>
    if node = 0 then .ok (prev_node, 0, 0, 0)
    else
      match get_padding_with_header node FREE_LIST_HEADER_SIZE align with
      | .error e => .error e
      | .ok padd =>
        let req_size := wadd padd size
        if load64 mem (wadd node 8) ≥ req_size then .ok (prev_node, node, req_size, padd)
        else free_list_first_fit mem size align fuel node (load64 mem node)

/-- The best-fit loop of `free_list_alloc`, from `node` with predecessor `prev_node` and the
current `minimum_diff_size`, `found_node`, `require_size` and `padding`:
`(prev_node, found_node, require_size, padding)` when the loop ends. -/
def free_list_best_fit (mem : Mem) (size align : Nat) :
    Nat → Nat → Nat → Nat → Nat → Nat → Nat → Except Fault (Nat × Nat × Nat × Nat)
  | 0, _, _, _, _, _, _ => .error .out_of_fuel
  | fuel + 1, prev_node, node, minimum_diff_size, found_node, require_size, padding =>
    if node = 0 then .ok (prev_node, found_node, require_size, padding)
    else
      match get_padding_with_header node FREE_LIST_HEADER_SIZE align with
      | .error e => .error e
      | .ok padd =>
        let req_size := wadd padd size
        if load64 mem (wadd node 8) ≥ req_size ∧
            wsub (load64 mem (wadd node 8)) req_size < minimum_diff_size then
          free_list_best_fit mem size align fuel node (load64 mem node)
            (wsub (load64 mem (wadd node 8)) req_size) node req_size padd
        else
          free_list_best_fit mem size align fuel node (load64 mem node)
            minimum_diff_size found_node require_size padding

/-- The `switch (free_list->allocation_policy)` of `free_list_alloc`: the search loop of the
policy, `(prev_node, found_node, require_size, padding)` when it ends. -/
def free_list_search (fuel : Nat) (free_list : FreeListAllocator) (mem : Mem)
    (size align : Nat) : Except Fault (Nat × Nat × Nat × Nat) :=
  match free_list.allocation_policy with
  | .Allocation_Policy_First_Fit =>
    free_list_first_fit mem size align fuel 0 free_list.head
  | .Allocation_Policy_Best_Fit =>
    free_list_best_fit mem size align fuel 0 free_list.head (WORD - 1) 0 0 0

/-- `void* free_list_alloc(FreeListAllocator*, size_t size, size_t align)`; `fuel` bounds the
number of nodes the search visits. -/
def free_list_alloc (fuel : Nat) (free_list : FreeListAllocator) (mem : Mem)
    (size align : Nat) : Except Fault (Nat × FreeListAllocator × Mem) :=
  if wsub free_list.buffer_size free_list.buffer_used < size ∨ free_list.head = 0 then
    .ok (0, free_list, mem)
  else
    let size := if size < FREE_LIST_NODE_SIZE then FREE_LIST_NODE_SIZE else size
    match free_list_search fuel free_list mem size align with
    | .error e => .error e
    | .ok (prev_node, found_node, require_size, padding) =>
      if found_node = 0 then .ok (0, free_list, mem)
      else
        let split :=
          if wsub (load64 mem (wadd found_node 8)) require_size > FREE_LIST_NODE_SIZE then
            let new_node := wadd found_node require_size
            let mem1 := store64 mem (wadd new_node 8)
              (wsub (load64 mem (wadd found_node 8)) require_size)
            let mem2 := store64 mem1 (wadd found_node 8) require_size
            free_list_insert_node free_list mem2 found_node new_node
          else (free_list, mem)
        let removed := free_list_remove_node split.1 split.2 prev_node found_node
        let free_list3 := { removed.1 with
          buffer_used := wadd removed.1.buffer_used (load64 removed.2 (wadd found_node 8)) }
        let ptr := wadd found_node padding
        let header := wsub ptr FREE_LIST_HEADER_SIZE
        let mem3 := store64 removed.2 (wadd header 8) (load64 removed.2 (wadd found_node 8))
        let mem4 := store64 mem3 header padding
        match memset mem4 ptr 0 size with
        | .error e => .error e
        | .ok mem5 => .ok (ptr, free_list3, mem5)

/-- The search loop of `free_list_free` for the insertion point of `new_node`:
`(prev_node, node)` when the loop ends. -/
def free_list_walk (mem : Mem) (new_node : Nat) : Nat → Nat → Nat → Except Fault (Nat × Nat)
  | 0, _, _ => .error .out_of_fuel
  | fuel + 1, prev_node, node =>
    if node = 0 then .ok (prev_node, node)
    else if node > new_node then .ok (prev_node, node)
    else free_list_walk mem new_node fuel node (load64 mem node)

/-- `void free_list_free(FreeListAllocator*, void* ptr)`; `fuel` bounds the number of nodes
the search visits. -/
def free_list_free (fuel : Nat) (free_list : FreeListAllocator) (mem : Mem) (ptr : Nat) :
    Except Fault (FreeListAllocator × Mem) :=
  let header := wsub ptr FREE_LIST_HEADER_SIZE
  let new_node := wsub ptr (load64 mem header)
  let block_size := load64 mem (wadd header 8)
  let mem1 := store64 mem (wadd new_node 8) block_size
  match free_list_walk mem1 new_node fuel 0 free_list.head with
  | .error e => .error e
  | .ok (prev_node, _) =>
    let inserted := free_list_insert_node free_list mem1 prev_node new_node
    let free_list2 := { inserted.1 with
      buffer_used := wsub inserted.1.buffer_used (load64 inserted.2 (wadd new_node 8)) }
    .ok (free_list2, free_list_coalescence_node inserted.2 prev_node new_node)

/-- The free list in memory: starting at `head`, following `next` visits exactly the nodes
of the list, given as `(address, block_size)`, in order, and ends at `NULL`. -/
def FreeList (mem : Mem) : Nat → List (Nat × Nat) → Prop
  | head, [] => head = 0
  | head, (a, s) :: rest =>
    head = a ∧ a ≠ 0 ∧ load64 mem (a + 8) = s ∧ FreeList mem (load64 mem a) rest

/-- Reads the free list from memory, visiting at most `fuel` nodes. -/
def free_list_nodes (mem : Mem) : Nat → Nat → Option (List (Nat × Nat))
  | 0, _ => none
  | fuel + 1, node =>
    if node = 0 then some []
    else
      match free_list_nodes mem fuel (load64 mem node) with
      | none => none
      | some rest => some ((node, load64 mem (node + 8)) :: rest)

/-- Memory holding a free list of three holes: 64 bytes at 4096, 40 bytes at 4200 and
96 bytes at 4304. -/
def three_holes_mem : Mem :=
  store64 (store64 (store64 (store64 (store64 (store64 (fun _ => 0)
    4096 4200) 4104 64) 4200 4304) 4208 40) 4304 0) 4312 96

/-- A best-fit allocator over the 1024 bytes at 4096 whose free list is the three holes of
`three_holes_mem`; the other 824 bytes are in use. -/
def three_holes : FreeListAllocator :=
  { buffer := 4096, buffer_size := 1024, buffer_used := 824, head := 4096,
    allocation_policy := .Allocation_Policy_Best_Fit }

/-! ## Buddy allocator (`allocator.cc` lines 518-687) -/

/-- `struct BuddyAllocator`; `tree` is the byte array obtained from `malloc`, given as the
byte at each index. -/
structure BuddyAllocator where
  tree : Nat → Nat
  buffer : Nat
  tree_height : Nat
  alignment : Nat

/-- `POW_OF_2(x)`, that is `1 << x` on `int`: shifting into or past the sign bit is a
fault. -/
def POW_OF_2 (x : Nat) : Except Fault Nat :=
  if x < 31 then .ok (2 ^ x) else .error .signed_overflow

/-- `BUDDY_SLOT(i)`. -/
def BUDDY_SLOT (i : Nat) : Nat := i / 4

/-- The bit `1 << ((i * BUDDY_BIT) % 8)` of node `i`. -/
def BUDDY_LOW (i : Nat) : Nat := 1 <<< ((wmul i 2) % 8)

/-- The bit `1 << ((i * BUDDY_BIT) % 8 + 1)` of node `i`. -/
def BUDDY_HIGH (i : Nat) : Nat := 1 <<< ((wmul i 2) % 8 + 1)

/-- `BUDDY_MASK(i)`. -/
def BUDDY_MASK (i : Nat) : Nat := BUDDY_LOW i ||| BUDDY_HIGH i

/-- `BUDDY_INDEX(arr, i)`. -/
def BUDDY_INDEX (arr : Nat → Nat) (i : Nat) : Nat := arr (BUDDY_SLOT i) &&& BUDDY_MASK i

/-- `BUDDY_SET_FREE(arr, i)`. -/
def BUDDY_SET_FREE (arr : Nat → Nat) (i : Nat) : Nat → Nat :=
  fun s => if s = BUDDY_SLOT i then arr s &&& (255 - BUDDY_MASK i) else arr s

/-- `BUDDY_SET_SPLIT(arr, i)`. -/
def BUDDY_SET_SPLIT (arr : Nat → Nat) (i : Nat) : Nat → Nat :=
  fun s => if s = BUDDY_SLOT i then (arr s ||| BUDDY_LOW i) % 256 else arr s

/-- `BUDDY_SET_ALLOC(arr, i)`. -/
def BUDDY_SET_ALLOC (arr : Nat → Nat) (i : Nat) : Nat → Nat :=
  fun s => if s = BUDDY_SLOT i then (arr s ||| BUDDY_HIGH i) % 256 else arr s

/-- `BUDDY_IS_FREE(arr, i)`. -/
def BUDDY_IS_FREE (arr : Nat → Nat) (i : Nat) : Bool :=
  (BUDDY_INDEX arr i &&& BUDDY_MASK i) == 0

/-- `BUDDY_IS_SPLIT(arr, i)`. -/
def BUDDY_IS_SPLIT (arr : Nat → Nat) (i : Nat) : Bool :=
  (BUDDY_INDEX arr i &&& BUDDY_LOW i) != 0

/-- `BUDDY_IS_ALLOC(arr, i)`. -/
def BUDDY_IS_ALLOC (arr : Nat → Nat) (i : Nat) : Bool :=
  (BUDDY_INDEX arr i &&& BUDDY_HIGH i) != 0

/-- The loop `for (size_t i = leaf_count; i > 1; i >>= 1) tree_height++` of `buddy_init`;
64 halvings exhaust any machine word. -/
def buddy_init_height : Nat → Nat → Nat → Nat
  | 0, _, tree_height => tree_height
  | fuel + 1, i, tree_height =>
    if i > 1 then buddy_init_height fuel (i / 2) (wadd tree_height 1) else tree_height

/-- `void buddy_init(BuddyAllocator*, void* buffer, size_t size, size_t align)`; `malloc`
is taken to succeed and the tree array starts all zero. -/
def buddy_init (buffer size align : Nat) : Except Fault BuddyAllocator :=
  if buffer = 0 then .error .assertion
  else if ¬ is_power_of_two size then .error .assertion
  else if ¬ is_power_of_two align then .error .assertion
  else
    match wdiv buffer align with
    | .error e => .error e
    | .ok _ =>
      if buffer % align ≠ 0 then .error .assertion
      else if size % align ≠ 0 then .error .assertion
      else if ¬ (size / align > 1) then .error .assertion
      else
        let tree_height := buddy_init_height 64 (size / align) 0
        if ¬ (tree_height > 0) then .error .assertion
        else
          .ok { tree := fun _ => 0, buffer := buffer, tree_height := tree_height,
                alignment := align }

/-- The loop `while (i > 1) { block_size >>= 1; i >>= 1; height++; }` of `buddy_alloc`:
the final `(block_size, height)`. -/
def buddy_level : Nat → Nat → Nat → Nat → Except Fault (Nat × Nat)
  | 0, _, _, _ => .error .out_of_fuel
  | fuel + 1, block_size, i, height =>
    if i > 1 then buddy_level fuel (block_size / 2) (i / 2) (wadd height 1)
    else .ok (block_size, height)

/-- Local variables of the search loop of `buddy_alloc`. -/
structure BuddySearch where
  queue : Nat → Nat
  head : Nat
  tail : Nat
  found : Bool
  buddy_index : Nat
  buddy_size : Nat
  buddy_height : Nat

/-- The breadth-first loop `while (head != tail)` of `buddy_alloc` over the circular queue
of 1024 entries. -/
def buddy_search (tree : Nat → Nat) (buffer_size require_size : Nat) :
    Nat → BuddySearch → Except Fault BuddySearch
  | 0, _ => .error .out_of_fuel
  | fuel + 1, st =>
    if st.head = st.tail then .ok st
    else
      let index := st.queue st.head
      let head := (st.head + 1) % 1024
      match buddy_level 65 buffer_size (wadd index 1) 0 with
      | .error e => .error e
      | .ok (block_size, height) =>
        if block_size < require_size then
          buddy_search tree buffer_size require_size fuel { st with head := head }
        else if BUDDY_IS_FREE tree index ∧ block_size < st.buddy_size then
          buddy_search tree buffer_size require_size fuel
            { st with head := head, found := true, buddy_index := index,
                      buddy_size := block_size, buddy_height := height }
        else if BUDDY_IS_SPLIT tree index then
          let left := wadd (wmul index 2) 1
          let right := wadd (wmul index 2) 2
          let queue1 := fun j => if j = st.tail then left else st.queue j
          let tail1 := (st.tail + 1) % 1024
          if head = tail1 then .error .assertion
          else
            let queue2 := fun j => if j = tail1 then right else queue1 j
            let tail2 := (tail1 + 1) % 1024
            if head = tail2 then .error .assertion
            else
              buddy_search tree buffer_size require_size fuel
                { st with queue := queue2, head := head, tail := tail2 }
        else buddy_search tree buffer_size require_size fuel { st with head := head }

/-- The loop `while (require_size <= (buddy_size >> 1))` of `buddy_alloc`: the final
`(tree, buddy_index, buddy_size, buddy_height)`. -/
def buddy_split_down (require_size : Nat) :
    Nat → (Nat → Nat) → Nat → Nat → Nat → Except Fault ((Nat → Nat) × Nat × Nat × Nat)
  | 0, _, _, _, _ => .error .out_of_fuel
  | fuel + 1, tree, buddy_index, buddy_size, buddy_height =>
    if require_size ≤ buddy_size / 2 then
      buddy_split_down require_size fuel (BUDDY_SET_SPLIT tree buddy_index)
        (wadd (wmul buddy_index 2) 1) (buddy_size / 2) (wadd buddy_height 1)
    else .ok (tree, buddy_index, buddy_size, buddy_height)

/-- The body of `buddy_alloc(BuddyAllocator*, size_t size)`, returning next to the pointer
the `buddy_size` it hands to `memset`, the size of the block (0 with `NULL`); `fuel` bounds
the iterations of the search loop and of the split loop. -/
def buddy_alloc_block (fuel : Nat) (allocator : BuddyAllocator) (mem : Mem) (size : Nat) :
    Except Fault (Nat × Nat × BuddyAllocator × Mem) :=
  match align_forward size allocator.alignment with
  | .error e => .error e
  | .ok require_size =>
    match POW_OF_2 allocator.tree_height with
    | .error e => .error e
    | .ok pow =>
      let buffer_size := wmul pow allocator.alignment
      let start : BuddySearch :=
        { queue := fun j => if j = 0 then 0 else 0, head := 0, tail := 1, found := false,
          buddy_index := 0, buddy_size := WORD - 1, buddy_height := 0 }
      match buddy_search allocator.tree buffer_size require_size fuel start with
      | .error e => .error e
      | .ok st =>
        if st.found then
          match buddy_split_down require_size fuel allocator.tree st.buddy_index
              st.buddy_size st.buddy_height with
          | .error e => .error e
          | .ok (tree1, buddy_index, buddy_size, buddy_height) =>
            let tree2 := BUDDY_SET_ALLOC tree1 buddy_index
            match POW_OF_2 buddy_height with
            | .error e => .error e
            | .ok pow_height =>
              let offset := wmul buddy_size (wsub (wadd buddy_index 1) pow_height)
              let ptr := wadd allocator.buffer offset
              match memset mem ptr 0 buddy_size with
              | .error e => .error e
              | .ok mem1 => .ok (ptr, buddy_size, { allocator with tree := tree2 }, mem1)
        else .ok (0, 0, allocator, mem)

/-- `void* buddy_alloc(BuddyAllocator*, size_t size)`. -/
def buddy_alloc (fuel : Nat) (allocator : BuddyAllocator) (mem : Mem) (size : Nat) :
    Except Fault (Nat × BuddyAllocator × Mem) :=
  match buddy_alloc_block fuel allocator mem size with
  | .error e => .error e
  | .ok (ptr, _, allocator1, mem1) => .ok (ptr, allocator1, mem1)

/-- The loop `while (index != 0)` of `buddy_free`: the final tree and the flag `free`. -/
def buddy_free_loop (tree : Nat → Nat) : Nat → Nat → Except Fault ((Nat → Nat) × Bool)
  | 0, _ => .error .out_of_fuel
  | fuel + 1, index =>
    if index ≠ 0 then
      if BUDDY_IS_ALLOC tree index then .ok (BUDDY_SET_FREE tree index, true)
      else if index % 2 = 0 then .ok (tree, false)
      else buddy_free_loop tree fuel ((index - 1) / 2)
    else .ok (tree, false)

/-- The loop `for (size_t i = parent_count - 1; i < POW_OF_2(height) - 1; i++)` of
`buddy_coalescence`, from `i` up to `bound`. -/
def buddy_coalescence_row (bound : Nat) : Nat → (Nat → Nat) → Nat → Except Fault (Nat → Nat)
  | 0, _, _ => .error .out_of_fuel
  | fuel + 1, tree, i =>
    if i < bound then
      if ¬ BUDDY_IS_SPLIT tree i then buddy_coalescence_row bound fuel tree (wadd i 1)
      else
        let left := wadd (wmul i 2) 1
        let right := wadd (wmul i 2) 2
        if BUDDY_IS_FREE tree left ∧ BUDDY_IS_FREE tree right then
          buddy_coalescence_row bound fuel (BUDDY_SET_FREE tree i) (wadd i 1)
        else buddy_coalescence_row bound fuel tree (wadd i 1)
    else .ok tree

/-- The loop `while (height > 0)` of `buddy_coalescence`; `row_fuel` bounds the iterations
of each inner loop. -/
def buddy_coalescence_loop (row_fuel : Nat) :
    Nat → (Nat → Nat) → Nat → Except Fault (Nat → Nat)
  | 0, _, _ => .error .out_of_fuel
  | fuel + 1, tree, height =>
    if height > 0 then
      let parent_height := height - 1
      match POW_OF_2 parent_height with
      | .error e => .error e
      | .ok parent_count =>
        match POW_OF_2 height with
        | .error e => .error e
        | .ok pow =>
          match buddy_coalescence_row (pow - 1) row_fuel tree (parent_count - 1) with
          | .error e => .error e
          | .ok tree1 => buddy_coalescence_loop row_fuel fuel tree1 (height - 1)
    else .ok tree

/-- `void buddy_coalescence(BuddyAllocator*)`. -/
def buddy_coalescence (fuel : Nat) (allocator : BuddyAllocator) : Except Fault BuddyAllocator :=
  if ¬ (allocator.tree_height > 0) then .error .assertion
  else
    match buddy_coalescence_loop fuel fuel allocator.tree allocator.tree_height with
    | .error e => .error e
    | .ok tree1 => .ok { allocator with tree := tree1 }

/-- `void buddy_free(BuddyAllocator*, void* ptr)`; `fuel` bounds the iterations of each
loop. -/
def buddy_free (fuel : Nat) (allocator : BuddyAllocator) (ptr : Nat) :
    Except Fault BuddyAllocator :=
  let offset := wsub ptr allocator.buffer
  match POW_OF_2 allocator.tree_height with
  | .error e => .error e
  | .ok pow =>
    match wdiv offset allocator.alignment with
    | .error e => .error e
    | .ok leaf =>
      let index := wadd (pow - 1) leaf
      match buddy_free_loop allocator.tree fuel index with
      | .error e => .error e
      | .ok (tree1, free) =>
        let root :=
          if ¬ free ∧ offset = 0 then
            if BUDDY_IS_ALLOC tree1 0 then (BUDDY_SET_FREE tree1 0, true) else (tree1, free)
          else (tree1, free)
        if ¬ root.2 then .error .assertion
        else buddy_coalescence fuel { allocator with tree := root.1 }

/-- `void buddy_free_all(BuddyAllocator*)`: zeroes the `tree_size` bytes of the tree. -/
def buddy_free_all (allocator : BuddyAllocator) : Except Fault BuddyAllocator :=
  match POW_OF_2 (allocator.tree_height + 1) with
  | .error e => .error e
  | .ok pow =>
    let tree_size := wadd (wmul (pow - 1) 2 / 8) 1
    .ok { allocator with tree := fun s => if s < tree_size then 0 else allocator.tree s }

/-- States of a buddy allocator reachable from `buddy_init` over a buffer inside the address
space by `buddy_alloc` with sizes of at least 1, `buddy_free` of a live allocation and
`buddy_free_all`, together with the live allocations as `(pointer, block size)`. -/
inductive BuddyReach : BuddyAllocator → List (Nat × Nat) → Prop
  | init {buffer size align : Nat} {allocator : BuddyAllocator} :
    buffer + size ≤ WORD → buddy_init buffer size align = .ok allocator →
    BuddyReach allocator []
  | alloc {allocator allocator1 : BuddyAllocator} {live : List (Nat × Nat)} {mem mem1 : Mem}
      {fuel size p block_size : Nat} :
    BuddyReach allocator live → 1 ≤ size →
    buddy_alloc_block fuel allocator mem size = .ok (p, block_size, allocator1, mem1) →
    p ≠ 0 → BuddyReach allocator1 ((p, block_size) :: live)
  | alloc_null {allocator allocator1 : BuddyAllocator} {live : List (Nat × Nat)}
      {mem mem1 : Mem} {fuel size block_size : Nat} :
    BuddyReach allocator live → 1 ≤ size →
    buddy_alloc_block fuel allocator mem size = .ok (0, block_size, allocator1, mem1) →
    BuddyReach allocator1 live
  | free {allocator allocator1 : BuddyAllocator} {live : List (Nat × Nat)}
      {fuel p block_size : Nat} :
    BuddyReach allocator live → (p, block_size) ∈ live →
    buddy_free fuel allocator p = .ok allocator1 →
    BuddyReach allocator1 (live.erase (p, block_size))
  | free_all {allocator allocator1 : BuddyAllocator} {live : List (Nat × Nat)} :
    BuddyReach allocator live → buddy_free_all allocator = .ok allocator1 →
    BuddyReach allocator1 []

/-- Node `j` is a proper descendant of node `i` in the implicit binary tree whose node `i`
has the children `2 * i + 1` and `2 * i + 2`. -/
def buddy_desc (i j : Nat) : Prop := ∃ d, 0 < d ∧ (j + 1) / 2 ^ d = i + 1

/-- The tree of a buddy allocator of height 10 after 1023 leaf allocations: every inner
node `0 .. 1022` is Split, the leaves `1023 .. 2045` are Alloc and the last leaf 2046 is
Free. -/
def buddy_full_tree : Nat → Nat :=
  fun s => if s < 255 then 85 else if s = 255 then 149 else if s < 511 then 170
    else if s = 511 then 10 else 0

/-- A segment of the free list in memory: following `next` from `head` visits exactly the
nodes of the list, given as `(address, block_size)`, in order, and arrives at `stop`. -/
def FreeSeg (mem : Mem) : Nat → Nat → List (Nat × Nat) → Prop
  | head, stop, [] => head = stop
  | head, stop, (a, s) :: rest =>
    head = a ∧ a ≠ 0 ∧ load64 mem (a + 8) = s ∧ FreeSeg mem (load64 mem a) stop rest

/-- Free blocks in increasing address order, each of at least 16 bytes, the first starting
at or above `lo` and each next one strictly above the end of the one before it (so no two
are adjacent). -/
def FreeSorted : Nat → List (Nat × Nat) → Prop
  | _, [] => True
  | lo, (a, s) :: rest => lo ≤ a ∧ 16 ≤ s ∧ FreeSorted (a + s + 1) rest

/-- Memory with the `n` bytes from `ptr` set to `val`: what a `memset` that returns
leaves. -/
def mem_fill (mem : Mem) (ptr val n : Nat) : Mem :=
  fun a => if ptr ≤ a ∧ a < ptr + n then val else mem a

/-- Level of node `i`: the root 0 has level 0, the nodes `2^h - 1 .. 2^(h+1) - 2` level `h`. -/
def buddy_node_level (i : Nat) : Nat := Nat.log2 (i + 1)

/-- Size of the block of node `i`: the buffer size halved once per level. -/
def buddy_node_size (allocator : BuddyAllocator) (i : Nat) : Nat :=
  2 ^ (allocator.tree_height - buddy_node_level i) * allocator.alignment

/-- Address of the block of node `i`: the pointer `buddy_alloc` computes as
`&buffer[buddy_size * (buddy_index + 1 - POW_OF_2(buddy_height))]`. -/
def buddy_node_ptr (allocator : BuddyAllocator) (i : Nat) : Nat :=
  allocator.buffer + buddy_node_size allocator i * (i + 1 - 2 ^ buddy_node_level i)

/-- The tree invariant of the buddy allocator together with the correspondence between the
live allocations and the Alloc nodes. -/
structure BuddyInv (allocator : BuddyAllocator) (live : List (Nat × Nat)) : Prop where
  height_pos : 0 < allocator.tree_height
  align_pow : ∃ a, allocator.alignment = 2 ^ a
  buffer_pos : 1 ≤ allocator.buffer
  fits : allocator.buffer + 2 ^ allocator.tree_height * allocator.alignment ≤ WORD
  height_lt : live ≠ [] → allocator.tree_height < 31
  byte : ∀ s, allocator.tree s < 256
  excl : ∀ i, ¬ (BUDDY_IS_SPLIT allocator.tree i = true ∧ BUDDY_IS_ALLOC allocator.tree i = true)
  outside : ∀ i, 2 ^ (allocator.tree_height + 1) - 1 ≤ i →
    BUDDY_IS_FREE allocator.tree i = true
  split_child : ∀ i, BUDDY_IS_SPLIT allocator.tree i = true →
    BUDDY_IS_FREE allocator.tree (2 * i + 1) = false ∨
      BUDDY_IS_FREE allocator.tree (2 * i + 2) = false
  parent_split : ∀ i, i ≠ 0 → BUDDY_IS_FREE allocator.tree i = false →
    BUDDY_IS_SPLIT allocator.tree ((i - 1) / 2) = true
  live_nodup : live.Nodup
  live_iff : ∀ x, x ∈ live ↔
    ∃ i, BUDDY_IS_ALLOC allocator.tree i = true ∧
      x = (buddy_node_ptr allocator i, buddy_node_size allocator i)

/-- What the first test of `free_list_coalescence_node` does to the list behind a freed
block `(a, R)`: it absorbs the next free block when that starts at `a + R`. -/
def free_merge_next (a R : Nat) : List (Nat × Nat) → List (Nat × Nat)
  | [] => [(a, R)]
  | (c, u) :: rest => if a + R = c then (a, R + u) :: rest else (a, R) :: (c, u) :: rest

/-- What the second test of `free_list_coalescence_node` does to the list: the last block
`(b, t)` before the freed one absorbs it when `b + t` is its address. -/
def free_merge_prev (pre rest : List (Nat × Nat)) : List (Nat × Nat) :=
  match pre.getLast?, rest with
  | some (b, t), (a, r) :: rest1 =>
    if b + t = a then pre.dropLast ++ (b, t + r) :: rest1 else pre ++ rest
  | _, _ => pre ++ rest

/-- States of a first-fit free-list allocator reachable from `free_list_init` (over a
non-null buffer in the lower half of the address space) by `free_list_alloc` with any
alignment word, `free_list_free` of a live allocation and `free_list_free_all`, together
with the memory and the pointers of the live allocations. -/
inductive FreeListReach : FreeListAllocator → Mem → List Nat → Prop
  | init {mem mem1 : Mem} {buffer buffer_size : Nat} {free_list : FreeListAllocator} :
    1 ≤ buffer → buffer + buffer_size + 16 ≤ 2 ^ 63 →
    free_list_init mem buffer buffer_size .Allocation_Policy_First_Fit =
      .ok (free_list, mem1) →
    FreeListReach free_list mem1 []
  | alloc {free_list free_list1 : FreeListAllocator} {mem mem1 : Mem} {live : List Nat}
      {fuel size align p : Nat} :
    FreeListReach free_list mem live → align < WORD →
    free_list_alloc fuel free_list mem size align = .ok (p, free_list1, mem1) → p ≠ 0 →
    FreeListReach free_list1 mem1 (p :: live)
  | alloc_null {free_list free_list1 : FreeListAllocator} {mem mem1 : Mem} {live : List Nat}
      {fuel size align : Nat} :
    FreeListReach free_list mem live → align < WORD →
    free_list_alloc fuel free_list mem size align = .ok (0, free_list1, mem1) →
    FreeListReach free_list1 mem1 live
  | free {free_list free_list1 : FreeListAllocator} {mem mem1 : Mem} {live1 live2 : List Nat}
      {fuel p : Nat} :
    FreeListReach free_list mem (live1 ++ p :: live2) →
    free_list_free fuel free_list mem p = .ok (free_list1, mem1) →
    FreeListReach free_list1 mem1 (live1 ++ live2)
  | free_all {free_list free_list1 : FreeListAllocator} {mem mem1 : Mem} {live : List Nat} :
    FreeListReach free_list mem live → free_list_free_all free_list mem = (free_list1, mem1) →
    FreeListReach free_list1 mem1 []

/-- The invariant of a first-fit free-list allocator with free list `nodes`: the list is in
memory, sorted by address with no two blocks adjacent, inside the buffer, and accounts for
`capacity - buffer_used`; each live pointer `p` has its header `(padding, block_size)` in the
16 bytes before it, and its block `[p - padding, p - padding + block_size)` lies in the
buffer, apart from every free block and from every other live block. -/
structure FreeListInv (free_list : FreeListAllocator) (mem : Mem) (live : List Nat)
    (nodes : List (Nat × Nat)) : Prop where
  policy : free_list.allocation_policy = .Allocation_Policy_First_Fit
  buffer_pos : 1 ≤ free_list.buffer
  size_ok : 16 ≤ free_list.buffer_size
  fits : free_list.buffer + free_list.buffer_size + 16 ≤ 2 ^ 63
  list : FreeList mem free_list.head nodes
  sorted : FreeSorted free_list.buffer nodes
  inside : ∀ n ∈ nodes, n.1 + n.2 ≤ free_list.buffer + free_list.buffer_size
  used : free_list.buffer_used + (nodes.map Prod.snd).sum = free_list.buffer_size
  block : ∀ p ∈ live, 16 ≤ load64 mem (p - 16) ∧
    load64 mem (p - 16) + 16 ≤ load64 mem (p - 8) ∧
    free_list.buffer + load64 mem (p - 16) ≤ p ∧
    p - load64 mem (p - 16) + load64 mem (p - 8) ≤ free_list.buffer + free_list.buffer_size ∧
    ∀ n ∈ nodes, n.1 + n.2 ≤ p - load64 mem (p - 16) ∨
      p - load64 mem (p - 16) + load64 mem (p - 8) ≤ n.1
  apart : live.Pairwise (fun p q =>
    p - load64 mem (p - 16) + load64 mem (p - 8) ≤ q - load64 mem (q - 16) ∨
      q - load64 mem (q - 16) + load64 mem (q - 8) ≤ p - load64 mem (p - 16))

/-- The first `if` of `free_list_coalescence_node`: `node` absorbs its successor when that
starts where `node` ends. -/
def free_list_coalescence_next (mem : Mem) (node : Nat) : Mem :=
  if node ≠ 0 ∧ load64 mem node ≠ 0 ∧
      wadd node (load64 mem (wadd node 8)) = load64 mem node then
    let mem1 := store64 mem (wadd node 8)
      (wadd (load64 mem (wadd node 8)) (load64 mem (wadd (load64 mem node) 8)))
    store64 mem1 node (load64 mem1 (load64 mem1 node))
  else mem

/-- The second `if` of `free_list_coalescence_node`: `prev_node` absorbs `node` when
`node` starts where `prev_node` ends. -/
def free_list_coalescence_prev (mem2 : Mem) (prev_node node : Nat) : Mem :=
  if prev_node ≠ 0 ∧ node ≠ 0 ∧ wadd prev_node (load64 mem2 (wadd prev_node 8)) = node then
    let mem3 := store64 mem2 (wadd prev_node 8)
      (wadd (load64 mem2 (wadd prev_node 8)) (load64 mem2 (wadd node 8)))
    store64 mem3 prev_node (load64 mem3 node)
  else mem2

/-- Calls `buddy_free` on each pointer of a list, in program order. -/
def buddy_free_seq (fuel : Nat) (allocator : BuddyAllocator) :
    List Nat → Except Fault BuddyAllocator
  | [] => .ok allocator
  | ptr :: ptrs =>
    match buddy_free fuel allocator ptr with
    | .error e => .error e
    | .ok allocator1 => buddy_free_seq fuel allocator1 ptrs

/-! ## Word arithmetic lemmas -/

theorem wadd_of_lt {a b : Nat} (h : a + b < WORD) : wadd a b = a + b := by
  unfold wadd; exact Nat.mod_eq_of_lt h

theorem wsub_of_le {a b : Nat} (hb : b ≤ a) (ha : a < WORD) : wsub a b = a - b := by
  unfold wsub
  have hb2 : b % WORD = b := Nat.mod_eq_of_lt (by omega)
  rw [hb2]
  have : a + (WORD - b) = (a - b) + WORD := by omega
  rw [this, Nat.add_mod_right]
  exact Nat.mod_eq_of_lt (by omega)

theorem wmul_of_lt {a b : Nat} (h : a * b < WORD) : wmul a b = a * b := by
  unfold wmul; exact Nat.mod_eq_of_lt h

theorem two_pow_lt_word {k : Nat} (h : 2 ^ k < WORD) : k < 64 := by
  unfold WORD at h
  exact (Nat.pow_lt_pow_iff_right (by decide)).mp h

theorem mask_two_pow {k : Nat} (h : 2 ^ k < WORD) : wsub (2 ^ k) 1 = 2 ^ k - 1 :=
  wsub_of_le (Nat.one_le_two_pow) h

theorem and_mask_two_pow (x : Nat) {k : Nat} (h : 2 ^ k < WORD) :
    x &&& wsub (2 ^ k) 1 = x % 2 ^ k := by
  rw [mask_two_pow h, Nat.and_pow_two_sub_one_eq_mod]

theorem is_power_of_two_two_pow {k : Nat} (h : 2 ^ k < WORD) :
    is_power_of_two (2 ^ k) = true := by
  unfold is_power_of_two
  rw [and_mask_two_pow _ h, Nat.mod_self]
  rfl

/-- Rounding `n` up by `a - n % a` lands on the least multiple of `a` above `n`. -/
theorem round_up_spec (a n : Nat) (ha : 0 < a) (hm : n % a ≠ 0) :
    (n + (a - n % a)) % a = 0 ∧ ∀ y, n ≤ y → y % a = 0 → n + (a - n % a) ≤ y := by
  have hlt : n % a < a := Nat.mod_lt _ ha
  have hdm : a * (n / a) + n % a = n := Nat.div_add_mod n a
  have hx : n + (a - n % a) = a * (n / a + 1) := by
    rw [Nat.mul_add, Nat.mul_one]; omega
  refine ⟨by rw [hx]; exact Nat.mul_mod_right _ _, ?_⟩
  intro y hy hy0
  rw [hx]
  have hyd : a * (y / a) = y := Nat.mul_div_cancel' (Nat.dvd_of_mod_eq_zero hy0)
  have hq : n / a < y / a := by
    by_contra hc
    have hle : y / a ≤ n / a := Nat.le_of_not_lt hc
    have : a * (y / a) ≤ a * (n / a) := Nat.mul_le_mul_left a hle
    omega
  calc a * (n / a + 1) ≤ a * (y / a) := Nat.mul_le_mul_left a hq
    _ = y := hyd

/-- Value of `align_forward` on a power-of-two alignment when no addition wraps. -/
theorem align_forward_eq {address k : Nat} (hal : 2 ^ k < WORD)
    (hno : address + 2 ^ k - 1 < WORD) :
    align_forward address (2 ^ k) =
      .ok (if address % 2 ^ k ≠ 0 then address + (2 ^ k - address % 2 ^ k) else address) := by
  have hpos : 0 < 2 ^ k := Nat.two_pow_pos k
  have hlt : address % 2 ^ k < 2 ^ k := Nat.mod_lt _ hpos
  unfold align_forward
  rw [is_power_of_two_two_pow hal]
  simp only [if_true, and_mask_two_pow _ hal]
  by_cases hm : address % 2 ^ k = 0
  · simp [hm]
  · simp only [ne_eq, hm, not_false_eq_true, if_true]
    rw [wsub_of_le (Nat.le_of_lt hlt) hal, wadd_of_lt (by omega)]

/-- Claim C1: for every address and every power-of-two `align` (a machine word) such that
`address + align - 1` does not overflow, `align_forward` returns the least `x ≥ address`
with `x % align = 0`; hence `x - address < align`, and `x = address` when `address` is
already aligned. -/
theorem align_forward_least (address align k : Nat) (hk : align = 2 ^ k)
    (hal : align < WORD) (hno : address + align - 1 < WORD) :
    ∃ x, align_forward address align = .ok x ∧ address ≤ x ∧ x % align = 0 ∧
      (∀ y, address ≤ y → y % align = 0 → x ≤ y) ∧ x - address < align ∧
      (address % align = 0 → x = address) := by
  subst hk
  have hpos : 0 < 2 ^ k := Nat.two_pow_pos k
  have hlt : address % 2 ^ k < 2 ^ k := Nat.mod_lt _ hpos
  rw [align_forward_eq hal hno]
  by_cases hm : address % 2 ^ k = 0
  · refine ⟨address, by simp [hm], le_refl _, hm, fun y hy _ => hy, by omega, fun _ => rfl⟩
  · obtain ⟨h1, h2⟩ := round_up_spec (2 ^ k) address hpos hm
    refine ⟨address + (2 ^ k - address % 2 ^ k), by simp [hm], by omega, h1, h2, by omega, ?_⟩
    intro h0; exact absurd h0 hm

/-- Instance of C1 at address 13, alignment 8: the result is 16. -/
theorem align_forward_least_witness :
    ∃ x, align_forward 13 8 = .ok x ∧ 13 ≤ x ∧ x % 8 = 0 ∧
      (∀ y, 13 ≤ y → y % 8 = 0 → x ≤ y) ∧ x - 13 < 8 ∧ (13 % 8 = 0 → x = 13) :=
  align_forward_least 13 8 3 (by decide) (by decide) (by decide)

theorem gap_spec (a n : Nat) (ha : 0 < a) :
    (n + gap a n) % a = 0 ∧ gap a n < a ∧ ∀ q, (n + q) % a = 0 → gap a n ≤ q := by
  unfold gap
  have hlt : n % a < a := Nat.mod_lt _ ha
  by_cases hm : n % a = 0
  · simp [hm, ha]
  · obtain ⟨h1, h2⟩ := round_up_spec a n ha hm
    simp only [ne_eq, hm, not_false_eq_true, if_true]
    refine ⟨h1, by omega, fun q hq => ?_⟩
    have := h2 (n + q) (Nat.le_add_right _ _) hq
    omega

theorem padding_nat_spec (a n H : Nat) (ha : 0 < a) :
    (n + padding_nat a n H) % a = 0 ∧ H ≤ padding_nat a n H ∧ padding_nat a n H < H + a ∧
      gap a n ≤ padding_nat a n H ∧
      ∀ q, (n + q) % a = 0 → H ≤ q → padding_nat a n H ≤ q := by
  obtain ⟨g1, g2, g3⟩ := gap_spec a n ha
  unfold padding_nat
  by_cases hlt : gap a n < H
  · simp only [hlt, if_true]
    have hdm : a * ((H - gap a n) / a) + (H - gap a n) % a = H - gap a n := Nat.div_add_mod _ _
    have hrl : (H - gap a n) % a < a := Nat.mod_lt _ ha
    by_cases hr : (H - gap a n) % a = 0
    · simp only [hr, if_true]
      have he : gap a n + a * ((H - gap a n) / a) = H := by omega
      rw [he]
      have : (n + H) % a = 0 := by
        have : n + H = (n + gap a n) + a * ((H - gap a n) / a) := by omega
        rw [this, Nat.add_mul_mod_self_left]; exact g1
      exact ⟨this, le_refl _, by omega, by omega, fun q _ hq => hq⟩
    · simp only [hr, if_false]
      obtain ⟨r1, r2⟩ := round_up_spec a (H - gap a n) ha hr
      have hx : a * ((H - gap a n) / a + 1) = (H - gap a n) + (a - (H - gap a n) % a) := by
        rw [Nat.mul_add, Nat.mul_one]; omega
      refine ⟨?_, by omega, by omega, by omega, ?_⟩
      · rw [← Nat.add_assoc, Nat.add_mul_mod_self_left]; exact g1
      · intro q hq0 hq
        have hgq : gap a n ≤ q := g3 q hq0
        have hmul : (q - gap a n) % a = 0 := by
          have h1 : (n + gap a n + (q - gap a n)) % a = 0 := by
            have : n + gap a n + (q - gap a n) = n + q := by omega
            rw [this]; exact hq0
          have h2 : a ∣ n + gap a n := Nat.dvd_of_mod_eq_zero g1
          have h3 : a ∣ n + gap a n + (q - gap a n) := Nat.dvd_of_mod_eq_zero h1
          exact Nat.mod_eq_zero_of_dvd ((Nat.dvd_add_right h2).mp h3)
        have := r2 (q - gap a n) (by omega) hmul
        omega
  · simp only [hlt, if_false]
    exact ⟨g1, by omega, by omega, le_refl _, fun q hq _ => g3 q hq⟩

theorem gap_eq_code {address k : Nat} (hal : 2 ^ k < WORD) :
    (if address &&& wsub (2 ^ k) 1 ≠ 0 then wadd 0 (wsub (2 ^ k) (address &&& wsub (2 ^ k) 1))
      else 0) = gap (2 ^ k) address := by
  have hpos : 0 < 2 ^ k := Nat.two_pow_pos k
  have hlt : address % 2 ^ k < 2 ^ k := Nat.mod_lt _ hpos
  rw [and_mask_two_pow _ hal]
  unfold gap
  by_cases hm : address % 2 ^ k = 0
  · simp [hm]
  · simp only [ne_eq, hm, not_false_eq_true, if_true]
    rw [wsub_of_le (Nat.le_of_lt hlt) hal, wadd_of_lt (by omega)]; omega

/-- Value of `get_padding_with_header` on a power-of-two alignment when
`header_size + align` fits in a word. -/
theorem get_padding_with_header_eq {address header_size k : Nat} (hal : 2 ^ k < WORD)
    (hno : header_size + 2 ^ k ≤ WORD) :
    get_padding_with_header address header_size (2 ^ k) =
      .ok (padding_nat (2 ^ k) address header_size) := by
  have hpos : 0 < 2 ^ k := Nat.two_pow_pos k
  obtain ⟨g1, g2, g3⟩ := gap_spec (2 ^ k) address hpos
  unfold get_padding_with_header
  rw [is_power_of_two_two_pow hal]
  simp only [if_true, gap_eq_code hal]
  unfold padding_nat
  by_cases hlt : gap (2 ^ k) address < header_size
  · simp only [hlt, if_true]
    have hrem : wsub header_size (gap (2 ^ k) address) = header_size - gap (2 ^ k) address :=
      wsub_of_le (Nat.le_of_lt hlt) (by omega)
    rw [hrem, and_mask_two_pow _ hal]
    have hdm := Nat.div_add_mod (header_size - gap (2 ^ k) address) (2 ^ k)
    have hrl : (header_size - gap (2 ^ k) address) % 2 ^ k < 2 ^ k := Nat.mod_lt _ hpos
    have hdiv : wdiv (header_size - gap (2 ^ k) address) (2 ^ k) =
        .ok ((header_size - gap (2 ^ k) address) / 2 ^ k) := by
      unfold wdiv; simp [Nat.ne_of_gt hpos]
    rw [hdiv]
    by_cases hr : (header_size - gap (2 ^ k) address) % 2 ^ k = 0
    · simp only [hr, if_true]
      rw [wmul_of_lt (by omega), wadd_of_lt (by omega)]
    · simp only [hr, if_false]
      have hx : 2 ^ k * ((header_size - gap (2 ^ k) address) / 2 ^ k + 1) =
          2 ^ k * ((header_size - gap (2 ^ k) address) / 2 ^ k) + 2 ^ k := by
        rw [Nat.mul_add, Nat.mul_one]
      have hq : (header_size - gap (2 ^ k) address) / 2 ^ k + 1 < WORD := by
        have : (header_size - gap (2 ^ k) address) / 2 ^ k ≤ header_size - gap (2 ^ k) address :=
          Nat.div_le_self _ _
        omega
      rw [wadd_of_lt hq, wmul_of_lt (by omega), wadd_of_lt (by omega)]
  · simp only [hlt, if_false]

/-- Claim C2: for every address, header size `H` and power-of-two `align` with `H + align`
not overflowing the word, `get_padding_with_header` returns the least `p` with
`(address + p) % align = 0` and `p ≥ H`. -/
theorem get_padding_with_header_least (address header_size align k : Nat) (hk : align = 2 ^ k)
    (hal : align < WORD) (hno : header_size + align ≤ WORD) :
    ∃ p, get_padding_with_header address header_size align = .ok p ∧
      (address + p) % align = 0 ∧ header_size ≤ p ∧
      ∀ q, (address + q) % align = 0 → header_size ≤ q → p ≤ q := by
  subst hk
  obtain ⟨h1, h2, _, _, h5⟩ := padding_nat_spec (2 ^ k) address header_size (Nat.two_pow_pos k)
  exact ⟨_, get_padding_with_header_eq hal hno, h1, h2, h5⟩

/-- Instance of C2 at address 13, header 16, alignment 8: the padding is 19. -/
theorem get_padding_with_header_least_witness :
    ∃ p, get_padding_with_header 13 16 8 = .ok p ∧ (13 + p) % 8 = 0 ∧ 16 ≤ p ∧
      ∀ q, (13 + q) % 8 = 0 → 16 ≤ q → p ≤ q :=
  get_padding_with_header_least 13 16 8 3 (by decide) (by decide) (by decide)

/-! ## Arena allocator -/

theorem memset_ok_spec {mem mem1 : Mem} {ptr val n : Nat} (h : memset mem ptr val n = .ok mem1) :
    ∀ a, mem1 a = if ptr ≤ a ∧ a < ptr + n then val else mem a := by
  intro a
  unfold memset at h
  by_cases hn : n = 0
  · simp only [hn, if_true, Except.ok.injEq] at h
    subst h; subst hn
    have : ¬ (ptr ≤ a ∧ a < ptr + 0) := by omega
    rw [if_neg this]
  · simp only [hn, if_false] at h
    split at h
    · exact absurd h (by simp)
    · simp only [Except.ok.injEq] at h
      subst h; rfl

theorem memset_ok_of_fit (mem : Mem) {ptr n : Nat} (val : Nat) (hp : ptr ≠ 0)
    (hf : ptr + n ≤ WORD) : ∃ mem1, memset mem ptr val n = .ok mem1 := by
  unfold memset
  by_cases hn : n = 0
  · exact ⟨mem, by simp [hn]⟩
  · have : ¬ (ptr = 0 ∨ WORD < ptr + n) := by omega
    rw [if_neg hn, if_neg this]
    exact ⟨_, rfl⟩

/-- Value of `align_forward` on a power-of-two alignment, wrap-around included. -/
theorem align_forward_val {address k : Nat} (hal : 2 ^ k < WORD) (ha : address < WORD) :
    align_forward address (2 ^ k) = .ok ((address + gap (2 ^ k) address) % WORD) := by
  have hpos : 0 < 2 ^ k := Nat.two_pow_pos k
  have hlt : address % 2 ^ k < 2 ^ k := Nat.mod_lt _ hpos
  unfold align_forward
  rw [is_power_of_two_two_pow hal]
  simp only [if_true, and_mask_two_pow _ hal]
  unfold gap
  by_cases hm : address % 2 ^ k = 0
  · simp [hm, Nat.mod_eq_of_lt ha]
  · simp only [ne_eq, hm, not_false_eq_true, if_true]
    rw [wsub_of_le (Nat.le_of_lt hlt) hal]; rfl

/-- An aligned address that overflows the word lands exactly on `WORD`. -/
theorem gap_wrap {address k : Nat} (hal : 2 ^ k < WORD) (ha : address < WORD)
    (hw : WORD ≤ address + gap (2 ^ k) address) : address + gap (2 ^ k) address = WORD := by
  have hpos : 0 < 2 ^ k := Nat.two_pow_pos k
  obtain ⟨g1, g2, _⟩ := gap_spec (2 ^ k) address hpos
  have hk : k < 64 := two_pow_lt_word hal
  have hdW : 2 ^ k ∣ WORD := by
    unfold WORD; exact Nat.pow_dvd_pow 2 (Nat.le_of_lt hk)
  have hdA : 2 ^ k ∣ address + gap (2 ^ k) address := Nat.dvd_of_mod_eq_zero g1
  have hd : 2 ^ k ∣ address + gap (2 ^ k) address - WORD := Nat.dvd_sub' hdA hdW
  have hz : address + gap (2 ^ k) address - WORD = 0 :=
    Nat.eq_zero_of_dvd_of_lt hd (by omega)
  omega

/-- Every way `arena_alloc` can return on a well-formed arena: `NULL` with nothing changed, or
a genuine fit at the aligned offset. -/
theorem arena_alloc_cases {arena arena1 : ArenaAllocator} {mem mem1 : Mem} {size k p : Nat}
    (hb : 1 ≤ arena.buffer) (hfit : arena.buffer + arena.buffer_size < WORD)
    (hoff : arena.offset ≤ arena.buffer_size) (hsz : size < WORD) (hal : 2 ^ k < WORD)
    (h : arena_alloc arena mem size (2 ^ k) = .ok (p, arena1, mem1)) :
    (p = 0 ∧ arena1 = arena ∧ mem1 = mem) ∨
    (arena.offset + gap (2 ^ k) (arena.buffer + arena.offset) + size ≤ arena.buffer_size ∧
      p = arena.buffer + arena.offset + gap (2 ^ k) (arena.buffer + arena.offset) ∧
      arena1 = { arena with
        offset := arena.offset + gap (2 ^ k) (arena.buffer + arena.offset) + size } ∧
      memset mem p 0 size = .ok mem1) := by
  have hA : wadd arena.buffer arena.offset = arena.buffer + arena.offset :=
    wadd_of_lt (by omega)
  have hpos : 0 < 2 ^ k := Nat.two_pow_pos k
  obtain ⟨g1, g2, _⟩ := gap_spec (2 ^ k) (arena.buffer + arena.offset) hpos
  unfold arena_alloc at h
  rw [is_power_of_two_two_pow hal, hA, align_forward_val hal (by omega)] at h
  simp only [if_true] at h
  generalize hg : gap (2 ^ k) (arena.buffer + arena.offset) = g at *
  by_cases hw : arena.buffer + arena.offset + g < WORD
  · have hn : (arena.buffer + arena.offset + g) % WORD = arena.buffer + arena.offset + g :=
      Nat.mod_eq_of_lt hw
    have ha : wsub (arena.buffer + arena.offset + g) arena.buffer = arena.offset + g := by
      rw [wsub_of_le (by omega) hw]; omega
    rw [hn, ha] at h
    by_cases hc : wadd (arena.offset + g) size ≤ arena.buffer_size
    · simp only [hc, if_true] at h
      have hp : wadd arena.buffer (arena.offset + g) = arena.buffer + arena.offset + g := by
        rw [wadd_of_lt (by omega)]; omega
      rw [hp] at h
      by_cases hfs : arena.offset + g + size < WORD
      · have hs : wadd (arena.offset + g) size = arena.offset + g + size := wadd_of_lt hfs
        rw [hs] at h hc
        right
        cases hm : memset mem (arena.buffer + arena.offset + g) 0 size with
        | error e => rw [hm] at h; exact absurd h (by simp)
        | ok m2 =>
          rw [hm] at h
          simp only [Except.ok.injEq, Prod.mk.injEq] at h
          obtain ⟨h1, h2, h3⟩ := h
          subst h1 h2 h3
          exact ⟨hc, rfl, rfl, hm⟩
      · exfalso
        have hm : memset mem (arena.buffer + arena.offset + g) 0 size = .error .segfault := by
          unfold memset
          have h0 : size ≠ 0 := by omega
          have h1 : arena.buffer + arena.offset + g = 0 ∨
              WORD < arena.buffer + arena.offset + g + size := by omega
          simp only [h0, h1, if_false, if_true]
        rw [hm] at h
        exact absurd h (by simp)
    · simp only [hc, if_false, Except.ok.injEq, Prod.mk.injEq] at h
      obtain ⟨h1, h2, h3⟩ := h
      exact Or.inl ⟨h1.symm, h2.symm, h3.symm⟩
  · have hW : arena.buffer + arena.offset + g = WORD := by
      rw [← hg]; exact gap_wrap hal (by omega) (by rw [hg]; omega)
    have hn : (arena.buffer + arena.offset + g) % WORD = 0 := by rw [hW]; exact Nat.mod_self _
    have ha : wsub 0 arena.buffer = WORD - arena.buffer := by
      unfold wsub WORD at *; omega
    rw [hn, ha] at h
    by_cases hc : wadd (WORD - arena.buffer) size ≤ arena.buffer_size
    · exfalso
      simp only [hc, if_true] at h
      have hp : wadd arena.buffer (WORD - arena.buffer) = 0 := by
        unfold wadd WORD at *; omega
      rw [hp] at h
      have h0 : size ≠ 0 := by
        intro h0; subst h0; unfold wadd WORD at *; omega
      have hm : memset mem 0 0 size = .error .segfault := by
        unfold memset; simp [h0]
      rw [hm] at h
      exact absurd h (by simp)
    · simp only [hc, if_false, Except.ok.injEq, Prod.mk.injEq] at h
      obtain ⟨h1, h2, h3⟩ := h
      exact Or.inl ⟨h1.symm, h2.symm, h3.symm⟩


/-- On a fit, `arena_alloc` returns the aligned address and bumps the offset past the block. -/
theorem arena_alloc_fit {arena : ArenaAllocator} (mem : Mem) {size align next : Nat}
    (hb : 1 ≤ arena.buffer) (hfit : arena.buffer + arena.buffer_size < WORD)
    (hn : align_forward (wadd arena.buffer arena.offset) align = .ok next)
    (hs : wsub next arena.buffer + size ≤ arena.buffer_size) :
    ∃ mem1, arena_alloc arena mem size align =
        .ok (arena.buffer + wsub next arena.buffer,
          { arena with offset := wsub next arena.buffer + size }, mem1) ∧
      ∀ a, mem1 a = if arena.buffer + wsub next arena.buffer ≤ a ∧
        a < arena.buffer + wsub next arena.buffer + size then 0 else mem a := by
  have hp2 : is_power_of_two align = true := by
    unfold align_forward at hn
    by_cases hp : is_power_of_two align = true
    · exact hp
    · simp only [hp] at hn; exact absurd hn (by simp)
  obtain ⟨mem1, hm⟩ := @memset_ok_of_fit mem (arena.buffer + wsub next arena.buffer)
    size 0 (by omega) (by omega)
  refine ⟨mem1, ?_, memset_ok_spec hm⟩
  unfold arena_alloc
  rw [hp2, hn]
  simp only [if_true]
  rw [wadd_of_lt (by omega : wsub next arena.buffer + size < WORD),
    wadd_of_lt (by omega : arena.buffer + wsub next arena.buffer < WORD)]
  simp only [hs, if_true, hm]

/-- Successful allocations in sequence follow `arena_plan`. -/
theorem arena_alloc_seq_plan (reqs : List (Nat × Nat)) :
    ∀ (arena arena1 : ArenaAllocator) (mem mem1 : Mem) (ptrs : List Nat),
      1 ≤ arena.buffer → arena.buffer + arena.buffer_size < WORD →
      arena.offset ≤ arena.buffer_size →
      (∀ r ∈ reqs, r.1 < WORD ∧ ∃ k, r.2 = 2 ^ k ∧ r.2 < WORD) →
      arena_alloc_seq arena mem reqs = .ok (ptrs, arena1, mem1) → (∀ p ∈ ptrs, p ≠ 0) →
      ptrs = (arena_plan arena.buffer arena.offset reqs).map Prod.snd ∧
      arena1.offset = arena.offset +
        ((arena_plan arena.buffer arena.offset reqs).map Prod.fst).sum +
        (reqs.map Prod.fst).sum := by
  induction reqs with
  | nil =>
    intro arena arena1 mem mem1 ptrs _ _ _ _ h _
    simp only [arena_alloc_seq, Except.ok.injEq, Prod.mk.injEq] at h
    obtain ⟨h1, h2, _⟩ := h
    subst h1 h2
    simp [arena_plan]
  | cons r reqs ih =>
    intro arena arena1 mem mem1 ptrs hb hfit hoff hr h hnn
    obtain ⟨size, align⟩ := r
    obtain ⟨hsz, k, hk, hal⟩ := hr (size, align) (List.mem_cons_self _ _)
    simp only at hsz hk hal
    subst hk
    simp only [arena_alloc_seq] at h
    cases h1 : arena_alloc arena mem size (2 ^ k) with
    | error e => rw [h1] at h; exact absurd h (by simp)
    | ok res =>
      obtain ⟨p, ar, m⟩ := res
      rw [h1] at h
      simp only at h
      cases h2 : arena_alloc_seq ar m reqs with
      | error e => rw [h2] at h; exact absurd h (by simp)
      | ok res2 =>
        obtain ⟨ps, ar2, m2⟩ := res2
        rw [h2] at h
        simp only [Except.ok.injEq, Prod.mk.injEq] at h
        obtain ⟨e1, e2, e3⟩ := h
        subst e1 e2 e3
        have hp0 : p ≠ 0 := hnn p (List.mem_cons_self _ _)
        rcases arena_alloc_cases hb hfit hoff hsz hal h1 with ⟨hz, _, _⟩ | ⟨c1, c2, c3, _⟩
        · exact absurd hz hp0
        · subst c3
          have := ih { arena with
              offset := arena.offset + gap (2 ^ k) (arena.buffer + arena.offset) + size }
            _ _ _ _ hb hfit c1
            (fun r hr2 => hr r (List.mem_cons_of_mem _ hr2)) h2
            (fun q hq => hnn q (List.mem_cons_of_mem _ hq))
          obtain ⟨i1, i2⟩ := this
          simp only at i1 i2
          refine ⟨?_, ?_⟩
          · simp only [arena_plan, List.map_cons, ← i1, c2]
          · simp only [arena_plan, List.map_cons, List.sum_cons, i2]
            omega

/-- Claim C3: on an arena whose buffer is non-null and ends inside the address space, with
`a = align_forward(base + offset, align) - base`: (1) if `a + size ≤ capacity` then
`arena_alloc` returns `base + a`, sets `offset` to `a + size` and zeroes the block;
(2) after any run of successful allocations the offset has grown by the sum of
`padding_i + s_i`, each `padding_i` being the alignment gap of the plan and each pointer the
planned one; (3) the second of two consecutive successful allocations starts at
`align_forward(end of the first, align)`. -/
theorem arena_alloc_bump (arena : ArenaAllocator) (mem : Mem) (hb : 1 ≤ arena.buffer)
    (hfit : arena.buffer + arena.buffer_size < WORD) (hoff : arena.offset ≤ arena.buffer_size) :
    (∀ size align k, align = 2 ^ k → align < WORD →
      ∃ next, align_forward (wadd arena.buffer arena.offset) align = .ok next ∧
        (wsub next arena.buffer + size ≤ arena.buffer_size →
          ∃ mem1, arena_alloc arena mem size align =
              .ok (arena.buffer + wsub next arena.buffer,
                { arena with offset := wsub next arena.buffer + size }, mem1) ∧
            ∀ a, mem1 a = if arena.buffer + wsub next arena.buffer ≤ a ∧
              a < arena.buffer + wsub next arena.buffer + size then 0 else mem a)) ∧
    (∀ reqs ptrs arena1 mem1, (∀ r ∈ reqs, r.1 < WORD ∧ ∃ k, r.2 = 2 ^ k ∧ r.2 < WORD) →
      arena_alloc_seq arena mem reqs = .ok (ptrs, arena1, mem1) → (∀ p ∈ ptrs, p ≠ 0) →
      ptrs = (arena_plan arena.buffer arena.offset reqs).map Prod.snd ∧
      arena1.offset = arena.offset +
        ((arena_plan arena.buffer arena.offset reqs).map Prod.fst).sum +
        (reqs.map Prod.fst).sum) ∧
    (∀ s1 k1 s2 k2 p1 p2 arena1 arena2 mem1 mem2, s1 < WORD → s2 < WORD →
      2 ^ k1 < WORD → 2 ^ k2 < WORD →
      arena_alloc arena mem s1 (2 ^ k1) = .ok (p1, arena1, mem1) → p1 ≠ 0 →
      arena_alloc arena1 mem1 s2 (2 ^ k2) = .ok (p2, arena2, mem2) → p2 ≠ 0 →
      align_forward (p1 + s1) (2 ^ k2) = .ok p2) := by
  refine ⟨?_, ?_, ?_⟩
  · intro size align k hk hal
    subst hk
    have hA : wadd arena.buffer arena.offset < WORD := Nat.mod_lt _ (by unfold WORD; omega)
    exact ⟨_, align_forward_val hal hA, fun hs =>
      arena_alloc_fit mem hb hfit (align_forward_val hal hA) hs⟩
  · intro reqs ptrs arena1 mem1 hr h hnn
    exact arena_alloc_seq_plan reqs arena arena1 mem mem1 ptrs hb hfit hoff hr h hnn
  · intro s1 k1 s2 k2 p1 p2 arena1 arena2 mem1 mem2 hs1 hs2 hk1 hk2 h1 hp1 h2 hp2
    rcases arena_alloc_cases hb hfit hoff hs1 hk1 h1 with ⟨hz, _, _⟩ | ⟨c1, c2, c3, _⟩
    · exact absurd hz hp1
    · subst c3
      rcases @arena_alloc_cases ⟨arena.buffer, arena.buffer_size,
          arena.offset + gap (2 ^ k1) (arena.buffer + arena.offset) + s1⟩ arena2 mem1 mem2
          s2 k2 p2 hb hfit c1 hs2 hk2 h2 with ⟨hz, _, _⟩ | ⟨d1, d2, _, _⟩
      · exact absurd hz hp2
      · simp only at d1 d2
        have he : p1 + s1 = arena.buffer +
            (arena.offset + gap (2 ^ k1) (arena.buffer + arena.offset) + s1) := by omega
        rw [align_forward_val hk2 (by omega), he, ← d2]
        rw [Nat.mod_eq_of_lt (by omega)]

/-- Instance of C3 on a 1024-byte arena at address 4096: `alloc(5, 8)` then `alloc(8, 8)`
from offset 0 give 4096 and 4104 (three bytes of padding) and leave the offset at 16. -/
theorem arena_alloc_bump_witness :
    ∃ r, arena_alloc_seq (arena_init 4096 1024) (fun _ => 0) [(5, 8), (8, 8)] = .ok r ∧
      r.1 = [4096, 4104] ∧ r.2.1.offset = 0 + (0 + 3) + (5 + 8) :=
  ⟨_, rfl,
    ((arena_alloc_bump (arena_init 4096 1024) (fun _ => 0) (by decide) (by decide)
      (by decide)).2.1 [(5, 8), (8, 8)] _ _ _
      (by
        intro r hr
        simp only [List.mem_cons, List.mem_singleton, List.not_mem_nil, or_false] at hr
        rcases hr with rfl | rfl
        · exact ⟨by decide, 3, rfl, by decide⟩
        · exact ⟨by decide, 3, rfl, by decide⟩)
      rfl (by decide))⟩


/-- Counterexample to C4 as stated: on a full arena (`offset = capacity = 16` at address
4096) `arena_alloc(0, 8)` succeeds and returns `base + capacity`, which is not below
`base + capacity`. -/
theorem arena_alloc_zero_size_at_end :
    ∃ r, arena_alloc ⟨4096, 16, 16⟩ (fun _ => 0) 0 8 = .ok r ∧
      r.1 = 4096 + 16 ∧ r.1 ≠ 0 ∧ ¬ (r.1 < 4096 + 16) :=
  ⟨_, rfl, rfl, by decide, by decide⟩

/-- Claim C4 (amended): on an arena with a non-null buffer inside the address space and
`offset ≤ capacity`, a non-null pointer `p` returned by `arena_alloc(size, align)` satisfies
`base ≤ p`, `p + size ≤ base + capacity` (so `p < base + capacity` whenever `size ≥ 1`), and
`p % align = 0`. -/
theorem arena_alloc_pointer (arena arena1 : ArenaAllocator) (mem mem1 : Mem)
    (size align k p : Nat) (hk : align = 2 ^ k) (hal : align < WORD) (hsz : size < WORD)
    (hb : 1 ≤ arena.buffer) (hfit : arena.buffer + arena.buffer_size < WORD)
    (hoff : arena.offset ≤ arena.buffer_size)
    (h : arena_alloc arena mem size align = .ok (p, arena1, mem1)) (hp : p ≠ 0) :
    arena.buffer ≤ p ∧ p + size ≤ arena.buffer + arena.buffer_size ∧
      (1 ≤ size → p < arena.buffer + arena.buffer_size) ∧ p % align = 0 := by
  subst hk
  obtain ⟨g1, _, _⟩ := gap_spec (2 ^ k) (arena.buffer + arena.offset) (Nat.two_pow_pos k)
  rcases arena_alloc_cases hb hfit hoff hsz hal h with ⟨hz, _, _⟩ | ⟨c1, c2, _, _⟩
  · exact absurd hz hp
  · subst c2
    exact ⟨by omega, by omega, fun _ => by omega, g1⟩

/-- Instance of C4 (amended): `alloc(8, 8)` at offset 5 of a 1024-byte arena at 4096 returns
4104. -/
theorem arena_alloc_pointer_witness :
    ∃ arena1 mem1, arena_alloc ⟨4096, 1024, 5⟩ (fun _ => 0) 8 8 = .ok (4104, arena1, mem1) ∧
      (4096 ≤ 4104 ∧ 4104 + 8 ≤ 4096 + 1024 ∧ (1 ≤ 8 → 4104 < 4096 + 1024) ∧ 4104 % 8 = 0) :=
  ⟨_, _, rfl, arena_alloc_pointer ⟨4096, 1024, 5⟩ _ (fun _ => 0) _ 8 8 3 4104 rfl
    (by decide) (by decide) (by decide) (by decide) (by decide) rfl (by decide)⟩

/-- Claim C5 at its failing input: on the arena `(4096, 1024, 8)` the request
`size = 2^64 - 8`, `align = 8` has `aligned_offset + size = 2^64 > capacity`, yet the word
sum wraps to 0, the capacity check passes, and the call runs `memset` over `2^64 - 8` bytes
instead of returning `NULL`. -/
theorem arena_alloc_wrap_fault :
    arena_alloc ⟨4096, 1024, 8⟩ (fun _ => 0) (2 ^ 64 - 8) 8 = .error .segfault := rfl

/-- Claim C6 at its failing input: `old = 4104` is the tail of the arena `(4096, 1024, 16)`
with `old_size = 8`; for `new_size = 2^64 - 8` the sum `old_offset + new_size = 2^64`
exceeds the capacity, yet it wraps to 0, the check passes, and the call runs `memset` over
`2^64 - 16` bytes instead of returning `NULL`. -/
theorem arena_resize_wrap_fault :
    arena_resize ⟨4096, 1024, 16⟩ (fun _ => 0) 4104 8 (2 ^ 64 - 8) 8 = .error .segfault := rfl

/-- Tail resize when `old_offset + new_size` fits: the pointer is kept, the offset moves to
`old_offset + new_size`, the growth region is zeroed and every other byte is unchanged. -/
theorem arena_resize_tail_fit (arena : ArenaAllocator) (mem : Mem)
    (old_ptr old_size new_size align k : Nat) (hk : align = 2 ^ k) (hal : align < WORD)
    (hb : 1 ≤ arena.buffer) (hfit : arena.buffer + arena.buffer_size < WORD)
    (hin : arena.buffer ≤ old_ptr ∧ old_ptr < arena.buffer + arena.buffer_size)
    (hs : 1 ≤ old_size) (htail : old_ptr - arena.buffer + old_size = arena.offset)
    (hoff : arena.offset ≤ arena.buffer_size)
    (hnew : old_ptr - arena.buffer + new_size ≤ arena.buffer_size) :
    ∃ mem1, arena_resize arena mem old_ptr old_size new_size align =
        .ok (old_ptr, { arena with offset := old_ptr - arena.buffer + new_size }, mem1) ∧
      ∀ a, mem1 a = if old_ptr + old_size ≤ a ∧ a < old_ptr + new_size then 0 else mem a := by
  subst hk
  have h1 : ¬ (old_ptr = 0 ∨ old_size = 0) := by omega
  have h2 : wadd arena.buffer arena.buffer_size = arena.buffer + arena.buffer_size :=
    wadd_of_lt hfit
  have h3 : wsub old_ptr arena.buffer = old_ptr - arena.buffer :=
    wsub_of_le hin.1 (by omega)
  have h4 : wadd (old_ptr - arena.buffer) old_size = arena.offset := by
    rw [wadd_of_lt (by omega)]; exact htail
  have h5 : wadd (old_ptr - arena.buffer) new_size = old_ptr - arena.buffer + new_size :=
    wadd_of_lt (by omega)
  unfold arena_resize
  rw [is_power_of_two_two_pow hal]
  simp only [if_true, h1, if_false, h2, hin, and_self, h3, h4, h5]
  have h6 : ¬ (old_ptr - arena.buffer + new_size > arena.buffer_size) := by omega
  simp only [h6, if_false]
  by_cases hg : new_size > old_size
  · simp only [hg, if_true]
    have h7 : wsub new_size old_size = new_size - old_size :=
      wsub_of_le (by omega) (by omega)
    have h8 : wsub (old_ptr - arena.buffer + new_size) (new_size - old_size) =
        old_ptr - arena.buffer + old_size := by
      rw [wsub_of_le (by omega) (by omega)]; omega
    have h9 : wadd arena.buffer (old_ptr - arena.buffer + old_size) = old_ptr + old_size := by
      rw [wadd_of_lt (by omega)]; omega
    rw [h7, h8, h9]
    obtain ⟨mem1, hm⟩ := @memset_ok_of_fit mem (old_ptr + old_size) (new_size - old_size) 0
      (by omega) (by omega)
    rw [hm]
    refine ⟨mem1, rfl, fun a => ?_⟩
    rw [memset_ok_spec hm a]
    have : old_ptr + old_size + (new_size - old_size) = old_ptr + new_size := by omega
    rw [this]
  · simp only [hg, if_false]
    refine ⟨mem, rfl, fun a => ?_⟩
    have : ¬ (old_ptr + old_size ≤ a ∧ a < old_ptr + new_size) := by omega
    rw [if_neg this]

/-- Counterexample to C7 as stated: with `old_size = 0` the foreign, non-null pointer 1 is
not rejected; `arena_resize` allocates 16 bytes at 4096 and moves the offset from 0 to 16. -/
theorem arena_resize_zero_old_size :
    ∃ r, arena_resize ⟨4096, 1024, 0⟩ (fun _ => 0) 1 0 16 8 = .ok r ∧
      ¬ (4096 ≤ 1 ∧ 1 < 4096 + 1024) ∧ r.1 = 4096 ∧ r.2.1.offset = 16 :=
  ⟨_, rfl, by decide, rfl, rfl⟩

/-- Claim C7 (amended): for every non-null `old` outside `[base, base + capacity)`, every
`old_size ≥ 1`, every `new_size` and power-of-two `align`, `arena_resize` returns `NULL` and
leaves the arena and the memory unchanged. -/
theorem arena_resize_foreign (arena : ArenaAllocator) (mem : Mem)
    (old_ptr old_size new_size align k : Nat) (hk : align = 2 ^ k) (hal : align < WORD)
    (hfit : arena.buffer + arena.buffer_size < WORD) (h0 : old_ptr ≠ 0) (hs : 1 ≤ old_size)
    (hout : ¬ (arena.buffer ≤ old_ptr ∧ old_ptr < arena.buffer + arena.buffer_size)) :
    arena_resize arena mem old_ptr old_size new_size align = .ok (0, arena, mem) := by
  subst hk
  have h1 : ¬ (old_ptr = 0 ∨ old_size = 0) := by omega
  unfold arena_resize
  rw [is_power_of_two_two_pow hal, wadd_of_lt hfit]
  simp only [if_true, h1, if_false, hout]

/-- Instance of C7 (amended): the foreign pointer 1 with `old_size = 4` is rejected. -/
theorem arena_resize_foreign_witness :
    arena_resize ⟨4096, 1024, 16⟩ (fun _ => 0) 1 4 16 8 =
      .ok (0, ⟨4096, 1024, 16⟩, fun _ => 0) :=
  arena_resize_foreign ⟨4096, 1024, 16⟩ (fun _ => 0) 1 4 16 8 3 rfl (by decide) (by decide)
    (by decide) (by decide) (by decide)

theorem arena_alloc_frame {arena arena1 : ArenaAllocator} {mem mem1 : Mem} {size align p : Nat}
    (h : arena_alloc arena mem size align = .ok (p, arena1, mem1)) :
    arena1.buffer = arena.buffer ∧ arena1.buffer_size = arena.buffer_size := by
  unfold arena_alloc at h
  split at h
  · split at h
    · exact absurd h (by simp)
    · simp only at h
      split at h
      · split at h
        · exact absurd h (by simp)
        · simp only [Except.ok.injEq, Prod.mk.injEq] at h
          obtain ⟨_, h2, _⟩ := h
          subst h2; exact ⟨rfl, rfl⟩
      · simp only [Except.ok.injEq, Prod.mk.injEq] at h
        obtain ⟨_, h2, _⟩ := h
        subst h2; exact ⟨rfl, rfl⟩
  · exact absurd h (by simp)

theorem arena_resize_frame {arena arena1 : ArenaAllocator} {mem mem1 : Mem}
    {old_ptr old_size new_size align p : Nat}
    (h : arena_resize arena mem old_ptr old_size new_size align = .ok (p, arena1, mem1)) :
    arena1.buffer = arena.buffer ∧ arena1.buffer_size = arena.buffer_size := by
  unfold arena_resize at h
  split at h
  · split at h
    · exact arena_alloc_frame h
    · split at h
      · simp only at h
        split at h
        · split at h
          · simp only [Except.ok.injEq, Prod.mk.injEq] at h
            obtain ⟨_, h2, _⟩ := h
            subst h2; exact ⟨rfl, rfl⟩
          · split at h
            · split at h
              · exact absurd h (by simp)
              · simp only [Except.ok.injEq, Prod.mk.injEq] at h
                obtain ⟨_, h2, _⟩ := h
                subst h2; exact ⟨rfl, rfl⟩
            · simp only [Except.ok.injEq, Prod.mk.injEq] at h
              obtain ⟨_, h2, _⟩ := h
              subst h2; exact ⟨rfl, rfl⟩
        · split at h
          · exact absurd h (by simp)
          · rename_i np ar m ha
            split at h
            · exact absurd h (by simp)
            · split at h
              · exact absurd h (by simp)
              · simp only [Except.ok.injEq, Prod.mk.injEq] at h
                obtain ⟨_, h2, _⟩ := h
                subst h2; exact arena_alloc_frame ha
      · simp only [Except.ok.injEq, Prod.mk.injEq] at h
        obtain ⟨_, h2, _⟩ := h
        subst h2; exact ⟨rfl, rfl⟩
  · exact absurd h (by simp)

theorem arena_run_frame (ops : List ArenaOp) :
    ∀ (arena arena1 : ArenaAllocator) (mem mem1 : Mem),
      arena_run arena mem ops = .ok (arena1, mem1) →
      arena1.buffer = arena.buffer ∧ arena1.buffer_size = arena.buffer_size := by
  induction ops with
  | nil =>
    intro arena arena1 mem mem1 h
    simp only [arena_run, Except.ok.injEq, Prod.mk.injEq] at h
    rw [← h.1]; exact ⟨rfl, rfl⟩
  | cons op ops ih =>
    intro arena arena1 mem mem1 h
    cases op with
    | alloc size align =>
      simp only [arena_run] at h
      split at h
      · exact absurd h (by simp)
      · rename_i p ar m ha
        have h1 := arena_alloc_frame ha
        have h2 := ih _ _ _ _ h
        exact ⟨h2.1.trans h1.1, h2.2.trans h1.2⟩
    | resize old_ptr old_size new_size align =>
      simp only [arena_run] at h
      split at h
      · exact absurd h (by simp)
      · rename_i p ar m ha
        have h1 := arena_resize_frame ha
        have h2 := ih _ _ _ _ h
        exact ⟨h2.1.trans h1.1, h2.2.trans h1.2⟩
    | free ptr =>
      simp only [arena_run] at h
      exact ih (arena_free arena ptr) arena1 mem mem1 h
    | free_all =>
      simp only [arena_run] at h
      exact ih (arena_free_all arena) arena1 mem mem1 h

/-- Claim C8: for every arena and every sequence of `arena_alloc`, `arena_resize`,
`arena_free` and `arena_free_all` calls that returns (pointers or `NULL`), ending the
savepoint taken before the sequence gives back the arena as it was at `temp_arena_start`:
same offset, same base, same capacity. -/
theorem temp_arena_restore (arena arena1 : ArenaAllocator) (mem mem1 : Mem)
    (ops : List ArenaOp) (h : arena_run arena mem ops = .ok (arena1, mem1)) :
    (temp_arena_end (temp_arena_start arena) arena1).offset = arena.offset ∧
      (temp_arena_end (temp_arena_start arena) arena1).buffer = arena.buffer ∧
      (temp_arena_end (temp_arena_start arena) arena1).buffer_size = arena.buffer_size := by
  obtain ⟨h1, h2⟩ := arena_run_frame ops arena arena1 mem mem1 h
  exact ⟨rfl, h1, h2⟩

/-- Instance of C8: a savepoint at offset 8 around an allocation, a tail resize, a rejected
resize, a failing allocation, a free and a `free_all`. -/
theorem temp_arena_restore_witness :
    ∃ arena1 mem1,
      arena_run ⟨4096, 1024, 8⟩ (fun _ => 0)
        [.alloc 5 8, .resize 4104 5 12 8, .resize 1 4 8 8, .alloc 2000 8, .free 4104,
          .free_all, .alloc 3 4] = .ok (arena1, mem1) ∧
      arena1.offset = 3 ∧
      (temp_arena_end (temp_arena_start ⟨4096, 1024, 8⟩) arena1).offset = 8 ∧
      (temp_arena_end (temp_arena_start ⟨4096, 1024, 8⟩) arena1).buffer = 4096 ∧
      (temp_arena_end (temp_arena_start ⟨4096, 1024, 8⟩) arena1).buffer_size = 1024 :=
  ⟨_, _, rfl, rfl, temp_arena_restore ⟨4096, 1024, 8⟩ _ (fun _ => 0) _
    [.alloc 5 8, .resize 4104 5 12 8, .resize 1 4 8 8, .alloc 2000 8, .free 4104,
      .free_all, .alloc 3 4] rfl⟩


/-! ## Stack allocator -/

theorem load64_store64 (mem : Mem) (addr val : Nat) (hv : val < WORD) :
    load64 (store64 mem addr val) addr = val := by
  unfold load64 store64
  have e0 : (addr ≤ addr ∧ addr < addr + 8) := by omega
  have e1 : (addr ≤ addr + 1 ∧ addr + 1 < addr + 8) := by omega
  have e2 : (addr ≤ addr + 2 ∧ addr + 2 < addr + 8) := by omega
  have e3 : (addr ≤ addr + 3 ∧ addr + 3 < addr + 8) := by omega
  have e4 : (addr ≤ addr + 4 ∧ addr + 4 < addr + 8) := by omega
  have e5 : (addr ≤ addr + 5 ∧ addr + 5 < addr + 8) := by omega
  have e6 : (addr ≤ addr + 6 ∧ addr + 6 < addr + 8) := by omega
  have e7 : (addr ≤ addr + 7 ∧ addr + 7 < addr + 8) := by omega
  simp only [e0, e1, e2, e3, e4, e5, e6, e7, and_self, if_true, Nat.sub_self,
    Nat.add_sub_cancel_left, pow_zero, Nat.div_one]
  unfold WORD at hv
  omega

theorem load64_congr {mem mem1 : Mem} {addr : Nat}
    (h : ∀ a, addr ≤ a → a < addr + 8 → mem1 a = mem a) : load64 mem1 addr = load64 mem addr := by
  unfold load64
  rw [h addr (by omega) (by omega), h (addr + 1) (by omega) (by omega),
    h (addr + 2) (by omega) (by omega), h (addr + 3) (by omega) (by omega),
    h (addr + 4) (by omega) (by omega), h (addr + 5) (by omega) (by omega),
    h (addr + 6) (by omega) (by omega), h (addr + 7) (by omega) (by omega)]

/-- The alignment `stack_alloc` uses after clamping a power of two to 128. -/
theorem stack_clamp (k : Nat) :
    (if 2 ^ k > 2 ^ (8 * 1 - 1) then 2 ^ (8 * 1 - 1) else 2 ^ k) = 2 ^ min k 7 := by
  by_cases h : k ≤ 7
  · have : ¬ (2 ^ k > 2 ^ (8 * 1 - 1)) := by
      have := Nat.pow_le_pow_right (by decide : 0 < 2) h
      simp only [Nat.reduceMul, Nat.reduceSub]; omega
    rw [if_neg this, Nat.min_eq_left h]
  · have h7 : 7 < k := by omega
    have : 2 ^ k > 2 ^ (8 * 1 - 1) := by
      have := Nat.pow_lt_pow_right (by decide : 1 < 2) h7
      simp only [Nat.reduceMul, Nat.reduceSub]; omega
    rw [if_pos this, Nat.min_eq_right (by omega)]

theorem two_pow_min_le (k : Nat) : 2 ^ min k 7 ≤ 128 := by
  have : 2 ^ min k 7 ≤ 2 ^ 7 := Nat.pow_le_pow_right (by decide) (Nat.min_le_right k 7)
  simpa using this

/-- Every way `stack_alloc` can return on a well-formed stack: `NULL` with nothing changed,
or a genuine fit behind a freshly written header. -/
theorem stack_alloc_cases {stack stack1 : StackAllocator} {mem mem1 : Mem} {size k p : Nat}
    (hb : 1 ≤ stack.buffer) (hfit : stack.buffer + stack.buffer_size + 144 ≤ WORD)
    (hoff : stack.offset ≤ stack.buffer_size)
    (h : stack_alloc stack mem size (2 ^ k) = .ok (p, stack1, mem1)) :
    (p = 0 ∧ stack1 = stack ∧ mem1 = mem) ∨
    (∃ padding, padding = padding_nat (2 ^ min k 7) (stack.buffer + stack.offset) 16 ∧
      16 ≤ padding ∧ padding < 144 ∧
      stack.offset + padding + size ≤ stack.buffer_size ∧
      p = stack.buffer + stack.offset + padding ∧
      stack1 = { stack with
        prev_offset := stack.offset, offset := stack.offset + padding + size } ∧
      memset (store64 (store8 mem (p - 8) padding) (p - 16) stack.prev_offset) p 0 size =
        .ok mem1) := by
  have h128 := two_pow_min_le k
  have hal : 2 ^ min k 7 < WORD := by unfold WORD; omega
  obtain ⟨_, p2, p3, _, _⟩ :=
    padding_nat_spec (2 ^ min k 7) (stack.buffer + stack.offset) 16 (Nat.two_pow_pos _)
  unfold stack_alloc at h
  simp only [stack_clamp, STACK_HEADER_SIZE] at h
  rw [wadd_of_lt (by omega : stack.buffer + stack.offset < WORD),
    get_padding_with_header_eq hal (by unfold WORD; omega)] at h
  simp only at h
  generalize padding_nat (2 ^ min k 7) (stack.buffer + stack.offset) 16 = padding at *
  rw [wadd_of_lt (by omega : stack.offset + padding < WORD)] at h
  by_cases hc : wadd (stack.offset + padding) size > stack.buffer_size
  · simp only [hc, if_true, Except.ok.injEq, Prod.mk.injEq] at h
    obtain ⟨h1, h2, h3⟩ := h
    exact Or.inl ⟨h1.symm, h2.symm, h3.symm⟩
  · simp only [hc, if_false] at h
    have hp : wadd stack.buffer (stack.offset + padding) =
        stack.buffer + stack.offset + padding := by
      rw [wadd_of_lt (by omega)]; omega
    rw [hp] at h
    have hh : wsub (stack.buffer + stack.offset + padding) 16 =
        stack.buffer + stack.offset + padding - 16 := wsub_of_le (by omega) (by omega)
    have hh8 : wadd (stack.buffer + stack.offset + padding - 16) 8 =
        stack.buffer + stack.offset + padding - 8 := by
      rw [wadd_of_lt (by omega)]; omega
    rw [hh, hh8] at h
    by_cases hfs : stack.offset + padding + size < WORD
    · rw [wadd_of_lt hfs] at hc
      have hps : wadd stack.offset (wadd padding size) = stack.offset + padding + size := by
        rw [wadd_of_lt (by omega : padding + size < WORD), wadd_of_lt (by omega)]; omega
      rw [hps] at h
      right
      refine ⟨padding, rfl, p2, by omega, by omega, ?_⟩
      split at h
      · exact absurd h (by simp)
      · rename_i m3 hm
        simp only [Except.ok.injEq, Prod.mk.injEq] at h
        obtain ⟨h1, h2, h3⟩ := h
        subst h1 h2 h3
        exact ⟨rfl, rfl, hm⟩
    · exfalso
      have h0 : size ≠ 0 := by omega
      have h1 : stack.buffer + stack.offset + padding = 0 ∨
          WORD < stack.buffer + stack.offset + padding + size := by omega
      have hm : ∀ m : Mem, memset m (stack.buffer + stack.offset + padding) 0 size =
          .error .segfault := by
        intro m; unfold memset; simp only [h0, h1, if_false, if_true]
      rw [hm] at h
      exact absurd h (by simp)

/-- Memory after the header stores and the zeroing of a successful `stack_alloc`. -/
theorem stack_alloc_mem {mem mem1 : Mem} {p padding prev size : Nat} (hp : 16 ≤ p)
    (hpad : padding < 256) (hprev : prev < WORD)
    (h : memset (store64 (store8 mem (p - 8) padding) (p - 16) prev) p 0 size = .ok mem1) :
    mem1 (p - 8) = padding ∧ load64 mem1 (p - 16) = prev ∧
      ∀ a, a < p - 16 → mem1 a = mem a := by
  have hm := memset_ok_spec h
  refine ⟨?_, ?_, ?_⟩
  · rw [hm]
    have h1 : ¬ (p ≤ p - 8 ∧ p - 8 < p + size) := by omega
    have h2 : ¬ (p - 16 ≤ p - 8 ∧ p - 8 < p - 16 + 8) := by omega
    rw [if_neg h1]
    unfold store64 store8
    rw [if_neg h2, if_pos rfl]
    exact Nat.mod_eq_of_lt hpad
  · rw [← load64_store64 (store8 mem (p - 8) padding) (p - 16) prev hprev]
    apply load64_congr
    intro a h1 h2
    rw [hm]
    have : ¬ (p ≤ a ∧ a < p + size) := by omega
    rw [if_neg this]
  · intro a ha
    rw [hm]
    have h1 : ¬ (p ≤ a ∧ a < p + size) := by omega
    have h2 : ¬ (p - 16 ≤ a ∧ a < p - 16 + 8) := by omega
    have h3 : a ≠ p - 8 := by omega
    rw [if_neg h1]
    unfold store64 store8
    rw [if_neg h2, if_neg h3]

/-- Freeing a pointer whose header reconstructs the allocator's `prev_offset` pops it. -/
theorem stack_free_pop {stack : StackAllocator} {mem : Mem} {p st : Nat}
    (hfit : stack.buffer + stack.buffer_size + 144 ≤ WORD)
    (hoff : stack.offset ≤ stack.buffer_size) (hprev : stack.prev_offset = st)
    (h1 : stack.buffer + st + 16 ≤ p) (h2 : p ≤ stack.buffer + stack.offset)
    (h3 : p < stack.buffer + stack.buffer_size) (h4 : mem (p - 8) = p - (stack.buffer + st)) :
    stack_free stack mem p =
      { stack with offset := st, prev_offset := load64 mem (p - 16) } := by
  unfold stack_free
  simp only [STACK_HEADER_SIZE]
  rw [wadd_of_lt (by omega : stack.buffer + stack.buffer_size < WORD),
    wadd_of_lt (by omega : stack.buffer + stack.offset < WORD),
    wsub_of_le (by omega : 16 ≤ p) (by omega), wadd_of_lt (by omega : p - 16 + 8 < WORD)]
  have e8 : p - 16 + 8 = p - 8 := by omega
  rw [e8, h4, wsub_of_le (by omega : stack.buffer ≤ p) (by omega),
    wsub_of_le (by omega) (by omega)]
  have c1 : ¬ (p < stack.buffer ∨ p ≥ stack.buffer + stack.buffer_size) := by omega
  have c2 : ¬ (p > stack.buffer + stack.offset) := by omega
  have c3 : ¬ (p - stack.buffer - (p - (stack.buffer + st)) ≠ stack.prev_offset) := by omega
  rw [if_neg c1, if_neg c2, if_neg c3, hprev]

/-- Freeing a pointer whose header reconstructs another start offset changes nothing. -/
theorem stack_free_reject {stack : StackAllocator} {mem : Mem} {p st : Nat}
    (hfit : stack.buffer + stack.buffer_size + 144 ≤ WORD)
    (hprev : st ≠ stack.prev_offset)
    (h1 : stack.buffer + st + 16 ≤ p) (h3 : p < stack.buffer + stack.buffer_size)
    (h4 : mem (p - 8) = p - (stack.buffer + st)) :
    stack_free stack mem p = stack := by
  unfold stack_free
  simp only [STACK_HEADER_SIZE]
  rw [wsub_of_le (by omega : 16 ≤ p) (by omega), wadd_of_lt (by omega : p - 16 + 8 < WORD)]
  have e8 : p - 16 + 8 = p - 8 := by omega
  rw [e8, h4, wsub_of_le (by omega : stack.buffer ≤ p) (by omega),
    wsub_of_le (by omega) (by omega)]
  have c3 : p - stack.buffer - (p - (stack.buffer + st)) ≠ stack.prev_offset := by omega
  rw [if_pos c3]
  split
  · rfl
  · split <;> rfl

/-- Counterexample to C9 as stated: on the 16-byte stack at 4096, `stack_alloc(0, 8)`
succeeds with the pointer 4112 = `base + capacity` and moves the offset from 0 to 16; the
following `stack_free` rejects that pointer as out of range and the offset stays at 16. -/
theorem stack_alloc_zero_then_free :
    ∃ r, stack_alloc (stack_init 4096 16) (fun _ => 0) 0 8 = .ok r ∧ r.1 = 4112 ∧
      (stack_free r.2.1 r.2.2 r.1).offset = 16 ∧ (stack_init 4096 16).offset = 0 :=
  ⟨_, rfl, rfl, rfl, rfl⟩

/-- Claim C9 (amended): on a stack with a non-null buffer ending at least 144 bytes below
the top of the address space, `offset ≤ capacity` and `prev_offset` a machine word, if
`stack_alloc(s, a)` returns a non-null `p` below `base + capacity` (always the case when
`s ≥ 1`), then `stack_free(p)` immediately afterwards restores `offset` and `prev_offset`
(the whole allocator state) to their values before the alloc. -/
theorem stack_alloc_free_roundtrip (stack stack1 : StackAllocator) (mem mem1 : Mem)
    (size align k p : Nat) (hk : align = 2 ^ k) (hb : 1 ≤ stack.buffer)
    (hfit : stack.buffer + stack.buffer_size + 144 ≤ WORD)
    (hoff : stack.offset ≤ stack.buffer_size) (hprev : stack.prev_offset < WORD)
    (h : stack_alloc stack mem size align = .ok (p, stack1, mem1)) (hp : p ≠ 0) :
    (p < stack.buffer + stack.buffer_size → stack_free stack1 mem1 p = stack) ∧
      (1 ≤ size → p < stack.buffer + stack.buffer_size) := by
  subst hk
  rcases stack_alloc_cases hb hfit hoff h with ⟨hz, _, _⟩ | ⟨padding, _, c1, c2, c3, c4, c5, c6⟩
  · exact absurd hz hp
  · refine ⟨fun hlt => ?_, fun _ => by omega⟩
    obtain ⟨m1, m2, _⟩ := stack_alloc_mem (by omega : 16 ≤ p) (by omega : padding < 256) hprev c6
    subst c5
    rw [@stack_free_pop ⟨stack.buffer, stack.buffer_size, stack.offset + padding + size,
      stack.offset⟩ mem1 p stack.offset hfit (by dsimp only; omega) rfl
      (by dsimp only; omega) (by dsimp only; omega) hlt (by dsimp only; rw [m1]; omega)]
    rw [m2]

/-- Instance of C9 (amended): `stack_alloc(5, 8)` on the empty 1024-byte stack at 4096
returns 4112, and freeing it gives back the empty stack. -/
theorem stack_alloc_free_roundtrip_witness :
    ∃ stack1 mem1, stack_alloc (stack_init 4096 1024) (fun _ => 0) 5 8 =
        .ok (4112, stack1, mem1) ∧
      (4112 < 4096 + 1024 → stack_free stack1 mem1 4112 = stack_init 4096 1024) ∧
      (1 ≤ 5 → 4112 < 4096 + 1024) :=
  ⟨_, _, rfl, stack_alloc_free_roundtrip (stack_init 4096 1024) _ (fun _ => 0) _ 5 8 3 4112 rfl
    (by decide) (by decide) (by decide) (by decide) rfl (by decide)⟩

theorem stack_chain_prev_le {buffer : Nat} {mem : Mem} {offset prev : Nat}
    {live : List (Nat × Nat)} (h : StackChain buffer mem offset prev live) : prev ≤ offset := by
  cases live with
  | nil => obtain ⟨h1, h2⟩ := h; omega
  | cons b live =>
    obtain ⟨p, st⟩ := b
    obtain ⟨h1, h2, h3, _, _⟩ := h
    omega

/-- The chain only reads header bytes, all below `buffer + offset`. -/
theorem stack_chain_frame {buffer : Nat} {mem mem1 : Mem} (live : List (Nat × Nat)) :
    ∀ offset prev, (∀ a, a < buffer + offset → mem1 a = mem a) →
      StackChain buffer mem offset prev live → StackChain buffer mem1 offset prev live := by
  induction live with
  | nil => intro offset prev _ h; exact h
  | cons b live ih =>
    intro offset prev hm h
    obtain ⟨p, st⟩ := b
    obtain ⟨h1, h2, h3, h4, h5⟩ := h
    have hl : load64 mem1 (p - 16) = load64 mem (p - 16) :=
      load64_congr (fun a _ _ => hm a (by omega))
    refine ⟨h1, h2, h3, ?_, ?_⟩
    · rw [hm (p - 8) (by omega)]; exact h4
    · rw [hl]
      exact ih st _ (fun a ha => hm a (by omega)) h5

/-- Every live block below the top of the chain has its header intact and starts at or
below `prev`. -/
theorem stack_chain_mem {buffer : Nat} {mem : Mem} (live : List (Nat × Nat)) :
    ∀ offset prev, StackChain buffer mem offset prev live → ∀ q sq, (q, sq) ∈ live →
      buffer + sq + 16 ≤ q ∧ q < buffer + offset ∧ mem (q - 8) = q - (buffer + sq) ∧
        sq ≤ prev := by
  induction live with
  | nil => intro _ _ _ q sq hq; exact absurd hq (List.not_mem_nil _)
  | cons b live ih =>
    intro offset prev h q sq hq
    obtain ⟨p, st⟩ := b
    obtain ⟨h1, h2, h3, h4, h5⟩ := h
    rcases List.mem_cons.mp hq with he | hin
    · simp only [Prod.mk.injEq] at he
      obtain ⟨e1, e2⟩ := he
      subst e1 e2
      exact ⟨h2, h3, h4, by omega⟩
    · obtain ⟨i1, i2, i3, i4⟩ := ih st _ h5 q sq hin
      have := stack_chain_prev_le h5
      exact ⟨i1, by omega, i3, by omega⟩

/-- Invariant of the reachable stack states. -/
theorem stack_reach_inv {buffer buffer_size : Nat} (hb : 1 ≤ buffer)
    (hfit : buffer + buffer_size + 144 ≤ WORD) {stack : StackAllocator} {mem : Mem}
    {live : List (Nat × Nat)} (hr : StackReach buffer buffer_size stack mem live) :
    stack.buffer = buffer ∧ stack.buffer_size = buffer_size ∧
      stack.offset ≤ buffer_size ∧
      StackChain buffer mem stack.offset stack.prev_offset live := by
  induction hr with
  | init mem => exact ⟨rfl, rfl, Nat.zero_le _, rfl, rfl⟩
  | @alloc stack stack1 mem mem1 live size k p _ hs1 hsz hal h hp ih =>
    obtain ⟨i1, i2, i3, i4⟩ := ih
    have hple := stack_chain_prev_le i4
    rcases stack_alloc_cases (by omega) (by rw [i1, i2]; exact hfit) (by omega) h with
      ⟨hz, _, _⟩ | ⟨padding, _, c1, c2, c3, c4, c5, c6⟩
    · exact absurd hz hp
    · obtain ⟨m1, m2, m3⟩ := stack_alloc_mem (by omega : 16 ≤ p) (by omega : padding < 256)
        (by omega : stack.prev_offset < WORD) c6
      subst c5
      refine ⟨i1, i2, by dsimp only; omega, rfl, by omega, by dsimp only; omega,
        by rw [m1]; omega, ?_⟩
      rw [m2]
      exact stack_chain_frame live _ _ (fun a ha => m3 a (by omega)) i4
  | @free_top stack mem live p st _ ih =>
    obtain ⟨i1, i2, i3, h1, h2, h3, h4, h5⟩ := ih
    rw [@stack_free_pop stack mem p st (by rw [i1, i2]; exact hfit) (by omega) h1
      (by omega) (by omega) (by omega) (by rw [i1]; exact h4)]
    have := stack_chain_prev_le h5
    exact ⟨i1, i2, by dsimp only; omega, h5⟩

/-- Claim C10: in every stack state built from `stack_init` by successful `stack_alloc`
calls with sizes at least 1 and frees of the top, with `live` the live blocks, top first:
freeing the top block moves `offset` (strictly down) to the start offset of that block and
`prev_offset` to the start offset of the block below it (0 when there is none); freeing a
live block that is not the top, a pointer outside the buffer, or a pointer past the current
top leaves the allocator unchanged. -/
theorem stack_free_lifo (buffer buffer_size : Nat) (stack : StackAllocator) (mem : Mem)
    (live : List (Nat × Nat)) (hb : 1 ≤ buffer) (hfit : buffer + buffer_size + 144 ≤ WORD)
    (hr : StackReach buffer buffer_size stack mem live) :
    (∀ p st rest, live = (p, st) :: rest →
      (stack_free stack mem p).offset = st ∧
      (stack_free stack mem p).prev_offset = (rest.head?.map Prod.snd).getD 0 ∧
      (stack_free stack mem p).offset < stack.offset) ∧
    (∀ q sq, (q, sq) ∈ live.tail → stack_free stack mem q = stack) ∧
    (∀ q, q < buffer ∨ buffer + buffer_size ≤ q → stack_free stack mem q = stack) ∧
    (∀ q, buffer + stack.offset < q → stack_free stack mem q = stack) := by
  obtain ⟨i1, i2, i3, i4⟩ := stack_reach_inv hb hfit hr
  have hfit1 : stack.buffer + stack.buffer_size + 144 ≤ WORD := by rw [i1, i2]; exact hfit
  refine ⟨?_, ?_, ?_, ?_⟩
  · intro p st rest hl
    subst hl
    obtain ⟨h1, h2, h3, h4, h5⟩ := i4
    rw [@stack_free_pop stack mem p st hfit1 (by omega) h1 (by omega) (by omega) (by omega)
      (by rw [i1]; exact h4)]
    refine ⟨rfl, ?_, by dsimp only; omega⟩
    cases rest with
    | nil => exact h5.2
    | cons b rest => exact h5.1
  · intro q sq hq
    cases live with
    | nil => exact absurd hq (List.not_mem_nil _)
    | cons b rest =>
      obtain ⟨p, st⟩ := b
      obtain ⟨h1, h2, h3, h4, h5⟩ := i4
      obtain ⟨j1, j2, j3, j4⟩ := stack_chain_mem rest st _ h5 q sq hq
      exact @stack_free_reject stack mem q sq hfit1 (by omega) (by omega) (by omega)
        (by rw [i1]; exact j3)
  · intro q hq
    unfold stack_free
    rw [wadd_of_lt (by omega : stack.buffer + stack.buffer_size < WORD)]
    have : q < stack.buffer ∨ q ≥ stack.buffer + stack.buffer_size := by omega
    rw [if_pos this]
  · intro q hq
    unfold stack_free
    rw [wadd_of_lt (by omega : stack.buffer + stack.offset < WORD)]
    have : q > stack.buffer + stack.offset := by omega
    simp only [this, if_true, ite_self]


/-- Instance of C10: after `stack_alloc(5, 8)` and `stack_alloc(8, 8)` on the empty
1024-byte stack at 4096 the live blocks are 4136 (start 21) over 4112 (start 0); freeing
4136 moves the offsets to (21, 0), freeing 4112 first changes nothing. -/
theorem stack_free_lifo_witness :
    ∃ stack mem, StackReach 4096 1024 stack mem [(4136, 21), (4112, 0)] ∧
      ((stack_free stack mem 4136).offset = 21 ∧
        (stack_free stack mem 4136).prev_offset = 0 ∧
        (stack_free stack mem 4136).offset < stack.offset) ∧
      stack_free stack mem 4112 = stack := by
  have hr : StackReach 4096 1024 _ _ [(4136, 21), (4112, 0)] :=
    StackReach.alloc 8 3 4136
      (StackReach.alloc 5 3 4112 (@StackReach.init 4096 1024 (fun _ => 0)) (by decide) (by decide)
        (by decide) rfl (by decide))
      (by decide) (by decide) (by decide) rfl (by decide)
  have key := stack_free_lifo 4096 1024 _ _ _ (by decide) (by decide) hr
  exact ⟨_, _, hr, key.1 4136 21 [(4112, 0)] rfl,
    key.2.1 4112 0 (List.mem_singleton.mpr rfl)⟩

/-- Claim C11 at its failing input: after `stack_alloc(16, 8)` on the empty 64-byte stack at
4096 (block at 4112, offset 32), `stack_resize` of that top block from 16 to 100 bytes has
`offset - old_size + new_size = 116 > 64`, yet it returns the old pointer, sets the offset
to 116 and zeroes bytes beyond the end of the buffer (here the byte at 4200). -/
theorem stack_resize_top_overflow :
    ∃ r1 r2, stack_alloc (stack_init 4096 64) (fun _ => 7) 16 8 = .ok r1 ∧
      stack_resize r1.2.1 r1.2.2 r1.1 16 100 8 = .ok r2 ∧
      r1.1 + 16 = 4096 + r1.2.1.offset ∧ r1.2.1.offset - 16 + 100 > 64 ∧
      r2.1 = r1.1 ∧ r2.1 ≠ 0 ∧ r2.2.1.offset = 116 ∧ r1.2.2 4200 = 7 ∧ r2.2.2 4200 = 0 :=
  ⟨_, _, rfl, rfl, rfl, by decide, rfl, by decide, rfl, rfl, rfl⟩

/-- Counterexample to C12 as stated: `stack_alloc(8, 256)` on the empty 1024-byte stack at
4096 succeeds with the pointer 4224, which is a multiple of 128 but not of 256. -/
theorem stack_alloc_align_256 :
    ∃ r, stack_alloc (stack_init 4096 1024) (fun _ => 0) 8 256 = .ok r ∧ r.1 = 4224 ∧
      r.1 ≠ 0 ∧ r.1 % 256 ≠ 0 :=
  ⟨_, rfl, rfl, by decide, by decide⟩

theorem min_two_pow_128 (k : Nat) : min (2 ^ k) 128 = 2 ^ min k 7 := by
  by_cases h : k ≤ 7
  · have := Nat.pow_le_pow_right (by decide : 0 < 2) h
    rw [Nat.min_eq_left h, Nat.min_eq_left (by omega)]
  · have := Nat.pow_le_pow_right (by decide : 0 < 2) (by omega : 7 ≤ k)
    rw [Nat.min_eq_right (by omega : 7 ≤ k), Nat.min_eq_right (by omega)]
    rfl

/-- Claim C12 (amended): on a stack with a non-null buffer ending at least 144 bytes below
the top of the address space and `offset ≤ capacity`, a pointer `p` returned by
`stack_alloc(size, align)` for a power-of-two `align` satisfies `p % min(align, 128) = 0`;
hence `p % align = 0` whenever `align ≤ 128`. -/
theorem stack_alloc_aligned (stack stack1 : StackAllocator) (mem mem1 : Mem)
    (size align k p : Nat) (hk : align = 2 ^ k) (hb : 1 ≤ stack.buffer)
    (hfit : stack.buffer + stack.buffer_size + 144 ≤ WORD)
    (hoff : stack.offset ≤ stack.buffer_size)
    (h : stack_alloc stack mem size align = .ok (p, stack1, mem1)) :
    p % min align 128 = 0 ∧ (align ≤ 128 → p % align = 0) := by
  subst hk
  have hmain : p % min (2 ^ k) 128 = 0 := by
    rw [min_two_pow_128]
    rcases stack_alloc_cases hb hfit hoff h with ⟨hz, _, _⟩ | ⟨padding, c0, _, _, _, c4, _, _⟩
    · rw [hz]; exact Nat.zero_mod _
    · obtain ⟨p1, _⟩ :=
        padding_nat_spec (2 ^ min k 7) (stack.buffer + stack.offset) 16 (Nat.two_pow_pos _)
      rw [c4, c0]; exact p1
  refine ⟨hmain, fun hle => ?_⟩
  rw [Nat.min_eq_left hle] at hmain
  exact hmain

/-- Instance of C12 (amended): `stack_alloc(8, 64)` at offset 21 of the 1024-byte stack at
4096 returns 4160, a multiple of 64. -/
theorem stack_alloc_aligned_witness :
    ∃ stack1 mem1, stack_alloc ⟨4096, 1024, 21, 0⟩ (fun _ => 0) 8 64 =
        .ok (4160, stack1, mem1) ∧
      (4160 % min 64 128 = 0 ∧ (64 ≤ 128 → 4160 % 64 = 0)) :=
  ⟨_, _, rfl, stack_alloc_aligned ⟨4096, 1024, 21, 0⟩ _ (fun _ => 0) _ 8 64 6 4160 rfl
    (by decide) (by decide) (by decide) rfl⟩



/-! ## Pool allocator -/

theorem pool_list_head {mem : Mem} {head : Nat} {nodes : List Nat}
    (h : PoolList mem head nodes) : head = nodes.headD 0 := by
  cases nodes with
  | nil => exact h
  | cons a rest => exact h.1

/-- The free list depends only on the `next` fields of its nodes. -/
theorem pool_list_frame {mem mem1 : Mem} (nodes : List Nat) :
    ∀ head, (∀ a ∈ nodes, ∀ x, a ≤ x → x < a + 8 → mem1 x = mem x) →
      PoolList mem head nodes → PoolList mem1 head nodes := by
  induction nodes with
  | nil => intro head _ h; exact h
  | cons a rest ih =>
    intro head hm h
    obtain ⟨h1, h2, h3⟩ := h
    have hl : load64 mem1 a = load64 mem a :=
      load64_congr (fun x hx1 hx2 => hm a (List.mem_cons_self _ _) x hx1 hx2)
    refine ⟨h1, h2, ?_⟩
    rw [hl]
    exact ih _ (fun b hb x hx1 hx2 => hm b (List.mem_cons_of_mem _ hb) x hx1 hx2) h3

theorem mem_pool_chunks {b c a : Nat} (m : Nat) :
    a ∈ pool_chunks b c m → ∃ j, j < m ∧ a = b + j * c := by
  induction m with
  | zero => intro h; exact absurd h (List.not_mem_nil _)
  | succ m ih =>
    intro h
    rcases List.mem_cons.mp h with he | hin
    · exact ⟨m, Nat.lt_succ_self m, he⟩
    · obtain ⟨j, hj, e⟩ := ih hin
      exact ⟨j, Nat.lt_succ_of_lt hj, e⟩

theorem pool_chunk_sep {j i : Nat} (c : Nat) (h : j < i) : j * c + c ≤ i * c := by
  have := Nat.mul_le_mul_right c (Nat.succ_le_of_lt h)
  rw [Nat.succ_mul] at this
  exact this

theorem pool_chunks_headD (b c m : Nat) :
    (pool_chunks b c (m + 1)).headD 0 = b + m * c := rfl

theorem pool_chunks_headD_le (b c m : Nat) : (pool_chunks b c m).headD 0 ≤ b + m * c := by
  cases m with
  | zero => exact Nat.zero_le _
  | succ m =>
    rw [pool_chunks_headD, Nat.succ_mul]
    omega

/-- The threading loop of `pool_free_all` extends the list of the first `i` chunks to the
list of the first `i + r` chunks. -/
theorem pool_free_all_loop_spec (r : Nat) :
    ∀ (i : Nat) (pool : PoolAllocator) (mem : Mem), 1 ≤ pool.buffer → 8 ≤ pool.chunk_size →
      pool.buffer + (i + r) * pool.chunk_size < WORD → i + r ≤ INT_MAX →
      PoolList mem pool.head (pool_chunks pool.buffer pool.chunk_size i) →
      ∃ mem1, pool_free_all_loop r i pool mem =
          .ok ({ pool with
            head := (pool_chunks pool.buffer pool.chunk_size (i + r)).headD 0 }, mem1) ∧
        PoolList mem1 ((pool_chunks pool.buffer pool.chunk_size (i + r)).headD 0)
          (pool_chunks pool.buffer pool.chunk_size (i + r)) := by
  induction r with
  | zero =>
    intro i pool mem _ _ _ _ hl
    have hh := pool_list_head hl
    refine ⟨mem, ?_, ?_⟩
    · simp only [pool_free_all_loop, Nat.add_zero, ← hh]
    · rw [Nat.add_zero, ← hh]; exact hl
  | succ r ih =>
    intro i pool mem hb hc hfit hmax hl
    have hh := pool_list_head hl
    have hic : i * pool.chunk_size ≤ (i + (r + 1)) * pool.chunk_size :=
      Nat.mul_le_mul_right _ (by omega)
    have hi1 : (i + 1) * pool.chunk_size ≤ (i + (r + 1)) * pool.chunk_size :=
      Nat.mul_le_mul_right _ (by omega)
    rw [Nat.succ_mul] at hi1
    have hptr : wadd pool.buffer (wmul i pool.chunk_size) = pool.buffer + i * pool.chunk_size := by
      rw [wmul_of_lt (by omega), wadd_of_lt (by omega)]
    have hhead : pool.head < WORD := by
      have := pool_chunks_headD_le pool.buffer pool.chunk_size i
      omega
    have hnext : PoolList (store64 mem (pool.buffer + i * pool.chunk_size) pool.head)
        (pool.buffer + i * pool.chunk_size)
        (pool_chunks pool.buffer pool.chunk_size (i + 1)) := by
      refine ⟨rfl, by omega, ?_⟩
      rw [load64_store64 _ _ _ hhead]
      refine pool_list_frame _ _ (fun a ha x hx1 hx2 => ?_) hl
      obtain ⟨j, hj, e⟩ := mem_pool_chunks i ha
      have := pool_chunk_sep pool.chunk_size hj
      unfold store64
      have : ¬ (pool.buffer + i * pool.chunk_size ≤ x ∧
          x < pool.buffer + i * pool.chunk_size + 8) := by omega
      rw [if_neg this]
    have hmx : ¬ (INT_MAX < i + 1) := by omega
    obtain ⟨mem1, e1, e2⟩ := ih (i + 1)
      { pool with head := pool.buffer + i * pool.chunk_size }
      (store64 mem (pool.buffer + i * pool.chunk_size) pool.head) hb hc
      (by dsimp only; rw [Nat.add_assoc, Nat.add_comm 1 r]; exact hfit)
      (by omega) hnext
    refine ⟨mem1, ?_, ?_⟩
    · simp only [pool_free_all_loop, hptr, hmx, if_false]
      rw [e1]
      simp only [Nat.add_assoc, Nat.add_comm 1 r]
    · have : i + (r + 1) = i + 1 + r := by omega
      rw [this]; exact e2

/-- `pool_free_all` on any pool whose chunks lie in the address space and number at most
`INT_MAX`: whatever the head and the memory were, the free list becomes the list of all
chunks, highest address first. -/
theorem pool_free_all_spec (pool : PoolAllocator) (mem : Mem) (hb : 1 ≤ pool.buffer)
    (hc : 8 ≤ pool.chunk_size) (hfit : pool.buffer + pool.buffer_size < WORD)
    (hmax : pool.buffer_size / pool.chunk_size ≤ INT_MAX) :
    ∃ mem1, pool_free_all pool mem =
        .ok ({ pool with head := (pool_chunks pool.buffer pool.chunk_size
          (pool.buffer_size / pool.chunk_size)).headD 0 }, mem1) ∧
      PoolList mem1 ((pool_chunks pool.buffer pool.chunk_size
          (pool.buffer_size / pool.chunk_size)).headD 0)
        (pool_chunks pool.buffer pool.chunk_size (pool.buffer_size / pool.chunk_size)) := by
  have hdiv : wdiv pool.buffer_size pool.chunk_size =
      .ok (pool.buffer_size / pool.chunk_size) := by
    unfold wdiv
    have : pool.chunk_size ≠ 0 := by omega
    rw [if_neg this]
  have hle := Nat.div_mul_le_self pool.buffer_size pool.chunk_size
  obtain ⟨mem1, e1, e2⟩ := pool_free_all_loop_spec (pool.buffer_size / pool.chunk_size) 0
    { pool with head := 0 } mem hb hc (by dsimp only; rw [Nat.zero_add]; omega)
    (by omega) rfl
  refine ⟨mem1, ?_, ?_⟩
  · unfold pool_free_all
    rw [hdiv]
    simp only
    rw [e1]
    simp only [Nat.zero_add]
  · simp only [Nat.zero_add] at e2
    exact e2


theorem pool_free_all_loop_overflow (r : Nat) :
    ∀ (i : Nat) (pool : PoolAllocator) (mem : Mem), INT_MAX < i + r → 1 ≤ r →
      pool_free_all_loop r i pool mem = .error .signed_overflow := by
  induction r with
  | zero => intro i pool mem _ h; exact absurd h (by decide)
  | succ r ih =>
    intro i pool mem h _
    simp only [pool_free_all_loop]
    by_cases hi : INT_MAX < i + 1
    · rw [if_pos hi]
    · rw [if_neg hi]
      exact ih (i + 1) _ _ (by omega) (by omega)

/-- Popping the head of the list of the first `m + 1` chunks. -/
theorem pool_alloc_pop {pool : PoolAllocator} {mem : Mem} {m : Nat}
    (hc : 8 ≤ pool.chunk_size) (hfit : pool.buffer + (m + 1) * pool.chunk_size < WORD)
    (hl : PoolList mem pool.head (pool_chunks pool.buffer pool.chunk_size (m + 1))) :
    ∃ mem1, pool_alloc pool mem =
        .ok (pool.buffer + m * pool.chunk_size,
          { pool with head := (pool_chunks pool.buffer pool.chunk_size m).headD 0 }, mem1) ∧
      PoolList mem1 ((pool_chunks pool.buffer pool.chunk_size m).headD 0)
        (pool_chunks pool.buffer pool.chunk_size m) := by
  obtain ⟨h1, h2, h3⟩ := hl
  have hh := pool_list_head h3
  rw [Nat.succ_mul] at hfit
  obtain ⟨mem1, hm⟩ := @memset_ok_of_fit mem (pool.buffer + m * pool.chunk_size)
    pool.chunk_size 0 h2 (by omega)
  refine ⟨mem1, ?_, ?_⟩
  · unfold pool_alloc
    rw [h1, if_neg h2, hh, hm]
  · rw [← hh]
    refine pool_list_frame _ _ (fun a ha x hx1 hx2 => ?_) h3
    obtain ⟨j, hj, e⟩ := mem_pool_chunks m ha
    have := pool_chunk_sep pool.chunk_size hj
    rw [memset_ok_spec hm x]
    have : ¬ (pool.buffer + m * pool.chunk_size ≤ x ∧
        x < pool.buffer + m * pool.chunk_size + pool.chunk_size) := by omega
    rw [if_neg this]

theorem pool_alloc_empty {pool : PoolAllocator} {mem : Mem}
    (hl : PoolList mem pool.head []) : pool_alloc pool mem = .ok (0, pool, mem) := by
  unfold pool_alloc
  have : pool.head = 0 := hl
  rw [if_pos this]

/-- The first `j` allocations from the list of the first `m` chunks return the chunks from
the highest down and leave the list of the first `m - j` chunks. -/
theorem pool_alloc_n_spec (j : Nat) :
    ∀ (m : Nat) (pool : PoolAllocator) (mem : Mem), j ≤ m → 1 ≤ pool.buffer →
      8 ≤ pool.chunk_size → pool.buffer + m * pool.chunk_size < WORD →
      PoolList mem pool.head (pool_chunks pool.buffer pool.chunk_size m) →
      ∃ mem1, pool_alloc_n j pool mem =
          .ok ((List.range j).map (fun t => pool.buffer + (m - 1 - t) * pool.chunk_size),
            { pool with head := (pool_chunks pool.buffer pool.chunk_size (m - j)).headD 0 },
            mem1) ∧
        PoolList mem1 ((pool_chunks pool.buffer pool.chunk_size (m - j)).headD 0)
          (pool_chunks pool.buffer pool.chunk_size (m - j)) := by
  induction j with
  | zero =>
    intro m pool mem _ _ _ _ hl
    have hh := pool_list_head hl
    refine ⟨mem, ?_, ?_⟩
    · simp only [pool_alloc_n, List.range_zero, List.map_nil, Nat.sub_zero, ← hh]
    · rw [Nat.sub_zero, ← hh]; exact hl
  | succ j ih =>
    intro m pool mem hj hb hc hfit hl
    obtain ⟨m1, rfl⟩ : ∃ m1, m = m1 + 1 := ⟨m - 1, by omega⟩
    obtain ⟨mem1, e1, e2⟩ := pool_alloc_pop hc hfit hl
    have hle : m1 * pool.chunk_size ≤ (m1 + 1) * pool.chunk_size :=
      Nat.mul_le_mul_right _ (by omega)
    obtain ⟨mem2, e3, e4⟩ := ih m1
      { pool with head := (pool_chunks pool.buffer pool.chunk_size m1).headD 0 } mem1
      (by omega) hb hc (by dsimp only; omega) e2
    refine ⟨mem2, ?_, ?_⟩
    · simp only [pool_alloc_n, e1, e3]
      have hs : m1 + 1 - (j + 1) = m1 - j := by omega
      rw [hs, List.range_succ_eq_map, List.map_cons, List.map_map]
      have hf : ∀ t, ((fun t => pool.buffer + (m1 + 1 - 1 - t) * pool.chunk_size) ∘ Nat.succ) t =
          pool.buffer + (m1 - 1 - t) * pool.chunk_size := by
        intro t
        have : m1 + 1 - 1 - Nat.succ t = m1 - 1 - t := by omega
        simp only [Function.comp, this]
      rw [List.map_congr_left (fun t _ => hf t)]
      simp only [Nat.add_sub_cancel, Nat.sub_zero]
    · have hs : m1 + 1 - (j + 1) = m1 - j := by omega
      rw [hs]; exact e4

/-- What `pool_init` returns: the aligned base, the capacity less the alignment gap, the
aligned chunk size, at most `INT_MAX` chunks, and the head and memory that `pool_free_all`
leaves. -/
theorem pool_init_inv {mem mem1 : Mem} {buffer buffer_size chunk_size k : Nat}
    {pool : PoolAllocator} (hal : 2 ^ k < WORD) (hb : 1 ≤ buffer)
    (hfit : buffer + buffer_size < WORD) (hgap : gap (2 ^ k) buffer ≤ buffer_size)
    (hcs : chunk_size < WORD)
    (h : pool_init mem buffer buffer_size chunk_size (2 ^ k) = .ok (pool, mem1)) :
    8 ≤ chunk_size + gap (2 ^ k) chunk_size ∧ chunk_size + gap (2 ^ k) chunk_size < WORD ∧
      (buffer_size - gap (2 ^ k) buffer) / (chunk_size + gap (2 ^ k) chunk_size) ≤ INT_MAX ∧
      pool_free_all ⟨buffer + gap (2 ^ k) buffer, buffer_size - gap (2 ^ k) buffer,
        chunk_size + gap (2 ^ k) chunk_size, 0⟩ mem = .ok (pool, mem1) := by
  unfold pool_init at h
  rw [align_forward_val hal (by omega), align_forward_val hal hcs] at h
  simp only [POOL_NODE_SIZE] at h
  have e1 : (buffer + gap (2 ^ k) buffer) % WORD = buffer + gap (2 ^ k) buffer :=
    Nat.mod_eq_of_lt (by omega)
  have e2 : wsub (buffer + gap (2 ^ k) buffer) buffer = gap (2 ^ k) buffer := by
    rw [wsub_of_le (by omega) (by omega)]; omega
  have e3 : wsub buffer_size (gap (2 ^ k) buffer) = buffer_size - gap (2 ^ k) buffer :=
    wsub_of_le hgap (by omega)
  rw [e1, e2, e3] at h
  by_cases hw : chunk_size + gap (2 ^ k) chunk_size < WORD
  · rw [Nat.mod_eq_of_lt hw] at h
    by_cases h8 : chunk_size + gap (2 ^ k) chunk_size ≥ 8
    · rw [if_pos h8] at h
      refine ⟨h8, hw, ?_, h⟩
      by_contra hn
      have hpos : (buffer_size - gap (2 ^ k) buffer) /
          (chunk_size + gap (2 ^ k) chunk_size) ≠ 0 := by
        unfold INT_MAX at hn; omega
      unfold pool_free_all wdiv at h
      have hc0 : chunk_size + gap (2 ^ k) chunk_size ≠ 0 := by omega
      simp only [hc0, if_false] at h
      rw [pool_free_all_loop_overflow _ 0 _ _ (by omega) (by omega)] at h
      exact absurd h (by simp)
    · rw [if_neg h8] at h
      exact absurd h (by simp)
  · have := gap_wrap hal hcs (by omega)
    rw [this, Nat.mod_self] at h
    simp only [ge_iff_le, Nat.not_succ_le_zero, if_false] at h
    exact absurd h (by simp)

/-- Claim C13: when `pool_init` returns on a non-null buffer inside the address space whose
size covers the alignment gap, with `b` the aligned base, `C` the adjusted capacity, `c` the
aligned chunk size and `n = C / c`: the pool holds `b`, `C`, `c`; the free list is exactly
the chunks `b + i * c`, `i < n`, highest address first; every chunk is a multiple of `align`
and lies inside `[b, b + C)`; for every `j ≤ n` the first `j` calls of `pool_alloc` return
`b + (n - 1) * c, ..., b + (n - j) * c` and leave the list of the lowest `n - j` chunks; with
the list empty `pool_alloc` returns `NULL` and changes nothing; and a 1024-byte aligned
buffer with chunk 16 and alignment 8 has `n = 64`. -/
theorem pool_init_free_list (mem mem1 : Mem) (buffer buffer_size chunk_size align k : Nat)
    (pool : PoolAllocator) (b C c n : Nat) (hk : align = 2 ^ k) (hal : align < WORD)
    (hb : 1 ≤ buffer) (hfit : buffer + buffer_size < WORD)
    (hgap : gap align buffer ≤ buffer_size) (hcs : chunk_size < WORD)
    (hbd : b = buffer + gap align buffer) (hCd : C = buffer_size - gap align buffer)
    (hcd : c = chunk_size + gap align chunk_size) (hnd : n = C / c)
    (h : pool_init mem buffer buffer_size chunk_size align = .ok (pool, mem1)) :
    pool.buffer = b ∧ pool.buffer_size = C ∧ pool.chunk_size = c ∧
      PoolList mem1 pool.head (pool_chunks b c n) ∧
      (∀ a ∈ pool_chunks b c n, a % align = 0 ∧ b ≤ a ∧ a + c ≤ b + C) ∧
      (∀ j, j ≤ n → ∃ poolj memj,
        pool_alloc_n j pool mem1 =
          .ok ((List.range j).map (fun t => b + (n - 1 - t) * c), poolj, memj) ∧
        PoolList memj poolj.head (pool_chunks b c (n - j)) ∧
        (j = n → pool_alloc poolj memj = .ok (0, poolj, memj))) ∧
      (buffer_size = 1024 → chunk_size = 16 → align = 8 → buffer % 8 = 0 → n = 64) := by
  subst hk
  obtain ⟨h8, hw, hmax, hfa⟩ := pool_init_inv hal hb hfit hgap hcs h
  rw [← hbd, ← hCd, ← hcd] at hfa
  rw [← hcd] at h8 hw
  rw [← hCd, ← hcd, ← hnd] at hmax
  have hnc : n * c ≤ C := by rw [hnd]; exact Nat.div_mul_le_self C c
  obtain ⟨m2, f1, f2⟩ := pool_free_all_spec ⟨b, C, c, 0⟩ mem (by dsimp only; omega) h8
    (by dsimp only; omega) (by dsimp only; rw [← hnd]; exact hmax)
  dsimp only at f1 f2
  rw [← hnd] at f1 f2
  rw [f1] at hfa
  simp only [Except.ok.injEq, Prod.mk.injEq] at hfa
  obtain ⟨hp, hm⟩ := hfa
  subst hp hm
  dsimp only
  obtain ⟨g1, _, _⟩ := gap_spec (2 ^ k) buffer (Nat.two_pow_pos k)
  obtain ⟨g2, _, _⟩ := gap_spec (2 ^ k) chunk_size (Nat.two_pow_pos k)
  rw [← hbd] at g1
  rw [← hcd] at g2
  refine ⟨rfl, rfl, rfl, f2, ?_, ?_, ?_⟩
  · intro a ha
    obtain ⟨j, hj, e⟩ := mem_pool_chunks n ha
    have hsep := pool_chunk_sep c hj
    refine ⟨?_, by omega, by omega⟩
    rw [e]
    have d1 : 2 ^ k ∣ b := Nat.dvd_of_mod_eq_zero g1
    have d2 : 2 ^ k ∣ j * c := Dvd.dvd.mul_left (Nat.dvd_of_mod_eq_zero g2) j
    exact Nat.mod_eq_zero_of_dvd (Nat.dvd_add d1 d2)
  · intro j hj
    obtain ⟨memj, a1, a2⟩ := pool_alloc_n_spec j n
      ⟨b, C, c, (pool_chunks b c n).headD 0⟩ m2 hj (by dsimp only; omega) h8
      (by dsimp only; omega) f2
    dsimp only at a1 a2
    refine ⟨_, memj, a1, a2, fun hjn => ?_⟩
    apply pool_alloc_empty
    dsimp only
    rw [hjn, Nat.sub_self]
    rfl
  · intro s1 s2 s3 s4
    subst s1 s2
    have hk3 : k = 3 := Nat.pow_right_injective (le_refl 2) (s3 : 2 ^ k = 2 ^ 3)
    subst hk3
    have e1 : gap (2 ^ 3) buffer = 0 := by
      unfold gap
      have : ¬ (buffer % 2 ^ 3 ≠ 0) := fun hne => hne s4
      rw [if_neg this]
    have e2 : gap (2 ^ 3) 16 = 0 := by decide
    rw [e1] at hCd
    rw [e2] at hcd
    rw [hnd, hCd, hcd]


/-- Instance of C13: a 1024-byte pool at 4096 with chunk 16 and alignment 8 has 64 chunks,
the head at the highest one; 64 allocations return them from the top down and the 65th
returns `NULL`. -/
theorem pool_init_free_list_witness :
    ∃ pool mem1, pool_init (fun _ => 0) 4096 1024 16 8 = .ok (pool, mem1) ∧
      pool.head = 4096 + 63 * 16 ∧ PoolList mem1 pool.head (pool_chunks 4096 16 64) ∧
      ∃ pool1 mem2, pool_alloc_n 64 pool mem1 =
          .ok ((List.range 64).map (fun t => 4096 + (64 - 1 - t) * 16), pool1, mem2) ∧
        pool_alloc pool1 mem2 = .ok (0, pool1, mem2) := by
  have key := pool_init_free_list (fun _ => 0) _ 4096 1024 16 8 3 _ 4096 1024 16 64 rfl
    (by decide) (by decide) (by decide) (by decide) (by decide) rfl rfl rfl rfl rfl
  obtain ⟨_, _, _, k4, _, k6, _⟩ := key
  obtain ⟨pool1, mem2, a1, _, a3⟩ := k6 64 (le_refl _)
  exact ⟨_, _, rfl, rfl, k4, pool1, mem2, a1, a3 rfl⟩

/-- Counterexample to C14 as stated: in the two-chunk pool at 4096 the free list is
`[4112, 4096]`; `pool_free(4112)`, a non-null pointer inside the buffer that is already the
head, makes node 4112 its own successor, so the free list is not 4112 followed by the
previous list. -/
theorem pool_free_twice :
    ∃ r, pool_init (fun _ => 0) 4096 32 16 8 = .ok r ∧ PoolList r.2 r.1.head [4112, 4096] ∧
      (4112 ≠ 0 ∧ r.1.buffer ≤ 4112 ∧ 4112 < r.1.buffer + r.1.buffer_size) ∧
      ¬ PoolList (pool_free r.1 r.2 4112).2 (pool_free r.1 r.2 4112).1.head
        [4112, 4112, 4096] :=
  ⟨_, rfl, ⟨rfl, by decide, rfl, by decide, rfl⟩, ⟨by decide, by decide, by decide⟩,
    fun h => absurd h.2.2.2.2.1 (by decide)⟩

/-- Claim C14 (amended): for a pool inside the address space with free list `nodes` and a
non-null `p` inside `[base, base + capacity)`: after `pool_free(p)` the head is `p`; if the
first 8 bytes at `p` are disjoint from every node of the list (so `p` is not already free)
the free list is `p` followed by `nodes`; the next `pool_alloc` returns `p` and restores the
allocator, head included, to its state before the free; `pool_free(NULL)` and `pool_free` of
a pointer outside the buffer change nothing. -/
theorem pool_free_push (pool : PoolAllocator) (mem : Mem) (p : Nat) (nodes : List Nat)
    (hfit : pool.buffer + pool.buffer_size < WORD) (hh : pool.head < WORD) (hp0 : p ≠ 0)
    (hin : pool.buffer ≤ p ∧ p < pool.buffer + pool.buffer_size)
    (hcs : p + pool.chunk_size ≤ WORD) (hl : PoolList mem pool.head nodes) :
    (pool_free pool mem p).1.head = p ∧
      ((∀ a ∈ nodes, p + 8 ≤ a ∨ a + 8 ≤ p) →
        PoolList (pool_free pool mem p).2 (pool_free pool mem p).1.head (p :: nodes)) ∧
      (∃ mem2, pool_alloc (pool_free pool mem p).1 (pool_free pool mem p).2 =
        .ok (p, pool, mem2)) ∧
      pool_free pool mem 0 = (pool, mem) ∧
      (∀ q, q < pool.buffer ∨ pool.buffer + pool.buffer_size ≤ q →
        pool_free pool mem q = (pool, mem)) := by
  have c1 : ¬ (p < pool.buffer ∨ p ≥ pool.buffer + pool.buffer_size) := by omega
  have hf : pool_free pool mem p = ({ pool with head := p }, store64 mem p pool.head) := by
    unfold pool_free
    rw [if_neg hp0, wadd_of_lt hfit, if_neg c1]
  rw [hf]
  dsimp only
  refine ⟨rfl, fun hsep => ?_, ?_, ?_, ?_⟩
  · refine ⟨rfl, hp0, ?_⟩
    rw [load64_store64 _ _ _ hh]
    refine pool_list_frame _ _ (fun a ha x hx1 hx2 => ?_) hl
    have := hsep a ha
    unfold store64
    have : ¬ (p ≤ x ∧ x < p + 8) := by omega
    rw [if_neg this]
  · obtain ⟨mem2, hm⟩ := @memset_ok_of_fit (store64 mem p pool.head) p pool.chunk_size 0 hp0 hcs
    refine ⟨mem2, ?_⟩
    unfold pool_alloc
    dsimp only
    rw [if_neg hp0, load64_store64 _ _ _ hh, hm]
  · unfold pool_free
    rw [if_pos rfl]
  · intro q hq
    unfold pool_free
    rw [wadd_of_lt hfit]
    have : q < pool.buffer ∨ q ≥ pool.buffer + pool.buffer_size := by omega
    by_cases h0 : q = 0
    · rw [if_pos h0]
    · rw [if_neg h0, if_pos this]

theorem pool_alloc_frame {pool pool1 : PoolAllocator} {mem mem1 : Mem} {p : Nat}
    (h : pool_alloc pool mem = .ok (p, pool1, mem1)) :
    pool1.buffer = pool.buffer ∧ pool1.buffer_size = pool.buffer_size ∧
      pool1.chunk_size = pool.chunk_size := by
  unfold pool_alloc at h
  split at h
  · simp only [Except.ok.injEq, Prod.mk.injEq] at h
    rw [← h.2.1]; exact ⟨rfl, rfl, rfl⟩
  · split at h
    · exact absurd h (by simp)
    · simp only [Except.ok.injEq, Prod.mk.injEq] at h
      rw [← h.2.1]; exact ⟨rfl, rfl, rfl⟩

theorem pool_free_frame (pool : PoolAllocator) (mem : Mem) (p : Nat) :
    (pool_free pool mem p).1.buffer = pool.buffer ∧
      (pool_free pool mem p).1.buffer_size = pool.buffer_size ∧
      (pool_free pool mem p).1.chunk_size = pool.chunk_size := by
  unfold pool_free
  split
  · exact ⟨rfl, rfl, rfl⟩
  · split <;> exact ⟨rfl, rfl, rfl⟩

theorem pool_run_frame (ops : List PoolOp) :
    ∀ (pool pool1 : PoolAllocator) (mem mem1 : Mem),
      pool_run pool mem ops = .ok (pool1, mem1) →
      pool1.buffer = pool.buffer ∧ pool1.buffer_size = pool.buffer_size ∧
        pool1.chunk_size = pool.chunk_size := by
  induction ops with
  | nil =>
    intro pool pool1 mem mem1 h
    simp only [pool_run, Except.ok.injEq, Prod.mk.injEq] at h
    rw [← h.1]; exact ⟨rfl, rfl, rfl⟩
  | cons op ops ih =>
    intro pool pool1 mem mem1 h
    cases op with
    | alloc =>
      simp only [pool_run] at h
      split at h
      · exact absurd h (by simp)
      · rename_i p pl m ha
        obtain ⟨a1, a2, a3⟩ := pool_alloc_frame ha
        obtain ⟨b1, b2, b3⟩ := ih _ _ _ _ h
        exact ⟨b1.trans a1, b2.trans a2, b3.trans a3⟩
    | free ptr =>
      simp only [pool_run] at h
      obtain ⟨a1, a2, a3⟩ := pool_free_frame pool mem ptr
      obtain ⟨b1, b2, b3⟩ := ih _ _ _ _ h
      exact ⟨b1.trans a1, b2.trans a2, b3.trans a3⟩


/-- Instance of C14 (amended): in a 64-byte pool at 4096 with free list `[4112, 4096]`,
freeing 4144 gives the list `[4144, 4112, 4096]`, and the next `pool_alloc` returns 4144
and restores the pool. -/
theorem pool_free_push_witness :
    (pool_free ⟨4096, 64, 16, 4112⟩ (store64 (fun _ => 0) 4112 4096) 4144).1.head = 4144 ∧
      ((∀ a ∈ [4112, 4096], 4144 + 8 ≤ a ∨ a + 8 ≤ 4144) →
        PoolList (pool_free ⟨4096, 64, 16, 4112⟩ (store64 (fun _ => 0) 4112 4096) 4144).2
          (pool_free ⟨4096, 64, 16, 4112⟩ (store64 (fun _ => 0) 4112 4096) 4144).1.head
          [4144, 4112, 4096]) ∧
      (∃ mem2,
        pool_alloc (pool_free ⟨4096, 64, 16, 4112⟩ (store64 (fun _ => 0) 4112 4096) 4144).1
          (pool_free ⟨4096, 64, 16, 4112⟩ (store64 (fun _ => 0) 4112 4096) 4144).2 =
        .ok (4144, ⟨4096, 64, 16, 4112⟩, mem2)) ∧
      pool_free ⟨4096, 64, 16, 4112⟩ (store64 (fun _ => 0) 4112 4096) 0 =
        (⟨4096, 64, 16, 4112⟩, store64 (fun _ => 0) 4112 4096) ∧
      (∀ q, q < 4096 ∨ 4096 + 64 ≤ q →
        pool_free ⟨4096, 64, 16, 4112⟩ (store64 (fun _ => 0) 4112 4096) q =
          (⟨4096, 64, 16, 4112⟩, store64 (fun _ => 0) 4112 4096)) :=
  pool_free_push ⟨4096, 64, 16, 4112⟩ (store64 (fun _ => 0) 4112 4096) 4144 [4112, 4096]
    (by decide) (by decide) (by decide) (by decide) (by decide)
    ⟨rfl, by decide, rfl, by decide, rfl⟩

/-- Claim C15: from every state that a sequence of `pool_alloc` and `pool_free` calls
(any pointers, repeated frees included) reaches from the result of `pool_init`,
`pool_free_all` gives back the allocator that `pool_init` produced, with the free list of
`pool_init`: the `capacity / chunk_size` chunks, highest address first; running
`pool_free_all` again changes neither. -/
theorem pool_free_all_restores (mem mem0 mem1 : Mem) (buffer buffer_size chunk_size align k : Nat)
    (pool0 pool1 : PoolAllocator) (ops : List PoolOp) (hk : align = 2 ^ k) (hal : align < WORD)
    (hb : 1 ≤ buffer) (hfit : buffer + buffer_size < WORD)
    (hgap : gap align buffer ≤ buffer_size) (hcs : chunk_size < WORD)
    (h0 : pool_init mem buffer buffer_size chunk_size align = .ok (pool0, mem0))
    (hrun : pool_run pool0 mem0 ops = .ok (pool1, mem1)) :
    PoolList mem0 pool0.head
        (pool_chunks pool0.buffer pool0.chunk_size (pool0.buffer_size / pool0.chunk_size)) ∧
      ∃ mem2, pool_free_all pool1 mem1 = .ok (pool0, mem2) ∧
        PoolList mem2 pool0.head
          (pool_chunks pool0.buffer pool0.chunk_size (pool0.buffer_size / pool0.chunk_size)) ∧
        ∃ mem3, pool_free_all pool0 mem2 = .ok (pool0, mem3) ∧
          PoolList mem3 pool0.head
            (pool_chunks pool0.buffer pool0.chunk_size
              (pool0.buffer_size / pool0.chunk_size)) := by
  subst hk
  obtain ⟨h8, hw, hmax, hfa⟩ := pool_init_inv hal hb hfit hgap hcs h0
  have key : ∀ (pool : PoolAllocator) (m : Mem),
      pool.buffer = buffer + gap (2 ^ k) buffer →
      pool.buffer_size = buffer_size - gap (2 ^ k) buffer →
      pool.chunk_size = chunk_size + gap (2 ^ k) chunk_size →
      ∃ m2, pool_free_all pool m = .ok (pool0, m2) ∧
        PoolList m2 pool0.head
          (pool_chunks pool0.buffer pool0.chunk_size
            (pool0.buffer_size / pool0.chunk_size)) := by
    intro pool m e1 e2 e3
    obtain ⟨ma, f1, f2⟩ := pool_free_all_spec ⟨buffer + gap (2 ^ k) buffer,
      buffer_size - gap (2 ^ k) buffer, chunk_size + gap (2 ^ k) chunk_size, 0⟩ mem
      (by dsimp only; omega) h8 (by dsimp only; omega) hmax
    rw [f1] at hfa
    simp only [Except.ok.injEq, Prod.mk.injEq] at hfa
    obtain ⟨hp, _⟩ := hfa
    obtain ⟨mb, g1, g2⟩ := pool_free_all_spec pool m (by omega) (by omega) (by omega)
      (by rw [e2, e3]; exact hmax)
    rw [e1, e2, e3] at g1 g2
    refine ⟨mb, ?_, ?_⟩
    · rw [g1, ← hp]
    · rw [← hp]; exact g2
  have hp0 : pool0.buffer = buffer + gap (2 ^ k) buffer ∧
      pool0.buffer_size = buffer_size - gap (2 ^ k) buffer ∧
      pool0.chunk_size = chunk_size + gap (2 ^ k) chunk_size := by
    obtain ⟨ma, f1, _⟩ := pool_free_all_spec ⟨buffer + gap (2 ^ k) buffer,
      buffer_size - gap (2 ^ k) buffer, chunk_size + gap (2 ^ k) chunk_size, 0⟩ mem
      (by dsimp only; omega) h8 (by dsimp only; omega) hmax
    rw [f1] at hfa
    simp only [Except.ok.injEq, Prod.mk.injEq] at hfa
    rw [← hfa.1]
    exact ⟨rfl, rfl, rfl⟩
  obtain ⟨r1, r2, r3⟩ := pool_run_frame ops pool0 pool1 mem0 mem1 hrun
  have hinit : PoolList mem0 pool0.head
      (pool_chunks pool0.buffer pool0.chunk_size (pool0.buffer_size / pool0.chunk_size)) := by
    obtain ⟨ma, f1, f2⟩ := pool_free_all_spec ⟨buffer + gap (2 ^ k) buffer,
      buffer_size - gap (2 ^ k) buffer, chunk_size + gap (2 ^ k) chunk_size, 0⟩ mem
      (by dsimp only; omega) h8 (by dsimp only; omega) hmax
    rw [f1] at hfa
    simp only [Except.ok.injEq, Prod.mk.injEq] at hfa
    obtain ⟨hp, hm⟩ := hfa
    rw [← hp, ← hm]
    exact f2
  obtain ⟨m2, a1, a2⟩ := key pool1 mem1 (r1.trans hp0.1) (r2.trans hp0.2.1)
    (r3.trans hp0.2.2)
  obtain ⟨m3, b1, b2⟩ := key pool0 m2 hp0.1 hp0.2.1 hp0.2.2
  exact ⟨hinit, m2, a1, a2, m3, b1, b2⟩

/-- Instance of C15: a four-chunk pool at 4096 after two allocations and the chunk 4144
freed twice; `pool_free_all` gives back the pool of `pool_init` with head 4144. -/
theorem pool_free_all_restores_witness :
    ∃ pool0 mem0 pool1 mem1, pool_init (fun _ => 0) 4096 64 16 8 = .ok (pool0, mem0) ∧
      pool_run pool0 mem0 [.alloc, .alloc, .free 4144, .free 4144] = .ok (pool1, mem1) ∧
      pool0.head = 4144 ∧
      PoolList mem0 pool0.head
        (pool_chunks pool0.buffer pool0.chunk_size (pool0.buffer_size / pool0.chunk_size)) ∧
      ∃ mem2, pool_free_all pool1 mem1 = .ok (pool0, mem2) ∧
        PoolList mem2 pool0.head
          (pool_chunks pool0.buffer pool0.chunk_size (pool0.buffer_size / pool0.chunk_size)) ∧
        ∃ mem3, pool_free_all pool0 mem2 = .ok (pool0, mem3) ∧
          PoolList mem3 pool0.head
            (pool_chunks pool0.buffer pool0.chunk_size
              (pool0.buffer_size / pool0.chunk_size)) :=
  ⟨_, _, _, _, rfl, rfl, rfl,
    pool_free_all_restores (fun _ => 0) _ _ 4096 64 16 8 3 _ _
      [.alloc, .alloc, .free 4144, .free 4144] rfl (by decide) (by decide) (by decide)
      (by decide) (by decide) rfl rfl⟩



/-! ## Free-list allocator -/

theorem memset_ok_iff (mem : Mem) {ptr n : Nat} (val : Nat) (hp : ptr ≠ 0)
    (hf : ptr + n ≤ WORD) : ∀ e, memset mem ptr val n ≠ .error e := by
  intro e h
  obtain ⟨m1, hm⟩ := @memset_ok_of_fit mem ptr n val hp hf
  rw [hm] at h
  exact absurd h (by simp)

theorem free_list_size_max (size : Nat) :
    (if size < FREE_LIST_NODE_SIZE then FREE_LIST_NODE_SIZE else size) = max size 16 := by
  unfold FREE_LIST_NODE_SIZE
  by_cases h : size < 16
  · rw [if_pos h, Nat.max_eq_right (by omega)]
  · rw [if_neg h, Nat.max_eq_left (by omega)]

/-- The best-fit loop over a well-formed list: it returns; the final minimum is a lower
bound of the surplus of every eligible node; and either nothing was selected, or the
selected node is eligible, has the final minimum as surplus, and every eligible node before
it has a strictly larger surplus. -/
theorem free_list_best_fit_spec {mem : Mem} {size k : Nat} (hal : 2 ^ k < WORD)
    (hno : 16 + 2 ^ k + size ≤ WORD) (nodes : List (Nat × Nat)) :
    ∀ (fuel prev_node node minimum_diff_size found_node require_size padding : Nat),
      FreeList mem node nodes →
      (∀ n ∈ nodes, n.1 + 16 ≤ WORD ∧ n.1 + n.2 ≤ WORD) →
      nodes.length < fuel →
      ∃ prev1 found1 req1 pad1 min1,
        free_list_best_fit mem size (2 ^ k) fuel prev_node node minimum_diff_size found_node
          require_size padding = .ok (prev1, found1, req1, pad1) ∧
        min1 ≤ minimum_diff_size ∧
        (∀ n ∈ nodes, padding_nat (2 ^ k) n.1 16 + size ≤ n.2 →
          min1 ≤ n.2 - (padding_nat (2 ^ k) n.1 16 + size)) ∧
        ((found1 = found_node ∧ req1 = require_size ∧ pad1 = padding ∧
            min1 = minimum_diff_size) ∨
          ∃ pre a s post, nodes = pre ++ (a, s) :: post ∧ found1 = a ∧
            pad1 = padding_nat (2 ^ k) a 16 ∧ req1 = padding_nat (2 ^ k) a 16 + size ∧
            padding_nat (2 ^ k) a 16 + size ≤ s ∧
            s - (padding_nat (2 ^ k) a 16 + size) = min1 ∧ min1 < minimum_diff_size ∧
            ∀ n ∈ pre, padding_nat (2 ^ k) n.1 16 + size ≤ n.2 →
              min1 < n.2 - (padding_nat (2 ^ k) n.1 16 + size)) := by
  induction nodes with
  | nil =>
    intro fuel prev_node node mind found req pad hl _ hf
    obtain ⟨f, rfl⟩ : ∃ f, fuel = f + 1 := ⟨fuel - 1, by simp at hf; omega⟩
    have hn : node = 0 := hl
    refine ⟨prev_node, found, req, pad, mind, ?_, le_refl _, ?_, Or.inl ⟨rfl, rfl, rfl, rfl⟩⟩
    · simp only [free_list_best_fit, hn, if_true]
    · intro n hn; exact absurd hn (List.not_mem_nil _)
  | cons b rest ih =>
    intro fuel prev_node node mind found req pad hl hwf hf
    obtain ⟨a, s⟩ := b
    obtain ⟨f, rfl⟩ : ∃ f, fuel = f + 1 := ⟨fuel - 1, by simp at hf; omega⟩
    obtain ⟨h1, h2, h3, h4⟩ := hl
    subst h1
    obtain ⟨w1, w2⟩ := hwf (node, s) (List.mem_cons_self _ _)
    dsimp only at w1 w2
    obtain ⟨_, q2, q3, _, _⟩ := padding_nat_spec (2 ^ k) node 16 (Nat.two_pow_pos k)
    have hpad : get_padding_with_header node 16 (2 ^ k) =
        .ok (padding_nat (2 ^ k) node 16) :=
      get_padding_with_header_eq hal (by omega)
    have hreq : wadd (padding_nat (2 ^ k) node 16) size = padding_nat (2 ^ k) node 16 + size :=
      wadd_of_lt (by omega)
    have hbs : load64 mem (wadd node 8) = s := by rw [wadd_of_lt (by omega)]; exact h3
    have hrest : ∀ n ∈ rest, n.1 + 16 ≤ WORD ∧ n.1 + n.2 ≤ WORD :=
      fun n hn => hwf n (List.mem_cons_of_mem _ hn)
    have hlen : rest.length < f := by simp only [List.length_cons] at hf; omega
    simp only [free_list_best_fit, FREE_LIST_HEADER_SIZE, h2, if_false, hpad, hreq, hbs]
    by_cases hc : s ≥ padding_nat (2 ^ k) node 16 + size ∧
        wsub s (padding_nat (2 ^ k) node 16 + size) < mind
    · rw [if_pos hc]
      have hsub : wsub s (padding_nat (2 ^ k) node 16 + size) =
          s - (padding_nat (2 ^ k) node 16 + size) := wsub_of_le hc.1 (by omega)
      rw [hsub] at hc ⊢
      obtain ⟨p1, f1, r1, d1, m1, e1, e2, e3, e4⟩ := ih f node (load64 mem node)
        (s - (padding_nat (2 ^ k) node 16 + size)) node
        (padding_nat (2 ^ k) node 16 + size) (padding_nat (2 ^ k) node 16) h4 hrest hlen
      refine ⟨p1, f1, r1, d1, m1, e1, by omega, ?_, Or.inr ?_⟩
      · intro n hn hel
        rcases List.mem_cons.mp hn with he | hin
        · subst he; exact e2
        · exact e3 n hin hel
      · rcases e4 with ⟨c1, c2, c3, c4⟩ | ⟨pre, a', s', post, c1, c2, c3, c4, c5, c6, c7, c8⟩
        · refine ⟨[], node, s, rest, rfl, c1, c3, c2, hc.1, c4.symm, by omega, ?_⟩
          intro n hn; exact absurd hn (List.not_mem_nil _)
        · refine ⟨(node, s) :: pre, a', s', post, by rw [c1]; rfl, c2, c3, c4, c5, c6,
            by omega, ?_⟩
          intro n hn hel
          rcases List.mem_cons.mp hn with he | hin
          · subst he; dsimp only; omega
          · exact c8 n hin hel
    · rw [if_neg hc]
      obtain ⟨p1, f1, r1, d1, m1, e1, e2, e3, e4⟩ := ih f node (load64 mem node)
        mind found req pad h4 hrest hlen
      have hself : padding_nat (2 ^ k) node 16 + size ≤ s →
          mind ≤ s - (padding_nat (2 ^ k) node 16 + size) := by
        intro hel
        have hsub : wsub s (padding_nat (2 ^ k) node 16 + size) =
            s - (padding_nat (2 ^ k) node 16 + size) := wsub_of_le hel (by omega)
        rw [hsub] at hc
        by_contra hlt
        exact hc ⟨hel, by omega⟩
      refine ⟨p1, f1, r1, d1, m1, e1, e2, ?_, ?_⟩
      · intro n hn hel
        rcases List.mem_cons.mp hn with he | hin
        · subst he; have := hself hel; dsimp only; omega
        · exact e3 n hin hel
      · rcases e4 with c | ⟨pre, a', s', post, c1, c2, c3, c4, c5, c6, c7, c8⟩
        · exact Or.inl c
        · refine Or.inr ⟨(node, s) :: pre, a', s', post, by rw [c1]; rfl, c2, c3, c4, c5, c6,
            c7, ?_⟩
          intro n hn hel
          rcases List.mem_cons.mp hn with he | hin
          · subst he; have := hself hel; dsimp only; omega
          · exact c8 n hin hel


theorem free_list_ne_zero {mem : Mem} (nodes : List (Nat × Nat)) :
    ∀ head, FreeList mem head nodes → ∀ n ∈ nodes, n.1 ≠ 0 := by
  induction nodes with
  | nil => intro _ _ n hn; exact absurd hn (List.not_mem_nil _)
  | cons b rest ih =>
    intro head h n hn
    obtain ⟨a, s⟩ := b
    obtain ⟨_, h2, _, h4⟩ := h
    rcases List.mem_cons.mp hn with he | hin
    · subst he; exact h2
    · exact ih _ h4 n hin

/-- Once the search has found a node, `free_list_alloc` returns the node address plus the
padding, provided the user region lies in the address space. -/
theorem free_list_alloc_found {fuel : Nat} {free_list : FreeListAllocator} {mem : Mem}
    {size align prev_node found_node require_size padding : Nat}
    (hchk : ¬ (wsub free_list.buffer_size free_list.buffer_used < size ∨ free_list.head = 0))
    (hs : free_list_search fuel free_list mem (max size 16) align =
      .ok (prev_node, found_node, require_size, padding))
    (hf : found_node ≠ 0) (hp : wadd found_node padding ≠ 0)
    (hfit : wadd found_node padding + max size 16 ≤ WORD) :
    ∃ free_list1 mem1, free_list_alloc fuel free_list mem size align =
      .ok (wadd found_node padding, free_list1, mem1) := by
  unfold free_list_alloc
  rw [if_neg hchk]
  simp only [free_list_size_max]
  rw [hs]
  simp only [hf, if_false]
  split
  · rename_i e he
    exact absurd he (memset_ok_iff _ 0 hp hfit e)
  · exact ⟨_, _, rfl⟩

theorem free_list_alloc_not_found {fuel : Nat} {free_list : FreeListAllocator} {mem : Mem}
    {size align prev_node require_size padding : Nat}
    (hs : free_list_search fuel free_list mem (max size 16) align =
      .ok (prev_node, 0, require_size, padding)) :
    free_list_alloc fuel free_list mem size align = .ok (0, free_list, mem) := by
  unfold free_list_alloc
  by_cases hchk : wsub free_list.buffer_size free_list.buffer_used < size ∨ free_list.head = 0
  · rw [if_pos hchk]
  · rw [if_neg hchk]
    simp only [free_list_size_max]
    rw [hs]
    simp only [if_true]

/-- Best-fit `free_list_alloc` on a well-formed free list. -/
theorem free_list_alloc_best_spec (fuel : Nat) (free_list : FreeListAllocator) (mem : Mem)
    (nodes : List (Nat × Nat)) (size k : Nat)
    (hpol : free_list.allocation_policy = .Allocation_Policy_Best_Fit) (hal : 2 ^ k < WORD)
    (hno : 16 + 2 ^ k + max size 16 ≤ WORD) (hl : FreeList mem free_list.head nodes)
    (hwf : ∀ n ∈ nodes, n.1 + 16 ≤ WORD ∧ n.1 + n.2 ≤ WORD) (hfuel : nodes.length < fuel) :
    ∃ p free_list1 mem1,
      free_list_alloc fuel free_list mem size (2 ^ k) = .ok (p, free_list1, mem1) ∧
      (p = 0 → free_list1 = free_list ∧ mem1 = mem) ∧
      (p = 0 ↔ (wsub free_list.buffer_size free_list.buffer_used < size ∨
        ∀ n ∈ nodes, ¬ padding_nat (2 ^ k) n.1 16 + max size 16 ≤ n.2)) ∧
      (p ≠ 0 → ∃ pre a s post, nodes = pre ++ (a, s) :: post ∧
        p = a + padding_nat (2 ^ k) a 16 ∧ padding_nat (2 ^ k) a 16 + max size 16 ≤ s ∧
        (∀ n ∈ nodes, padding_nat (2 ^ k) n.1 16 + max size 16 ≤ n.2 →
          s - (padding_nat (2 ^ k) a 16 + max size 16) ≤
            n.2 - (padding_nat (2 ^ k) n.1 16 + max size 16)) ∧
        (∀ n ∈ pre, padding_nat (2 ^ k) n.1 16 + max size 16 ≤ n.2 →
          s - (padding_nat (2 ^ k) a 16 + max size 16) <
            n.2 - (padding_nat (2 ^ k) n.1 16 + max size 16))) := by
  have hnz := free_list_ne_zero nodes _ hl
  have h16 : 16 ≤ max size 16 := Nat.le_max_right _ _
  have hP : ∀ a, 16 ≤ padding_nat (2 ^ k) a 16 := fun a =>
    (padding_nat_spec (2 ^ k) a 16 (Nat.two_pow_pos k)).2.1
  by_cases hchk : wsub free_list.buffer_size free_list.buffer_used < size ∨ free_list.head = 0
  · refine ⟨0, free_list, mem, ?_, fun _ => ⟨rfl, rfl⟩, ?_, fun h => absurd rfl h⟩
    · unfold free_list_alloc; rw [if_pos hchk]
    · refine ⟨fun _ => ?_, fun _ => rfl⟩
      rcases hchk with h1 | h2
      · exact Or.inl h1
      · right
        cases nodes with
        | nil => intro n hn; exact absurd hn (List.not_mem_nil _)
        | cons b rest => exact absurd (hl.1.symm.trans h2) (hnz b (List.mem_cons_self _ _))
  · obtain ⟨p1, f1, r1, d1, m1, e1, e2, e3, e4⟩ := free_list_best_fit_spec hal hno nodes fuel 0
      free_list.head (WORD - 1) 0 0 0 hl hwf hfuel
    have hs : free_list_search fuel free_list mem (max size 16) (2 ^ k) =
        .ok (p1, f1, r1, d1) := by unfold free_list_search; rw [hpol]; exact e1
    rcases e4 with ⟨c1, _, _, c4⟩ | ⟨pre, a, s, post, c1, c2, c3, c4, c5, c6, c7, c8⟩
    · subst c1
      refine ⟨0, free_list, mem, free_list_alloc_not_found hs, fun _ => ⟨rfl, rfl⟩, ?_,
        fun h => absurd rfl h⟩
      refine ⟨fun _ => Or.inr ?_, fun _ => rfl⟩
      intro n hn hel
      have := e3 n hn hel
      have := (hwf n hn).2
      have := hnz n hn
      have := hP n.1
      unfold WORD at *
      omega
    · have hmem : (a, s) ∈ nodes := by
        rw [c1]; exact List.mem_append_right _ (List.mem_cons_self _ _)
      obtain ⟨w1, w2⟩ := hwf (a, s) hmem
      have ha0 : a ≠ 0 := hnz (a, s) hmem
      dsimp only at w1 w2
      have hPa := hP a
      have hw : wadd a (padding_nat (2 ^ k) a 16) = a + padding_nat (2 ^ k) a 16 :=
        wadd_of_lt (by omega)
      rw [c2, c3] at hs
      obtain ⟨fl1, mem1, hres⟩ := free_list_alloc_found hchk hs ha0 (by rw [hw]; omega)
        (by rw [hw]; omega)
      rw [hw] at hres
      refine ⟨_, fl1, mem1, hres, fun h => absurd h (by omega), ?_, fun _ => ?_⟩
      · refine ⟨fun h => absurd h (by omega), fun h => ?_⟩
        rcases h with h1 | h2
        · exact absurd (Or.inl h1) hchk
        · exact absurd c5 (h2 (a, s) hmem)
      · refine ⟨pre, a, s, post, c1, rfl, c5, ?_, ?_⟩
        · intro n hn hel; rw [c6]; exact e3 n hn hel
        · intro n hn hel; rw [c6]; exact c8 n hn hel


/-- Claim C16: under best-fit, on a well-formed free list `nodes` (each node's 16 header
bytes and its block inside the address space), with `size' = max(size, 16)`, padding
`get_padding_with_header(addr, 16, align)` and `required = padding + size'` not overflowing:
`free_list_alloc` returns; it returns `NULL`, changing nothing, exactly when the capacity
check fails or no node has `block_size ≥ required`; a non-null result is the address plus
padding of a node with `block_size ≥ required` whose surplus `block_size - required` is at
most the surplus of every eligible node and strictly below that of every eligible node
earlier in the list. -/
theorem free_list_alloc_best_fit (fuel : Nat) (free_list : FreeListAllocator) (mem : Mem)
    (nodes : List (Nat × Nat)) (size align k : Nat) (hk : align = 2 ^ k)
    (hpol : free_list.allocation_policy = .Allocation_Policy_Best_Fit) (hal : align < WORD)
    (hno : 16 + align + max size 16 ≤ WORD) (hl : FreeList mem free_list.head nodes)
    (hwf : ∀ n ∈ nodes, n.1 + 16 ≤ WORD ∧ n.1 + n.2 ≤ WORD) (hfuel : nodes.length < fuel) :
    (∀ a, get_padding_with_header a 16 align = .ok (padding_nat align a 16)) ∧
    ∃ p free_list1 mem1,
      free_list_alloc fuel free_list mem size align = .ok (p, free_list1, mem1) ∧
      (p = 0 → free_list1 = free_list ∧ mem1 = mem) ∧
      (p = 0 ↔ (wsub free_list.buffer_size free_list.buffer_used < size ∨
        ∀ n ∈ nodes, ¬ padding_nat align n.1 16 + max size 16 ≤ n.2)) ∧
      (p ≠ 0 → ∃ pre a s post, nodes = pre ++ (a, s) :: post ∧
        p = a + padding_nat align a 16 ∧ padding_nat align a 16 + max size 16 ≤ s ∧
        (∀ n ∈ nodes, padding_nat align n.1 16 + max size 16 ≤ n.2 →
          s - (padding_nat align a 16 + max size 16) ≤
            n.2 - (padding_nat align n.1 16 + max size 16)) ∧
        (∀ n ∈ pre, padding_nat align n.1 16 + max size 16 ≤ n.2 →
          s - (padding_nat align a 16 + max size 16) <
            n.2 - (padding_nat align n.1 16 + max size 16))) := by
  subst hk
  exact ⟨fun a => get_padding_with_header_eq hal (by omega),
    free_list_alloc_best_spec fuel free_list mem nodes size k hpol hal hno hl hwf hfuel⟩

theorem three_holes_list :
    FreeList three_holes_mem three_holes.head [(4096, 64), (4200, 40), (4304, 96)] :=
  ⟨rfl, by decide, rfl, rfl, by decide, rfl, rfl, by decide, rfl, rfl⟩

theorem three_holes_wf :
    ∀ n ∈ [(4096, 64), (4200, 40), (4304, 96)], n.1 + 16 ≤ WORD ∧ n.1 + n.2 ≤ WORD := by
  intro n hn
  simp only [List.mem_cons, List.mem_singleton, List.not_mem_nil, or_false] at hn
  rcases hn with rfl | rfl | rfl <;> exact ⟨by decide, by decide⟩

/-- Instance of C16 on the three holes of 64, 40 and 96 bytes with a request of 32 bytes,
alignment 8. -/
theorem free_list_alloc_best_fit_witness :
    (∀ a, get_padding_with_header a 16 8 = .ok (padding_nat 8 a 16)) ∧
    ∃ p free_list1 mem1,
      free_list_alloc 4 three_holes three_holes_mem 32 8 = .ok (p, free_list1, mem1) ∧
      (p = 0 → free_list1 = three_holes ∧ mem1 = three_holes_mem) ∧
      (p = 0 ↔ (wsub three_holes.buffer_size three_holes.buffer_used < 32 ∨
        ∀ n ∈ [(4096, 64), (4200, 40), (4304, 96)],
          ¬ padding_nat 8 n.1 16 + max 32 16 ≤ n.2)) ∧
      (p ≠ 0 → ∃ pre a s post, [(4096, 64), (4200, 40), (4304, 96)] = pre ++ (a, s) :: post ∧
        p = a + padding_nat 8 a 16 ∧ padding_nat 8 a 16 + max 32 16 ≤ s ∧
        (∀ n ∈ [(4096, 64), (4200, 40), (4304, 96)], padding_nat 8 n.1 16 + max 32 16 ≤ n.2 →
          s - (padding_nat 8 a 16 + max 32 16) ≤ n.2 - (padding_nat 8 n.1 16 + max 32 16)) ∧
        (∀ n ∈ pre, padding_nat 8 n.1 16 + max 32 16 ≤ n.2 →
          s - (padding_nat 8 a 16 + max 32 16) < n.2 - (padding_nat 8 n.1 16 + max 32 16))) :=
  free_list_alloc_best_fit 4 three_holes three_holes_mem [(4096, 64), (4200, 40), (4304, 96)]
    32 8 3 rfl rfl (by decide) (by decide) three_holes_list three_holes_wf (by decide)

/-- Counterexample to C19 as stated: on the three holes of 64, 40 and 96 bytes at the
8-aligned addresses 4096, 4200 and 4304, best-fit `free_list_alloc(32, 8)` returns 4112,
inside the 64-byte hole and outside the 40-byte hole. -/
theorem three_holes_alloc :
    ∃ r, free_list_alloc 4 three_holes three_holes_mem 32 8 = .ok r ∧
      FreeList three_holes_mem three_holes.head [(4096, 64), (4200, 40), (4304, 96)] ∧
      wsub three_holes.buffer_size three_holes.buffer_used ≥ 32 ∧
      r.1 = 4112 ∧ (4096 ≤ r.1 ∧ r.1 < 4096 + 64) ∧ ¬ (4200 ≤ r.1 ∧ r.1 < 4200 + 40) :=
  ⟨_, rfl, three_holes_list, by decide, rfl, by decide, by decide⟩

theorem padding_nat_aligned8 {a : Nat} (h : a % 8 = 0) : padding_nat (2 ^ 3) a 16 = 16 := by
  norm_num [padding_nat, gap, h]

/-- Claim C19 (amended): under best-fit, with a free list of exactly three holes of block
sizes 64, 40 and 96, in this order, at 8-aligned node addresses inside the address space,
and `capacity - used ≥ 32`, `free_list_alloc(32, 8)` selects the 64-byte hole: it returns
the address of that hole plus 16, and the 32 bytes lie inside the hole.  The request needs
`16 + 32 = 48` bytes, so the 40-byte hole is not eligible. -/
theorem free_list_alloc_three_holes (fuel : Nat) (free_list : FreeListAllocator) (mem : Mem)
    (a1 a2 a3 : Nat) (hpol : free_list.allocation_policy = .Allocation_Policy_Best_Fit)
    (hl : FreeList mem free_list.head [(a1, 64), (a2, 40), (a3, 96)])
    (h1 : a1 % 8 = 0) (h2 : a2 % 8 = 0) (h3 : a3 % 8 = 0)
    (hw1 : a1 + 64 ≤ WORD) (hw2 : a2 + 40 ≤ WORD) (hw3 : a3 + 96 ≤ WORD)
    (hcap : wsub free_list.buffer_size free_list.buffer_used ≥ 32) (hfuel : 3 < fuel) :
    (∃ free_list1 mem1,
      free_list_alloc fuel free_list mem 32 8 = .ok (a1 + 16, free_list1, mem1)) ∧
      a1 ≤ a1 + 16 ∧ a1 + 16 + 32 ≤ a1 + 64 ∧
      get_padding_with_header a2 16 8 = .ok 16 ∧ ¬ (16 + 32 ≤ 40) := by
  have hwf : ∀ n ∈ [(a1, 64), (a2, 40), (a3, 96)], n.1 + 16 ≤ WORD ∧ n.1 + n.2 ≤ WORD := by
    intro n hn
    simp only [List.mem_cons, List.mem_singleton, List.not_mem_nil, or_false] at hn
    rcases hn with rfl | rfl | rfl <;> exact ⟨by dsimp only; omega, by dsimp only; omega⟩
  have hmax : max 32 16 = 32 := by decide
  have hp1 := padding_nat_aligned8 h1
  have hp2 := padding_nat_aligned8 h2
  have hp3 := padding_nat_aligned8 h3
  obtain ⟨p, fl1, mem1, hres, _, hiff, hsel⟩ := free_list_alloc_best_spec fuel free_list mem
    [(a1, 64), (a2, 40), (a3, 96)] 32 3 hpol (by decide) (by decide) hl hwf hfuel
  rw [hmax] at hiff hsel
  have hp0 : p ≠ 0 := by
    intro h0
    rcases hiff.mp h0 with c | c
    · omega
    · have := c (a1, 64) (List.mem_cons_self _ _)
      dsimp only at this
      omega
  obtain ⟨pre, a, s, post, d1, d2, d3, d4, _⟩ := hsel hp0
  have hmem : (a, s) ∈ [(a1, 64), (a2, 40), (a3, 96)] := by
    rw [d1]; exact List.mem_append_right _ (List.mem_cons_self _ _)
  have hmin := d4 (a1, 64) (List.mem_cons_self _ _) (by dsimp only; omega)
  dsimp only at hmin
  have hpad2 : get_padding_with_header a2 16 8 = .ok 16 := by
    have := @get_padding_with_header_eq a2 16 3 (by decide) (by decide)
    rw [hp2] at this
    exact this
  refine ⟨?_, by omega, by omega, hpad2, by decide⟩
  simp only [List.mem_cons, List.mem_singleton, List.not_mem_nil, or_false,
    Prod.mk.injEq] at hmem
  rcases hmem with ⟨e1, e2⟩ | ⟨e1, e2⟩ | ⟨e1, e2⟩
  · subst e1 e2
    rw [hp1] at d2
    subst d2
    exact ⟨fl1, mem1, hres⟩
  · subst e1 e2
    omega
  · subst e1 e2
    omega

/-- Instance of C19 (amended) on the three holes at 4096, 4200 and 4304. -/
theorem free_list_alloc_three_holes_witness :
    (∃ free_list1 mem1,
      free_list_alloc 4 three_holes three_holes_mem 32 8 = .ok (4096 + 16, free_list1, mem1)) ∧
      4096 ≤ 4096 + 16 ∧ 4096 + 16 + 32 ≤ 4096 + 64 ∧
      get_padding_with_header 4200 16 8 = .ok 16 ∧ ¬ (16 + 32 ≤ 40) :=
  free_list_alloc_three_holes 4 three_holes three_holes_mem 4096 4200 4304 rfl
    three_holes_list (by decide) (by decide) (by decide) (by decide) (by decide) (by decide)
    (by decide) (by decide)


/-! ## Buddy allocator -/

/-- The level loop on an index below `2 ^ (m + 1)` halves the block size at most `m`
times. -/
theorem buddy_level_ge (m : Nat) :
    ∀ fuel block_size i height, i < 2 ^ (m + 1) → m < fuel →
      ∃ bs1 h1, buddy_level fuel block_size i height = .ok (bs1, h1) ∧
        block_size / 2 ^ m ≤ bs1 := by
  induction m with
  | zero =>
    intro fuel bs i h hi hf
    obtain ⟨f, rfl⟩ : ∃ f, fuel = f + 1 := ⟨fuel - 1, by omega⟩
    have : ¬ (i > 1) := by simp at hi; omega
    exact ⟨bs, h, by simp only [buddy_level, this, if_false], by simp⟩
  | succ m ih =>
    intro fuel bs i h hi hf
    obtain ⟨f, rfl⟩ : ∃ f, fuel = f + 1 := ⟨fuel - 1, by omega⟩
    by_cases h1 : i > 1
    · have hi2 : i / 2 < 2 ^ (m + 1) := by
        rw [pow_succ] at hi; omega
      obtain ⟨bs1, hh, e1, e2⟩ := ih f (bs / 2) (i / 2) (wadd h 1) hi2 (by omega)
      refine ⟨bs1, hh, by simp only [buddy_level, h1, if_true, e1], ?_⟩
      have : bs / 2 ^ (m + 1) = bs / 2 / 2 ^ m := by
        rw [Nat.div_div_eq_div_mul, pow_succ, Nat.mul_comm]
      omega
    · exact ⟨bs, h, by simp only [buddy_level, h1, if_false], Nat.div_le_self _ _⟩

/-- Every inner node of `buddy_full_tree` is Split and not Free. -/
theorem buddy_full_tree_inner (j : Nat) (hj : j ≤ 1022) :
    BUDDY_IS_FREE buddy_full_tree j = false ∧ BUDDY_IS_SPLIT buddy_full_tree j = true := by
  have hm : wmul j 2 % 8 = 2 * (j % 4) := by unfold wmul WORD; omega
  have hr : j % 4 = 0 ∨ j % 4 = 1 ∨ j % 4 = 2 ∨ j % 4 = 3 := by omega
  have hq : j / 4 < 255 ∨ (j / 4 = 255 ∧ j % 4 ≠ 3) := by omega
  unfold BUDDY_IS_FREE BUDDY_IS_SPLIT BUDDY_INDEX BUDDY_MASK BUDDY_LOW BUDDY_HIGH BUDDY_SLOT
  rw [hm]
  rcases hq with hq | ⟨hq, h3⟩
  · have hb : buddy_full_tree (j / 4) = 85 := by
      unfold buddy_full_tree; rw [if_pos hq]
    rw [hb]
    rcases hr with h | h | h | h <;> rw [h] <;> exact ⟨rfl, rfl⟩
  · have hb : buddy_full_tree (j / 4) = 149 := by
      unfold buddy_full_tree; rw [hq]; rfl
    rw [hb]
    rcases hr with h | h | h | h
    · rw [h]; exact ⟨rfl, rfl⟩
    · rw [h]; exact ⟨rfl, rfl⟩
    · rw [h]; exact ⟨rfl, rfl⟩
    · exact absurd h h3

/-- One iteration of the search on `buddy_full_tree` while the queue holds the indices
`j .. 2 * j`: node `j` is dequeued and its two children are enqueued. -/
theorem buddy_full_step (fuel j : Nat) (st : BuddySearch) (hj : j ≤ 1021)
    (h1 : st.head = j % 1024) (h2 : st.tail = (2 * j + 1) % 1024)
    (hq : ∀ t, t ≤ j → st.queue ((j + t) % 1024) = j + t) :
    ∃ st1, buddy_search buddy_full_tree 8192 8 (fuel + 1) st =
        buddy_search buddy_full_tree 8192 8 fuel st1 ∧
      st1.head = (j + 1) % 1024 ∧ st1.tail = (2 * (j + 1) + 1) % 1024 ∧
      ∀ t, t ≤ j + 1 → st1.queue ((j + 1 + t) % 1024) = j + 1 + t := by
  have hne : ¬ (st.head = st.tail) := by omega
  have hidx : st.queue st.head = j := by
    have := hq 0 (Nat.zero_le _)
    rw [Nat.add_zero] at this
    rw [h1]; exact this
  have hw : wadd j 1 = j + 1 := by unfold wadd WORD; omega
  obtain ⟨bs, h, hlev, hbs⟩ := buddy_level_ge 9 65 8192 (j + 1) 0 (by norm_num; omega)
    (by decide)
  have hbs16 : ¬ (bs < 8) := by norm_num at hbs; omega
  obtain ⟨hfree, hsplit⟩ := buddy_full_tree_inner j (by omega)
  have hc2 : ¬ (BUDDY_IS_FREE buddy_full_tree j = true ∧ bs < st.buddy_size) := by
    rw [hfree]; simp
  have ha1 : ¬ ((st.head + 1) % 1024 = (st.tail + 1) % 1024) := by omega
  have ha2 : ¬ ((st.head + 1) % 1024 = ((st.tail + 1) % 1024 + 1) % 1024) := by omega
  refine ⟨{ st with
      queue := fun i => if i = (st.tail + 1) % 1024 then wadd (wmul j 2) 2
        else if i = st.tail then wadd (wmul j 2) 1 else st.queue i,
      head := (st.head + 1) % 1024, tail := ((st.tail + 1) % 1024 + 1) % 1024 },
    ?_, ?_, ?_, ?_⟩
  · simp only [buddy_search, hne, if_false, hidx, hw, hlev, hbs16, hc2, hsplit, if_true,
      ha1, ha2]
  · dsimp only; omega
  · dsimp only; omega
  · intro t ht
    dsimp only
    have hl : wadd (wmul j 2) 1 = 2 * j + 1 := by unfold wadd wmul WORD; omega
    have hr : wadd (wmul j 2) 2 = 2 * j + 2 := by unfold wadd wmul WORD; omega
    rw [hl, hr]
    by_cases e2 : (j + 1 + t) % 1024 = (st.tail + 1) % 1024
    · rw [if_pos e2]; omega
    · rw [if_neg e2]
      by_cases e1 : (j + 1 + t) % 1024 = st.tail
      · rw [if_pos e1]; omega
      · rw [if_neg e1]
        have ht1 : t + 1 ≤ j := by omega
        have := hq (t + 1) ht1
        have e : j + (t + 1) = j + 1 + t := by omega
        rw [e] at this
        exact this

/-- The iteration on the last inner node: enqueuing its right child fills the queue. -/
theorem buddy_full_last (fuel : Nat) (st : BuddySearch) (h1 : st.head = 1022 % 1024)
    (h2 : st.tail = (2 * 1022 + 1) % 1024)
    (hq : ∀ t, t ≤ 1022 → st.queue ((1022 + t) % 1024) = 1022 + t) :
    buddy_search buddy_full_tree 8192 8 (fuel + 1) st = .error .assertion := by
  have hne : ¬ (st.head = st.tail) := by omega
  have hidx : st.queue st.head = 1022 := by
    have := hq 0 (Nat.zero_le _)
    rw [h1]; exact this
  have hw : wadd 1022 1 = 1023 := by decide
  obtain ⟨bs, h, hlev, hbs⟩ := buddy_level_ge 9 65 8192 1023 0 (by norm_num) (by decide)
  have hbs16 : ¬ (bs < 8) := by norm_num at hbs; omega
  obtain ⟨hfree, hsplit⟩ := buddy_full_tree_inner 1022 (le_refl _)
  have hc2 : ¬ (BUDDY_IS_FREE buddy_full_tree 1022 = true ∧ bs < st.buddy_size) := by
    rw [hfree]; simp
  have ha1 : ¬ ((st.head + 1) % 1024 = (st.tail + 1) % 1024) := by omega
  have ha2 : (st.head + 1) % 1024 = ((st.tail + 1) % 1024 + 1) % 1024 := by omega
  simp only [buddy_search, hne, if_false, hidx, hw, hlev, hbs16, hc2, hsplit, if_true,
    ha1, ha2, ite_self]

theorem buddy_full_search (d : Nat) :
    ∀ (fuel j : Nat) (st : BuddySearch), j + d = 1022 → st.head = j % 1024 →
      st.tail = (2 * j + 1) % 1024 →
      (∀ t, t ≤ j → st.queue ((j + t) % 1024) = j + t) →
      buddy_search buddy_full_tree 8192 8 (fuel + d + 1) st = .error .assertion := by
  induction d with
  | zero =>
    intro fuel j st hj h1 h2 hq
    have : j = 1022 := by omega
    subst this
    exact buddy_full_last fuel st h1 h2 hq
  | succ d ih =>
    intro fuel j st hj h1 h2 hq
    obtain ⟨st1, e, a1, a2, a3⟩ := buddy_full_step (fuel + d + 1) j st (by omega) h1 h2 hq
    have : fuel + (d + 1) + 1 = fuel + d + 1 + 1 := by omega
    rw [this, e]
    exact ih fuel (j + 1) st1 (by omega) a1 a2 a3

/-- A fault of the search loop is a fault of `buddy_alloc`. -/
theorem buddy_alloc_search_fault (fuel : Nat) (allocator : BuddyAllocator) (mem : Mem)
    (size require_size pow buffer_size : Nat) (e : Fault)
    (h1 : align_forward size allocator.alignment = .ok require_size)
    (h2 : POW_OF_2 allocator.tree_height = .ok pow)
    (h3 : wmul pow allocator.alignment = buffer_size)
    (h4 : buddy_search allocator.tree buffer_size require_size fuel
      { queue := fun j => if j = 0 then 0 else 0, head := 0, tail := 1, found := false,
        buddy_index := 0, buddy_size := WORD - 1, buddy_height := 0 } = .error e) :
    buddy_alloc fuel allocator mem size = .error e := by
  unfold buddy_alloc buddy_alloc_block
  simp only [h1, h2, h3, h4]

/-- Claim C20 at its failing input: in the tree of height 10 reached by 1023 calls of
`buddy_alloc(8)` (every inner node Split, the leaves 1023 to 2045 Alloc) the last leaf 2046
is Free under Split ancestors, so a request of 8 bytes has a feasible block; with any step
budget of at least 1023 the search visits the 1023 Split inner nodes, the 1024-entry queue
fills up, and the call stops on `assert(head != tail)` instead of returning that leaf. -/
theorem buddy_alloc_queue_overflow :
    (∀ fuel, buddy_alloc (fuel + 1022 + 1) ⟨buddy_full_tree, 8192, 10, 8⟩ (fun _ => 0) 8 =
      .error .assertion) ∧
      BUDDY_IS_FREE buddy_full_tree 2046 = true ∧
      BUDDY_IS_SPLIT buddy_full_tree 1022 = true ∧ BUDDY_IS_SPLIT buddy_full_tree 510 = true ∧
      BUDDY_IS_SPLIT buddy_full_tree 254 = true ∧ BUDDY_IS_SPLIT buddy_full_tree 0 = true := by
  refine ⟨fun fuel => ?_, rfl, rfl, rfl, rfl, rfl⟩
  have hs := buddy_full_search 1022 fuel 0
    { queue := fun j => if j = 0 then 0 else 0, head := 0, tail := 1, found := false,
      buddy_index := 0, buddy_size := WORD - 1, buddy_height := 0 }
    rfl rfl rfl (by intro t ht; have : t = 0 := by omega
                    subst this; rfl)
  exact buddy_alloc_search_fault (fuel + 1022 + 1) ⟨buddy_full_tree, 8192, 10, 8⟩ (fun _ => 0)
    8 8 1024 8192 .assertion rfl rfl (by decide) hs


/-! ## Free list in memory: segments and frames -/

theorem store64_apply (mem : Mem) (addr val x : Nat) :
    store64 mem addr val x =
      if addr ≤ x ∧ x < addr + 8 then (val / 256 ^ (x - addr)) % 256 else mem x := rfl

theorem store64_ne {mem : Mem} {addr val x : Nat} (h : x < addr ∨ addr + 8 ≤ x) :
    store64 mem addr val x = mem x := by
  rw [store64_apply]
  have : ¬ (addr ≤ x ∧ x < addr + 8) := by omega
  rw [if_neg this]

theorem load64_store64_ne {mem : Mem} {addr val b : Nat} (h : b + 8 ≤ addr ∨ addr + 8 ≤ b) :
    load64 (store64 mem addr val) b = load64 mem b :=
  load64_congr (fun x h1 h2 => store64_ne (by omega))

/-- A word whose eight bytes are those of a store of `val` reads back as `val`. -/
theorem load64_of_agree {mem mem0 : Mem} {addr val : Nat} (hv : val < WORD)
    (h : ∀ x, addr ≤ x → x < addr + 8 → mem x = store64 mem0 addr val x) :
    load64 mem addr = val := by
  rw [← load64_store64 mem0 addr val hv]
  exact load64_congr h

theorem free_list_iff_seg {mem : Mem} (nodes : List (Nat × Nat)) :
    ∀ head, FreeList mem head nodes ↔ FreeSeg mem head 0 nodes := by
  induction nodes with
  | nil => intro head; exact Iff.rfl
  | cons b rest ih =>
    intro head
    obtain ⟨a, s⟩ := b
    constructor
    · rintro ⟨h1, h2, h3, h4⟩; exact ⟨h1, h2, h3, (ih _).mp h4⟩
    · rintro ⟨h1, h2, h3, h4⟩; exact ⟨h1, h2, h3, (ih _).mpr h4⟩

theorem free_seg_append {mem : Mem} (pre : List (Nat × Nat)) :
    ∀ head mid stop rest, FreeSeg mem head mid pre → FreeSeg mem mid stop rest →
      FreeSeg mem head stop (pre ++ rest) := by
  induction pre with
  | nil => intro head mid stop rest h1 h2; have : head = mid := h1; subst this; exact h2
  | cons b pre ih =>
    intro head mid stop rest h1 h2
    obtain ⟨a, s⟩ := b
    obtain ⟨e1, e2, e3, e4⟩ := h1
    exact ⟨e1, e2, e3, ih _ mid stop rest e4 h2⟩

theorem free_seg_split {mem : Mem} (pre : List (Nat × Nat)) :
    ∀ head stop rest, FreeSeg mem head stop (pre ++ rest) →
      ∃ mid, FreeSeg mem head mid pre ∧ FreeSeg mem mid stop rest := by
  induction pre with
  | nil => intro head stop rest h; exact ⟨head, rfl, h⟩
  | cons b pre ih =>
    intro head stop rest h
    obtain ⟨a, s⟩ := b
    obtain ⟨e1, e2, e3, e4⟩ := h
    obtain ⟨mid, m1, m2⟩ := ih _ stop rest e4
    exact ⟨mid, ⟨e1, e2, e3, m1⟩, m2⟩

/-- A segment depends only on the 16 field bytes of its nodes. -/
theorem free_seg_frame {mem mem1 : Mem} (nodes : List (Nat × Nat)) :
    ∀ head stop, (∀ n ∈ nodes, ∀ x, n.1 ≤ x → x < n.1 + 16 → mem1 x = mem x) →
      FreeSeg mem head stop nodes → FreeSeg mem1 head stop nodes := by
  induction nodes with
  | nil => intro head stop _ h; exact h
  | cons b rest ih =>
    intro head stop hm h
    obtain ⟨a, s⟩ := b
    obtain ⟨h1, h2, h3, h4⟩ := h
    have hm0 := hm (a, s) (List.mem_cons_self _ _)
    dsimp only at hm0
    have hl : load64 mem1 a = load64 mem a :=
      load64_congr (fun x hx1 hx2 => hm0 x hx1 (by omega))
    have hl8 : load64 mem1 (a + 8) = load64 mem (a + 8) :=
      load64_congr (fun x hx1 hx2 => hm0 x (by omega) (by omega))
    refine ⟨h1, h2, hl8.trans h3, ?_⟩
    rw [hl]
    exact ih _ stop (fun n hn => hm n (List.mem_cons_of_mem _ hn)) h4

/-- Bounds of the nodes of a sorted list. -/
theorem free_sorted_mem (nodes : List (Nat × Nat)) :
    ∀ lo, FreeSorted lo nodes → ∀ n ∈ nodes, lo ≤ n.1 ∧ 16 ≤ n.2 := by
  induction nodes with
  | nil => intro _ _ n hn; exact absurd hn (List.not_mem_nil _)
  | cons b rest ih =>
    intro lo h n hn
    obtain ⟨a, s⟩ := b
    obtain ⟨h1, h2, h3⟩ := h
    rcases List.mem_cons.mp hn with he | hin
    · subst he; exact ⟨h1, h2⟩
    · obtain ⟨i1, i2⟩ := ih _ h3 n hin
      exact ⟨by omega, i2⟩

theorem free_sorted_mono (nodes : List (Nat × Nat)) :
    ∀ lo lo1, lo1 ≤ lo → FreeSorted lo nodes → FreeSorted lo1 nodes := by
  intro lo lo1 hle h
  cases nodes with
  | nil => exact h
  | cons b rest =>
    obtain ⟨a, s⟩ := b
    obtain ⟨h1, h2, h3⟩ := h
    exact ⟨by omega, h2, h3⟩

/-- A sorted list split around one of its nodes: what lies before is sorted and ends
strictly below the node, what lies after starts strictly above its end. -/
theorem free_sorted_split (pre : List (Nat × Nat)) :
    ∀ lo a s post, FreeSorted lo (pre ++ (a, s) :: post) →
      lo ≤ a ∧ 16 ≤ s ∧ FreeSorted lo pre ∧ (∀ n ∈ pre, n.1 + n.2 < a) ∧
        FreeSorted (a + s + 1) post := by
  induction pre with
  | nil =>
    intro lo a s post h
    obtain ⟨h1, h2, h3⟩ := h
    exact ⟨h1, h2, True.intro, fun n hn => absurd hn (List.not_mem_nil _), h3⟩
  | cons b pre ih =>
    intro lo a s post h
    obtain ⟨c, u⟩ := b
    obtain ⟨h1, h2, h3⟩ := h
    obtain ⟨i1, i2, i3, i4, i5⟩ := ih _ a s post h3
    refine ⟨by omega, i2, ⟨h1, h2, i3⟩, ?_, i5⟩
    intro n hn
    rcases List.mem_cons.mp hn with he | hin
    · subst he; dsimp only; omega
    · exact i4 n hin

/-- A sorted prefix ending below `mid` followed by a list sorted from `mid`. -/
theorem free_sorted_append (pre : List (Nat × Nat)) :
    ∀ lo mid rest, FreeSorted lo pre → (∀ n ∈ pre, n.1 + n.2 < mid) → lo ≤ mid →
      FreeSorted mid rest → FreeSorted lo (pre ++ rest) := by
  induction pre with
  | nil =>
    intro lo mid rest _ _ hle h
    exact free_sorted_mono rest mid lo hle h
  | cons b pre ih =>
    intro lo mid rest h hn hle hr
    obtain ⟨c, u⟩ := b
    obtain ⟨h1, h2, h3⟩ := h
    have hc := hn (c, u) (List.mem_cons_self _ _)
    dsimp only at hc
    exact ⟨h1, h2, ih _ mid rest h3 (fun n hn1 => hn n (List.mem_cons_of_mem _ hn1))
      (by omega) hr⟩


theorem memset_eq_of_pos {mem : Mem} (ptr val n : Nat) (hn : n ≠ 0) (hp : ptr ≠ 0)
    (hf : ptr + n ≤ WORD) : memset mem ptr val n = .ok (mem_fill mem ptr val n) := by
  unfold memset mem_fill
  have : ¬ (ptr = 0 ∨ WORD < ptr + n) := by omega
  rw [if_neg hn, if_neg this]

theorem mem_fill_ne {mem : Mem} {ptr val n x : Nat} (h : x < ptr ∨ ptr + n ≤ x) :
    mem_fill mem ptr val n x = mem x := by
  unfold mem_fill
  have : ¬ (ptr ≤ x ∧ x < ptr + n) := by omega
  rw [if_neg this]

theorem mem_fill_eq {mem : Mem} {ptr val n x : Nat} (h1 : ptr ≤ x) (h2 : x < ptr + n) :
    mem_fill mem ptr val n x = val := by
  unfold mem_fill
  rw [if_pos ⟨h1, h2⟩]

theorem load64_fill_ne {mem : Mem} {ptr val n b : Nat} (h : b + 8 ≤ ptr ∨ ptr + n ≤ b) :
    load64 (mem_fill mem ptr val n) b = load64 mem b :=
  load64_congr (fun x h1 h2 => mem_fill_ne (by omega))

set_option maxHeartbeats 1000000 in
/-- `free_list_alloc` after a search that found node `a` of size `s` with successor `nxt`,
when the block is split: the remainder node at `a + R` takes the place of `a` in the list,
the header is written in front of the pointer, the user bytes are zeroed; outside the block
of `a` only the `next` field of `prev_node` changes. -/
theorem free_list_alloc_split {fuel : Nat} {free_list : FreeListAllocator} {mem : Mem}
    {size align prev_node a s nxt P R : Nat}
    (hchk : ¬ (wsub free_list.buffer_size free_list.buffer_used < size ∨ free_list.head = 0))
    (hs : free_list_search fuel free_list mem (max size 16) align =
      .ok (prev_node, a, R, P))
    (ha0 : a ≠ 0) (haw : a + s < WORD) (hbs : load64 mem (a + 8) = s)
    (hnx : load64 mem a = nxt) (hnxw : nxt < WORD) (hP : 16 ≤ P) (hR : R = P + max size 16)
    (hRs : R ≤ s) (hprev : prev_node = 0 ∨ prev_node + 16 ≤ a) (hsp : s - R > 16) :
    ∃ mem1, free_list_alloc fuel free_list mem size align =
        .ok (a + P,
          { free_list with
            head := if prev_node = 0 then a + R else free_list.head,
            buffer_used := wadd free_list.buffer_used R }, mem1) ∧
      (∀ x, x < a ∨ a + s ≤ x → prev_node = 0 ∨ x < prev_node ∨ prev_node + 8 ≤ x →
        mem1 x = mem x) ∧
      (prev_node ≠ 0 → load64 mem1 prev_node = a + R) ∧
      load64 mem1 (a + R) = nxt ∧ load64 mem1 (a + R + 8) = s - R ∧
      load64 mem1 (a + P - 16) = P ∧ load64 mem1 (a + P - 8) = R ∧
      (∀ x, a + P ≤ x → x < a + P + max size 16 → mem1 x = 0) := by
  have h16 : 16 ≤ max size 16 := Nat.le_max_right _ _
  have hw8 : wadd a 8 = a + 8 := wadd_of_lt (by omega)
  have hsub : wsub s R = s - R := wsub_of_le hRs (by omega)
  have hsp1 : s - R > FREE_LIST_NODE_SIZE := hsp
  have hwR : wadd a R = a + R := wadd_of_lt (by omega)
  have hwR8 : wadd (a + R) 8 = a + R + 8 := wadd_of_lt (by omega)
  have hwP : wadd a P = a + P := wadd_of_lt (by omega)
  have hwP16 : wsub (a + P) FREE_LIST_HEADER_SIZE = a + P - 16 :=
    wsub_of_le (by unfold FREE_LIST_HEADER_SIZE; omega) (by omega)
  have hwP8 : wadd (a + P - 16) 8 = a + P - 8 := by rw [wadd_of_lt (by omega)]; omega
  have hl2 : load64 (store64 (store64 mem (a + R + 8) (s - R)) (a + 8) R) a = nxt := by
    rw [load64_store64_ne (by omega), load64_store64_ne (by omega)]; exact hnx
  have hl4 : ∀ m : Mem, load64 (store64 m a (a + R)) a = a + R :=
    fun m => load64_store64 m a (a + R) (by omega)
  have hms : ∀ m : Mem, memset m (a + P) 0 (max size 16) =
      .ok (mem_fill m (a + P) 0 (max size 16)) :=
    fun m => memset_eq_of_pos (a + P) 0 (max size 16) (by omega) (by omega) (by omega)
  unfold free_list_alloc
  rw [if_neg hchk]
  simp only [free_list_size_max]
  rw [hs]
  simp only [ha0, if_false, hw8, hbs, hsub, hsp1, if_true, hwR, hwR8, free_list_insert_node,
    free_list_remove_node, hl2, hl4, hwP, hwP16, hwP8]
  clear hs hchk
  have hPw : P < WORD := by omega
  have hRw : R < WORD := by omega
  have hsRw : s - R < WORD := by omega
  have haRw : a + R < WORD := by omega
  by_cases hp0 : prev_node = 0
  · simp only [hp0, if_true]
    have hl5 : load64 (store64 (store64 (store64 (store64 mem (a + R + 8) (s - R)) (a + 8) R)
        (a + R) nxt) a (a + R)) (a + 8) = R := by
      rw [load64_store64_ne (by omega), load64_store64_ne (by omega)]
      exact load64_store64 _ _ _ hRw
    simp only [hl5, hms]
    refine ⟨_, rfl, ?_, fun h => absurd rfl h, ?_, ?_, ?_, ?_, ?_⟩
    · intro x hx1 _
      rw [mem_fill_ne (by omega), store64_ne (by omega), store64_ne (by omega),
        store64_ne (by omega), store64_ne (by omega), store64_ne (by omega),
        store64_ne (by omega)]
    · rw [load64_fill_ne (by omega), load64_store64_ne (by omega),
        load64_store64_ne (by omega), load64_store64_ne (by omega)]
      exact load64_store64 _ _ _ hnxw
    · rw [load64_fill_ne (by omega), load64_store64_ne (by omega),
        load64_store64_ne (by omega), load64_store64_ne (by omega),
        load64_store64_ne (by omega), load64_store64_ne (by omega)]
      exact load64_store64 _ _ _ hsRw
    · rw [load64_fill_ne (by omega)]
      exact load64_store64 _ _ _ hPw
    · rw [load64_fill_ne (by omega), load64_store64_ne (by omega)]
      exact load64_store64 _ _ _ hRw
    · intro x h1 h2
      exact mem_fill_eq h1 h2
  · have hpa : prev_node + 16 ≤ a := by omega
    simp only [hp0, if_false]
    have hl5 : load64 (store64 (store64 (store64 (store64 (store64 mem (a + R + 8) (s - R))
        (a + 8) R) (a + R) nxt) a (a + R)) prev_node (a + R)) (a + 8) = R := by
      rw [load64_store64_ne (by omega), load64_store64_ne (by omega),
        load64_store64_ne (by omega)]
      exact load64_store64 _ _ _ hRw
    simp only [hl5, hms]
    refine ⟨_, rfl, ?_, fun _ => ?_, ?_, ?_, ?_, ?_, ?_⟩
    · intro x hx1 hx2
      have hx3 := hx2.resolve_left (fun h => h)
      rw [mem_fill_ne (by omega), store64_ne (by omega), store64_ne (by omega),
        store64_ne (by omega), store64_ne (by omega), store64_ne (by omega),
        store64_ne (by omega), store64_ne (by omega)]
    · rw [load64_fill_ne (by omega), load64_store64_ne (by omega),
        load64_store64_ne (by omega)]
      exact load64_store64 _ _ _ haRw
    · rw [load64_fill_ne (by omega), load64_store64_ne (by omega),
        load64_store64_ne (by omega), load64_store64_ne (by omega),
        load64_store64_ne (by omega)]
      exact load64_store64 _ _ _ hnxw
    · rw [load64_fill_ne (by omega), load64_store64_ne (by omega),
        load64_store64_ne (by omega), load64_store64_ne (by omega),
        load64_store64_ne (by omega), load64_store64_ne (by omega),
        load64_store64_ne (by omega)]
      exact load64_store64 _ _ _ hsRw
    · rw [load64_fill_ne (by omega)]
      exact load64_store64 _ _ _ hPw
    · rw [load64_fill_ne (by omega), load64_store64_ne (by omega)]
      exact load64_store64 _ _ _ hRw
    · intro x h1 h2
      exact mem_fill_eq h1 h2

set_option maxHeartbeats 1000000 in
/-- `free_list_alloc` after a search that found node `a` of size `s` with successor `nxt`,
when the block is not split: `a` leaves the list, the header is written in front of the
pointer, the user bytes are zeroed; outside the block of `a` only the `next` field of
`prev_node` changes. -/
theorem free_list_alloc_whole {fuel : Nat} {free_list : FreeListAllocator} {mem : Mem}
    {size align prev_node a s nxt P R : Nat}
    (hchk : ¬ (wsub free_list.buffer_size free_list.buffer_used < size ∨ free_list.head = 0))
    (hs : free_list_search fuel free_list mem (max size 16) align =
      .ok (prev_node, a, R, P))
    (ha0 : a ≠ 0) (haw : a + s < WORD) (hbs : load64 mem (a + 8) = s)
    (hnx : load64 mem a = nxt) (hnxw : nxt < WORD) (hP : 16 ≤ P) (hR : R = P + max size 16)
    (hRs : R ≤ s) (hprev : prev_node = 0 ∨ prev_node + 16 ≤ a) (hsp : ¬ s - R > 16) :
    ∃ mem1, free_list_alloc fuel free_list mem size align =
        .ok (a + P,
          { free_list with
            head := if prev_node = 0 then nxt else free_list.head,
            buffer_used := wadd free_list.buffer_used s }, mem1) ∧
      (∀ x, x < a ∨ a + s ≤ x → prev_node = 0 ∨ x < prev_node ∨ prev_node + 8 ≤ x →
        mem1 x = mem x) ∧
      (prev_node ≠ 0 → load64 mem1 prev_node = nxt) ∧
      load64 mem1 (a + P - 16) = P ∧ load64 mem1 (a + P - 8) = s ∧
      (∀ x, a + P ≤ x → x < a + P + max size 16 → mem1 x = 0) := by
  have h16 : 16 ≤ max size 16 := Nat.le_max_right _ _
  have hw8 : wadd a 8 = a + 8 := wadd_of_lt (by omega)
  have hsub : wsub s R = s - R := wsub_of_le hRs (by omega)
  have hsp1 : ¬ s - R > FREE_LIST_NODE_SIZE := hsp
  have hwP : wadd a P = a + P := wadd_of_lt (by omega)
  have hwP16 : wsub (a + P) FREE_LIST_HEADER_SIZE = a + P - 16 :=
    wsub_of_le (by unfold FREE_LIST_HEADER_SIZE; omega) (by omega)
  have hwP8 : wadd (a + P - 16) 8 = a + P - 8 := by rw [wadd_of_lt (by omega)]; omega
  have hms : ∀ m : Mem, memset m (a + P) 0 (max size 16) =
      .ok (mem_fill m (a + P) 0 (max size 16)) :=
    fun m => memset_eq_of_pos (a + P) 0 (max size 16) (by omega) (by omega) (by omega)
  unfold free_list_alloc
  rw [if_neg hchk]
  simp only [free_list_size_max]
  rw [hs]
  simp only [ha0, if_false, hw8, hbs, hsub, hsp1, free_list_remove_node, hnx, hwP, hwP16,
    hwP8]
  clear hs hchk
  have hPw : P < WORD := by omega
  have hsw : s < WORD := by omega
  by_cases hp0 : prev_node = 0
  · simp only [hp0, if_true, hbs, hms]
    refine ⟨_, rfl, ?_, fun h => absurd rfl h, ?_, ?_, ?_⟩
    · intro x hx1 _
      rw [mem_fill_ne (by omega), store64_ne (by omega), store64_ne (by omega)]
    · rw [load64_fill_ne (by omega)]
      exact load64_store64 _ _ _ hPw
    · rw [load64_fill_ne (by omega), load64_store64_ne (by omega)]
      exact load64_store64 _ _ _ hsw
    · intro x h1 h2
      exact mem_fill_eq h1 h2
  · have hpa : prev_node + 16 ≤ a := by omega
    have hl5 : load64 (store64 mem prev_node nxt) (a + 8) = s := by
      rw [load64_store64_ne (by omega)]; exact hbs
    simp only [hp0, if_false, hl5, hms]
    refine ⟨_, rfl, ?_, fun _ => ?_, ?_, ?_, ?_⟩
    · intro x hx1 hx2
      have hx3 := hx2.resolve_left (fun h => h)
      rw [mem_fill_ne (by omega), store64_ne (by omega), store64_ne (by omega),
        store64_ne (by omega)]
    · rw [load64_fill_ne (by omega), load64_store64_ne (by omega),
        load64_store64_ne (by omega)]
      exact load64_store64 _ _ _ hnxw
    · rw [load64_fill_ne (by omega)]
      exact load64_store64 _ _ _ hPw
    · rw [load64_fill_ne (by omega), load64_store64_ne (by omega)]
      exact load64_store64 _ _ _ hsw
    · intro x h1 h2
      exact mem_fill_eq h1 h2

/-- The first-fit loop over a well-formed list: either no node is eligible and nothing is
found, or the list splits around the first eligible node and `prev_node` is the node just
before it (the initial `prev_node` when there is none). -/
theorem free_list_first_fit_spec {mem : Mem} {size k : Nat} (hal : 2 ^ k < WORD)
    (hno : 16 + 2 ^ k + size ≤ WORD) (nodes : List (Nat × Nat)) :
    ∀ (fuel prev_node node : Nat), FreeList mem node nodes →
      (∀ n ∈ nodes, n.1 + 16 ≤ WORD ∧ n.1 + n.2 ≤ WORD) → nodes.length < fuel →
      (∃ prev1, free_list_first_fit mem size (2 ^ k) fuel prev_node node =
          .ok (prev1, 0, 0, 0) ∧
        ∀ n ∈ nodes, ¬ padding_nat (2 ^ k) n.1 16 + size ≤ n.2) ∨
      ∃ pre a s post, nodes = pre ++ (a, s) :: post ∧
        free_list_first_fit mem size (2 ^ k) fuel prev_node node =
          .ok (pre.foldl (fun _ n => n.1) prev_node, a,
            padding_nat (2 ^ k) a 16 + size, padding_nat (2 ^ k) a 16) ∧
        padding_nat (2 ^ k) a 16 + size ≤ s ∧
        ∀ n ∈ pre, ¬ padding_nat (2 ^ k) n.1 16 + size ≤ n.2 := by
  induction nodes with
  | nil =>
    intro fuel prev_node node hl _ hf
    obtain ⟨f, rfl⟩ : ∃ f, fuel = f + 1 := ⟨fuel - 1, by simp at hf; omega⟩
    have hn : node = 0 := hl
    left
    refine ⟨prev_node, ?_, fun n hn => absurd hn (List.not_mem_nil _)⟩
    simp only [free_list_first_fit, hn, if_true]
  | cons b rest ih =>
    intro fuel prev_node node hl hwf hf
    obtain ⟨a, s⟩ := b
    obtain ⟨f, rfl⟩ : ∃ f, fuel = f + 1 := ⟨fuel - 1, by simp at hf; omega⟩
    obtain ⟨h1, h2, h3, h4⟩ := hl
    subst h1
    obtain ⟨w1, w2⟩ := hwf (node, s) (List.mem_cons_self _ _)
    dsimp only at w1 w2
    obtain ⟨_, q2, q3, _, _⟩ := padding_nat_spec (2 ^ k) node 16 (Nat.two_pow_pos k)
    have hpad : get_padding_with_header node 16 (2 ^ k) =
        .ok (padding_nat (2 ^ k) node 16) :=
      get_padding_with_header_eq hal (by omega)
    have hreq : wadd (padding_nat (2 ^ k) node 16) size = padding_nat (2 ^ k) node 16 + size :=
      wadd_of_lt (by omega)
    have hbs : load64 mem (wadd node 8) = s := by rw [wadd_of_lt (by omega)]; exact h3
    have hrest : ∀ n ∈ rest, n.1 + 16 ≤ WORD ∧ n.1 + n.2 ≤ WORD :=
      fun n hn => hwf n (List.mem_cons_of_mem _ hn)
    have hlen : rest.length < f := by simp only [List.length_cons] at hf; omega
    simp only [free_list_first_fit, FREE_LIST_HEADER_SIZE, h2, if_false, hpad, hreq, hbs]
    by_cases hc : s ≥ padding_nat (2 ^ k) node 16 + size
    · rw [if_pos hc]
      right
      exact ⟨[], node, s, rest, rfl, rfl, hc, fun n hn => absurd hn (List.not_mem_nil _)⟩
    · rw [if_neg hc]
      rcases ih f node (load64 mem node) h4 hrest hlen with ⟨p1, e1, e2⟩ |
        ⟨pre, a', s', post, e1, e2, e3, e4⟩
      · left
        refine ⟨p1, e1, fun n hn => ?_⟩
        rcases List.mem_cons.mp hn with he | hin
        · subst he; exact hc
        · exact e2 n hin
      · right
        refine ⟨(node, s) :: pre, a', s', post, by rw [e1]; rfl, e2, e3, fun n hn => ?_⟩
        rcases List.mem_cons.mp hn with he | hin
        · subst he; exact hc
        · exact e4 n hin

theorem free_seg_head {mem : Mem} {head stop : Nat} {nodes : List (Nat × Nat)}
    (h : FreeSeg mem head stop nodes) : head = (nodes.head?.map Prod.fst).getD stop := by
  cases nodes with
  | nil => exact h
  | cons b rest => exact h.1

/-- Redirecting the `next` field of the last node of a segment. -/
theorem free_seg_relink {mem mem1 : Mem} {head stop link b t : Nat} {pre0 : List (Nat × Nat)}
    (h : FreeSeg mem head stop (pre0 ++ [(b, t)]))
    (hf : ∀ n ∈ pre0, ∀ x, n.1 ≤ x → x < n.1 + 16 → mem1 x = mem x)
    (hb : ∀ x, b + 8 ≤ x → x < b + 16 → mem1 x = mem x) (hn : load64 mem1 b = link) :
    FreeSeg mem1 head link (pre0 ++ [(b, t)]) := by
  obtain ⟨mid, m1, m2⟩ := free_seg_split pre0 head stop [(b, t)] h
  obtain ⟨e1, e2, e3, _⟩ := m2
  have hl8 : load64 mem1 (b + 8) = load64 mem (b + 8) :=
    load64_congr (fun x hx1 hx2 => hb x hx1 (by omega))
  exact free_seg_append pre0 head mid link [(b, t)] (free_seg_frame pre0 head mid hf m1)
    ⟨e1, e2, hl8.trans e3, hn⟩

theorem list_nil_or_snoc {α : Type} (l : List α) : l = [] ∨ ∃ l0 x, l = l0 ++ [x] := by
  rcases List.eq_nil_or_concat l with h | ⟨l0, x, h⟩
  · exact Or.inl h
  · exact Or.inr ⟨l0, x, by rw [h, List.concat_eq_append]⟩

theorem foldl_last_addr (pre0 : List (Nat × Nat)) (b t p : Nat) :
    (pre0 ++ [(b, t)]).foldl (fun _ n => n.1) p = b := by
  rw [List.foldl_append]; rfl

set_option maxHeartbeats 1000000 in
/-- First-fit `free_list_alloc` on a sorted free list inside `[lo, hi]`: it returns; `NULL`
leaves everything unchanged; otherwise the list splits around the first eligible node
`(a, s)`, the pointer is `a` plus the padding, the header in front of it records the padding
and the consumed size, the user bytes are zero, memory outside the free blocks is untouched,
and the new free list is the old one with `(a, s)` replaced by the remainder
`(a + required, s - required)` when that exceeds 16 bytes, and removed otherwise. -/
theorem free_list_alloc_first_spec (fuel : Nat) (free_list : FreeListAllocator) (mem : Mem)
    (nodes : List (Nat × Nat)) (size k lo hi : Nat)
    (hpol : free_list.allocation_policy = .Allocation_Policy_First_Fit) (hal : 2 ^ k < WORD)
    (hno : 16 + 2 ^ k + max size 16 ≤ WORD) (hl : FreeList mem free_list.head nodes)
    (hso : FreeSorted lo nodes) (hlo : 1 ≤ lo) (hhi : ∀ n ∈ nodes, n.1 + n.2 ≤ hi)
    (hhw : hi < WORD) (hfuel : nodes.length < fuel) :
    ∃ p free_list1 mem1,
      free_list_alloc fuel free_list mem size (2 ^ k) = .ok (p, free_list1, mem1) ∧
      ((p = 0 ∧ free_list1 = free_list ∧ mem1 = mem ∧
          (wsub free_list.buffer_size free_list.buffer_used < size ∨
            ∀ n ∈ nodes, ¬ padding_nat (2 ^ k) n.1 16 + max size 16 ≤ n.2)) ∨
        ∃ pre a s post, nodes = pre ++ (a, s) :: post ∧
          ¬ wsub free_list.buffer_size free_list.buffer_used < size ∧
          (∀ n ∈ pre, ¬ padding_nat (2 ^ k) n.1 16 + max size 16 ≤ n.2) ∧
          padding_nat (2 ^ k) a 16 + max size 16 ≤ s ∧ p = a + padding_nat (2 ^ k) a 16 ∧
          free_list1.buffer = free_list.buffer ∧
          free_list1.buffer_size = free_list.buffer_size ∧
          free_list1.allocation_policy = free_list.allocation_policy ∧
          ((16 < s - (padding_nat (2 ^ k) a 16 + max size 16) ∧
              free_list1.buffer_used =
                wadd free_list.buffer_used (padding_nat (2 ^ k) a 16 + max size 16) ∧
              FreeList mem1 free_list1.head
                (pre ++ (a + (padding_nat (2 ^ k) a 16 + max size 16),
                  s - (padding_nat (2 ^ k) a 16 + max size 16)) :: post) ∧
              load64 mem1 (p - 8) = padding_nat (2 ^ k) a 16 + max size 16) ∨
            (¬ 16 < s - (padding_nat (2 ^ k) a 16 + max size 16) ∧
              free_list1.buffer_used = wadd free_list.buffer_used s ∧
              FreeList mem1 free_list1.head (pre ++ post) ∧ load64 mem1 (p - 8) = s)) ∧
          load64 mem1 (p - 16) = padding_nat (2 ^ k) a 16 ∧
          (∀ x, p ≤ x → x < p + max size 16 → mem1 x = 0) ∧
          (∀ x, (∀ n ∈ nodes, x < n.1 ∨ n.1 + n.2 ≤ x) → mem1 x = mem x)) := by
  have hbnd := free_sorted_mem nodes lo hso
  have hwf : ∀ n ∈ nodes, n.1 + 16 ≤ WORD ∧ n.1 + n.2 ≤ WORD := by
    intro n hn
    have := hbnd n hn
    have := hhi n hn
    omega
  by_cases hchk : wsub free_list.buffer_size free_list.buffer_used < size ∨ free_list.head = 0
  · refine ⟨0, free_list, mem, ?_, Or.inl ⟨rfl, rfl, rfl, ?_⟩⟩
    · unfold free_list_alloc; rw [if_pos hchk]
    · rcases hchk with h1 | h2
      · exact Or.inl h1
      · right
        cases nodes with
        | nil => intro n hn; exact absurd hn (List.not_mem_nil _)
        | cons b rest =>
          have := hbnd b (List.mem_cons_self _ _)
          have := hl.1
          omega
  · rcases free_list_first_fit_spec hal hno nodes fuel 0 free_list.head hl hwf hfuel with
      ⟨p1, e1, e2⟩ | ⟨pre, a, s, post, e1, e2, e3, e4⟩
    · have hs : free_list_search fuel free_list mem (max size 16) (2 ^ k) =
          .ok (p1, 0, 0, 0) := by unfold free_list_search; rw [hpol]; exact e1
      exact ⟨0, free_list, mem, free_list_alloc_not_found hs, Or.inl ⟨rfl, rfl, rfl, Or.inr e2⟩⟩
    · have hs : free_list_search fuel free_list mem (max size 16) (2 ^ k) =
          .ok (pre.foldl (fun _ n => n.1) 0, a, padding_nat (2 ^ k) a 16 + max size 16,
            padding_nat (2 ^ k) a 16) := by unfold free_list_search; rw [hpol]; exact e2
      subst e1
      have hP16 : 16 ≤ padding_nat (2 ^ k) a 16 :=
        (padding_nat_spec (2 ^ k) a 16 (Nat.two_pow_pos k)).2.1
      obtain ⟨s1, s2, s3, s4, s5⟩ := free_sorted_split pre lo a s post hso
      have hpost := free_sorted_mem post _ s5
      have hpre := free_sorted_mem pre lo s3
      have has : a + s ≤ hi := hhi (a, s) (List.mem_append_right _ (List.mem_cons_self _ _))
      obtain ⟨mid, g1, g2⟩ := free_seg_split pre _ 0 ((a, s) :: post)
        ((free_list_iff_seg _ _).mp hl)
      obtain ⟨k1, k2, k3, k4⟩ := g2
      subst k1
      have hnxw : load64 mem mid < WORD := by
        rw [free_seg_head k4]
        cases post with
        | nil => unfold WORD; simp
        | cons c post =>
          have := hhi c (List.mem_append_right _ (List.mem_cons_of_mem _
            (List.mem_cons_self _ _)))
          have := hpost c (List.mem_cons_self _ _)
          simp only [List.head?_cons, Option.map_some', Option.getD_some]
          omega
      have hprev : pre.foldl (fun _ n => n.1) 0 = 0 ∨ pre.foldl (fun _ n => n.1) 0 + 16 ≤ mid := by
        rcases list_nil_or_snoc pre with rfl | ⟨pre0, bt, rfl⟩
        · left; rfl
        · right
          obtain ⟨b, t⟩ := bt
          rw [foldl_last_addr]
          have := s4 (b, t) (List.mem_append_right _ (List.mem_singleton.mpr rfl))
          have := hpre (b, t) (List.mem_append_right _ (List.mem_singleton.mpr rfl))
          dsimp only at *
          omega
      have hframe_post : ∀ {m1 : Mem},
          (∀ x, x < mid ∨ mid + s ≤ x → pre.foldl (fun _ n => n.1) 0 = 0 ∨
            x < pre.foldl (fun _ n => n.1) 0 ∨
            pre.foldl (fun _ n => n.1) 0 + 8 ≤ x → m1 x = mem x) →
          FreeSeg m1 (load64 mem mid) 0 post := by
        intro m1 hfr
        refine free_seg_frame post _ 0 (fun n hn x hx1 hx2 => hfr x ?_ ?_) k4
        · have := hpost n hn; omega
        · have := hpost n hn
          rcases hprev with h | h
          · exact Or.inl h
          · right; omega
      have hframe_pre : ∀ {m1 : Mem} {link : Nat},
          (∀ x, x < mid ∨ mid + s ≤ x → pre.foldl (fun _ n => n.1) 0 = 0 ∨
            x < pre.foldl (fun _ n => n.1) 0 ∨
            pre.foldl (fun _ n => n.1) 0 + 8 ≤ x → m1 x = mem x) →
          (pre.foldl (fun _ n => n.1) 0 ≠ 0 → load64 m1 (pre.foldl (fun _ n => n.1) 0) = link) →
          FreeSeg m1 (if pre.foldl (fun _ n => n.1) 0 = 0 then link else free_list.head)
            link pre := by
        intro m1 link hfr hlk
        rcases list_nil_or_snoc pre with rfl | ⟨pre0, bt, rfl⟩
        · exact (if_pos rfl : (if (0 : Nat) = 0 then link else free_list.head) = link)
        · obtain ⟨b, t⟩ := bt
          rw [foldl_last_addr] at hfr hlk ⊢
          have hbt1 := s4 (b, t) (List.mem_append_right _ (List.mem_singleton.mpr rfl))
          have hbt2 := hpre (b, t) (List.mem_append_right _ (List.mem_singleton.mpr rfl))
          obtain ⟨z1, z2, z3, z4, z5⟩ := free_sorted_split pre0 lo b t [] s3
          dsimp only at hbt1 hbt2
          have hb0 : b ≠ 0 := by omega
          rw [if_neg hb0]
          have hpre0 := free_sorted_mem pre0 lo z3
          refine free_seg_relink g1 (fun n hn x hx1 hx2 => hfr x ?_ ?_) (fun x hx1 hx2 =>
            hfr x (by omega) (by omega)) (hlk hb0)
          · have := z4 n hn; have := hpre0 n hn; omega
          · have := z4 n hn; have := hpre0 n hn; omega
      have hframe_all : ∀ {m1 : Mem},
          (∀ x, x < mid ∨ mid + s ≤ x → pre.foldl (fun _ n => n.1) 0 = 0 ∨
            x < pre.foldl (fun _ n => n.1) 0 ∨
            pre.foldl (fun _ n => n.1) 0 + 8 ≤ x → m1 x = mem x) →
          ∀ x, (∀ n ∈ pre ++ (mid, s) :: post, x < n.1 ∨ n.1 + n.2 ≤ x) → m1 x = mem x := by
        intro m1 hfr x hx
        refine hfr x (hx (mid, s) (List.mem_append_right _ (List.mem_cons_self _ _))) ?_
        rcases list_nil_or_snoc pre with rfl | ⟨pre0, bt, rfl⟩
        · left; rfl
        · obtain ⟨b, t⟩ := bt
          rw [foldl_last_addr]
          right
          have := hx (b, t) (List.mem_append_left _ (List.mem_append_right _
            (List.mem_singleton.mpr rfl)))
          have := hpre (b, t) (List.mem_append_right _ (List.mem_singleton.mpr rfl))
          dsimp only at *
          omega
      by_cases hsp : s - (padding_nat (2 ^ k) mid 16 + max size 16) > 16
      · obtain ⟨mem1, r1, r2, r3, r4, r5, r6, r7, r8⟩ := free_list_alloc_split hchk hs k2
          (by omega) k3 rfl hnxw hP16 rfl e3 hprev hsp
        refine ⟨_, _, mem1, r1, Or.inr ⟨pre, mid, s, post, rfl, fun h => hchk (Or.inl h), e4,
          e3, rfl, rfl, rfl, rfl, Or.inl ⟨hsp, rfl, ?_, r7⟩, r6, r8, hframe_all r2⟩⟩
        refine (free_list_iff_seg _ _).mpr ?_
        refine free_seg_append pre _ _ 0 _ (hframe_pre r2 r3) ⟨rfl, by omega, r5, ?_⟩
        rw [r4]
        exact hframe_post r2
      · obtain ⟨mem1, r1, r2, r3, r6, r7, r8⟩ := free_list_alloc_whole hchk hs k2
          (by omega) k3 rfl hnxw hP16 rfl e3 hprev hsp
        refine ⟨_, _, mem1, r1, Or.inr ⟨pre, mid, s, post, rfl, fun h => hchk (Or.inl h), e4,
          e3, rfl, rfl, rfl, rfl, Or.inr ⟨hsp, rfl, ?_, r7⟩, r6, r8, hframe_all r2⟩⟩
        refine (free_list_iff_seg _ _).mpr ?_
        exact free_seg_append pre _ _ 0 _ (hframe_pre r2 r3) (hframe_post r2)

/-! ## Further evaluations of the arena, stack, free-list and buddy code -/

/-- Claim C24 at its failing input: in the arena `(4096, 64, 32)` the block `old = 4096` of
8 bytes is not the tail; a fresh allocation of 64 bytes does not fit (`arena_alloc` returns
`NULL` and leaves the arena alone), and `arena_resize` then passes that `NULL` to `memset`
instead of returning it. -/
theorem arena_resize_null_write :
    arena_alloc ⟨4096, 64, 32⟩ (fun _ => 0) 64 8 = .ok (0, ⟨4096, 64, 32⟩, fun _ => 0) ∧
      arena_resize ⟨4096, 64, 32⟩ (fun _ => 0) 4096 8 64 8 = .error .segfault :=
  ⟨rfl, rfl⟩

/-- Claim C25 at its failing input: on the empty 1024-byte stack at 4096 the padding for
`align = 8` is 16, so for `size = 2^64 - 16` the sum `offset + padding + size = 2^64`
exceeds the capacity; computed in `size_t` it wraps to 0, the check passes, and the call
runs `memset` over `2^64 - 16` bytes instead of returning `NULL`. -/
theorem stack_alloc_wrap_fault :
    get_padding_with_header 4096 STACK_HEADER_SIZE 8 = .ok 16 ∧
      stack_alloc ⟨4096, 1024, 0, 0⟩ (fun _ => 0) (2 ^ 64 - 16) 8 = .error .segfault :=
  ⟨rfl, rfl⟩

/-- Claim C28 at its failing input: best-fit `free_list_alloc(32, 8)` on the three holes
64, 40, 96 hands out the first hole (pointer 4112 = 4096 + 16), which is the head and not
the last node. The search leaves `prev_node` at the last node 4304, so the unlink rewrites
that node (its `next` now points back to 4200) and `head` still is 4096, the block just
handed out, whose `next` field now holds the header's padding 16. -/
theorem free_list_alloc_best_fit_keeps_block :
    ∃ r, free_list_alloc 4 three_holes three_holes_mem 32 8 = .ok r ∧ r.1 = 4112 ∧
      r.2.1.head = 4096 ∧ load64 r.2.2 4304 = 4200 ∧ load64 r.2.2 4096 = 16 :=
  ⟨_, rfl, rfl, rfl, rfl, rfl⟩

/-- With a required size of 0 the split loop of `buddy_alloc` never stops. -/
theorem buddy_split_down_zero (fuel : Nat) (tree : Nat → Nat) (i s h : Nat) :
    buddy_split_down 0 fuel tree i s h = .error .out_of_fuel := by
  induction fuel generalizing tree i s h with
  | zero => rfl
  | succ n ih =>
    unfold buddy_split_down
    rw [if_pos (Nat.zero_le _)]
    exact ih _ _ _ _

/-- Claim C29 at its failing input: on the fresh buddy allocator over 128 bytes at 4096 with
leaves of 8 bytes, `buddy_alloc(0)` computes the required size `align_forward(0, 8) = 0`,
finds the root, and then splits downwards for ever because `0 <= buddy_size >> 1` always
holds: no step budget lets the call return. -/
theorem buddy_alloc_zero_diverges (fuel : Nat) (mem : Mem) :
    buddy_init 4096 128 8 =
        .ok { tree := fun _ => 0, buffer := 4096, tree_height := 4, alignment := 8 } ∧
      align_forward 0 8 = .ok 0 ∧
      buddy_alloc fuel { tree := fun _ => 0, buffer := 4096, tree_height := 4, alignment := 8 }
        mem 0 = .error .out_of_fuel := by
  refine ⟨rfl, rfl, ?_⟩
  match fuel with
  | 0 => rfl
  | 1 => rfl
  | n + 2 =>
    have hs : buddy_search (fun _ => 0) (wmul 16 8) 0 (n + 2)
        { queue := fun j => if j = 0 then 0 else 0, head := 0, tail := 1, found := false,
          buddy_index := 0, buddy_size := WORD - 1, buddy_height := 0 } =
        .ok ⟨fun j => if j = 0 then 0 else 0, 1, 1, true, 0, 128, 0⟩ := rfl
    unfold buddy_alloc buddy_alloc_block
    have ha : align_forward 0 8 = .ok 0 := rfl
    have hp : POW_OF_2 4 = .ok 16 := rfl
    simp only [ha, hp, hs, if_true, buddy_split_down_zero]

/-- Both outcomes of `stack_alloc` when `offset + padding + size` does not wrap: a fit
returns `base + offset + padding` behind a header stored at or above the old offset and
moves the offsets; otherwise the call returns `NULL` and changes nothing. -/
theorem stack_alloc_spec {stack : StackAllocator} {mem : Mem} {size k : Nat}
    (hb : 1 ≤ stack.buffer) (hfit : stack.buffer + stack.buffer_size + 144 ≤ WORD)
    (hoff : stack.offset ≤ stack.buffer_size) (hprev : stack.prev_offset < WORD)
    (hsz : stack.offset + padding_nat (2 ^ min k 7) (stack.buffer + stack.offset) 16 + size <
      WORD) :
    (stack.offset + padding_nat (2 ^ min k 7) (stack.buffer + stack.offset) 16 + size ≤
        stack.buffer_size →
      ∃ mem1, stack_alloc stack mem size (2 ^ k) =
          .ok (stack.buffer + stack.offset +
              padding_nat (2 ^ min k 7) (stack.buffer + stack.offset) 16,
            { stack with
              prev_offset := stack.offset,
              offset := stack.offset +
                padding_nat (2 ^ min k 7) (stack.buffer + stack.offset) 16 + size }, mem1) ∧
        mem1 (stack.buffer + stack.offset +
          padding_nat (2 ^ min k 7) (stack.buffer + stack.offset) 16 - 8) =
            padding_nat (2 ^ min k 7) (stack.buffer + stack.offset) 16 ∧
        load64 mem1 (stack.buffer + stack.offset +
          padding_nat (2 ^ min k 7) (stack.buffer + stack.offset) 16 - 16) =
            stack.prev_offset ∧
        stack.buffer + stack.offset ≤ stack.buffer + stack.offset +
          padding_nat (2 ^ min k 7) (stack.buffer + stack.offset) 16 - 16) ∧
    (stack.buffer_size <
        stack.offset + padding_nat (2 ^ min k 7) (stack.buffer + stack.offset) 16 + size →
      stack_alloc stack mem size (2 ^ k) = .ok (0, stack, mem)) := by
  have h128 := two_pow_min_le k
  have hal : 2 ^ min k 7 < WORD := by unfold WORD; omega
  obtain ⟨_, p2, p3, _, _⟩ :=
    padding_nat_spec (2 ^ min k 7) (stack.buffer + stack.offset) 16 (Nat.two_pow_pos _)
  unfold stack_alloc
  simp only [stack_clamp, STACK_HEADER_SIZE]
  rw [wadd_of_lt (by omega : stack.buffer + stack.offset < WORD),
    get_padding_with_header_eq hal (by unfold WORD; omega)]
  simp only
  generalize padding_nat (2 ^ min k 7) (stack.buffer + stack.offset) 16 = padding at *
  rw [wadd_of_lt (by omega : stack.offset + padding < WORD), wadd_of_lt hsz]
  constructor
  · intro hle
    have hc : ¬ stack.offset + padding + size > stack.buffer_size := by omega
    have hp : wadd stack.buffer (stack.offset + padding) =
        stack.buffer + stack.offset + padding := by
      rw [wadd_of_lt (by omega)]; omega
    have hh : wsub (stack.buffer + stack.offset + padding) 16 =
        stack.buffer + stack.offset + padding - 16 := wsub_of_le (by omega) (by omega)
    have hh8 : wadd (stack.buffer + stack.offset + padding - 16) 8 =
        stack.buffer + stack.offset + padding - 8 := by
      rw [wadd_of_lt (by omega)]; omega
    have hps : wadd stack.offset (wadd padding size) = stack.offset + padding + size := by
      rw [wadd_of_lt (by omega : padding + size < WORD), wadd_of_lt (by omega)]; omega
    rw [if_neg hc, hp, hh, hh8, hps]
    obtain ⟨m1, hm⟩ := memset_ok_of_fit (store64 (store8 mem
      (stack.buffer + stack.offset + padding - 8) padding)
      (stack.buffer + stack.offset + padding - 16) stack.prev_offset) 0
      (by omega : stack.buffer + stack.offset + padding ≠ 0)
      (by omega : stack.buffer + stack.offset + padding + size ≤ WORD)
    rw [hm]
    obtain ⟨q1, q2, _⟩ := stack_alloc_mem (by omega) (by omega : padding < 256) hprev hm
    exact ⟨m1, rfl, q1, q2, by omega⟩
  · intro hgt
    rw [if_pos hgt]

/-- The split of a list around its first element satisfying `E` is unique. -/
theorem first_split_unique {α : Type} (E : α → Prop) :
    ∀ (pre pre1 : List α) (x x1 : α) (post post1 : List α),
      pre ++ x :: post = pre1 ++ x1 :: post1 → (∀ n ∈ pre, ¬ E n) → E x →
      (∀ n ∈ pre1, ¬ E n) → E x1 → pre1 = pre ∧ x1 = x ∧ post1 = post := by
  intro pre
  induction pre with
  | nil =>
    intro pre1 x x1 post post1 h _ hx h1 _
    cases pre1 with
    | nil =>
      simp only [List.nil_append, List.cons.injEq] at h
      exact ⟨rfl, h.1.symm, h.2.symm⟩
    | cons b pre1 =>
      simp only [List.nil_append, List.cons_append, List.cons.injEq] at h
      exact absurd (h.1 ▸ hx) (h1 b (List.mem_cons_self _ _))
  | cons a pre ih =>
    intro pre1 x x1 post post1 h h0 hx h1 hx1
    cases pre1 with
    | nil =>
      simp only [List.nil_append, List.cons_append, List.cons.injEq] at h
      exact absurd (h.1 ▸ hx1) (h0 a (List.mem_cons_self _ _))
    | cons b pre1 =>
      simp only [List.cons_append, List.cons.injEq] at h
      obtain ⟨e1, e2, e3⟩ := ih pre1 x x1 post post1 h.2
        (fun n hn => h0 n (List.mem_cons_of_mem _ hn)) hx
        (fun n hn => h1 n (List.mem_cons_of_mem _ hn)) hx1
      exact ⟨by rw [e1, h.1], e2, e3⟩

theorem two_pow_le_half {k : Nat} (h : 2 ^ k < WORD) : 2 ^ k ≤ 2 ^ 63 := by
  have hk : k < 64 := (Nat.pow_lt_pow_iff_right (by decide : 1 < 2)).mp h
  exact Nat.pow_le_pow_right (by decide) (by omega)

/-- Claim C27: first-fit `free_list_alloc(size, align)` with `align = 2^k` on a state whose
free list `pre ++ (a, s) :: post` is sorted by address, non-adjacent, lies in the lower half
of the address space and accounts for `capacity - buffer_used`. With `size' = max(size, 16)`
and `required(n) = get_padding_with_header(addr(n), 16, align) + size'`, if no node of `pre`
has `block_size >= required` and `(a, s)` has, the call returns `a + padding`, a multiple of
`align`, with the header `(padding, consumed)` in the 16 bytes before it. If
`s - required > 16` the free list afterwards is `pre ++ (a + required, s - required) :: post`
and `buffer_used` grows by `required`; otherwise it is `pre ++ post` and `buffer_used` grows
by `s`. -/
theorem free_list_alloc_first_fit (fuel : Nat) (free_list : FreeListAllocator) (mem : Mem)
    (pre post : List (Nat × Nat)) (a s size align k lo hi : Nat)
    (hpol : free_list.allocation_policy = .Allocation_Policy_First_Fit) (hk : align = 2 ^ k)
    (hal : align < WORD) (hl : FreeList mem free_list.head (pre ++ (a, s) :: post))
    (hso : FreeSorted lo (pre ++ (a, s) :: post)) (hlo : 1 ≤ lo)
    (hhi : ∀ n ∈ pre ++ (a, s) :: post, n.1 + n.2 ≤ hi) (hhw : hi + 16 ≤ 2 ^ 63)
    (hsum : free_list.buffer_used + ((pre ++ (a, s) :: post).map Prod.snd).sum =
      free_list.buffer_size) (hcap : free_list.buffer_size < WORD)
    (hfuel : (pre ++ (a, s) :: post).length < fuel)
    (hpre : ∀ n ∈ pre, ¬ padding_nat align n.1 16 + max size 16 ≤ n.2)
    (hfit : padding_nat align a 16 + max size 16 ≤ s) :
    (∀ addr, get_padding_with_header addr FREE_LIST_HEADER_SIZE align =
        .ok (padding_nat align addr 16)) ∧
      ∃ free_list1 mem1,
        free_list_alloc fuel free_list mem size align =
          .ok (a + padding_nat align a 16, free_list1, mem1) ∧
        (a + padding_nat align a 16) % align = 0 ∧
        load64 mem1 (a + padding_nat align a 16 - 16) = padding_nat align a 16 ∧
        (16 < s - (padding_nat align a 16 + max size 16) →
          FreeList mem1 free_list1.head
            (pre ++ (a + (padding_nat align a 16 + max size 16),
              s - (padding_nat align a 16 + max size 16)) :: post) ∧
          free_list1.buffer_used =
            free_list.buffer_used + (padding_nat align a 16 + max size 16) ∧
          load64 mem1 (a + padding_nat align a 16 - 8) =
            padding_nat align a 16 + max size 16) ∧
        (¬ 16 < s - (padding_nat align a 16 + max size 16) →
          FreeList mem1 free_list1.head (pre ++ post) ∧
          free_list1.buffer_used = free_list.buffer_used + s ∧
          load64 mem1 (a + padding_nat align a 16 - 8) = s) := by
  subst hk
  have h63 := two_pow_le_half hal
  have has : a + s ≤ hi := hhi (a, s) (List.mem_append_right _ (List.mem_cons_self _ _))
  have hno : 16 + 2 ^ k + max size 16 ≤ WORD := by unfold WORD; omega
  have hsm : ((pre ++ (a, s) :: post).map Prod.snd).sum =
      (pre.map Prod.snd).sum + (s + (post.map Prod.snd).sum) := by
    simp only [List.map_append, List.map_cons, List.sum_append, List.sum_cons]
  have hP16 : 16 ≤ padding_nat (2 ^ k) a 16 :=
    (padding_nat_spec (2 ^ k) a 16 (Nat.two_pow_pos k)).2.1
  have hsz : size ≤ max size 16 := Nat.le_max_left _ _
  have hchk : ¬ wsub free_list.buffer_size free_list.buffer_used < size := by
    rw [wsub_of_le (by omega) hcap]; omega
  refine ⟨fun addr => get_padding_with_header_eq hal
    (by unfold FREE_LIST_HEADER_SIZE WORD; omega), ?_⟩
  obtain ⟨p, fl1, mem1, r1, r2⟩ := free_list_alloc_first_spec fuel free_list mem
    (pre ++ (a, s) :: post) size k lo hi hpol hal hno hl hso hlo hhi
    (by unfold WORD; omega) hfuel
  rcases r2 with ⟨_, _, _, h1 | h2⟩ | ⟨pre1, a1, s1, post1, e1, _, e3, e4, e5, _, _, _, e9,
    e10, _, _⟩
  · exact absurd h1 hchk
  · exact absurd hfit (h2 (a, s) (List.mem_append_right _ (List.mem_cons_self _ _)))
  · obtain ⟨u1, u2, u3⟩ := first_split_unique
      (fun n : Nat × Nat => padding_nat (2 ^ k) n.1 16 + max size 16 ≤ n.2)
      pre pre1 (a, s) (a1, s1) post post1 e1 hpre hfit e3 e4
    simp only [Prod.mk.injEq] at u2
    obtain ⟨u2a, u2s⟩ := u2
    subst u1 u2a u2s u3 e5
    refine ⟨fl1, mem1, r1, (padding_nat_spec (2 ^ k) a1 16 (Nat.two_pow_pos k)).1, e10, ?_, ?_⟩
    · intro hsp
      rcases e9 with ⟨_, c2, c3, c4⟩ | ⟨c1, _⟩
      · refine ⟨c3, ?_, c4⟩
        rw [c2, wadd_of_lt (by omega)]
      · exact absurd hsp c1
    · intro hsp
      rcases e9 with ⟨c1, _⟩ | ⟨_, c2, c3, c4⟩
      · exact absurd c1 hsp
      · refine ⟨c3, ?_, c4⟩
        rw [c2, wadd_of_lt (by omega)]

/-- Instance of C27: on the whole 1024-byte buffer at 4096 as single free block,
`free_list_alloc(32, 8)` returns 4112 and leaves the remainder `(4144, 976)` free. -/
theorem free_list_alloc_first_fit_witness :
    (∀ addr, get_padding_with_header addr FREE_LIST_HEADER_SIZE 8 =
        .ok (padding_nat 8 addr 16)) ∧
      ∃ free_list1 mem1,
        free_list_alloc 2 ⟨4096, 1024, 0, 4096, .Allocation_Policy_First_Fit⟩
            (store64 (store64 (fun _ => 0) 4104 1024) 4096 0) 32 8 =
          .ok (4096 + padding_nat 8 4096 16, free_list1, mem1) ∧
        (4096 + padding_nat 8 4096 16) % 8 = 0 ∧
        load64 mem1 (4096 + padding_nat 8 4096 16 - 16) = padding_nat 8 4096 16 ∧
        (16 < 1024 - (padding_nat 8 4096 16 + max 32 16) →
          FreeList mem1 free_list1.head
            ([] ++ (4096 + (padding_nat 8 4096 16 + max 32 16),
              1024 - (padding_nat 8 4096 16 + max 32 16)) :: []) ∧
          free_list1.buffer_used = 0 + (padding_nat 8 4096 16 + max 32 16) ∧
          load64 mem1 (4096 + padding_nat 8 4096 16 - 8) =
            padding_nat 8 4096 16 + max 32 16) ∧
        (¬ 16 < 1024 - (padding_nat 8 4096 16 + max 32 16) →
          FreeList mem1 free_list1.head ([] ++ []) ∧
          free_list1.buffer_used = 0 + 1024 ∧
          load64 mem1 (4096 + padding_nat 8 4096 16 - 8) = 1024) :=
  free_list_alloc_first_fit 2 ⟨4096, 1024, 0, 4096, .Allocation_Policy_First_Fit⟩
    (store64 (store64 (fun _ => 0) 4104 1024) 4096 0) [] [] 4096 1024 32 8 3 4096 5120 rfl rfl
    (by decide) ⟨rfl, by decide, by decide, rfl⟩ ⟨Nat.le_refl _, by decide, trivial⟩
    (by decide) (by decide) (by decide) (by decide) (by decide) (by decide)
    (fun n hn => absurd hn (List.not_mem_nil n)) (by decide)

/-! ## Buddy tree cells -/

theorem buddy_bit_pos (i : Nat) : wmul i 2 % 8 = 2 * (i % 4) := by
  unfold wmul WORD; omega

theorem and_two_pow_ne_zero (x b : Nat) : ((x &&& 2 ^ b) != 0) = x.testBit b := by
  rw [Nat.and_two_pow]
  have : 2 ^ b ≠ 0 := Nat.pos_iff_ne_zero.mp (Nat.two_pow_pos b)
  cases h : x.testBit b <;> simp [this]

theorem buddy_mask_testBit (i c : Nat) :
    (BUDDY_MASK i).testBit c = (decide (2 * (i % 4) = c) || decide (2 * (i % 4) + 1 = c)) := by
  unfold BUDDY_MASK BUDDY_LOW BUDDY_HIGH
  rw [buddy_bit_pos, Nat.one_shiftLeft, Nat.one_shiftLeft, Nat.testBit_or,
    Nat.testBit_two_pow, Nat.testBit_two_pow]

/-- `BUDDY_IS_SPLIT` reads the low bit of the node's two-bit cell. -/
theorem buddy_is_split_eq (t : Nat → Nat) (i : Nat) :
    BUDDY_IS_SPLIT t i = (t (i / 4)).testBit (2 * (i % 4)) := by
  unfold BUDDY_IS_SPLIT BUDDY_INDEX BUDDY_SLOT
  have hl : BUDDY_LOW i = 2 ^ (2 * (i % 4)) := by
    unfold BUDDY_LOW; rw [buddy_bit_pos, Nat.one_shiftLeft]
  rw [hl, and_two_pow_ne_zero, Nat.testBit_and, buddy_mask_testBit]
  simp

/-- `BUDDY_IS_ALLOC` reads the high bit of the node's two-bit cell. -/
theorem buddy_is_alloc_eq (t : Nat → Nat) (i : Nat) :
    BUDDY_IS_ALLOC t i = (t (i / 4)).testBit (2 * (i % 4) + 1) := by
  unfold BUDDY_IS_ALLOC BUDDY_INDEX BUDDY_SLOT
  have hl : BUDDY_HIGH i = 2 ^ (2 * (i % 4) + 1) := by
    unfold BUDDY_HIGH; rw [buddy_bit_pos, Nat.one_shiftLeft]
  rw [hl, and_two_pow_ne_zero, Nat.testBit_and, buddy_mask_testBit]
  simp

/-- A node is Free exactly when it is neither Split nor Alloc. -/
theorem buddy_is_free_eq (t : Nat → Nat) (i : Nat) :
    BUDDY_IS_FREE t i = (!BUDDY_IS_SPLIT t i && !BUDDY_IS_ALLOC t i) := by
  rw [buddy_is_split_eq, buddy_is_alloc_eq]
  unfold BUDDY_IS_FREE BUDDY_INDEX BUDDY_SLOT
  cases hs : (t (i / 4)).testBit (2 * (i % 4))
  · cases ha : (t (i / 4)).testBit (2 * (i % 4) + 1)
    · have : t (i / 4) &&& BUDDY_MASK i &&& BUDDY_MASK i = 0 := by
        apply Nat.zero_of_testBit_eq_false
        intro c
        rw [Nat.testBit_and, Nat.testBit_and, buddy_mask_testBit]
        by_cases h1 : 2 * (i % 4) = c
        · subst h1; simp [hs]
        · by_cases h2 : 2 * (i % 4) + 1 = c
          · subst h2; simp [ha]
          · simp [h1, h2]
      rw [this]; rfl
    · have : t (i / 4) &&& BUDDY_MASK i &&& BUDDY_MASK i ≠ 0 := by
        intro h0
        have := congrArg (fun x => Nat.testBit x (2 * (i % 4) + 1)) h0
        simp only [Nat.testBit_and, buddy_mask_testBit, ha, Nat.zero_testBit] at this
        simp at this
      simp [this]
  · have : t (i / 4) &&& BUDDY_MASK i &&& BUDDY_MASK i ≠ 0 := by
      intro h0
      have := congrArg (fun x => Nat.testBit x (2 * (i % 4))) h0
      simp only [Nat.testBit_and, buddy_mask_testBit, hs, Nat.zero_testBit] at this
      simp at this
    simp [this]

theorem buddy_cell_ne {i j : Nat} (h : j ≠ i) (hs : j / 4 = i / 4) : j % 4 ≠ i % 4 := by
  omega

/-- Cells after `BUDDY_SET_SPLIT`. -/
theorem buddy_set_split_split (t : Nat → Nat) (i j : Nat) :
    BUDDY_IS_SPLIT (BUDDY_SET_SPLIT t i) j = if j = i then true else BUDDY_IS_SPLIT t j := by
  rw [buddy_is_split_eq, buddy_is_split_eq]
  unfold BUDDY_SET_SPLIT BUDDY_SLOT BUDDY_LOW
  rw [buddy_bit_pos, Nat.one_shiftLeft]
  by_cases hs : j / 4 = i / 4
  · rw [if_pos hs]
    have h256 : (256 : Nat) = 2 ^ 8 := rfl
    rw [h256, Nat.testBit_mod_two_pow, Nat.testBit_or, Nat.testBit_two_pow]
    have hlt : 2 * (j % 4) < 8 := by omega
    by_cases hji : j = i
    · subst hji; simp [hlt]
    · have := buddy_cell_ne hji hs
      have hne : ¬ (2 * (i % 4) = 2 * (j % 4)) := by omega
      simp [hlt, hne, hji, hs]
  · have hji : j ≠ i := fun h => hs (by rw [h])
    rw [if_neg hs, if_neg hji]

theorem buddy_set_split_alloc (t : Nat → Nat) (i j : Nat) :
    BUDDY_IS_ALLOC (BUDDY_SET_SPLIT t i) j = BUDDY_IS_ALLOC t j := by
  rw [buddy_is_alloc_eq, buddy_is_alloc_eq]
  unfold BUDDY_SET_SPLIT BUDDY_SLOT BUDDY_LOW
  rw [buddy_bit_pos, Nat.one_shiftLeft]
  by_cases hs : j / 4 = i / 4
  · rw [if_pos hs]
    have h256 : (256 : Nat) = 2 ^ 8 := rfl
    rw [h256, Nat.testBit_mod_two_pow, Nat.testBit_or, Nat.testBit_two_pow]
    have hlt : 2 * (j % 4) + 1 < 8 := by omega
    have hne : ¬ (2 * (i % 4) = 2 * (j % 4) + 1) := by omega
    simp [hlt, hne, hs]
  · rw [if_neg hs]

/-- Cells after `BUDDY_SET_ALLOC`. -/
theorem buddy_set_alloc_alloc (t : Nat → Nat) (i j : Nat) :
    BUDDY_IS_ALLOC (BUDDY_SET_ALLOC t i) j = if j = i then true else BUDDY_IS_ALLOC t j := by
  rw [buddy_is_alloc_eq, buddy_is_alloc_eq]
  unfold BUDDY_SET_ALLOC BUDDY_SLOT BUDDY_HIGH
  rw [buddy_bit_pos, Nat.one_shiftLeft]
  by_cases hs : j / 4 = i / 4
  · rw [if_pos hs]
    have h256 : (256 : Nat) = 2 ^ 8 := rfl
    rw [h256, Nat.testBit_mod_two_pow, Nat.testBit_or, Nat.testBit_two_pow]
    have hlt : 2 * (j % 4) + 1 < 8 := by omega
    by_cases hji : j = i
    · subst hji; simp [hlt]
    · have := buddy_cell_ne hji hs
      have hne : ¬ (2 * (i % 4) + 1 = 2 * (j % 4) + 1) := by omega
      simp [hlt, hne, hji, hs]
  · have hji : j ≠ i := fun h => hs (by rw [h])
    rw [if_neg hs, if_neg hji]

theorem buddy_set_alloc_split (t : Nat → Nat) (i j : Nat) :
    BUDDY_IS_SPLIT (BUDDY_SET_ALLOC t i) j = BUDDY_IS_SPLIT t j := by
  rw [buddy_is_split_eq, buddy_is_split_eq]
  unfold BUDDY_SET_ALLOC BUDDY_SLOT BUDDY_HIGH
  rw [buddy_bit_pos, Nat.one_shiftLeft]
  by_cases hs : j / 4 = i / 4
  · rw [if_pos hs]
    have h256 : (256 : Nat) = 2 ^ 8 := rfl
    rw [h256, Nat.testBit_mod_two_pow, Nat.testBit_or, Nat.testBit_two_pow]
    have hlt : 2 * (j % 4) < 8 := by omega
    have hne : ¬ (2 * (i % 4) + 1 = 2 * (j % 4)) := by omega
    simp [hlt, hne, hs]
  · rw [if_neg hs]

theorem buddy_mask_lt (i : Nat) : BUDDY_MASK i < 2 ^ 8 := by
  apply Nat.lt_pow_two_of_testBit
  intro c hc
  rw [buddy_mask_testBit]
  have h1 : ¬ (2 * (i % 4) = c) := by omega
  have h2 : ¬ (2 * (i % 4) + 1 = c) := by omega
  simp [h1, h2]

theorem buddy_clear_testBit (i c : Nat) :
    (255 - BUDDY_MASK i).testBit c =
      (decide (c < 8) && !(decide (2 * (i % 4) = c) || decide (2 * (i % 4) + 1 = c))) := by
  have h := Nat.testBit_two_pow_sub_succ (buddy_mask_lt i) c
  rw [buddy_mask_testBit] at h
  have e : 2 ^ 8 - (BUDDY_MASK i + 1) = 255 - BUDDY_MASK i := by omega
  rw [e] at h
  exact h

/-- Cells after `BUDDY_SET_FREE`. -/
theorem buddy_set_free_split (t : Nat → Nat) (i j : Nat) :
    BUDDY_IS_SPLIT (BUDDY_SET_FREE t i) j = if j = i then false else BUDDY_IS_SPLIT t j := by
  rw [buddy_is_split_eq, buddy_is_split_eq]
  unfold BUDDY_SET_FREE BUDDY_SLOT
  by_cases hs : j / 4 = i / 4
  · rw [if_pos hs, Nat.testBit_and, buddy_clear_testBit]
    have hlt : 2 * (j % 4) < 8 := by omega
    by_cases hji : j = i
    · subst hji; simp
    · have := buddy_cell_ne hji hs
      have hne : ¬ (2 * (i % 4) = 2 * (j % 4)) := by omega
      have hne2 : ¬ (2 * (i % 4) + 1 = 2 * (j % 4)) := by omega
      simp [hlt, hne, hne2, hji, hs]
  · have hji : j ≠ i := fun h => hs (by rw [h])
    rw [if_neg hs, if_neg hji]

theorem buddy_set_free_alloc (t : Nat → Nat) (i j : Nat) :
    BUDDY_IS_ALLOC (BUDDY_SET_FREE t i) j = if j = i then false else BUDDY_IS_ALLOC t j := by
  rw [buddy_is_alloc_eq, buddy_is_alloc_eq]
  unfold BUDDY_SET_FREE BUDDY_SLOT
  by_cases hs : j / 4 = i / 4
  · rw [if_pos hs, Nat.testBit_and, buddy_clear_testBit]
    have hlt : 2 * (j % 4) + 1 < 8 := by omega
    by_cases hji : j = i
    · subst hji; simp
    · have := buddy_cell_ne hji hs
      have hne : ¬ (2 * (i % 4) = 2 * (j % 4) + 1) := by omega
      have hne2 : ¬ (2 * (i % 4) + 1 = 2 * (j % 4) + 1) := by omega
      simp [hlt, hne, hne2, hji, hs]
  · have hji : j ≠ i := fun h => hs (by rw [h])
    rw [if_neg hs, if_neg hji]

/-- The three updates keep every cell a byte. -/
theorem buddy_set_byte (t : Nat → Nat) (i : Nat) (h : ∀ s, t s < 256) :
    (∀ s, BUDDY_SET_SPLIT t i s < 256) ∧ (∀ s, BUDDY_SET_ALLOC t i s < 256) ∧
      (∀ s, BUDDY_SET_FREE t i s < 256) := by
  refine ⟨fun s => ?_, fun s => ?_, fun s => ?_⟩
  · unfold BUDDY_SET_SPLIT
    split
    · exact Nat.mod_lt _ (by decide : 256 > 0)
    · exact h s
  · unfold BUDDY_SET_ALLOC
    split
    · exact Nat.mod_lt _ (by decide : 256 > 0)
    · exact h s
  · unfold BUDDY_SET_FREE
    split
    · exact Nat.lt_of_le_of_lt Nat.and_le_left (h s)
    · exact h s

/-- A byte whose four cells are Free is zero. -/
theorem buddy_byte_zero (t : Nat → Nat) (s : Nat) (hb : t s < 256)
    (hf : ∀ i, i / 4 = s → BUDDY_IS_FREE t i = true) : t s = 0 := by
  apply Nat.zero_of_testBit_eq_false
  intro c
  by_cases hc : c < 8
  · have h1 := hf (4 * s + c / 2) (by omega)
    rw [buddy_is_free_eq, buddy_is_split_eq, buddy_is_alloc_eq] at h1
    have e1 : (4 * s + c / 2) / 4 = s := by omega
    have e2 : (4 * s + c / 2) % 4 = c / 2 := by omega
    rw [e1, e2] at h1
    simp only [Bool.and_eq_true, Bool.not_eq_true'] at h1
    rcases Nat.mod_two_eq_zero_or_one c with h | h
    · have : 2 * (c / 2) = c := by omega
      rw [this] at h1; exact h1.1
    · have : 2 * (c / 2) + 1 = c := by omega
      rw [this] at h1; exact h1.2
  · have h8 : (2 : Nat) ^ 8 ≤ 2 ^ c := Nat.pow_le_pow_right (by decide) (by omega : 8 ≤ c)
    exact Nat.testBit_lt_two_pow (by omega)
/-! ## Buddy tree geometry -/

theorem testBit_top {y k : Nat} (h1 : 2 ^ k ≤ y) (h2 : y < 2 ^ (k + 1)) :
    y.testBit k = true := by
  rw [Nat.testBit_to_div_mod]
  have hp : 0 < 2 ^ k := Nat.two_pow_pos k
  have h3 : y / 2 ^ k < 2 := by
    rw [Nat.div_lt_iff_lt_mul hp]; rw [pow_succ] at h2; omega
  have h4 : 1 ≤ y / 2 ^ k := by
    rw [Nat.le_div_iff_mul_le hp, Nat.one_mul]; exact h1
  have : y / 2 ^ k % 2 = 1 := by omega
  simp [this]

/-- A non-zero machine word accepted by `is_power_of_two` is a power of two. -/
theorem is_power_of_two_pos {x : Nat} (h : is_power_of_two x = true) (h0 : x ≠ 0)
    (hw : x < WORD) : ∃ k, x = 2 ^ k := by
  unfold is_power_of_two at h
  rw [wsub_of_le (by omega : 1 ≤ x) hw] at h
  have hz : x &&& (x - 1) = 0 := by simpa using h
  refine ⟨Nat.log2 x, ?_⟩
  have h1 := Nat.log2_self_le h0
  have h2 := @Nat.lt_log2_self x
  by_contra hne
  have h3 : 2 ^ Nat.log2 x ≤ x - 1 := by omega
  have hb := congrArg (fun y => Nat.testBit y (Nat.log2 x)) hz
  simp only [Nat.testBit_and, Nat.zero_testBit, testBit_top h1 h2,
    testBit_top h3 (by omega : x - 1 < 2 ^ (Nat.log2 x + 1))] at hb
  exact absurd hb (by decide)

/-- The level of a node is the `L` with `2^L ≤ i + 1 < 2^(L+1)`. -/
theorem buddy_node_level_eq {i L : Nat} (h1 : 2 ^ L ≤ i + 1) (h2 : i + 1 < 2 ^ (L + 1)) :
    buddy_node_level i = L := by
  unfold buddy_node_level
  have h0 : i + 1 ≠ 0 := by omega
  have a1 : Nat.log2 (i + 1) < L + 1 := (Nat.log2_lt h0).mpr h2
  have a2 : ¬ Nat.log2 (i + 1) < L := by
    rw [Nat.log2_lt h0]; omega
  omega

theorem buddy_node_level_spec (i : Nat) :
    2 ^ buddy_node_level i ≤ i + 1 ∧ i + 1 < 2 ^ (buddy_node_level i + 1) :=
  ⟨Nat.log2_self_le (by omega), Nat.lt_log2_self⟩

theorem buddy_node_level_le {i H : Nat} (h : i < 2 ^ (H + 1) - 1) : buddy_node_level i ≤ H := by
  have h1 := (buddy_node_level_spec i).1
  by_contra hc
  have : 2 ^ (H + 1) ≤ 2 ^ buddy_node_level i :=
    Nat.pow_le_pow_right (by decide) (by omega)
  omega

/-- The loop of `buddy_init` computes the exponent of a power of two. -/
theorem buddy_init_height_pow (h : Nat) :
    ∀ fuel acc, h ≤ fuel → acc + h < WORD → buddy_init_height fuel (2 ^ h) acc = acc + h := by
  induction h with
  | zero =>
    intro fuel acc _ _
    cases fuel with
    | zero => rfl
    | succ f => simp [buddy_init_height]
  | succ h ih =>
    intro fuel acc hf ha
    obtain ⟨f, rfl⟩ : ∃ f, fuel = f + 1 := ⟨fuel - 1, by omega⟩
    have h1 : 2 ^ (h + 1) > 1 := by
      have := Nat.two_pow_pos h
      rw [pow_succ]; omega
    have h2 : 2 ^ (h + 1) / 2 = 2 ^ h := by rw [pow_succ]; omega
    unfold buddy_init_height
    rw [if_pos h1, h2, wadd_of_lt (by omega), ih f (acc + 1) (by omega) (by omega)]
    omega

/-- What `buddy_init` establishes when it returns. -/
theorem buddy_init_spec {buffer size align : Nat} {b : BuddyAllocator}
    (hw : buffer + size ≤ WORD) (h : buddy_init buffer size align = .ok b) :
    b.tree = (fun _ => 0) ∧ b.buffer = buffer ∧ b.alignment = align ∧ 1 ≤ buffer ∧
      0 < b.tree_height ∧ (∃ a, align = 2 ^ a) ∧ size = 2 ^ b.tree_height * align := by
  unfold buddy_init at h
  by_cases c1 : buffer = 0
  · simp [c1] at h
  simp only [c1, if_false] at h
  by_cases c2 : is_power_of_two size = true
  swap
  · simp [c2] at h
  by_cases c3 : is_power_of_two align = true
  swap
  · simp [c2, c3] at h
  simp only [c2, c3, not_true_eq_false, if_false] at h
  unfold wdiv at h
  by_cases c4 : align = 0
  · simp [c4] at h
  simp only [c4, if_false] at h
  by_cases c5 : buffer % align ≠ 0
  · simp [c5] at h
  by_cases c6 : size % align ≠ 0
  · simp [c5, c6] at h
  by_cases c7 : size / align > 1
  swap
  · simp [c5, c6, c7] at h
  by_cases c8 : buddy_init_height 64 (size / align) 0 > 0
  swap
  · simp [c5, c6, c7, c8] at h
  simp only [c5, c6, c7, c8, not_true_eq_false, if_false, Except.ok.injEq] at h
  have hs0 : size ≠ 0 := by
    intro h0; rw [h0] at c7; simp at c7
  have hsw : size < WORD := by omega
  have hle : align ≤ size := by
    by_contra hc
    have : size / align = 0 := Nat.div_eq_of_lt (by omega)
    omega
  obtain ⟨s, hs⟩ := is_power_of_two_pos c2 hs0 hsw
  obtain ⟨a, ha⟩ := is_power_of_two_pos c3 c4 (by omega)
  subst hs ha
  have has : a ≤ s := (Nat.pow_le_pow_iff_right (by decide : 1 < 2)).mp hle
  have hdiv : 2 ^ s / 2 ^ a = 2 ^ (s - a) := Nat.pow_div has (by decide)
  have hs64 : s < 64 := two_pow_lt_word hsw
  rw [hdiv, buddy_init_height_pow (s - a) 64 0 (by omega) (by unfold WORD; omega)] at h c8
  subst h
  refine ⟨rfl, rfl, rfl, by omega, by simpa using c8, ⟨a, rfl⟩, ?_⟩
  dsimp only
  rw [Nat.zero_add, ← pow_add]
  congr 1
  omega

theorem buddy_not_free {t : Nat → Nat} {i : Nat} (h : BUDDY_IS_FREE t i = false) :
    BUDDY_IS_SPLIT t i = true ∨ BUDDY_IS_ALLOC t i = true := by
  rw [buddy_is_free_eq] at h
  cases hs : BUDDY_IS_SPLIT t i
  · cases ha : BUDDY_IS_ALLOC t i
    · rw [hs, ha] at h; exact absurd h (by decide)
    · exact Or.inr rfl
  · exact Or.inl rfl

theorem buddy_split_not_free {t : Nat → Nat} {i : Nat} (h : BUDDY_IS_SPLIT t i = true) :
    BUDDY_IS_FREE t i = false := by
  rw [buddy_is_free_eq, h]; rfl

theorem buddy_alloc_not_free {t : Nat → Nat} {i : Nat} (h : BUDDY_IS_ALLOC t i = true) :
    BUDDY_IS_FREE t i = false := by
  rw [buddy_is_free_eq, h]; simp

theorem buddy_free_split {t : Nat → Nat} {i : Nat} (h : BUDDY_IS_FREE t i = true) :
    BUDDY_IS_SPLIT t i = false ∧ BUDDY_IS_ALLOC t i = false := by
  rw [buddy_is_free_eq] at h
  cases hs : BUDDY_IS_SPLIT t i
  · cases ha : BUDDY_IS_ALLOC t i
    · exact ⟨rfl, rfl⟩
    · rw [hs, ha] at h; exact absurd h (by decide)
  · rw [hs] at h; simp at h

/-- Every proper ancestor of a node that is not Free is Split. -/
theorem buddy_anc_split {t : Nat → Nat}
    (hps : ∀ i, i ≠ 0 → BUDDY_IS_FREE t i = false → BUDDY_IS_SPLIT t ((i - 1) / 2) = true) :
    ∀ d j i, (j + 1) / 2 ^ (d + 1) = i + 1 → BUDDY_IS_FREE t j = false →
      BUDDY_IS_SPLIT t i = true := by
  intro d
  induction d with
  | zero =>
    intro j i h hf
    rw [Nat.zero_add, Nat.pow_one] at h
    have hj : j ≠ 0 := by omega
    have : (j - 1) / 2 = i := by omega
    rw [← this]; exact hps j hj hf
  | succ d ih =>
    intro j i h hf
    have hj : j ≠ 0 := by
      intro h0
      rw [h0, Nat.zero_add, Nat.div_eq_of_lt (Nat.one_lt_two_pow (by omega))] at h
      omega
    have hp := hps j hj hf
    have e : (j + 1) / 2 ^ (d + 1 + 1) = ((j - 1) / 2 + 1) / 2 ^ (d + 1) := by
      rw [pow_succ, Nat.mul_comm, ← Nat.div_div_eq_div_mul]
      congr 1
      omega
    rw [e] at h
    exact ih ((j - 1) / 2) i h (buddy_split_not_free hp)

/-- The level loop of `buddy_alloc` on a node index: the block size is halved once per
level. -/
theorem buddy_level_spec (L : Nat) :
    ∀ fuel bs n h, 2 ^ L ≤ n → n < 2 ^ (L + 1) → L < fuel → h + L < WORD →
      buddy_level fuel bs n h = .ok (bs / 2 ^ L, h + L) := by
  induction L with
  | zero =>
    intro fuel bs n h h1 h2 hf _
    obtain ⟨f, rfl⟩ : ∃ f, fuel = f + 1 := ⟨fuel - 1, by omega⟩
    have : ¬ (n > 1) := by simp at h2; omega
    simp only [buddy_level, this, if_false, pow_zero, Nat.div_one, Nat.add_zero]
  | succ L ih =>
    intro fuel bs n h h1 h2 hf hh
    obtain ⟨f, rfl⟩ : ∃ f, fuel = f + 1 := ⟨fuel - 1, by omega⟩
    have hp := Nat.two_pow_pos L
    have hn : n > 1 := by rw [pow_succ] at h1; omega
    have h3 : 2 ^ L ≤ n / 2 := by rw [pow_succ] at h1; omega
    have h4 : n / 2 < 2 ^ (L + 1) := by rw [pow_succ] at h2; omega
    unfold buddy_level
    rw [if_pos hn, wadd_of_lt (by omega), ih f (bs / 2) (n / 2) (h + 1) h3 h4 (by omega)
      (by omega)]
    have : bs / 2 / 2 ^ L = bs / 2 ^ (L + 1) := by
      rw [Nat.div_div_eq_div_mul, pow_succ, Nat.mul_comm]
    rw [this]
    congr 2
    omega

theorem buddy_level_node {bs i : Nat} (hi : i + 1 < WORD) :
    buddy_level 65 bs (wadd i 1) 0 = .ok (bs / 2 ^ buddy_node_level i, buddy_node_level i) := by
  obtain ⟨h1, h2⟩ := buddy_node_level_spec i
  have hL : buddy_node_level i < 64 := by
    have : 2 ^ buddy_node_level i < 2 ^ 64 := by unfold WORD at hi; omega
    exact (Nat.pow_lt_pow_iff_right (by decide)).mp this
  rw [wadd_of_lt hi, buddy_level_spec (buddy_node_level i) 65 bs (i + 1) 0 h1 h2 (by omega)
    (by unfold WORD; omega), Nat.zero_add]

/-- The search loop of `buddy_alloc`: a recorded block is a Free node that is the root or
the child of a Split node, with its size and level, and large enough for the request. -/
theorem buddy_search_found (t : Nat → Nat) (BS r M : Nat) (hM : 2 * M + 3 < WORD)
    (hS : ∀ i, BUDDY_IS_SPLIT t i = true → i < M) :
    ∀ fuel st st1, buddy_search t BS r fuel st = .ok st1 →
      (∀ j, st.queue j = 0 ∨ BUDDY_IS_SPLIT t ((st.queue j - 1) / 2) = true) →
      (st.found = true →
        BUDDY_IS_FREE t st.buddy_index = true ∧
        (st.buddy_index = 0 ∨ BUDDY_IS_SPLIT t ((st.buddy_index - 1) / 2) = true) ∧
        st.buddy_size = BS / 2 ^ buddy_node_level st.buddy_index ∧
        st.buddy_height = buddy_node_level st.buddy_index ∧ r ≤ st.buddy_size) →
      (st1.found = true →
        BUDDY_IS_FREE t st1.buddy_index = true ∧
        (st1.buddy_index = 0 ∨ BUDDY_IS_SPLIT t ((st1.buddy_index - 1) / 2) = true) ∧
        st1.buddy_size = BS / 2 ^ buddy_node_level st1.buddy_index ∧
        st1.buddy_height = buddy_node_level st1.buddy_index ∧ r ≤ st1.buddy_size) := by
  intro fuel
  induction fuel with
  | zero =>
    intro st st1 h
    exact absurd h (by simp [buddy_search])
  | succ f ih =>
    intro st st1 h hq hf
    unfold buddy_search at h
    by_cases hht : st.head = st.tail
    · rw [if_pos hht] at h
      simp only [Except.ok.injEq] at h
      subst h; exact hf
    · rw [if_neg hht] at h
      have hidx : st.queue st.head < 2 * M + 2 := by
        rcases hq st.head with h0 | hs
        · omega
        · have := hS _ hs; omega
      dsimp only at h
      rw [buddy_level_node (by unfold WORD at *; omega)] at h
      simp only at h
      by_cases c1 : BS / 2 ^ buddy_node_level (st.queue st.head) < r
      · rw [if_pos c1] at h
        exact ih _ _ h hq hf
      · rw [if_neg c1] at h
        by_cases c2 : BUDDY_IS_FREE t (st.queue st.head) = true ∧
            BS / 2 ^ buddy_node_level (st.queue st.head) < st.buddy_size
        · rw [if_pos c2] at h
          exact ih _ _ h hq (fun _ => ⟨c2.1, hq st.head, rfl, rfl, by dsimp only; omega⟩)
        · rw [if_neg c2] at h
          by_cases c3 : BUDDY_IS_SPLIT t (st.queue st.head) = true
          · rw [if_pos c3] at h
            have hi := hS _ c3
            have hl : wadd (wmul (st.queue st.head) 2) 1 = 2 * st.queue st.head + 1 := by
              unfold wadd wmul; unfold WORD at *; omega
            have hr : wadd (wmul (st.queue st.head) 2) 2 = 2 * st.queue st.head + 2 := by
              unfold wadd wmul; unfold WORD at *; omega
            rw [hl, hr] at h
            split at h
            · exact absurd h (by simp)
            · split at h
              · exact absurd h (by simp)
              · refine ih _ _ h ?_ hf
                intro j
                dsimp only
                by_cases e2 : j = (st.tail + 1) % 1024
                · rw [if_pos e2]
                  right
                  have : (2 * st.queue st.head + 2 - 1) / 2 = st.queue st.head := by omega
                  rw [this]; exact c3
                · rw [if_neg e2]
                  by_cases e1 : j = st.tail
                  · rw [if_pos e1]
                    right
                    have : (2 * st.queue st.head + 1 - 1) / 2 = st.queue st.head := by omega
                    rw [this]; exact c3
                  · rw [if_neg e1]; exact hq j
          · rw [if_neg c3] at h
            exact ih _ _ h hq hf

/-- The split loop of `buddy_alloc` from node `i` with a block of `A * 2^e` bytes and a
request `r ≥ A`: it descends `k ≤ e` levels along left children, marks the nodes it leaves
Split and changes nothing else. -/
theorem buddy_split_down_spec (r A : Nat) (hA : 0 < A) (hr : A ≤ r) :
    ∀ fuel e t i h t1 g bs1 h1, (i + 1) * 2 ^ e ≤ 2 ^ 31 → h + e ≤ 31 →
      buddy_split_down r fuel t i (A * 2 ^ e) h = .ok (t1, g, bs1, h1) →
      ∃ k, k ≤ e ∧ g + 1 = (i + 1) * 2 ^ k ∧ bs1 = A * 2 ^ (e - k) ∧ h1 = h + k ∧
        (∀ j, BUDDY_IS_ALLOC t1 j = BUDDY_IS_ALLOC t j) ∧
        (∀ j, BUDDY_IS_SPLIT t1 j = true ↔
          BUDDY_IS_SPLIT t j = true ∨ ∃ m, m < k ∧ j + 1 = (i + 1) * 2 ^ m) ∧
        ((∀ s, t s < 256) → ∀ s, t1 s < 256) := by
  intro fuel
  induction fuel with
  | zero =>
    intro e t i h t1 g bs1 h1 _ _ hs
    exact absurd hs (by simp [buddy_split_down])
  | succ f ih =>
    intro e t i h t1 g bs1 h1 hi hh hs
    unfold buddy_split_down at hs
    by_cases c : r ≤ A * 2 ^ e / 2
    · rw [if_pos c] at hs
      have he : e ≠ 0 := by
        intro h0; rw [h0] at c; simp at c; omega
      obtain ⟨e1, rfl⟩ : ∃ e1, e = e1 + 1 := ⟨e - 1, by omega⟩
      have hp := Nat.two_pow_pos e1
      have hi1 : i + 1 ≤ 2 ^ 30 := by
        rw [pow_succ] at hi
        have : (i + 1) * 1 ≤ (i + 1) * 2 ^ e1 := Nat.mul_le_mul_left _ hp
        have e30 : (2 : Nat) ^ 31 = 2 ^ 30 * 2 := by decide
        rw [← Nat.mul_assoc] at hi
        omega
      have hbs : A * 2 ^ (e1 + 1) / 2 = A * 2 ^ e1 := by
        rw [pow_succ, ← Nat.mul_assoc]; omega
      have hl : wadd (wmul i 2) 1 = 2 * i + 1 := by
        unfold wadd wmul WORD; omega
      have hw : wadd h 1 = h + 1 := wadd_of_lt (by unfold WORD; omega)
      rw [hbs, hl, hw] at hs
      have hi2 : (2 * i + 1 + 1) * 2 ^ e1 ≤ 2 ^ 31 := by
        have : (2 * i + 1 + 1) * 2 ^ e1 = (i + 1) * 2 ^ (e1 + 1) := by
          rw [pow_succ]; ring
        rw [this]; exact hi
      obtain ⟨k, k1, k2, k3, k4, k5, k6, k7⟩ :=
        ih e1 _ (2 * i + 1) (h + 1) t1 g bs1 h1 hi2 (by omega) hs
      refine ⟨k + 1, by omega, ?_, ?_, by omega, ?_, ?_, ?_⟩
      · rw [k2, pow_succ]; ring
      · rw [k3]; congr 2; omega
      · intro j; rw [k5, buddy_set_split_alloc]
      · intro j
        rw [k6, buddy_set_split_split]
        constructor
        · rintro (h1 | ⟨m, hm, hj⟩)
          · by_cases hji : j = i
            · exact Or.inr ⟨0, by omega, by rw [hji]; simp⟩
            · rw [if_neg hji] at h1; exact Or.inl h1
          · refine Or.inr ⟨m + 1, by omega, ?_⟩
            rw [hj, pow_succ]; ring
        · rintro (h1 | ⟨m, hm, hj⟩)
          · left
            by_cases hji : j = i
            · rw [if_pos hji]
            · rw [if_neg hji]; exact h1
          · cases m with
            | zero =>
              left
              have : j = i := by simpa using hj
              rw [if_pos this]
            | succ m =>
              right
              refine ⟨m, by omega, ?_⟩
              rw [hj, pow_succ]; ring
      · intro hb
        exact k7 (buddy_set_byte t i hb).1
    · rw [if_neg c] at hs
      simp only [Except.ok.injEq, Prod.mk.injEq] at hs
      obtain ⟨rfl, rfl, rfl, rfl⟩ := hs
      refine ⟨0, Nat.zero_le _, by simp, by simp, by simp, fun _ => rfl, ?_, fun hb => hb⟩
      intro j
      constructor
      · exact fun h => Or.inl h
      · rintro (h | ⟨m, hm, _⟩)
        · exact h
        · omega

theorem buddy_free_false_iff (t : Nat → Nat) (i : Nat) :
    BUDDY_IS_FREE t i = false ↔ BUDDY_IS_SPLIT t i = true ∨ BUDDY_IS_ALLOC t i = true := by
  constructor
  · exact buddy_not_free
  · rintro (h | h)
    · exact buddy_split_not_free h
    · exact buddy_alloc_not_free h

theorem buddy_free_true_iff (t : Nat → Nat) (i : Nat) :
    BUDDY_IS_FREE t i = true ↔ BUDDY_IS_SPLIT t i = false ∧ BUDDY_IS_ALLOC t i = false := by
  constructor
  · exact buddy_free_split
  · rintro ⟨h1, h2⟩
    rw [buddy_is_free_eq, h1, h2]; rfl

theorem two_pow_split {L H : Nat} (h : L ≤ H) : 2 ^ H = 2 ^ (H - L) * 2 ^ L := by
  rw [← pow_add]; congr 1; omega

/-- A node that is not Free lies inside the tree. -/
theorem buddy_inv_inside {b : BuddyAllocator} {live : List (Nat × Nat)} (inv : BuddyInv b live)
    {i : Nat} (h : BUDDY_IS_FREE b.tree i = false) : i < 2 ^ (b.tree_height + 1) - 1 := by
  by_contra hc
  have := inv.outside i (by omega)
  rw [h] at this
  exact absurd this (by decide)

/-- A Split node is not a leaf. -/
theorem buddy_inv_split_inner {b : BuddyAllocator} {live : List (Nat × Nat)}
    (inv : BuddyInv b live) {i : Nat} (h : BUDDY_IS_SPLIT b.tree i = true) :
    i < 2 ^ b.tree_height - 1 := by
  have e : 2 ^ (b.tree_height + 1) = 2 * 2 ^ b.tree_height := by rw [pow_succ]; omega
  rcases inv.split_child i h with hc | hc
  · have := buddy_inv_inside inv hc; omega
  · have := buddy_inv_inside inv hc; omega

/-- Distinct nodes of the tree have distinct `(pointer, block size)`. -/
theorem buddy_node_inj (b : BuddyAllocator) (hA : 0 < b.alignment) {i j : Nat}
    (hi : i < 2 ^ (b.tree_height + 1) - 1) (hj : j < 2 ^ (b.tree_height + 1) - 1)
    (h : (buddy_node_ptr b i, buddy_node_size b i) = (buddy_node_ptr b j, buddy_node_size b j)) :
    i = j := by
  simp only [Prod.mk.injEq] at h
  obtain ⟨hp, hs⟩ := h
  have li := buddy_node_level_le hi
  have lj := buddy_node_level_le hj
  have e1 : 2 ^ (b.tree_height - buddy_node_level i) =
      2 ^ (b.tree_height - buddy_node_level j) := by
    unfold buddy_node_size at hs
    exact Nat.eq_of_mul_eq_mul_right hA hs
  have e2 : b.tree_height - buddy_node_level i = b.tree_height - buddy_node_level j :=
    Nat.pow_right_injective (le_refl 2) e1
  have e3 : buddy_node_level i = buddy_node_level j := by omega
  unfold buddy_node_ptr at hp
  rw [← hs] at hp
  have hpos : 0 < buddy_node_size b i := by
    unfold buddy_node_size
    exact Nat.mul_pos (Nat.two_pow_pos _) hA
  have e4 : i + 1 - 2 ^ buddy_node_level i = j + 1 - 2 ^ buddy_node_level j :=
    Nat.eq_of_mul_eq_mul_left hpos (by omega)
  have s1 := (buddy_node_level_spec i).1
  have s2 := (buddy_node_level_spec j).1
  rw [e3] at e4 s1
  omega

/-- A result of `align_forward` on a power-of-two alignment is a multiple of it. -/
theorem align_forward_mod {address a r : Nat} (hal : 2 ^ a < WORD)
    (h : align_forward address (2 ^ a) = .ok r) : r % 2 ^ a = 0 := by
  have hpos : 0 < 2 ^ a := Nat.two_pow_pos a
  unfold align_forward at h
  rw [is_power_of_two_two_pow hal] at h
  simp only [if_true, and_mask_two_pow _ hal] at h
  by_cases hm : address % 2 ^ a = 0
  · simp only [ne_eq, hm, not_true_eq_false, if_false, Except.ok.injEq] at h
    rw [← h]; exact hm
  · simp only [ne_eq, hm, not_false_eq_true, if_true, Except.ok.injEq] at h
    have hlt : address % 2 ^ a < 2 ^ a := Nat.mod_lt _ hpos
    rw [wsub_of_le (Nat.le_of_lt hlt) hal] at h
    rw [← h]
    unfold wadd
    have hd : 2 ^ a ∣ WORD := by
      unfold WORD
      exact Nat.pow_dvd_pow 2 (Nat.le_of_lt (two_pow_lt_word hal))
    rw [Nat.mod_mod_of_dvd _ hd]
    exact (round_up_spec (2 ^ a) address hpos hm).1

theorem mul_two_pow_lt {f L m : Nat} (h : f + 1 < 2 ^ (L + 1)) :
    (f + 1) * 2 ^ m < 2 ^ (L + m + 1) := by
  have e : 2 ^ (L + m + 1) = 2 ^ (L + 1) * 2 ^ m := by
    rw [← pow_add]; congr 1; omega
  rw [e]
  exact Nat.mul_lt_mul_of_pos_right h (Nat.two_pow_pos m)

theorem mul_two_pow_ge {f L m : Nat} (h : 2 ^ L ≤ f + 1) : 2 ^ (L + m) ≤ (f + 1) * 2 ^ m := by
  rw [pow_add]
  exact Nat.mul_le_mul_right _ h

theorem mul_two_pow_mono {f m k : Nat} (h : m ≤ k) : (f + 1) * 2 ^ m ≤ (f + 1) * 2 ^ k :=
  Nat.mul_le_mul_left _ (Nat.pow_le_pow_right (by decide) h)

theorem mul_two_pow_strict {f m k : Nat} (h : m < k) : (f + 1) * 2 ^ m < (f + 1) * 2 ^ k :=
  Nat.mul_lt_mul_of_pos_left (Nat.pow_lt_pow_right (by decide) h) (by omega)

/-- The nodes on the leftmost path below a Free node are Free. -/
theorem buddy_left_path_free {t : Nat → Nat}
    (hps : ∀ i, i ≠ 0 → BUDDY_IS_FREE t i = false → BUDDY_IS_SPLIT t ((i - 1) / 2) = true)
    {f : Nat} (hf : BUDDY_IS_SPLIT t f = false) (m : Nat) (hm : 0 < m) :
    BUDDY_IS_FREE t ((f + 1) * 2 ^ m - 1) = true := by
  cases hc : BUDDY_IS_FREE t ((f + 1) * 2 ^ m - 1)
  · obtain ⟨d, rfl⟩ : ∃ d, m = d + 1 := ⟨m - 1, by omega⟩
    have hp : 0 < (f + 1) * 2 ^ (d + 1) := Nat.mul_pos (by omega) (Nat.two_pow_pos _)
    have e : ((f + 1) * 2 ^ (d + 1) - 1 + 1) / 2 ^ (d + 1) = f + 1 := by
      rw [Nat.sub_add_cancel hp, Nat.mul_div_cancel _ (Nat.two_pow_pos _)]
    have := buddy_anc_split hps d _ f e hc
    rw [hf] at this
    exact absurd this (by decide)
  · rfl

set_option maxHeartbeats 1000000 in
/-- `buddy_alloc` preserves the tree invariant: a call that returns either hands out
nothing and changes nothing, or marks one Free node Alloc after splitting the nodes above
it, and returns that node's block. -/
theorem buddy_alloc_block_inv {b b1 : BuddyAllocator} {live : List (Nat × Nat)}
    {mem mem1 : Mem} {fuel size p bs : Nat} (inv : BuddyInv b live)
    (h : buddy_alloc_block fuel b mem size = .ok (p, bs, b1, mem1)) :
    (p = 0 ∧ bs = 0 ∧ b1 = b ∧ mem1 = mem) ∨ (p ≠ 0 ∧ BuddyInv b1 ((p, bs) :: live)) := by
  obtain ⟨a, ha⟩ := inv.align_pow
  have hfits := inv.fits
  have hbuf := inv.buffer_pos
  have hHp := Nat.two_pow_pos b.tree_height
  have hAp : 0 < b.alignment := by rw [ha]; exact Nat.two_pow_pos a
  have hBS : b.alignment ≤ 2 ^ b.tree_height * b.alignment := Nat.le_mul_of_pos_left _ hHp
  have hal : 2 ^ a < WORD := by rw [← ha]; omega
  unfold buddy_alloc_block at h
  cases hr : align_forward size b.alignment with
  | error e => rw [hr] at h; exact absurd h (by simp)
  | ok r =>
    rw [hr] at h
    dsimp only at h
    unfold POW_OF_2 at h
    by_cases hH : b.tree_height < 31
    swap
    · rw [if_neg hH] at h; exact absurd h (by simp)
    rw [if_pos hH] at h
    dsimp only at h
    rw [wmul_of_lt (by omega : 2 ^ b.tree_height * b.alignment < WORD)] at h
    have hH31 : 2 ^ b.tree_height ≤ 2 ^ 30 := Nat.pow_le_pow_right (by decide) (by omega)
    cases hsr : buddy_search b.tree (2 ^ b.tree_height * b.alignment) r fuel
        { queue := fun j => if j = 0 then 0 else 0, head := 0, tail := 1, found := false,
          buddy_index := 0, buddy_size := WORD - 1, buddy_height := 0 } with
    | error e => rw [hsr] at h; exact absurd h (by simp)
    | ok st =>
      rw [hsr] at h
      dsimp only at h
      by_cases hfound : st.found = true
      swap
      · rw [if_neg hfound] at h
        simp only [Except.ok.injEq, Prod.mk.injEq] at h
        obtain ⟨h1, h2, h3, h4⟩ := h
        exact Or.inl ⟨h1.symm, h2.symm, h3.symm, h4.symm⟩
      rw [if_pos hfound] at h
      obtain ⟨f1, f2, f3, f4, f5⟩ := buddy_search_found b.tree _ r (2 ^ b.tree_height - 1)
        (by unfold WORD; omega) (fun i hi => buddy_inv_split_inner inv hi) fuel _ st hsr
        (fun j => Or.inl (by dsimp only; split <;> rfl))
        (fun hc => absurd hc (by decide)) hfound
      rw [ha] at hr
      have hrm := align_forward_mod hal hr
      rw [← ha] at hrm
      by_cases hr0 : r = 0
      · rw [hr0, buddy_split_down_zero] at h
        exact absurd h (by simp)
      have hrA : b.alignment ≤ r := by
        by_contra hc
        rw [Nat.mod_eq_of_lt (by omega)] at hrm
        exact hr0 hrm
      generalize hfdef : st.buddy_index = f at *
      generalize hLdef : buddy_node_level f = L at *
      obtain ⟨l1, l2⟩ := buddy_node_level_spec f
      rw [hLdef] at l1 l2
      have hLH : L ≤ b.tree_height := by
        by_contra hc
        have hlt : 2 ^ b.tree_height * b.alignment / 2 ^ L < b.alignment := by
          rw [Nat.div_lt_iff_lt_mul (Nat.two_pow_pos L), Nat.mul_comm]
          exact Nat.mul_lt_mul_of_pos_left
            (Nat.pow_lt_pow_right (by decide) (by omega)) hAp
        omega
      have hbsf : 2 ^ b.tree_height * b.alignment / 2 ^ L =
          b.alignment * 2 ^ (b.tree_height - L) := by
        rw [two_pow_split hLH, Nat.mul_assoc, Nat.mul_comm (2 ^ L), ← Nat.mul_assoc,
          Nat.mul_div_cancel _ (Nat.two_pow_pos L), Nat.mul_comm]
      rw [f3, f4, hbsf] at h
      have hfe : (f + 1) * 2 ^ (b.tree_height - L) ≤ 2 ^ 31 := by
        have h1 := @mul_two_pow_lt f L (b.tree_height - L) l2
        have e : L + (b.tree_height - L) + 1 = b.tree_height + 1 := by omega
        rw [e, pow_succ] at h1
        have e31 : (2 : Nat) ^ 31 = 2 ^ 30 * 2 := by decide
        omega
      cases hsd : buddy_split_down r fuel b.tree f (b.alignment * 2 ^ (b.tree_height - L)) L with
      | error e => rw [hsd] at h; exact absurd h (by simp)
      | ok res =>
        obtain ⟨t1, g, bs1, h1⟩ := res
        rw [hsd] at h
        dsimp only at h
        obtain ⟨k, k1, k2, k3, k4, k5, k6, k7⟩ := buddy_split_down_spec r b.alignment hAp hrA
          fuel (b.tree_height - L) b.tree f L t1 g bs1 h1 hfe (by omega) hsd
        have g1 : 2 ^ (L + k) ≤ g + 1 := by rw [k2]; exact mul_two_pow_ge l1
        have g2 : g + 1 < 2 ^ (L + k + 1) := by rw [k2]; exact mul_two_pow_lt l2
        have hLg : buddy_node_level g = L + k := buddy_node_level_eq g1 g2
        have hg3 : 2 ^ (L + k + 1) ≤ 2 ^ (b.tree_height + 1) :=
          Nat.pow_le_pow_right (by decide) (by omega)
        have hgN : g < 2 ^ (b.tree_height + 1) - 1 := by omega
        have e31 : 2 ^ (b.tree_height + 1) = 2 * 2 ^ b.tree_height := by rw [pow_succ]; omega
        subst k4
        rw [if_pos (by omega : L + k < 31)] at h
        dsimp only at h
        have hsz : bs1 * 2 ^ (L + k) = 2 ^ b.tree_height * b.alignment := by
          rw [k3, Nat.mul_assoc, ← pow_add, Nat.mul_comm]
          congr 2; omega
        have hpos1 : 0 < bs1 := by
          rw [k3]; exact Nat.mul_pos hAp (Nat.two_pow_pos _)
        have hoff : bs1 * (g + 1 - 2 ^ (L + k)) + bs1 ≤ 2 ^ b.tree_height * b.alignment := by
          have : g + 1 - 2 ^ (L + k) + 1 ≤ 2 ^ (L + k) := by
            rw [pow_succ] at g2; omega
          calc bs1 * (g + 1 - 2 ^ (L + k)) + bs1
              = bs1 * (g + 1 - 2 ^ (L + k) + 1) := by ring
            _ ≤ bs1 * 2 ^ (L + k) := Nat.mul_le_mul_left _ this
            _ = 2 ^ b.tree_height * b.alignment := hsz
        have w1 : wadd g 1 = g + 1 := wadd_of_lt (by unfold WORD; omega)
        have w2 : wsub (g + 1) (2 ^ (L + k)) = g + 1 - 2 ^ (L + k) :=
          wsub_of_le g1 (by unfold WORD; omega)
        have w3 : wmul bs1 (g + 1 - 2 ^ (L + k)) = bs1 * (g + 1 - 2 ^ (L + k)) :=
          wmul_of_lt (by omega)
        have w4 : wadd b.buffer (bs1 * (g + 1 - 2 ^ (L + k))) =
            b.buffer + bs1 * (g + 1 - 2 ^ (L + k)) := wadd_of_lt (by omega)
        rw [w1, w2, w3, w4] at h
        cases hms : memset mem (b.buffer + bs1 * (g + 1 - 2 ^ (L + k))) 0 bs1 with
        | error e => rw [hms] at h; exact absurd h (by simp)
        | ok m1 =>
          rw [hms] at h
          simp only [Except.ok.injEq, Prod.mk.injEq] at h
          obtain ⟨hp, hbs, hb1, _⟩ := h
          subst hp hbs hb1
          have hnsz : ∀ i, buddy_node_size
              { b with tree := BUDDY_SET_ALLOC t1 g } i = buddy_node_size b i := fun _ => rfl
          have hnpt : ∀ i, buddy_node_ptr
              { b with tree := BUDDY_SET_ALLOC t1 g } i = buddy_node_ptr b i := fun _ => rfl
          have hgsz : buddy_node_size b g = bs1 := by
            unfold buddy_node_size
            rw [hLg, k3, Nat.mul_comm]
            congr 2; omega
          have hgpt : buddy_node_ptr b g = b.buffer + bs1 * (g + 1 - 2 ^ (L + k)) := by
            unfold buddy_node_ptr
            rw [hgsz, hLg]
          have hfS : BUDDY_IS_SPLIT b.tree f = false := (buddy_free_split f1).1
          have hpath : ∀ m, BUDDY_IS_FREE b.tree ((f + 1) * 2 ^ m - 1) = true := by
            intro m
            cases m with
            | zero => simpa using f1
            | succ m => exact buddy_left_path_free inv.parent_split hfS (m + 1) (by omega)
          have hpathj : ∀ j m, j + 1 = (f + 1) * 2 ^ m → BUDDY_IS_FREE b.tree j = true := by
            intro j m hj
            have : j = (f + 1) * 2 ^ m - 1 := by omega
            rw [this]; exact hpath m
          have hS2 : ∀ j, BUDDY_IS_SPLIT (BUDDY_SET_ALLOC t1 g) j = true ↔
              BUDDY_IS_SPLIT b.tree j = true ∨ ∃ m, m < k ∧ j + 1 = (f + 1) * 2 ^ m := by
            intro j; rw [buddy_set_alloc_split]; exact k6 j
          have hA2 : ∀ j, BUDDY_IS_ALLOC (BUDDY_SET_ALLOC t1 g) j = true ↔
              BUDDY_IS_ALLOC b.tree j = true ∨ j = g := by
            intro j
            rw [buddy_set_alloc_alloc, ← k5 j]
            by_cases hj : j = g
            · simp [hj]
            · simp [hj]
          have hF2 : ∀ j, BUDDY_IS_FREE (BUDDY_SET_ALLOC t1 g) j = false ↔
              BUDDY_IS_FREE b.tree j = false ∨ ∃ m, m ≤ k ∧ j + 1 = (f + 1) * 2 ^ m := by
            intro j
            rw [buddy_free_false_iff, buddy_free_false_iff, hS2, hA2]
            constructor
            · rintro ((h | ⟨m, hm, hj⟩) | (h | h))
              · exact Or.inl (Or.inl h)
              · exact Or.inr ⟨m, by omega, hj⟩
              · exact Or.inl (Or.inr h)
              · exact Or.inr ⟨k, le_refl _, by rw [h, k2]⟩
            · rintro ((h | h) | ⟨m, hm, hj⟩)
              · exact Or.inl (Or.inl h)
              · exact Or.inr (Or.inl h)
              · by_cases hmk : m = k
                · right; right
                  rw [hmk, ← k2] at hj; omega
                · exact Or.inl (Or.inr ⟨m, by omega, hj⟩)
          refine Or.inr ⟨by omega, ?_⟩
          refine
            { height_pos := inv.height_pos
              align_pow := inv.align_pow
              buffer_pos := inv.buffer_pos
              fits := inv.fits
              height_lt := fun _ => hH
              byte := (buddy_set_byte t1 g (k7 inv.byte)).2.1
              excl := ?_
              outside := ?_
              split_child := ?_
              parent_split := ?_
              live_nodup := ?_
              live_iff := ?_ }
          · rintro j ⟨hs, hak⟩
            rw [hS2] at hs
            rw [hA2] at hak
            rcases hs with hs | ⟨m, hm, hj⟩
            · rcases hak with hak | hak
              · exact inv.excl j ⟨hs, hak⟩
              · have := (buddy_free_split (hpathj g k k2)).1
                rw [hak, this] at hs
                exact absurd hs (by decide)
            · rcases hak with hak | hak
              · have := (buddy_free_split (hpathj j m hj)).2
                rw [this] at hak
                exact absurd hak (by decide)
              · have := @mul_two_pow_strict f m k hm
                rw [hak] at hj
                omega
          · intro j hj
            cases hc : BUDDY_IS_FREE (BUDDY_SET_ALLOC t1 g) j
            · rcases (hF2 j).mp hc with h | ⟨m, hm, hjm⟩
              · have := inv.outside j hj
                rw [h] at this
                exact absurd this (by decide)
              · have := @mul_two_pow_mono f m k hm
                dsimp only at hj
                omega
            · rfl
          · intro j hs
            rcases (hS2 j).mp hs with hs | ⟨m, hm, hj⟩
            · rcases inv.split_child j hs with hc | hc
              · exact Or.inl ((hF2 _).mpr (Or.inl hc))
              · exact Or.inr ((hF2 _).mpr (Or.inl hc))
            · refine Or.inl ((hF2 _).mpr (Or.inr ⟨m + 1, by omega, ?_⟩))
              rw [pow_succ, ← Nat.mul_assoc, ← hj]; omega
          · intro j hj0 hc
            rw [hS2]
            rcases (hF2 j).mp hc with hc | ⟨m, hm, hjm⟩
            · exact Or.inl (inv.parent_split j hj0 hc)
            · cases m with
              | zero =>
                have : j = f := by simpa using hjm
                rw [this]
                rcases f2 with f0 | f2
                · omega
                · exact Or.inl f2
              | succ m =>
                refine Or.inr ⟨m, by omega, ?_⟩
                rw [pow_succ, ← Nat.mul_assoc] at hjm
                omega
          · rw [List.nodup_cons]
            refine ⟨fun hmem => ?_, inv.live_nodup⟩
            obtain ⟨i, hi, he⟩ := (inv.live_iff _).mp hmem
            rw [← hgpt, ← hgsz] at he
            have hiN := buddy_inv_inside inv (buddy_alloc_not_free hi)
            have := buddy_node_inj b hAp hgN hiN he
            rw [← this, (buddy_free_split (hpathj g k k2)).2] at hi
            exact absurd hi (by decide)
          · intro x
            rw [List.mem_cons, inv.live_iff]
            constructor
            · rintro (hx | ⟨i, hi, hx⟩)
              · exact ⟨g, (hA2 g).mpr (Or.inr rfl), by rw [hx, hnpt, hnsz, hgpt, hgsz]⟩
              · exact ⟨i, (hA2 i).mpr (Or.inl hi), by rw [hx, hnpt, hnsz]⟩
            · rintro ⟨i, hi, hx⟩
              rcases (hA2 i).mp hi with hi | hi
              · exact Or.inr ⟨i, hi, by rw [hx, hnpt, hnsz]⟩
              · left
                rw [hx, hnpt, hnsz, hi, hgpt, hgsz]

/-- The climb of `buddy_free` from the leftmost leaf below an Alloc node `i`: it stops at
`i` and frees it, or reaches the root unchanged when `i` is the root. -/
theorem buddy_free_loop_spec {t : Nat → Nat} {i : Nat} (hA : BUDDY_IS_ALLOC t i = true)
    (hp : ∀ m, 0 < m → BUDDY_IS_ALLOC t ((i + 1) * 2 ^ m - 1) = false) :
    ∀ m fuel r, buddy_free_loop t fuel ((i + 1) * 2 ^ m - 1) = .ok r →
      r = if i = 0 then (t, false) else (BUDDY_SET_FREE t i, true) := by
  intro m
  induction m with
  | zero =>
    intro fuel r h
    cases fuel with
    | zero => exact absurd h (by simp [buddy_free_loop])
    | succ f =>
      unfold buddy_free_loop at h
      rw [pow_zero, Nat.mul_one, Nat.add_sub_cancel] at h
      by_cases h0 : i = 0
      · rw [if_neg (by simpa using h0)] at h
        rw [if_pos h0]
        simp only [Except.ok.injEq] at h
        exact h.symm
      · rw [if_pos h0, if_pos hA] at h
        rw [if_neg h0]
        simp only [Except.ok.injEq] at h
        exact h.symm
  | succ m ih =>
    intro fuel r h
    cases fuel with
    | zero => exact absurd h (by simp [buddy_free_loop])
    | succ f =>
      unfold buddy_free_loop at h
      have hpos : 0 < (i + 1) * 2 ^ m := Nat.mul_pos (by omega) (Nat.two_pow_pos m)
      have e : (i + 1) * 2 ^ (m + 1) = 2 * ((i + 1) * 2 ^ m) := by rw [pow_succ]; ring
      have hna := hp (m + 1) (by omega)
      rw [e] at h hna
      have c1 : 2 * ((i + 1) * 2 ^ m) - 1 ≠ 0 := by omega
      have c3 : ¬ ((2 * ((i + 1) * 2 ^ m) - 1) % 2 = 0) := by omega
      have c4 : (2 * ((i + 1) * 2 ^ m) - 1 - 1) / 2 = (i + 1) * 2 ^ m - 1 := by omega
      rw [if_pos c1, hna, if_neg (by decide), if_neg c3, c4] at h
      exact ih f r h

/-- Invariant of the inner loop of `buddy_coalescence` over the row from `lo` to `bound`:
cells stay bytes, no node is both Split and Alloc, a node that is not Free has a Split
parent, the Alloc nodes are those of `t0`, Split nodes were Split in `t0`; and after the
row every Split node from `lo` on has a child that is not Free. -/
theorem buddy_coalescence_row_spec (t0 : Nat → Nat) (lo bound : Nat) (hb : bound ≤ 2 ^ 30)
    (hlb : bound ≤ 2 * lo + 1) :
    ∀ fuel t i t1, lo ≤ i → buddy_coalescence_row bound fuel t i = .ok t1 →
      (∀ s, t s < 256) →
      (∀ j, ¬ (BUDDY_IS_SPLIT t j = true ∧ BUDDY_IS_ALLOC t j = true)) →
      (∀ j, j ≠ 0 → BUDDY_IS_FREE t j = false → BUDDY_IS_SPLIT t ((j - 1) / 2) = true) →
      (∀ j, BUDDY_IS_ALLOC t j = BUDDY_IS_ALLOC t0 j) →
      (∀ j, BUDDY_IS_SPLIT t j = true → BUDDY_IS_SPLIT t0 j = true) →
      (∀ j, (lo ≤ j ∧ j < i) ∨ bound ≤ j → BUDDY_IS_SPLIT t j = true →
        BUDDY_IS_FREE t (2 * j + 1) = false ∨ BUDDY_IS_FREE t (2 * j + 2) = false) →
      (∀ s, t1 s < 256) ∧
      (∀ j, ¬ (BUDDY_IS_SPLIT t1 j = true ∧ BUDDY_IS_ALLOC t1 j = true)) ∧
      (∀ j, j ≠ 0 → BUDDY_IS_FREE t1 j = false → BUDDY_IS_SPLIT t1 ((j - 1) / 2) = true) ∧
      (∀ j, BUDDY_IS_ALLOC t1 j = BUDDY_IS_ALLOC t0 j) ∧
      (∀ j, BUDDY_IS_SPLIT t1 j = true → BUDDY_IS_SPLIT t0 j = true) ∧
      (∀ j, lo ≤ j → BUDDY_IS_SPLIT t1 j = true →
        BUDDY_IS_FREE t1 (2 * j + 1) = false ∨ BUDDY_IS_FREE t1 (2 * j + 2) = false) := by
  intro fuel
  induction fuel with
  | zero =>
    intro t i t1 _ h
    exact absurd h (by simp [buddy_coalescence_row])
  | succ f ih =>
    intro t i t1 hlo h p1 p2 p3 p4 p5 p6
    unfold buddy_coalescence_row at h
    by_cases c : i < bound
    swap
    · rw [if_neg c] at h
      simp only [Except.ok.injEq] at h
      subst h
      refine ⟨p1, p2, p3, p4, p5, fun j hj => p6 j ?_⟩
      by_cases hji : j < i
      · exact Or.inl ⟨hj, hji⟩
      · exact Or.inr (by omega)
    rw [if_pos c] at h
    have w1 : wadd i 1 = i + 1 := wadd_of_lt (by unfold WORD; omega)
    have wl : wadd (wmul i 2) 1 = 2 * i + 1 := by unfold wadd wmul WORD; omega
    have wr : wadd (wmul i 2) 2 = 2 * i + 2 := by unfold wadd wmul WORD; omega
    rw [w1, wl, wr] at h
    by_cases cs : BUDDY_IS_SPLIT t i = true
    swap
    · rw [if_pos cs] at h
      refine ih t (i + 1) t1 (by omega) h p1 p2 p3 p4 p5 ?_
      intro j hj hs
      by_cases hji : j = i
      · rw [hji] at hs; exact absurd hs cs
      · exact p6 j (by omega) hs
    rw [if_neg (by simpa using cs)] at h
    dsimp only at h
    by_cases cf : BUDDY_IS_FREE t (2 * i + 1) = true ∧ BUDDY_IS_FREE t (2 * i + 2) = true
    · rw [if_pos cf] at h
      have hF : ∀ j, BUDDY_IS_FREE (BUDDY_SET_FREE t i) j = false ↔
          j ≠ i ∧ BUDDY_IS_FREE t j = false := by
        intro j
        rw [buddy_free_false_iff, buddy_free_false_iff, buddy_set_free_split,
          buddy_set_free_alloc]
        by_cases hji : j = i
        · simp [hji]
        · simp [hji]
      refine ih (BUDDY_SET_FREE t i) (i + 1) t1 (by omega) h (buddy_set_byte t i p1).2.2
        ?_ ?_ ?_ ?_ ?_
      · rintro j ⟨hs, hal⟩
        rw [buddy_set_free_split] at hs
        rw [buddy_set_free_alloc] at hal
        by_cases hji : j = i
        · rw [if_pos hji] at hs; exact absurd hs (by decide)
        · rw [if_neg hji] at hs hal; exact p2 j ⟨hs, hal⟩
      · intro j hj0 hf
        obtain ⟨hji, hf⟩ := (hF j).mp hf
        have hp := p3 j hj0 hf
        rw [buddy_set_free_split]
        by_cases hpi : (j - 1) / 2 = i
        · exfalso
          have : j = 2 * i + 1 ∨ j = 2 * i + 2 := by omega
          rcases this with e | e
          · rw [e, cf.1] at hf; exact absurd hf (by decide)
          · rw [e, cf.2] at hf; exact absurd hf (by decide)
        · rw [if_neg hpi]; exact hp
      · intro j
        rw [buddy_set_free_alloc]
        by_cases hji : j = i
        · rw [if_pos hji, ← p4 j, hji]
          cases hai : BUDDY_IS_ALLOC t i
          · rfl
          · exact absurd ⟨cs, hai⟩ (p2 i)
        · rw [if_neg hji]; exact p4 j
      · intro j hs
        rw [buddy_set_free_split] at hs
        by_cases hji : j = i
        · rw [if_pos hji] at hs; exact absurd hs (by decide)
        · rw [if_neg hji] at hs; exact p5 j hs
      · intro j hj hs
        rw [buddy_set_free_split] at hs
        by_cases hji : j = i
        · rw [if_pos hji] at hs; exact absurd hs (by decide)
        · rw [if_neg hji] at hs
          rcases p6 j (by omega) hs with hc | hc
          · exact Or.inl ((hF _).mpr ⟨by omega, hc⟩)
          · exact Or.inr ((hF _).mpr ⟨by omega, hc⟩)
    · rw [if_neg cf] at h
      refine ih t (i + 1) t1 (by omega) h p1 p2 p3 p4 p5 ?_
      intro j hj hs
      by_cases hji : j = i
      · rw [hji]
        cases h1 : BUDDY_IS_FREE t (2 * i + 1)
        · exact Or.inl rfl
        · cases h2 : BUDDY_IS_FREE t (2 * i + 2)
          · exact Or.inr rfl
          · exact absurd ⟨h1, h2⟩ cf
      · exact p6 j (by omega) hs

/-- The outer loop of `buddy_coalescence`: afterwards every Split node has a child that is
not Free. -/
theorem buddy_coalescence_loop_spec (t0 : Nat → Nat) (row_fuel : Nat) :
    ∀ fuel t height t1, height ≤ 30 →
      buddy_coalescence_loop row_fuel fuel t height = .ok t1 →
      (∀ s, t s < 256) →
      (∀ j, ¬ (BUDDY_IS_SPLIT t j = true ∧ BUDDY_IS_ALLOC t j = true)) →
      (∀ j, j ≠ 0 → BUDDY_IS_FREE t j = false → BUDDY_IS_SPLIT t ((j - 1) / 2) = true) →
      (∀ j, BUDDY_IS_ALLOC t j = BUDDY_IS_ALLOC t0 j) →
      (∀ j, BUDDY_IS_SPLIT t j = true → BUDDY_IS_SPLIT t0 j = true) →
      (∀ j, 2 ^ height - 1 ≤ j → BUDDY_IS_SPLIT t j = true →
        BUDDY_IS_FREE t (2 * j + 1) = false ∨ BUDDY_IS_FREE t (2 * j + 2) = false) →
      (∀ s, t1 s < 256) ∧
      (∀ j, ¬ (BUDDY_IS_SPLIT t1 j = true ∧ BUDDY_IS_ALLOC t1 j = true)) ∧
      (∀ j, j ≠ 0 → BUDDY_IS_FREE t1 j = false → BUDDY_IS_SPLIT t1 ((j - 1) / 2) = true) ∧
      (∀ j, BUDDY_IS_ALLOC t1 j = BUDDY_IS_ALLOC t0 j) ∧
      (∀ j, BUDDY_IS_SPLIT t1 j = true → BUDDY_IS_SPLIT t0 j = true) ∧
      (∀ j, BUDDY_IS_SPLIT t1 j = true →
        BUDDY_IS_FREE t1 (2 * j + 1) = false ∨ BUDDY_IS_FREE t1 (2 * j + 2) = false) := by
  intro fuel
  induction fuel with
  | zero =>
    intro t height t1 _ h
    exact absurd h (by simp [buddy_coalescence_loop])
  | succ f ih =>
    intro t height t1 hh h p1 p2 p3 p4 p5 p6
    unfold buddy_coalescence_loop at h
    by_cases c : height > 0
    swap
    · rw [if_neg c] at h
      simp only [Except.ok.injEq] at h
      subst h
      have : height = 0 := by omega
      subst this
      exact ⟨p1, p2, p3, p4, p5, fun j => p6 j (by simp)⟩
    rw [if_pos c] at h
    dsimp only at h
    unfold POW_OF_2 at h
    rw [if_pos (by omega : height - 1 < 31), if_pos (by omega : height < 31)] at h
    dsimp only at h
    obtain ⟨h1, rfl⟩ : ∃ h1, height = h1 + 1 := ⟨height - 1, by omega⟩
    rw [Nat.add_sub_cancel] at h
    have hp1 : 2 ^ h1 ≤ 2 ^ 29 := Nat.pow_le_pow_right (by decide) (by omega)
    have e1 : 2 ^ (h1 + 1) = 2 * 2 ^ h1 := by rw [pow_succ]; omega
    have hpos := Nat.two_pow_pos h1
    cases hrow : buddy_coalescence_row (2 ^ (h1 + 1) - 1) row_fuel t (2 ^ h1 - 1) with
    | error e => rw [hrow] at h; exact absurd h (by simp)
    | ok t2 =>
      rw [hrow] at h
      dsimp only at h
      obtain ⟨q1, q2, q3, q4, q5, q6⟩ := buddy_coalescence_row_spec t0 (2 ^ h1 - 1)
        (2 ^ (h1 + 1) - 1) (by omega) (by omega) row_fuel t (2 ^ h1 - 1) t2 (le_refl _) hrow
        p1 p2 p3 p4 p5 (fun j hj => p6 j (by omega))
      exact ih t2 h1 t1 (by omega) h q1 q2 q3 q4 q5 q6

set_option maxHeartbeats 1000000 in
/-- `buddy_free` of a live allocation preserves the tree invariant and removes exactly that
allocation. -/
theorem buddy_free_inv {b b1 : BuddyAllocator} {live : List (Nat × Nat)} {fuel p bs : Nat}
    (inv : BuddyInv b live) (hm : (p, bs) ∈ live) (h : buddy_free fuel b p = .ok b1) :
    BuddyInv b1 (live.erase (p, bs)) := by
  obtain ⟨a, ha⟩ := inv.align_pow
  have hfits := inv.fits
  have hbuf := inv.buffer_pos
  have hHp := Nat.two_pow_pos b.tree_height
  have hAp : 0 < b.alignment := by rw [ha]; exact Nat.two_pow_pos a
  have hH : b.tree_height < 31 := inv.height_lt (List.ne_nil_of_mem hm)
  have hH31 : 2 ^ b.tree_height ≤ 2 ^ 30 := Nat.pow_le_pow_right (by decide) (by omega)
  obtain ⟨i, hi, hx⟩ := (inv.live_iff _).mp hm
  have hiN := buddy_inv_inside inv (buddy_alloc_not_free hi)
  have hL := buddy_node_level_le hiN
  obtain ⟨l1, l2⟩ := buddy_node_level_spec i
  generalize hLdef : buddy_node_level i = L at *
  have hE := Nat.two_pow_pos (b.tree_height - L)
  have hEL : 2 ^ (b.tree_height - L) * 2 ^ L = 2 ^ b.tree_height := (two_pow_split hL).symm
  have hX : 2 ^ (b.tree_height - L) * (i + 1 - 2 ^ L) + 2 ^ b.tree_height =
      (i + 1) * 2 ^ (b.tree_height - L) := by
    rw [← hEL, ← Nat.mul_add, Nat.sub_add_cancel l1, Nat.mul_comm]
  have hXlt : (i + 1) * 2 ^ (b.tree_height - L) < 2 ^ (b.tree_height + 1) := by
    have := @mul_two_pow_lt i L (b.tree_height - L) l2
    have e : L + (b.tree_height - L) + 1 = b.tree_height + 1 := by omega
    rw [e] at this; exact this
  have e31 : 2 ^ (b.tree_height + 1) = 2 * 2 ^ b.tree_height := by rw [pow_succ]; omega
  have hoff : buddy_node_size b i * (i + 1 - 2 ^ L) =
      2 ^ (b.tree_height - L) * (i + 1 - 2 ^ L) * b.alignment := by
    unfold buddy_node_size; rw [hLdef]; ring
  have hofflt : 2 ^ (b.tree_height - L) * (i + 1 - 2 ^ L) * b.alignment <
      2 ^ b.tree_height * b.alignment :=
    Nat.mul_lt_mul_of_pos_right (by omega) hAp
  simp only [Prod.mk.injEq] at hx
  obtain ⟨hpe, hbse⟩ := hx
  unfold buddy_node_ptr at hpe
  rw [hLdef, hoff] at hpe
  have hnp : ∀ m, 0 < m → BUDDY_IS_ALLOC b.tree ((i + 1) * 2 ^ m - 1) = false := by
    intro m hm0
    cases hc : BUDDY_IS_ALLOC b.tree ((i + 1) * 2 ^ m - 1)
    · rfl
    · obtain ⟨d, rfl⟩ : ∃ d, m = d + 1 := ⟨m - 1, by omega⟩
      have hp : 0 < (i + 1) * 2 ^ (d + 1) := Nat.mul_pos (by omega) (Nat.two_pow_pos _)
      have e : ((i + 1) * 2 ^ (d + 1) - 1 + 1) / 2 ^ (d + 1) = i + 1 := by
        rw [Nat.sub_add_cancel hp, Nat.mul_div_cancel _ (Nat.two_pow_pos _)]
      exact absurd ⟨buddy_anc_split inv.parent_split d _ i e (buddy_alloc_not_free hc), hi⟩
        (inv.excl i)
  unfold buddy_free at h
  dsimp only at h
  unfold POW_OF_2 wdiv at h
  rw [if_pos hH, if_neg (by omega : ¬ b.alignment = 0)] at h
  dsimp only at h
  rw [hpe, wsub_of_le (by omega) (by omega), Nat.add_sub_cancel_left,
    Nat.mul_div_cancel _ hAp, wadd_of_lt (by unfold WORD; omega)] at h
  have hleaf : 2 ^ b.tree_height - 1 + 2 ^ (b.tree_height - L) * (i + 1 - 2 ^ L) =
      (i + 1) * 2 ^ (b.tree_height - L) - 1 := by omega
  rw [hleaf] at h
  cases hfl : buddy_free_loop b.tree fuel ((i + 1) * 2 ^ (b.tree_height - L) - 1) with
  | error e => rw [hfl] at h; exact absurd h (by simp)
  | ok r =>
    rw [hfl] at h
    have hr := buddy_free_loop_spec hi hnp _ fuel r hfl
    have hroot : (if ¬ r.2 = true ∧
          2 ^ (b.tree_height - L) * (i + 1 - 2 ^ L) * b.alignment = 0 then
        if BUDDY_IS_ALLOC r.1 0 = true then (BUDDY_SET_FREE r.1 0, true) else (r.1, r.2)
        else (r.1, r.2)) = (BUDDY_SET_FREE b.tree i, true) := by
      by_cases h0 : i = 0
      · rw [if_pos h0] at hr
        subst hr
        subst h0
        have hL0 : L = 0 := by
          have : 2 ^ L < 2 ^ 1 := by omega
          have := (Nat.pow_lt_pow_iff_right (by decide : 1 < 2)).mp this
          omega
        subst hL0
        dsimp only
        rw [if_pos ⟨by decide, by simp⟩, if_pos hi]
      · rw [if_neg h0] at hr
        subst hr
        dsimp only
        rw [if_neg (by simp)]
    obtain ⟨r1, r2⟩ := r
    dsimp only at h hroot
    rw [hroot] at h
    dsimp only at h
    rw [if_neg (by simp)] at h
    unfold buddy_coalescence at h
    dsimp only at h
    rw [if_neg (by have := inv.height_pos; omega)] at h
    cases hco : buddy_coalescence_loop fuel fuel (BUDDY_SET_FREE b.tree i) b.tree_height with
    | error e => rw [hco] at h; exact absurd h (by simp)
    | ok t2 =>
      rw [hco] at h
      simp only [Except.ok.injEq] at h
      subst h
      have hF : ∀ j, BUDDY_IS_FREE (BUDDY_SET_FREE b.tree i) j = false ↔
          j ≠ i ∧ BUDDY_IS_FREE b.tree j = false := by
        intro j
        rw [buddy_free_false_iff, buddy_free_false_iff, buddy_set_free_split,
          buddy_set_free_alloc]
        by_cases hji : j = i
        · simp [hji]
        · simp [hji]
      have hSi : BUDDY_IS_SPLIT b.tree i = false := by
        cases hc : BUDDY_IS_SPLIT b.tree i
        · rfl
        · exact absurd ⟨hc, hi⟩ (inv.excl i)
      obtain ⟨q1, q2, q3, q4, q5, q6⟩ := buddy_coalescence_loop_spec (BUDDY_SET_FREE b.tree i)
        fuel fuel (BUDDY_SET_FREE b.tree i) b.tree_height t2 (by omega) hco
        (buddy_set_byte b.tree i inv.byte).2.2
        (by
          rintro j ⟨hs, hal⟩
          rw [buddy_set_free_split] at hs
          rw [buddy_set_free_alloc] at hal
          by_cases hji : j = i
          · rw [if_pos hji] at hs; exact absurd hs (by decide)
          · rw [if_neg hji] at hs hal; exact inv.excl j ⟨hs, hal⟩)
        (by
          intro j hj0 hf
          obtain ⟨hji, hf⟩ := (hF j).mp hf
          have hp := inv.parent_split j hj0 hf
          rw [buddy_set_free_split]
          by_cases hpi : (j - 1) / 2 = i
          · rw [hpi, hSi] at hp; exact absurd hp (by decide)
          · rw [if_neg hpi]; exact hp)
        (fun _ => rfl) (fun _ hs => hs)
        (by
          intro j hj hs
          rw [buddy_set_free_split] at hs
          by_cases hji : j = i
          · rw [if_pos hji] at hs; exact absurd hs (by decide)
          · rw [if_neg hji] at hs
            have := buddy_inv_split_inner inv hs
            omega)
      have hA2 : ∀ j, BUDDY_IS_ALLOC t2 j = true ↔ BUDDY_IS_ALLOC b.tree j = true ∧ j ≠ i := by
        intro j
        rw [q4, buddy_set_free_alloc]
        by_cases hji : j = i
        · simp [hji]
        · simp [hji]
      have hS2 : ∀ j, BUDDY_IS_SPLIT t2 j = true → BUDDY_IS_SPLIT b.tree j = true := by
        intro j hs
        have := q5 j hs
        rw [buddy_set_free_split] at this
        by_cases hji : j = i
        · rw [if_pos hji] at this; exact absurd this (by decide)
        · rw [if_neg hji] at this; exact this
      have hnd := inv.live_nodup
      refine
        { height_pos := inv.height_pos
          align_pow := inv.align_pow
          buffer_pos := inv.buffer_pos
          fits := inv.fits
          height_lt := fun _ => hH
          byte := q1
          excl := q2
          outside := ?_
          split_child := q6
          parent_split := q3
          live_nodup := hnd.erase _
          live_iff := ?_ }
      · intro j hj
        have hfj := buddy_free_split (inv.outside j hj)
        rw [buddy_free_true_iff]
        constructor
        · cases hc : BUDDY_IS_SPLIT t2 j
          · rfl
          · have := hS2 j hc
            rw [hfj.1] at this; exact absurd this (by decide)
        · cases hc : BUDDY_IS_ALLOC t2 j
          · rfl
          · have := ((hA2 j).mp hc).1
            rw [hfj.2] at this; exact absurd this (by decide)
      · intro x
        rw [hnd.mem_erase_iff, inv.live_iff]
        have hnode : (p, bs) = (buddy_node_ptr b i, buddy_node_size b i) := by
          rw [hbse]
          unfold buddy_node_ptr
          rw [hLdef, hoff, hpe]
        constructor
        · rintro ⟨hne, j, hj, hxj⟩
          refine ⟨j, (hA2 j).mpr ⟨hj, ?_⟩, hxj⟩
          intro hji
          rw [hji, ← hnode] at hxj
          exact hne hxj
        · rintro ⟨j, hj, hxj⟩
          obtain ⟨hj1, hj2⟩ := (hA2 j).mp hj
          have hxj1 : x = (buddy_node_ptr b j, buddy_node_size b j) := hxj
          refine ⟨?_, j, hj1, hxj1⟩
          intro hxe
          rw [hxe, hnode] at hxj1
          have hjN := buddy_inv_inside inv (buddy_alloc_not_free hj1)
          exact hj2 (buddy_node_inj b hAp hiN hjN hxj1).symm

/-- `buddy_free_all` establishes the tree invariant with no live allocation. -/
theorem buddy_free_all_inv {b b1 : BuddyAllocator} {live : List (Nat × Nat)}
    (inv : BuddyInv b live) (h : buddy_free_all b = .ok b1) : BuddyInv b1 [] := by
  unfold buddy_free_all POW_OF_2 at h
  by_cases hH : b.tree_height + 1 < 31
  swap
  · rw [if_neg hH] at h; exact absurd h (by simp)
  rw [if_pos hH] at h
  simp only [Except.ok.injEq] at h
  subst h
  have hHpos := inv.height_pos
  obtain ⟨h1, hh1⟩ : ∃ h1, b.tree_height = h1 + 1 := ⟨b.tree_height - 1, by omega⟩
  have hp1 : 2 ^ h1 ≤ 2 ^ 29 := Nat.pow_le_pow_right (by decide) (by omega)
  have hpos := Nat.two_pow_pos h1
  have e1 : 2 ^ (b.tree_height + 1) = 4 * 2 ^ h1 := by
    rw [hh1, pow_succ, pow_succ]; omega
  have hts : wadd (wmul (2 ^ (b.tree_height + 1) - 1) 2 / 8) 1 = 2 ^ h1 := by
    rw [e1]; unfold wadd wmul WORD; omega
  have hfree : ∀ j, BUDDY_IS_FREE
      (fun s => if s < wadd (wmul (2 ^ (b.tree_height + 1) - 1) 2 / 8) 1 then 0
        else b.tree s) j = true := by
    intro j
    rw [hts]
    by_cases hj : j / 4 < 2 ^ h1
    · rw [buddy_is_free_eq, buddy_is_split_eq, buddy_is_alloc_eq]
      simp only [hj, if_true]
      simp
    · have hout := inv.outside j (by omega)
      rw [buddy_is_free_eq, buddy_is_split_eq, buddy_is_alloc_eq] at hout ⊢
      simp only [hj, if_false]
      exact hout
  refine
    { height_pos := inv.height_pos
      align_pow := inv.align_pow
      buffer_pos := inv.buffer_pos
      fits := inv.fits
      height_lt := fun hne => absurd rfl hne
      byte := ?_
      excl := ?_
      outside := fun j _ => hfree j
      split_child := ?_
      parent_split := ?_
      live_nodup := List.nodup_nil
      live_iff := ?_ }
  · intro s
    dsimp only
    split
    · decide
    · exact inv.byte s
  · rintro j ⟨hs, _⟩
    have := (buddy_free_split (hfree j)).1
    rw [this] at hs; exact absurd hs (by decide)
  · intro j hs
    have := (buddy_free_split (hfree j)).1
    rw [this] at hs; exact absurd hs (by decide)
  · intro j _ hf
    rw [hfree j] at hf; exact absurd hf (by decide)
  · intro x
    constructor
    · intro hx; exact absurd hx (List.not_mem_nil _)
    · rintro ⟨j, hj, _⟩
      have := (buddy_free_split (hfree j)).2
      rw [this] at hj; exact absurd hj (by decide)

/-- `buddy_init` over a buffer inside the address space establishes the tree invariant. -/
theorem buddy_init_inv {buffer size align : Nat} {b : BuddyAllocator}
    (hw : buffer + size ≤ WORD) (h : buddy_init buffer size align = .ok b) : BuddyInv b [] := by
  obtain ⟨h1, h2, h3, h4, h5, h6, h7⟩ := buddy_init_spec hw h
  have hfree : ∀ j, BUDDY_IS_FREE b.tree j = true := by
    intro j
    rw [h1, buddy_is_free_eq, buddy_is_split_eq, buddy_is_alloc_eq]
    simp
  refine
    { height_pos := h5
      align_pow := by rw [h3]; exact h6
      buffer_pos := by rw [h2]; exact h4
      fits := by rw [h2, h3, ← h7]; exact hw
      height_lt := fun hne => absurd rfl hne
      byte := by intro s; rw [h1]; exact (by decide : (0 : Nat) < 256)
      excl := ?_
      outside := fun j _ => hfree j
      split_child := ?_
      parent_split := ?_
      live_nodup := List.nodup_nil
      live_iff := ?_ }
  · rintro j ⟨hs, _⟩
    have := (buddy_free_split (hfree j)).1
    rw [this] at hs; exact absurd hs (by decide)
  · intro j hs
    have := (buddy_free_split (hfree j)).1
    rw [this] at hs; exact absurd hs (by decide)
  · intro j _ hf
    rw [hfree j] at hf; exact absurd hf (by decide)
  · intro x
    constructor
    · intro hx; exact absurd hx (List.not_mem_nil _)
    · rintro ⟨j, hj, _⟩
      have := (buddy_free_split (hfree j)).2
      rw [this] at hj; exact absurd hj (by decide)

/-- Every reachable state of the buddy allocator satisfies the tree invariant. -/
theorem buddy_reach_inv {b : BuddyAllocator} {live : List (Nat × Nat)}
    (h : BuddyReach b live) : BuddyInv b live := by
  induction h with
  | init hw hi => exact buddy_init_inv hw hi
  | alloc _ _ ha hp ih =>
    rcases buddy_alloc_block_inv ih ha with ⟨h0, _⟩ | ⟨_, hinv⟩
    · exact absurd h0 hp
    · exact hinv
  | alloc_null _ _ ha ih =>
    rcases buddy_alloc_block_inv ih ha with ⟨_, _, hb, _⟩ | ⟨hp, _⟩
    · rw [hb]; exact ih
    · exact absurd rfl hp
  | free _ hm hf ih => exact buddy_free_inv ih hm hf
  | free_all _ hf ih => exact buddy_free_all_inv ih hf

/-! ## Buddy allocator: reachable states -/

/-- A Split node of a tree satisfying the invariant has an Alloc proper descendant. -/
theorem buddy_split_has_alloc {b : BuddyAllocator} {live : List (Nat × Nat)}
    (inv : BuddyInv b live) :
    ∀ n i, 2 ^ (b.tree_height + 1) - 1 - i ≤ n → BUDDY_IS_SPLIT b.tree i = true →
      ∃ j, buddy_desc i j ∧ BUDDY_IS_ALLOC b.tree j = true := by
  intro n
  induction n with
  | zero =>
    intro i hn hs
    have := buddy_inv_inside inv (buddy_split_not_free hs)
    omega
  | succ n ih =>
    intro i hn hs
    have hin := buddy_inv_inside inv (buddy_split_not_free hs)
    have key : ∀ c, (c = 2 * i + 1 ∨ c = 2 * i + 2) → BUDDY_IS_FREE b.tree c = false →
        ∃ j, buddy_desc i j ∧ BUDDY_IS_ALLOC b.tree j = true := by
      intro c hc hf
      have hc2 : (c + 1) / 2 = i + 1 := by omega
      rcases buddy_not_free hf with hcs | hca
      · obtain ⟨j, ⟨d, hd, hj⟩, hja⟩ := ih c (by omega) hcs
        refine ⟨j, ⟨d + 1, by omega, ?_⟩, hja⟩
        rw [pow_succ, ← Nat.div_div_eq_div_mul, hj, hc2]
      · exact ⟨c, ⟨1, by omega, by rw [pow_one]; exact hc2⟩, hca⟩
    rcases inv.split_child i hs with hc | hc
    · exact key _ (Or.inl rfl) hc
    · exact key _ (Or.inr rfl) hc

/-- In a tree satisfying the invariant every proper ancestor of a node that is not Free is
Split. -/
theorem buddy_desc_split {b : BuddyAllocator} {live : List (Nat × Nat)} (inv : BuddyInv b live)
    {i j : Nat} (hd : buddy_desc i j) (hf : BUDDY_IS_FREE b.tree j = false) :
    BUDDY_IS_SPLIT b.tree i = true := by
  obtain ⟨d, hd0, hj⟩ := hd
  obtain ⟨d1, rfl⟩ : ∃ d1, d = d1 + 1 := ⟨d - 1, by omega⟩
  exact buddy_anc_split inv.parent_split d1 j i hj hf

/-- The five allocations `alloc(4)`, `alloc(9)`, `alloc(5)`, `alloc(10)`, `alloc(6)` on the
128-byte allocator at 4096 with leaves of 8 bytes, evaluated. -/
theorem buddy_example_seq :
    ∃ b0 b1 b2 b3 b4 b5 m1 m2 m3 m4 m5,
      buddy_init 4096 128 8 = .ok b0 ∧
      buddy_alloc_block 16 b0 (fun _ => 0) 4 = .ok (4096 + 0, 8, b1, m1) ∧
      buddy_alloc_block 16 b1 m1 9 = .ok (4096 + 16, 16, b2, m2) ∧
      buddy_alloc_block 16 b2 m2 5 = .ok (4096 + 8, 8, b3, m3) ∧
      buddy_alloc_block 16 b3 m3 10 = .ok (4096 + 32, 16, b4, m4) ∧
      buddy_alloc_block 16 b4 m4 6 = .ok (4096 + 48, 8, b5, m5) :=
  ⟨_, _, _, _, _, _, _, _, _, _, _, rfl, rfl, rfl, rfl, rfl, rfl⟩

/-- Claim C30: in every state reachable from `buddy_init` by `buddy_alloc` (sizes of at
least 1), `buddy_free` of live allocations and `buddy_free_all`: no node is both Split and
Alloc, and Free means neither; a node is Split if and only if some proper descendant is
Alloc; every proper descendant of an Alloc node is Free; and a node whose subtree (the node
and its proper descendants) contains no Alloc node is Free. -/
theorem buddy_tree_invariant (b : BuddyAllocator) (live : List (Nat × Nat))
    (h : BuddyReach b live) :
    (∀ i, ¬ (BUDDY_IS_SPLIT b.tree i = true ∧ BUDDY_IS_ALLOC b.tree i = true)) ∧
      (∀ i, BUDDY_IS_FREE b.tree i = (!BUDDY_IS_SPLIT b.tree i && !BUDDY_IS_ALLOC b.tree i)) ∧
      (∀ i, BUDDY_IS_SPLIT b.tree i = true ↔
        ∃ j, buddy_desc i j ∧ BUDDY_IS_ALLOC b.tree j = true) ∧
      (∀ i j, BUDDY_IS_ALLOC b.tree i = true → buddy_desc i j →
        BUDDY_IS_FREE b.tree j = true) ∧
      (∀ i, (∀ j, j = i ∨ buddy_desc i j → BUDDY_IS_ALLOC b.tree j = false) →
        BUDDY_IS_FREE b.tree i = true) := by
  have inv := buddy_reach_inv h
  have hsplit : ∀ i, BUDDY_IS_SPLIT b.tree i = true →
      ∃ j, buddy_desc i j ∧ BUDDY_IS_ALLOC b.tree j = true :=
    fun i hs => buddy_split_has_alloc inv _ i (le_refl _) hs
  refine ⟨inv.excl, fun i => buddy_is_free_eq b.tree i, fun i => ⟨hsplit i, ?_⟩, ?_, ?_⟩
  · rintro ⟨j, hd, hj⟩
    exact buddy_desc_split inv hd (buddy_alloc_not_free hj)
  · intro i j hi hd
    cases hc : BUDDY_IS_FREE b.tree j
    · exact absurd ⟨buddy_desc_split inv hd hc, hi⟩ (inv.excl i)
    · rfl
  · intro i hno
    cases hc : BUDDY_IS_FREE b.tree i
    · rcases buddy_not_free hc with hs | ha
      · obtain ⟨j, hd, hj⟩ := hsplit i hs
        rw [hno j (Or.inr hd)] at hj
        exact absurd hj (by decide)
      · rw [hno i (Or.inl rfl)] at ha
        exact absurd ha (by decide)
    · rfl

/-- Instance of C30: the state after `buddy_alloc(4)` and `buddy_alloc(9)` on the fresh
allocator over 128 bytes at 4096 with leaves of 8 bytes. -/
theorem buddy_tree_invariant_witness :
    ∃ b, BuddyReach b [(4112, 16), (4096, 8)] ∧
      (∀ i, ¬ (BUDDY_IS_SPLIT b.tree i = true ∧ BUDDY_IS_ALLOC b.tree i = true)) ∧
      (∀ i, BUDDY_IS_FREE b.tree i = (!BUDDY_IS_SPLIT b.tree i && !BUDDY_IS_ALLOC b.tree i)) ∧
      (∀ i, BUDDY_IS_SPLIT b.tree i = true ↔
        ∃ j, buddy_desc i j ∧ BUDDY_IS_ALLOC b.tree j = true) ∧
      (∀ i j, BUDDY_IS_ALLOC b.tree i = true → buddy_desc i j →
        BUDDY_IS_FREE b.tree j = true) ∧
      (∀ i, (∀ j, j = i ∨ buddy_desc i j → BUDDY_IS_ALLOC b.tree j = false) →
        BUDDY_IS_FREE b.tree i = true) :=
  by
  obtain ⟨b0, b1, b2, _, _, _, m1, m2, _, _, _, h0, h1, h2, _⟩ := buddy_example_seq
  have h := BuddyReach.alloc (BuddyReach.alloc (BuddyReach.init (by decide) h0) (by decide) h1
    (by decide)) (by decide) h2 (by decide)
  exact ⟨b2, h, buddy_tree_invariant _ _ h⟩

/-- Blocks of the tree: the block of a node lies inside the buffer. -/
theorem buddy_node_inside (b : BuddyAllocator) {i : Nat}
    (hi : i < 2 ^ (b.tree_height + 1) - 1) :
    buddy_node_size b i * 2 ^ buddy_node_level i = 2 ^ b.tree_height * b.alignment ∧
      buddy_node_ptr b i + 2 ^ b.tree_height * b.alignment =
        b.buffer + buddy_node_size b i * (i + 1) ∧
      buddy_node_ptr b i + buddy_node_size b i ≤
        b.buffer + 2 ^ b.tree_height * b.alignment := by
  have hL := buddy_node_level_le hi
  obtain ⟨l1, l2⟩ := buddy_node_level_spec i
  have e1 : buddy_node_size b i * 2 ^ buddy_node_level i =
      2 ^ b.tree_height * b.alignment := by
    unfold buddy_node_size
    rw [Nat.mul_assoc, Nat.mul_comm b.alignment, ← Nat.mul_assoc, ← two_pow_split hL]
  have e2 : buddy_node_size b i * (i + 1 - 2 ^ buddy_node_level i) +
      buddy_node_size b i * 2 ^ buddy_node_level i = buddy_node_size b i * (i + 1) := by
    rw [← Nat.mul_add, Nat.sub_add_cancel l1]
  have e3 : buddy_node_size b i * (i + 1) + buddy_node_size b i ≤
      buddy_node_size b i * 2 ^ buddy_node_level i +
        buddy_node_size b i * 2 ^ buddy_node_level i := by
    have : i + 1 + 1 ≤ 2 ^ buddy_node_level i + 2 ^ buddy_node_level i := by
      rw [pow_succ] at l2; omega
    calc buddy_node_size b i * (i + 1) + buddy_node_size b i
        = buddy_node_size b i * (i + 1 + 1) := by ring
      _ ≤ buddy_node_size b i * (2 ^ buddy_node_level i + 2 ^ buddy_node_level i) :=
          Nat.mul_le_mul_left _ this
      _ = _ := by ring
  refine ⟨e1, ?_, ?_⟩
  · unfold buddy_node_ptr; omega
  · unfold buddy_node_ptr; omega

/-- Two nodes of the tree, the second not above the first and not below it either, have
disjoint blocks. -/
theorem buddy_node_disjoint (b : BuddyAllocator) {i j : Nat}
    (hi : i < 2 ^ (b.tree_height + 1) - 1) (hj : j < 2 ^ (b.tree_height + 1) - 1)
    (hle : buddy_node_level i ≤ buddy_node_level j)
    (hne : (j + 1) / 2 ^ (buddy_node_level j - buddy_node_level i) ≠ i + 1) :
    buddy_node_ptr b i + buddy_node_size b i ≤ buddy_node_ptr b j ∨
      buddy_node_ptr b j + buddy_node_size b j ≤ buddy_node_ptr b i := by
  obtain ⟨_, pi, _⟩ := buddy_node_inside b hi
  obtain ⟨_, pj, _⟩ := buddy_node_inside b hj
  have hLj := buddy_node_level_le hj
  generalize hd : buddy_node_level j - buddy_node_level i = d at *
  have hsz : buddy_node_size b i = buddy_node_size b j * 2 ^ d := by
    unfold buddy_node_size
    have : b.tree_height - buddy_node_level i = b.tree_height - buddy_node_level j + d := by
      omega
    rw [this, pow_add]; ring
  have hp := Nat.two_pow_pos d
  have hdm := Nat.div_add_mod (j + 1) (2 ^ d)
  have hml := Nat.mod_lt (j + 1) hp
  generalize hq : (j + 1) / 2 ^ d = q at *
  by_cases hlt : q < i + 1
  · right
    have h1 : 2 ^ d * (q + 1) ≤ 2 ^ d * (i + 1) := Nat.mul_le_mul_left _ (by omega)
    have h2 : j + 1 + 1 ≤ 2 ^ d * (i + 1) := by
      rw [Nat.mul_add, Nat.mul_one] at h1; omega
    have h3 : buddy_node_size b j * (j + 1 + 1) ≤ buddy_node_size b j * (2 ^ d * (i + 1)) :=
      Nat.mul_le_mul_left _ h2
    have h4 : buddy_node_size b j * (2 ^ d * (i + 1)) = buddy_node_size b i * (i + 1) := by
      rw [hsz]; ring
    have h5 : buddy_node_size b j * (j + 1 + 1) =
        buddy_node_size b j * (j + 1) + buddy_node_size b j := by ring
    omega
  · left
    have h1 : 2 ^ d * (i + 1 + 1) ≤ 2 ^ d * q := Nat.mul_le_mul_left _ (by omega)
    have h2 : 2 ^ d * (i + 1 + 1) ≤ j + 1 := by omega
    have h3 : buddy_node_size b j * (2 ^ d * (i + 1 + 1)) ≤ buddy_node_size b j * (j + 1) :=
      Nat.mul_le_mul_left _ h2
    have h4 : buddy_node_size b j * (2 ^ d * (i + 1 + 1)) =
        buddy_node_size b i * (i + 1) + buddy_node_size b i := by
      rw [hsz]; ring
    omega

/-- In a tree satisfying the invariant two distinct Alloc nodes have disjoint blocks. -/
theorem buddy_alloc_nodes_disjoint {b : BuddyAllocator} {live : List (Nat × Nat)}
    (inv : BuddyInv b live) {i j : Nat} (hi : BUDDY_IS_ALLOC b.tree i = true)
    (hj : BUDDY_IS_ALLOC b.tree j = true) (hne : i ≠ j) :
    buddy_node_ptr b i + buddy_node_size b i ≤ buddy_node_ptr b j ∨
      buddy_node_ptr b j + buddy_node_size b j ≤ buddy_node_ptr b i := by
  have hiN := buddy_inv_inside inv (buddy_alloc_not_free hi)
  have hjN := buddy_inv_inside inv (buddy_alloc_not_free hj)
  have key : ∀ {i j : Nat}, BUDDY_IS_ALLOC b.tree i = true → BUDDY_IS_ALLOC b.tree j = true →
      i ≠ j → buddy_node_level i ≤ buddy_node_level j →
      (j + 1) / 2 ^ (buddy_node_level j - buddy_node_level i) ≠ i + 1 := by
    intro i j hi hj hne hle he
    by_cases hd : buddy_node_level j - buddy_node_level i = 0
    · rw [hd, pow_zero, Nat.div_one] at he; omega
    · exact absurd ⟨buddy_desc_split inv ⟨_, by omega, he⟩ (buddy_alloc_not_free hj), hi⟩
        (inv.excl i)
  by_cases hle : buddy_node_level i ≤ buddy_node_level j
  · exact buddy_node_disjoint b hiN hjN hle (key hi hj hne hle)
  · exact (buddy_node_disjoint b hjN hiN (by omega) (key hj hi (Ne.symm hne) (by omega))).symm

/-- Claim C21: in every state reachable from `buddy_init` (over a buffer inside the address
space) by `buddy_alloc` calls with sizes of at least 1, `buddy_free` calls on live
allocations and `buddy_free_all`, every live allocation `(p, block_size)` lies inside
`[base, base + 2^H * A)` and the byte ranges of any two live allocations are disjoint.
On the 128-byte allocator at 4096 with leaves of 8 bytes the sequence `alloc(4)`,
`alloc(9)`, `alloc(5)`, `alloc(10)`, `alloc(6)` returns the offsets 0, 16, 8, 32, 48 with
block sizes 8, 16, 8, 16, 8. -/
theorem buddy_live_disjoint (b : BuddyAllocator) (live : List (Nat × Nat))
    (h : BuddyReach b live) :
    (∀ x ∈ live, b.buffer ≤ x.1 ∧
        x.1 + x.2 ≤ b.buffer + 2 ^ b.tree_height * b.alignment) ∧
      live.Pairwise (fun x y => x.1 + x.2 ≤ y.1 ∨ y.1 + y.2 ≤ x.1) ∧
      ∃ b0 b1 b2 b3 b4 b5 m1 m2 m3 m4 m5,
        buddy_init 4096 128 8 = .ok b0 ∧
        buddy_alloc_block 16 b0 (fun _ => 0) 4 = .ok (4096 + 0, 8, b1, m1) ∧
        buddy_alloc_block 16 b1 m1 9 = .ok (4096 + 16, 16, b2, m2) ∧
        buddy_alloc_block 16 b2 m2 5 = .ok (4096 + 8, 8, b3, m3) ∧
        buddy_alloc_block 16 b3 m3 10 = .ok (4096 + 32, 16, b4, m4) ∧
        buddy_alloc_block 16 b4 m4 6 = .ok (4096 + 48, 8, b5, m5) := by
  have inv := buddy_reach_inv h
  refine ⟨?_, ?_, buddy_example_seq⟩
  · intro x hx
    obtain ⟨i, hi, rfl⟩ := (inv.live_iff x).mp hx
    have hiN := buddy_inv_inside inv (buddy_alloc_not_free hi)
    exact ⟨Nat.le_add_right _ _, (buddy_node_inside b hiN).2.2⟩
  · refine inv.live_nodup.pairwise_of_forall_ne ?_
    intro x hx y hy hxy
    obtain ⟨i, hi, rfl⟩ := (inv.live_iff x).mp hx
    obtain ⟨j, hj, rfl⟩ := (inv.live_iff y).mp hy
    have hne : i ≠ j := fun e => hxy (by rw [e])
    exact buddy_alloc_nodes_disjoint inv hi hj hne

/-- Instance of C21: the state reached by the five allocations of the claim. -/
theorem buddy_live_disjoint_witness :
    ∃ b, BuddyReach b [(4144, 8), (4128, 16), (4104, 8), (4112, 16), (4096, 8)] ∧
      (∀ x ∈ [(4144, 8), (4128, 16), (4104, 8), (4112, 16), (4096, 8)],
        b.buffer ≤ x.1 ∧ x.1 + x.2 ≤ b.buffer + 2 ^ b.tree_height * b.alignment) ∧
      ([(4144, 8), (4128, 16), (4104, 8), (4112, 16), (4096, 8)] : List (Nat × Nat)).Pairwise
        (fun x y => x.1 + x.2 ≤ y.1 ∨ y.1 + y.2 ≤ x.1) ∧
      ∃ b0 b1 b2 b3 b4 b5 m1 m2 m3 m4 m5,
        buddy_init 4096 128 8 = .ok b0 ∧
        buddy_alloc_block 16 b0 (fun _ => 0) 4 = .ok (4096 + 0, 8, b1, m1) ∧
        buddy_alloc_block 16 b1 m1 9 = .ok (4096 + 16, 16, b2, m2) ∧
        buddy_alloc_block 16 b2 m2 5 = .ok (4096 + 8, 8, b3, m3) ∧
        buddy_alloc_block 16 b3 m3 10 = .ok (4096 + 32, 16, b4, m4) ∧
        buddy_alloc_block 16 b4 m4 6 = .ok (4096 + 48, 8, b5, m5) :=
  by
  obtain ⟨b0, b1, b2, b3, b4, b5, m1, m2, m3, m4, m5, h0, h1, h2, h3, h4, h5⟩ :=
    buddy_example_seq
  have h := BuddyReach.alloc (BuddyReach.alloc (BuddyReach.alloc (BuddyReach.alloc
    (BuddyReach.alloc (BuddyReach.init (by decide) h0) (by decide) h1 (by decide))
    (by decide) h2 (by decide)) (by decide) h3 (by decide)) (by decide) h4 (by decide))
    (by decide) h5 (by decide)
  exact ⟨b5, h, buddy_live_disjoint _ _ h⟩

theorem buddy_init_tree {buffer size align : Nat} {b : BuddyAllocator}
    (h : buddy_init buffer size align = .ok b) : b.tree = fun _ => 0 := by
  unfold buddy_init at h
  split at h
  · exact absurd h (by simp)
  split at h
  · exact absurd h (by simp)
  split at h
  · exact absurd h (by simp)
  split at h
  · exact absurd h (by simp)
  split at h
  · exact absurd h (by simp)
  split at h
  · exact absurd h (by simp)
  split at h
  · exact absurd h (by simp)
  dsimp only at h
  split at h
  · exact absurd h (by simp)
  simp only [Except.ok.injEq] at h
  rw [← h]

/-- The two `buddy_free` calls that release the first two allocations of the example. -/
theorem buddy_example_free :
    ∃ b0 b1 b2 b3 b4 m1 m2,
      buddy_init 4096 128 8 = .ok b0 ∧
      buddy_alloc_block 16 b0 (fun _ => 0) 4 = .ok (4096, 8, b1, m1) ∧
      buddy_alloc_block 16 b1 m1 9 = .ok (4112, 16, b2, m2) ∧
      buddy_free 16 b2 4096 = .ok b3 ∧ buddy_free 16 b3 4112 = .ok b4 :=
  ⟨_, _, _, _, _, _, _, rfl, rfl, rfl, rfl, rfl⟩

/-- A reachable state of the buddy allocator in which no allocation is live has every tree
cell zero and every node Free: the tree is the one produced by `buddy_init`, and
`buddy_free_all` would not change it. -/
theorem buddy_no_live_zero (b : BuddyAllocator) (h : BuddyReach b []) :
    b.tree = (fun _ => 0) ∧ (∀ i, BUDDY_IS_FREE b.tree i = true) ∧
      (∀ buffer size align b0, buddy_init buffer size align = .ok b0 → b0.tree = b.tree) ∧
      (∀ b1, buddy_free_all b = .ok b1 → b1.tree = b.tree) := by
  have inv := buddy_reach_inv h
  have hna : ∀ j, BUDDY_IS_ALLOC b.tree j = false := by
    intro j
    cases hc : BUDDY_IS_ALLOC b.tree j
    · rfl
    · exact absurd ((inv.live_iff _).mpr ⟨j, hc, rfl⟩) (List.not_mem_nil _)
  have hfree : ∀ i, BUDDY_IS_FREE b.tree i = true := by
    intro i
    cases hc : BUDDY_IS_FREE b.tree i
    · rcases buddy_not_free hc with hs | ha
      · obtain ⟨j, _, hj⟩ := buddy_split_has_alloc inv _ i (le_refl _) hs
        rw [hna j] at hj; exact absurd hj (by decide)
      · rw [hna i] at ha; exact absurd ha (by decide)
    · rfl
  have hz : b.tree = (fun _ => 0) := by
    funext s
    exact buddy_byte_zero b.tree s (inv.byte s) (fun i _ => hfree i)
  refine ⟨hz, hfree, ?_, ?_⟩
  · intro buffer size align b0 h0
    rw [buddy_init_tree h0, hz]
  · intro b1 h1
    unfold buddy_free_all at h1
    split at h1
    · exact absurd h1 (by simp)
    · simp only [Except.ok.injEq] at h1
      rw [← h1]
      funext s
      dsimp only
      split
      · rw [hz]
      · rfl

/-- `align_forward` returns an aligned address unchanged. -/
theorem align_forward_aligned {address a : Nat} (hal : 2 ^ a < WORD)
    (hm : address % 2 ^ a = 0) : align_forward address (2 ^ a) = .ok address := by
  unfold align_forward
  rw [is_power_of_two_two_pow hal]
  simp only [if_true, and_mask_two_pow _ hal, hm, ne_eq, not_true_eq_false, if_false]

/-- The search of `buddy_alloc` for a block of the whole buffer when the root is not Free:
the root and at most its two children are visited and nothing is found. -/
theorem buddy_search_whole (t : Nat → Nat) (BS : Nat) (hBS : 0 < BS)
    (hroot : BUDDY_IS_FREE t 0 = false) (f : Nat) :
    ∃ st, buddy_search t BS BS (f + 4)
        { queue := fun j => if j = 0 then 0 else 0, head := 0, tail := 1, found := false,
          buddy_index := 0, buddy_size := WORD - 1, buddy_height := 0 } = .ok st ∧
      st.found = false := by
  have lvl0 : buddy_level 65 BS (wadd 0 1) 0 = .ok (BS, 0) := rfl
  have lvl1 : buddy_level 65 BS (wadd 1 1) 0 = .ok (BS / 2, 1) := rfl
  have lvl2 : buddy_level 65 BS (wadd 2 1) 0 = .ok (BS / 2, 1) := rfl
  have hlt : BS / 2 < BS := by omega
  have hnl : ¬ BS < BS := by omega
  have hnf : ¬ (BUDDY_IS_FREE t 0 = true ∧ BS < WORD - 1) := by rw [hroot]; simp
  have wl : wadd (wmul 0 2) 1 = 1 := rfl
  have wr : wadd (wmul 0 2) 2 = 2 := rfl
  by_cases hs : BUDDY_IS_SPLIT t 0 = true
  · rw [buddy_search]
    simp +decide only [lvl0, hnl, hnf, hs, if_true, if_false, wl, wr, Nat.reduceAdd,
      Nat.reduceMod]
    rw [buddy_search]
    simp +decide only [lvl1, hlt, if_true, if_false, Nat.reduceAdd, Nat.reduceMod]
    rw [buddy_search]
    simp +decide only [lvl2, hlt, if_true, if_false, Nat.reduceAdd, Nat.reduceMod]
    rw [buddy_search]
    simp +decide only [if_true]
    exact ⟨_, rfl, rfl⟩
  · rw [buddy_search]
    simp +decide only [lvl0, hnl, hnf, hs, if_true, if_false, Nat.reduceAdd, Nat.reduceMod]
    rw [buddy_search]
    simp +decide only [if_true]
    exact ⟨_, rfl, rfl⟩

/-- In a tree satisfying the invariant with a live allocation the root is not Free. -/
theorem buddy_root_not_free {b : BuddyAllocator} {live : List (Nat × Nat)}
    (inv : BuddyInv b live) (hne : live ≠ []) : BUDDY_IS_FREE b.tree 0 = false := by
  obtain ⟨x, hx⟩ := List.exists_mem_of_ne_nil live hne
  obtain ⟨i, hi, _⟩ := (inv.live_iff x).mp hx
  by_cases h0 : i = 0
  · rw [← h0]; exact buddy_alloc_not_free hi
  · obtain ⟨l1, l2⟩ := buddy_node_level_spec i
    have hL : buddy_node_level i ≠ 0 := by
      intro hz; rw [hz] at l2; simp at l2; omega
    have hdiv : (i + 1) / 2 ^ buddy_node_level i = 0 + 1 := by
      have hp := Nat.two_pow_pos (buddy_node_level i)
      have h1 : (i + 1) / 2 ^ buddy_node_level i < 2 := by
        rw [Nat.div_lt_iff_lt_mul hp]; rw [pow_succ] at l2; omega
      have h2 : 1 ≤ (i + 1) / 2 ^ buddy_node_level i := by
        rw [Nat.le_div_iff_mul_le hp, Nat.one_mul]; exact l1
      omega
    exact buddy_split_not_free
      (buddy_desc_split inv ⟨_, by omega, hdiv⟩ (buddy_alloc_not_free hi))

/-- Claim C23: in every state reachable from `buddy_init` by `buddy_alloc` (sizes of at
least 1), `buddy_free` of live allocations and `buddy_free_all`: when at least one
allocation is live, `buddy_alloc(buffer_size)` with `buffer_size = 2^H * A` returns `NULL`
for every step budget of at least 4, leaving allocator and memory unchanged; and every
`buddy_alloc` call, of any size, that returns `NULL` leaves the allocator (all tree cells)
and the memory unchanged. -/
theorem buddy_alloc_whole_null (b : BuddyAllocator) (live : List (Nat × Nat))
    (h : BuddyReach b live) :
    (live ≠ [] → ∀ fuel mem, 4 ≤ fuel →
        POW_OF_2 b.tree_height = .ok (2 ^ b.tree_height) ∧
        buddy_alloc fuel b mem (2 ^ b.tree_height * b.alignment) = .ok (0, b, mem)) ∧
      ∀ fuel size mem b1 mem1, buddy_alloc fuel b mem size = .ok (0, b1, mem1) →
        b1 = b ∧ mem1 = mem := by
  have inv := buddy_reach_inv h
  constructor
  · intro hne fuel mem hf
    obtain ⟨a, ha⟩ := inv.align_pow
    have hfits := inv.fits
    have hbuf := inv.buffer_pos
    have hHp := Nat.two_pow_pos b.tree_height
    have hAp : 0 < b.alignment := by rw [ha]; exact Nat.two_pow_pos a
    have hBS : b.alignment ≤ 2 ^ b.tree_height * b.alignment := Nat.le_mul_of_pos_left _ hHp
    have hal : 2 ^ a < WORD := by rw [← ha]; omega
    have hH : b.tree_height < 31 := inv.height_lt hne
    have hpow : POW_OF_2 b.tree_height = .ok (2 ^ b.tree_height) := by
      unfold POW_OF_2; rw [if_pos hH]
    refine ⟨hpow, ?_⟩
    have haf : align_forward (2 ^ b.tree_height * b.alignment) b.alignment =
        .ok (2 ^ b.tree_height * b.alignment) := by
      have := @align_forward_aligned (2 ^ b.tree_height * b.alignment) a hal
        (by rw [← ha]; exact Nat.mul_mod_left _ _)
      rw [← ha] at this; exact this
    obtain ⟨f, rfl⟩ : ∃ f, fuel = f + 4 := ⟨fuel - 4, by omega⟩
    obtain ⟨st, hst, hnf⟩ := buddy_search_whole b.tree (2 ^ b.tree_height * b.alignment)
      (by omega) (buddy_root_not_free inv hne) f
    unfold buddy_alloc buddy_alloc_block
    rw [haf]
    dsimp only
    rw [hpow]
    dsimp only
    rw [wmul_of_lt (by omega), hst]
    dsimp only
    rw [hnf]
    rfl
  · intro fuel size mem b1 mem1 hal
    unfold buddy_alloc at hal
    cases hbl : buddy_alloc_block fuel b mem size with
    | error e => rw [hbl] at hal; exact absurd hal (by simp)
    | ok r =>
      obtain ⟨p, bs, b2, m2⟩ := r
      rw [hbl] at hal
      simp only [Except.ok.injEq, Prod.mk.injEq] at hal
      obtain ⟨hp, hb, hm⟩ := hal
      subst hp hb hm
      rcases buddy_alloc_block_inv inv hbl with ⟨_, _, e1, e2⟩ | ⟨hp, _⟩
      · exact ⟨e1, e2⟩
      · exact absurd rfl hp

/-- Instance of C23: after `buddy_alloc(4)` on the fresh 128-byte allocator at 4096,
`buddy_alloc(128)` returns `NULL`. -/
theorem buddy_alloc_whole_null_witness :
    ∃ b, BuddyReach b [(4096, 8)] ∧
      (([(4096, 8)] : List (Nat × Nat)) ≠ [] → ∀ fuel mem, 4 ≤ fuel →
        POW_OF_2 b.tree_height = .ok (2 ^ b.tree_height) ∧
        buddy_alloc fuel b mem (2 ^ b.tree_height * b.alignment) = .ok (0, b, mem)) ∧
      ∀ fuel size mem b1 mem1, buddy_alloc fuel b mem size = .ok (0, b1, mem1) →
        b1 = b ∧ mem1 = mem := by
  obtain ⟨b0, b1, _, _, _, _, m1, _, _, _, _, h0, h1, _⟩ := buddy_example_seq
  have h := BuddyReach.alloc (BuddyReach.init (by decide) h0) (by decide) h1 (by decide)
  exact ⟨b1, h, buddy_alloc_whole_null _ _ h⟩

/-! ## Free list: freeing and coalescence -/

/-- The search of `free_list_free` over a list split into the nodes at or below `new_node`
and the nodes above it. -/
theorem free_list_walk_spec {mem : Mem} {new_node : Nat} (pre : List (Nat × Nat)) :
    ∀ fuel prev_node node post, FreeSeg mem node 0 (pre ++ post) →
      (∀ n ∈ pre, n.1 ≤ new_node) → (∀ n ∈ post, new_node < n.1) → pre.length < fuel →
      free_list_walk mem new_node fuel prev_node node =
        .ok (pre.foldl (fun _ n => n.1) prev_node, (post.head?.map Prod.fst).getD 0) := by
  induction pre with
  | nil =>
    intro fuel prev_node node post hseg _ hpost hf
    obtain ⟨f, rfl⟩ : ∃ f, fuel = f + 1 := ⟨fuel - 1, by omega⟩
    have hh := free_seg_head hseg
    rw [List.nil_append] at hh
    unfold free_list_walk
    cases post with
    | nil =>
      simp only [List.head?_nil, Option.map_none', Option.getD_none] at hh ⊢
      rw [if_pos hh, hh]; rfl
    | cons c post =>
      simp only [List.head?_cons, Option.map_some', Option.getD_some] at hh ⊢
      have h0 : node ≠ 0 := by rw [hh]; exact hseg.2.1
      have hgt : node > new_node := by rw [hh]; exact hpost c (List.mem_cons_self _ _)
      rw [if_neg h0, if_pos hgt, hh]; rfl
  | cons b pre ih =>
    intro fuel prev_node node post hseg hpre hpost hf
    obtain ⟨f, rfl⟩ : ∃ f, fuel = f + 1 := ⟨fuel - 1, by simp at hf; omega⟩
    obtain ⟨b1, b2⟩ := b
    obtain ⟨e1, e2, _, e4⟩ := hseg
    subst e1
    have hle : ¬ node > new_node := by
      have := hpre (node, b2) (List.mem_cons_self _ _)
      dsimp only at this; omega
    unfold free_list_walk
    rw [if_neg e2, if_neg hle]
    exact ih f node (load64 mem node) post e4
      (fun n hn => hpre n (List.mem_cons_of_mem _ hn)) hpost (by simp at hf; omega)

/-- A larger step budget does not change a result of the `free_list_free` search. -/
theorem free_list_walk_mono {mem : Mem} {new_node : Nat} :
    ∀ fuel fuel1 prev_node node r, fuel ≤ fuel1 →
      free_list_walk mem new_node fuel prev_node node = .ok r →
      free_list_walk mem new_node fuel1 prev_node node = .ok r := by
  intro fuel
  induction fuel with
  | zero =>
    intro fuel1 prev_node node r _ h
    exact absurd h (by simp [free_list_walk])
  | succ f ih =>
    intro fuel1 prev_node node r hle h
    obtain ⟨f1, rfl⟩ : ∃ f1, fuel1 = f1 + 1 := ⟨fuel1 - 1, by omega⟩
    unfold free_list_walk at h ⊢
    split
    · rename_i h0; rw [if_pos h0] at h; exact h
    · rename_i h0
      rw [if_neg h0] at h
      split
      · rename_i h1; rw [if_pos h1] at h; exact h
      · rename_i h1
        rw [if_neg h1] at h
        exact ih f1 _ _ r (by omega) h

/-- A larger step budget does not change a result of the first-fit search. -/
theorem free_list_first_fit_mono {mem : Mem} {size align : Nat} :
    ∀ fuel fuel1 prev_node node r, fuel ≤ fuel1 →
      free_list_first_fit mem size align fuel prev_node node = .ok r →
      free_list_first_fit mem size align fuel1 prev_node node = .ok r := by
  intro fuel
  induction fuel with
  | zero =>
    intro fuel1 prev_node node r _ h
    exact absurd h (by simp [free_list_first_fit])
  | succ f ih =>
    intro fuel1 prev_node node r hle h
    obtain ⟨f1, rfl⟩ : ∃ f1, fuel1 = f1 + 1 := ⟨fuel1 - 1, by omega⟩
    unfold free_list_first_fit at h ⊢
    split
    · rename_i h0; rw [if_pos h0] at h; exact h
    · rename_i h0
      rw [if_neg h0] at h
      split
      · rename_i e he; rw [he] at h; exact h
      · rename_i padd he
        rw [he] at h
        dsimp only at h ⊢
        split
        · rename_i h1; rw [if_pos h1] at h; exact h
        · rename_i h1
          rw [if_neg h1] at h
          exact ih f1 _ _ r (by omega) h

/-- Merging a node with its successor: the node takes the sum of the sizes and the
successor of its successor. -/
theorem free_seg_merge {mem : Mem} {head : Nat} (X : List (Nat × Nat)) {n1 s1 n2 s2 : Nat}
    {Y : List (Nat × Nat)} (h : FreeSeg mem head 0 (X ++ (n1, s1) :: (n2, s2) :: Y))
    (hX : ∀ n ∈ X, n.1 + 16 ≤ n1) (hY : ∀ n ∈ Y, n1 + 16 ≤ n.1)
    (hs : s1 + s2 < WORD) (hnx : load64 mem n2 < WORD) :
    FreeSeg (store64 (store64 mem (n1 + 8) (s1 + s2)) n1 (load64 mem n2)) head 0
      (X ++ (n1, s1 + s2) :: Y) := by
  obtain ⟨mid, g1, g2⟩ := free_seg_split X head 0 _ h
  obtain ⟨k1, k2, _, k4⟩ := g2
  obtain ⟨_, _, _, j4⟩ := k4
  refine free_seg_append X head mid 0 _ (free_seg_frame X head mid ?_ g1) ⟨k1, k2, ?_, ?_⟩
  · intro n hn x hx1 hx2
    have := hX n hn
    rw [store64_ne (by omega), store64_ne (by omega)]
  · rw [load64_store64_ne (by omega)]
    exact load64_store64 _ _ _ hs
  · rw [load64_store64 _ _ _ hnx]
    refine free_seg_frame Y _ 0 ?_ j4
    intro n hn x hx1 hx2
    have := hY n hn
    rw [store64_ne (by omega), store64_ne (by omega)]

/-- Linking a new node `(a, R)`, whose size field is already in memory, between the nodes
below it and the nodes above it, as `free_list_insert_node` does behind the last node
below. -/
theorem free_list_insert_spec {free_list : FreeListAllocator} {mem : Mem}
    {pre post : List (Nat × Nat)} {a R lo hi : Nat}
    (hseg : FreeSeg mem free_list.head 0 (pre ++ post)) (hso : FreeSorted lo (pre ++ post))
    (hlo : 1 ≤ lo) (hhi : ∀ n ∈ pre ++ post, n.1 + n.2 ≤ hi) (hhw : hi < WORD)
    (hR : load64 mem (a + 8) = R) (ha : lo ≤ a) (haw : a + 16 ≤ hi)
    (hpre : ∀ n ∈ pre, n.1 + n.2 ≤ a) (hpost : ∀ n ∈ post, a + 16 ≤ n.1) :
    FreeSeg (free_list_insert_node free_list mem (pre.foldl (fun _ n => n.1) 0) a).2
        (free_list_insert_node free_list mem (pre.foldl (fun _ n => n.1) 0) a).1.head 0
        (pre ++ (a, R) :: post) ∧
      (free_list_insert_node free_list mem (pre.foldl (fun _ n => n.1) 0) a).1 =
        { free_list with head := if pre = [] then a else free_list.head } ∧
      ∀ x, x < a ∨ a + 8 ≤ x → (∀ n ∈ pre, x < n.1 ∨ n.1 + 8 ≤ x) →
        (free_list_insert_node free_list mem (pre.foldl (fun _ n => n.1) 0) a).2 x = mem x := by
  have hbnd := free_sorted_mem _ lo hso
  have ha0 : a ≠ 0 := by omega
  obtain ⟨mid, g1, g2⟩ := free_seg_split pre _ 0 post hseg
  have hmid := free_seg_head g2
  have hmw : mid < WORD := by
    rw [hmid]
    cases post with
    | nil => unfold WORD; simp
    | cons c post =>
      simp only [List.head?_cons, Option.map_some', Option.getD_some]
      have := hhi c (List.mem_append_right _ (List.mem_cons_self _ _))
      omega
  have hpostf : ∀ {m1 : Mem}, (∀ x, x < a ∨ a + 8 ≤ x →
      (∀ n ∈ pre, x < n.1 ∨ n.1 + 8 ≤ x) → m1 x = mem x) → FreeSeg m1 mid 0 post := by
    intro m1 hfr
    refine free_seg_frame post mid 0 (fun n hn x hx1 hx2 => hfr x ?_ ?_) g2
    · have := hpost n hn; omega
    · intro k hk
      have := hpost n hn
      have := hpre k hk
      have := hbnd k (List.mem_append_left _ hk)
      omega
  rcases list_nil_or_snoc pre with rfl | ⟨pre0, bt, rfl⟩
  · have hmh : mid = free_list.head := g1.symm
    subst hmh
    have hfr : ∀ x, x < a ∨ a + 8 ≤ x → (∀ n ∈ ([] : List (Nat × Nat)), x < n.1 ∨ n.1 + 8 ≤ x) →
        store64 mem a free_list.head x = mem x := fun x hx _ => store64_ne hx
    refine ⟨?_, ?_, ?_⟩
    · refine ⟨rfl, ha0, ?_, ?_⟩
      · show load64 (store64 mem a free_list.head) (a + 8) = R
        rw [load64_store64_ne (by omega)]; exact hR
      · show FreeSeg (store64 mem a free_list.head)
          (load64 (store64 mem a free_list.head) a) 0 post
        rw [load64_store64 _ _ _ hmw]
        exact hpostf hfr
    · rfl
    · exact hfr
  · obtain ⟨b, t⟩ := bt
    rw [foldl_last_addr]
    have hb := hpre (b, t) (List.mem_append_right _ (List.mem_singleton.mpr rfl))
    have hb2 := hbnd (b, t) (List.mem_append_left _ (List.mem_append_right _
      (List.mem_singleton.mpr rfl)))
    dsimp only at hb hb2
    rw [List.append_assoc] at hso
    obtain ⟨_, _, z3, z4, _⟩ := free_sorted_split pre0 lo b t _ hso
    have hpre0 := free_sorted_mem pre0 lo z3
    obtain ⟨mid0, q1, q2⟩ := free_seg_split pre0 _ mid [(b, t)] g1
    obtain ⟨r1, r2, r3, r4⟩ := q2
    have hb0 : b ≠ 0 := r2
    have hlb : load64 mem b = mid := r4
    have hne : ¬ (pre0 ++ [(b, t)] = []) := by simp
    unfold free_list_insert_node
    rw [if_neg hb0, hlb]
    dsimp only
    have hfr : ∀ x, x < a ∨ a + 8 ≤ x → (∀ n ∈ pre0 ++ [(b, t)], x < n.1 ∨ n.1 + 8 ≤ x) →
        store64 (store64 mem a mid) b a x = mem x := by
      intro x hx hp
      have := hp (b, t) (List.mem_append_right _ (List.mem_singleton.mpr rfl))
      rw [store64_ne this, store64_ne hx]
    refine ⟨?_, by rw [if_neg hne], hfr⟩
    refine free_seg_append _ _ a 0 _ ?_ ⟨rfl, ha0, ?_, ?_⟩
    · refine free_seg_relink g1 ?_ ?_ (load64_store64 _ _ _ (by omega))
      · intro n hn x hx1 hx2
        have h1 := z4 n hn
        have h2 := hpre0 n hn
        rw [store64_ne (by omega), store64_ne (by omega)]
      · intro x hx1 hx2
        rw [store64_ne (by omega), store64_ne (by omega)]
    · rw [load64_store64_ne (by omega), load64_store64_ne (by omega)]; exact hR
    · rw [load64_store64_ne (by omega), load64_store64 _ _ _ hmw]
      exact hpostf hfr

/-- `free_list_coalescence_node` is its two tests in sequence. -/
theorem free_list_coalescence_eq (mem : Mem) (prev_node node : Nat) :
    free_list_coalescence_node mem prev_node node =
      free_list_coalescence_prev (free_list_coalescence_next mem node) prev_node node := rfl

theorem free_merge_prev_nil (rest : List (Nat × Nat)) : free_merge_prev [] rest = rest := by
  unfold free_merge_prev
  cases rest <;> rfl

theorem free_merge_prev_snoc (pre0 : List (Nat × Nat)) (b t a r : Nat)
    (rest1 : List (Nat × Nat)) :
    free_merge_prev (pre0 ++ [(b, t)]) ((a, r) :: rest1) =
      if b + t = a then pre0 ++ (b, t + r) :: rest1
      else pre0 ++ (b, t) :: (a, r) :: rest1 := by
  unfold free_merge_prev
  simp only [List.getLast?_append, List.getLast?_singleton, List.dropLast_concat,
    List.append_assoc, List.singleton_append]
  rfl

/-- The list after the first merge test: the freed block, grown by the next block when the
two are adjacent, followed by the blocks strictly above it. -/
theorem free_merge_next_spec (a R hi lo1 : Nat) (post : List (Nat × Nat))
    (hso : FreeSorted lo1 post) (hpost : ∀ n ∈ post, a + R ≤ n.1)
    (hhi : ∀ n ∈ post, n.1 + n.2 ≤ hi) (haR : a + R ≤ hi) :
    ∃ R1 rest1, free_merge_next a R post = (a, R1) :: rest1 ∧ R ≤ R1 ∧ a + R1 ≤ hi ∧
      FreeSorted (a + R1 + 1) rest1 ∧ (∀ n ∈ rest1, n ∈ post) ∧
      R1 + (rest1.map Prod.snd).sum = R + (post.map Prod.snd).sum ∧
      (∀ x y, x < y → a + R ≤ x ∨ y ≤ a → (∀ n ∈ post, n.1 + n.2 ≤ x ∨ y ≤ n.1) →
        a + R1 ≤ x ∨ y ≤ a) ∧
      ((∀ n ∈ post, a + R < n.1) → R1 = R ∧ rest1 = post) ∧
      (∀ s1 post0, post = (a + R, s1) :: post0 → R1 = R + s1 ∧ rest1 = post0) := by
  cases post with
  | nil =>
    refine ⟨R, [], rfl, le_refl _, haR, trivial, fun n hn => hn, rfl, fun x y _ h _ => h,
      fun _ => ⟨rfl, rfl⟩, fun s1 post0 h => absurd h (by simp)⟩
  | cons cu post0 =>
    obtain ⟨c, u⟩ := cu
    have hc := hpost (c, u) (List.mem_cons_self _ _)
    have hcu := hhi (c, u) (List.mem_cons_self _ _)
    obtain ⟨s1, s2, s3⟩ := hso
    dsimp only at hc hcu
    by_cases he : a + R = c
    · refine ⟨R + u, post0, by simp only [free_merge_next, he, if_true], by omega, by omega,
        ?_, fun n hn => List.mem_cons_of_mem _ hn, ?_, ?_, ?_, ?_⟩
      · have : a + (R + u) + 1 = c + u + 1 := by omega
        rw [this]; exact s3
      · simp only [List.map_cons, List.sum_cons]; omega
      · intro x y hxy h1 h2
        have := h2 (c, u) (List.mem_cons_self _ _)
        dsimp only at this
        omega
      · intro h
        have := h (c, u) (List.mem_cons_self _ _)
        dsimp only at this
        omega
      · intro s1 post1 h
        simp only [List.cons.injEq, Prod.mk.injEq] at h
        obtain ⟨⟨_, h2⟩, h3⟩ := h
        exact ⟨by rw [h2], h3⟩
    · refine ⟨R, (c, u) :: post0, by simp only [free_merge_next, he, if_false], le_refl _,
        haR, ⟨by omega, s2, s3⟩, fun n hn => hn, rfl, fun x y _ h _ => h,
        fun _ => ⟨rfl, rfl⟩, ?_⟩
      intro s1 post1 h
      simp only [List.cons.injEq, Prod.mk.injEq] at h
      exact absurd h.1.1.symm he

/-- The list after the second merge test: sorted with no two blocks adjacent, with the sizes
of the old blocks and of the inserted block, inside the same bounds, and apart from every
interval the old blocks and the inserted block were apart from. -/
theorem free_merge_prev_spec (pre rest1 : List (Nat × Nat)) (a R1 lo hi : Nat)
    (hso : FreeSorted lo pre) (hpre : ∀ n ∈ pre, n.1 + n.2 ≤ a) (hla : lo ≤ a)
    (h16 : 16 ≤ R1) (hrest : FreeSorted (a + R1 + 1) rest1)
    (hhi : ∀ n ∈ rest1, n.1 + n.2 ≤ hi) (haR : a + R1 ≤ hi) :
    FreeSorted lo (free_merge_prev pre ((a, R1) :: rest1)) ∧
      ((free_merge_prev pre ((a, R1) :: rest1)).map Prod.snd).sum =
        (pre.map Prod.snd).sum + (R1 + (rest1.map Prod.snd).sum) ∧
      (∀ n ∈ free_merge_prev pre ((a, R1) :: rest1), n.1 + n.2 ≤ hi) ∧
      (∀ x y, x < y → (∀ n ∈ pre, n.1 + n.2 ≤ x ∨ y ≤ n.1) → a + R1 ≤ x ∨ y ≤ a →
        (∀ n ∈ rest1, n.1 + n.2 ≤ x ∨ y ≤ n.1) →
        ∀ n ∈ free_merge_prev pre ((a, R1) :: rest1), n.1 + n.2 ≤ x ∨ y ≤ n.1) ∧
      ((∀ n ∈ pre, n.1 + n.2 < a) →
        free_merge_prev pre ((a, R1) :: rest1) = pre ++ (a, R1) :: rest1) := by
  have hpb := free_sorted_mem pre lo hso
  have hpa : ∀ n ∈ pre, n.1 + n.2 ≤ hi := fun n hn => by
    have := hpre n hn; omega
  rcases list_nil_or_snoc pre with rfl | ⟨pre0, bt, rfl⟩
  · rw [free_merge_prev_nil]
    refine ⟨⟨hla, h16, hrest⟩, by simp, ?_, ?_, fun _ => rfl⟩
    · intro n hn
      rcases List.mem_cons.mp hn with rfl | hn
      · exact haR
      · exact hhi n hn
    · intro x y _ _ h2 h3 n hn
      rcases List.mem_cons.mp hn with rfl | hn
      · exact h2
      · exact h3 n hn
  · obtain ⟨b, t⟩ := bt
    rw [free_merge_prev_snoc]
    have hbt := hpre (b, t) (List.mem_append_right _ (List.mem_singleton.mpr rfl))
    dsimp only at hbt
    obtain ⟨z1, z2, z3, z4, _⟩ := free_sorted_split pre0 lo b t [] hso
    by_cases he : b + t = a
    · rw [if_pos he]
      refine ⟨?_, ?_, ?_, ?_, ?_⟩
      · refine free_sorted_append pre0 lo b _ z3 z4 z1 ⟨le_refl _, by omega, ?_⟩
        have : b + (t + R1) + 1 = a + R1 + 1 := by omega
        rw [this]; exact hrest
      · simp only [List.map_append, List.map_cons, List.sum_append, List.sum_cons,
          List.map_nil, List.sum_nil]
        omega
      · intro n hn
        rcases List.mem_append.mp hn with hn | hn
        · exact hpa n (List.mem_append_left _ hn)
        · rcases List.mem_cons.mp hn with rfl | hn
          · dsimp only; omega
          · exact hhi n hn
      · intro x y hxy h1 h2 h3 n hn
        rcases List.mem_append.mp hn with hn | hn
        · exact h1 n (List.mem_append_left _ hn)
        · rcases List.mem_cons.mp hn with rfl | hn
          · have := h1 (b, t) (List.mem_append_right _ (List.mem_singleton.mpr rfl))
            dsimp only at this ⊢
            omega
          · exact h3 n hn
      · intro h
        have := h (b, t) (List.mem_append_right _ (List.mem_singleton.mpr rfl))
        dsimp only at this
        omega
    · rw [if_neg he]
      have e : pre0 ++ (b, t) :: (a, R1) :: rest1 = (pre0 ++ [(b, t)]) ++ (a, R1) :: rest1 := by
        simp
      refine ⟨?_, ?_, ?_, ?_, fun _ => e⟩
      · refine free_sorted_append pre0 lo b _ z3 z4 z1 ⟨le_refl _, z2, by omega, h16, hrest⟩
      · simp only [List.map_append, List.map_cons, List.sum_append, List.sum_cons,
          List.map_nil, List.sum_nil]
        omega
      · intro n hn
        rw [e] at hn
        rcases List.mem_append.mp hn with hn | hn
        · exact hpa n hn
        · rcases List.mem_cons.mp hn with rfl | hn
          · exact haR
          · exact hhi n hn
      · intro x y hxy h1 h2 h3 n hn
        rw [e] at hn
        rcases List.mem_append.mp hn with hn | hn
        · exact h1 n hn
        · rcases List.mem_cons.mp hn with rfl | hn
          · exact h2
          · exact h3 n hn

theorem free_seg_next_lt {mem : Mem} {node hi : Nat} {nodes : List (Nat × Nat)}
    (h : FreeSeg mem node 0 nodes) (hhi : ∀ n ∈ nodes, n.1 + n.2 ≤ hi) (hhw : hi < WORD) :
    node < WORD := by
  rw [free_seg_head h]
  cases nodes with
  | nil => unfold WORD; simp
  | cons c rest =>
    simp only [List.head?_cons, Option.map_some', Option.getD_some]
    have := hhi c (List.mem_cons_self _ _)
    omega

/-- The first merge test of `free_list_coalescence_node` on the list in memory. -/
theorem free_list_coalescence_next_spec {mem : Mem} {head : Nat}
    {pre post rest1 : List (Nat × Nat)} {a R R1 lo lo1 hi : Nat}
    (hseg : FreeSeg mem head 0 (pre ++ (a, R) :: post)) (hsoP : FreeSorted lo pre)
    (hlo : 1 ≤ lo) (ha : lo ≤ a) (hpre : ∀ n ∈ pre, n.1 + n.2 ≤ a)
    (hsoQ : FreeSorted lo1 post) (hpost : ∀ n ∈ post, a + R ≤ n.1)
    (hhi : ∀ n ∈ post, n.1 + n.2 ≤ hi) (hhw : hi < WORD) (hR : 16 ≤ R) (haR : a + R ≤ hi)
    (hm : free_merge_next a R post = (a, R1) :: rest1) :
    FreeSeg (free_list_coalescence_next mem a) head 0 (pre ++ (a, R1) :: rest1) ∧
      ∀ x, x < a ∨ a + 16 ≤ x → free_list_coalescence_next mem a x = mem x := by
  have hpb := free_sorted_mem pre lo hsoP
  have hqb := free_sorted_mem post lo1 hsoQ
  obtain ⟨mid, g1, k1, k2, k3, k4⟩ := free_seg_split pre head 0 _ hseg
  have w8 : wadd a 8 = a + 8 := wadd_of_lt (by omega)
  have wR : wadd a R = a + R := wadd_of_lt (by omega)
  cases post with
  | nil =>
    have h0 : load64 mem a = 0 := k4
    simp only [free_merge_next, List.cons.injEq, Prod.mk.injEq, true_and] at hm
    obtain ⟨rfl, rfl⟩ := hm
    have hc : ¬ (a ≠ 0 ∧ load64 mem a ≠ 0 ∧
        wadd a (load64 mem (wadd a 8)) = load64 mem a) := by
      rw [h0]; simp
    unfold free_list_coalescence_next
    rw [if_neg hc]
    exact ⟨hseg, fun _ _ => rfl⟩
  | cons cu post0 =>
    obtain ⟨c, u⟩ := cu
    obtain ⟨j1, j2, j3, j4⟩ := k4
    have hc1 := hpost (c, u) (List.mem_cons_self _ _)
    have hc2 := hhi (c, u) (List.mem_cons_self _ _)
    have hc3 := hqb (c, u) (List.mem_cons_self _ _)
    dsimp only at hc1 hc2 hc3
    unfold free_list_coalescence_next
    rw [w8, k3, wR, j1]
    by_cases he : a + R = c
    · simp only [free_merge_next, he, if_true, List.cons.injEq, Prod.mk.injEq, true_and] at hm
      obtain ⟨rfl, rfl⟩ := hm
      rw [if_pos ⟨k2, j2, he⟩]
      dsimp only
      have wc : wadd c 8 = c + 8 := wadd_of_lt (by omega)
      have wu : wadd R u = R + u := wadd_of_lt (by omega)
      rw [wc, j3, wu]
      have l1 : load64 (store64 mem (a + 8) (R + u)) a = c := by
        rw [load64_store64_ne (by omega)]; exact j1
      have l2 : load64 (store64 mem (a + 8) (R + u)) c = load64 mem c := by
        rw [load64_store64_ne (by omega)]
      rw [l1, l2]
      refine ⟨?_, ?_⟩
      · refine free_seg_merge pre hseg ?_ ?_ (by omega) ?_
        · intro n hn
          have := hpre n hn
          have := hpb n hn
          omega
        · intro n hn
          have := hpost n (List.mem_cons_of_mem _ hn)
          omega
        · exact free_seg_next_lt j4 (fun n hn => hhi n (List.mem_cons_of_mem _ hn)) hhw
      · intro x hx
        rw [store64_ne (by omega), store64_ne (by omega)]
    · simp only [free_merge_next, he, if_false, List.cons.injEq, Prod.mk.injEq,
        true_and] at hm
      obtain ⟨rfl, rfl⟩ := hm
      have hc : ¬ (a ≠ 0 ∧ c ≠ 0 ∧ a + R = c) := fun h => he h.2.2
      rw [if_neg hc]
      exact ⟨hseg, fun _ _ => rfl⟩

/-- The second merge test of `free_list_coalescence_node` on the list in memory. -/
theorem free_list_coalescence_prev_spec {mem : Mem} {head : Nat}
    {pre rest1 : List (Nat × Nat)} {a R1 lo hi : Nat}
    (hseg : FreeSeg mem head 0 (pre ++ (a, R1) :: rest1)) (hsoP : FreeSorted lo pre)
    (hlo : 1 ≤ lo) (hpre : ∀ n ∈ pre, n.1 + n.2 ≤ a)
    (hrest : ∀ n ∈ rest1, a + R1 ≤ n.1 ∧ n.1 + n.2 ≤ hi) (h16 : 16 ≤ R1)
    (haR : a + R1 ≤ hi) (hhw : hi < WORD) :
    FreeSeg (free_list_coalescence_prev mem (pre.foldl (fun _ n => n.1) 0) a) head 0
        (free_merge_prev pre ((a, R1) :: rest1)) ∧
      ∀ x, (∀ n ∈ pre, x < n.1 ∨ n.1 + 16 ≤ x) →
        free_list_coalescence_prev mem (pre.foldl (fun _ n => n.1) 0) a x = mem x := by
  have hpb := free_sorted_mem pre lo hsoP
  rcases list_nil_or_snoc pre with rfl | ⟨pre0, bt, rfl⟩
  · rw [free_merge_prev_nil]
    have hc : ¬ ((0 : Nat) ≠ 0 ∧ a ≠ 0 ∧ wadd 0 (load64 mem (wadd 0 8)) = a) := by simp
    unfold free_list_coalescence_prev
    rw [List.foldl_nil, if_neg hc]
    exact ⟨hseg, fun _ _ => rfl⟩
  · obtain ⟨b, t⟩ := bt
    rw [foldl_last_addr, free_merge_prev_snoc]
    have hbt := hpre (b, t) (List.mem_append_right _ (List.mem_singleton.mpr rfl))
    have hb2 := hpb (b, t) (List.mem_append_right _ (List.mem_singleton.mpr rfl))
    dsimp only at hbt hb2
    obtain ⟨_, _, z3, z4, _⟩ := free_sorted_split pre0 lo b t [] hsoP
    have hpre0 := free_sorted_mem pre0 lo z3
    rw [List.append_assoc] at hseg
    obtain ⟨mid, g1, k1, k2, k3, k4⟩ := free_seg_split pre0 head 0 _ hseg
    obtain ⟨j1, j2, j3, j4⟩ := k4
    have j1' : load64 mem b = a := j1
    have wb8 : wadd b 8 = b + 8 := wadd_of_lt (by omega)
    have wbt : wadd b t = b + t := wadd_of_lt (by omega)
    have wa8 : wadd a 8 = a + 8 := wadd_of_lt (by omega)
    unfold free_list_coalescence_prev
    rw [wb8, k3, wbt]
    by_cases he : b + t = a
    · rw [if_pos ⟨k2, j2, he⟩, if_pos he]
      dsimp only
      rw [wa8, j3, wadd_of_lt (by omega : t + R1 < WORD)]
      have l1 : load64 (store64 mem (b + 8) (t + R1)) a = load64 mem a := by
        rw [load64_store64_ne (by omega)]
      rw [l1]
      refine ⟨?_, ?_⟩
      · refine free_seg_merge pre0 hseg ?_ ?_ (by omega) ?_
        · intro n hn
          have := z4 n hn
          have := hpre0 n hn
          omega
        · intro n hn
          have := hrest n hn
          omega
        · exact free_seg_next_lt j4 (fun n hn => (hrest n hn).2) hhw
      · intro x hx
        have := hx (b, t) (List.mem_append_right _ (List.mem_singleton.mpr rfl))
        dsimp only at this
        rw [store64_ne (by omega), store64_ne (by omega)]
    · have hc : ¬ (b ≠ 0 ∧ a ≠ 0 ∧ b + t = a) := fun h => he h.2.2
      rw [if_neg hc, if_neg he]
      exact ⟨hseg, fun _ _ => rfl⟩

set_option maxHeartbeats 1000000 in
/-- `free_list_free` of a block `(a, R)` with header `(P, R)` before `p = a + P`, lying
between the free blocks `pre` below it and `post` above it: the call returns, `buffer_used`
drops by `R`, the free list becomes the old one with `(a, R)` inserted and merged with its
adjacent neighbours, and memory outside the block and the free blocks is unchanged. -/
theorem free_list_free_spec (fuel : Nat) (free_list : FreeListAllocator) (mem : Mem)
    (pre post : List (Nat × Nat)) (p P R lo hi : Nat)
    (hl : FreeList mem free_list.head (pre ++ post)) (hso : FreeSorted lo (pre ++ post))
    (hlo : 1 ≤ lo) (hhi : ∀ n ∈ pre ++ post, n.1 + n.2 ≤ hi) (hhw : hi < WORD)
    (hP : load64 mem (p - 16) = P) (hRl : load64 mem (p - 8) = R) (hP16 : 16 ≤ P)
    (hPR : P + 16 ≤ R) (hPp : lo + P ≤ p) (haR : p - P + R ≤ hi)
    (hpre : ∀ n ∈ pre, n.1 + n.2 ≤ p - P) (hpost : ∀ n ∈ post, p - P + R ≤ n.1)
    (hfuel : pre.length < fuel) :
    ∃ mem1, free_list_free fuel free_list mem p =
        .ok ({ free_list with
                head := if pre = [] then p - P else free_list.head,
                buffer_used := wsub free_list.buffer_used R }, mem1) ∧
      FreeList mem1 (if pre = [] then p - P else free_list.head)
        (free_merge_prev pre (free_merge_next (p - P) R post)) ∧
      ∀ x, x < p - P ∨ p - P + R ≤ x → (∀ n ∈ pre ++ post, x < n.1 ∨ n.1 + n.2 ≤ x) →
        mem1 x = mem x := by
  have hbnd := free_sorted_mem _ lo hso
  have hseg := (free_list_iff_seg _ _).mp hl
  generalize ha : p - P = a at *
  have hap : p = a + P := by omega
  subst hap
  have w1 : wsub (a + P) FREE_LIST_HEADER_SIZE = a + P - 16 := by
    unfold FREE_LIST_HEADER_SIZE; exact wsub_of_le (by omega) (by omega)
  have w2 : wsub (a + P) P = a := by rw [wsub_of_le (by omega) (by omega)]; omega
  have w3 : wadd (a + P - 16) 8 = a + P - 8 := by rw [wadd_of_lt (by omega)]; omega
  have w4 : wadd a 8 = a + 8 := wadd_of_lt (by omega)
  have hRw : R < WORD := by omega
  have hfr1 : ∀ n ∈ pre ++ post, ∀ x, n.1 ≤ x → x < n.1 + 16 →
      store64 mem (a + 8) R x = mem x := by
    intro n hn x hx1 hx2
    have hb := hbnd n hn
    rcases List.mem_append.mp hn with h | h
    · have := hpre n h
      rw [store64_ne (by omega)]
    · have := hpost n h
      rw [store64_ne (by omega)]
  have hseg1 : FreeSeg (store64 mem (a + 8) R) free_list.head 0 (pre ++ post) :=
    free_seg_frame _ _ 0 hfr1 hseg
  have hwalk := @free_list_walk_spec (store64 mem (a + 8) R) a pre fuel 0 free_list.head post
    hseg1
    (fun n hn => by
      have := hpre n hn
      omega)
    (fun n hn => by
      have := hpost n hn
      omega) hfuel
  obtain ⟨i1, i2, i3⟩ := @free_list_insert_spec free_list (store64 mem (a + 8) R) pre post a R
    lo hi hseg1 hso hlo hhi hhw (load64_store64 _ _ _ hRw) (by omega) (by omega) hpre
    (fun n hn => by
      have := hpost n hn
      omega)
  obtain ⟨mid, g1, g2⟩ := free_seg_split pre _ 0 _ i1
  have hR2 : load64 (free_list_insert_node free_list (store64 mem (a + 8) R)
      (pre.foldl (fun _ n => n.1) 0) a).2 (a + 8) = R := g2.2.2.1
  have hsoP : FreeSorted lo pre ∧ ∃ lo1, FreeSorted lo1 post := by
    cases post with
    | nil =>
      rw [List.append_nil] at hso
      exact ⟨hso, 0, trivial⟩
    | cons c post0 =>
      obtain ⟨c1, c2⟩ := c
      obtain ⟨z1, z2, z3, z4, z5⟩ := free_sorted_split pre lo c1 c2 post0 hso
      exact ⟨z3, c1, le_refl _, z2, z5⟩
  obtain ⟨hsP, lo1, hsQ⟩ := hsoP
  obtain ⟨R1, rest1, m1, m2, m3, m4, m5, _⟩ := free_merge_next_spec a R hi lo1 post hsQ hpost
    (fun n hn => hhi n (List.mem_append_right _ hn)) haR
  have hrest1 := free_sorted_mem rest1 _ m4
  obtain ⟨n1, n2⟩ := free_list_coalescence_next_spec i1 hsP hlo (by omega) hpre hsQ hpost
    (fun n hn => hhi n (List.mem_append_right _ hn)) hhw (by omega) haR m1
  obtain ⟨q1, q2⟩ := free_list_coalescence_prev_spec n1 hsP hlo hpre
    (fun n hn => by
      have := hrest1 n hn
      have := hhi n (List.mem_append_right _ (m5 n hn))
      omega) (by omega) m3 hhw
  rw [m1]
  refine ⟨free_list_coalescence_node (free_list_insert_node free_list (store64 mem (a + 8) R)
    (pre.foldl (fun _ n => n.1) 0) a).2 (pre.foldl (fun _ n => n.1) 0) a, ?_, ?_, ?_⟩
  · unfold free_list_free
    dsimp only
    rw [w1, hP, w2, w3, hRl, w4, hwalk]
    dsimp only
    rw [hR2, i2]
  · rw [free_list_coalescence_eq]
    rw [i2] at q1
    exact (free_list_iff_seg _ _).mpr q1
  · intro x hx hn
    rw [free_list_coalescence_eq, q2 x ?_, n2 x (by omega), i3 x (by omega) ?_,
      store64_ne (by omega)]
    · intro n hn1
      have := hn n (List.mem_append_left _ hn1)
      have := hbnd n (List.mem_append_left _ hn1)
      omega
    · intro n hn1
      have := hn n (List.mem_append_left _ hn1)
      have := hbnd n (List.mem_append_left _ hn1)
      omega

/-- The sizes of sorted blocks between `lo` and `hi` add up to at most `hi - lo`. -/
theorem free_sorted_sum_le (hi : Nat) (nodes : List (Nat × Nat)) :
    ∀ lo, FreeSorted lo nodes → (∀ n ∈ nodes, n.1 + n.2 ≤ hi) →
      nodes = [] ∨ lo + (nodes.map Prod.snd).sum ≤ hi := by
  induction nodes with
  | nil => intro _ _ _; exact Or.inl rfl
  | cons b rest ih =>
    intro lo hso hhi
    obtain ⟨a, s⟩ := b
    obtain ⟨s1, s2, s3⟩ := hso
    right
    have hb := hhi (a, s) (List.mem_cons_self _ _)
    dsimp only at hb
    simp only [List.map_cons, List.sum_cons]
    rcases ih (a + s + 1) s3 (fun n hn => hhi n (List.mem_cons_of_mem _ hn)) with h | h
    · rw [h]; simp; omega
    · omega

/-- A failed capacity check makes `free_list_alloc` return `NULL` unchanged. -/
theorem free_list_alloc_check {fuel : Nat} {free_list : FreeListAllocator} {mem : Mem}
    {size align : Nat}
    (h : wsub free_list.buffer_size free_list.buffer_used < size ∨ free_list.head = 0) :
    free_list_alloc fuel free_list mem size align = .ok (0, free_list, mem) := by
  unfold free_list_alloc
  rw [if_pos h]

theorem free_list_head_eq {mem mem1 : Mem} {h h1 : Nat} {b : Nat × Nat}
    {l l1 : List (Nat × Nat)} (hl : FreeList mem h (b :: l)) (hl1 : FreeList mem1 h1 (b :: l1)) :
    h1 = h := by
  obtain ⟨b1, b2⟩ := b
  rw [hl.1, hl1.1]

/-- The request of a passing capacity check on a consistent state cannot wrap. -/
theorem free_list_request_fits {free_list : FreeListAllocator} {nodes : List (Nat × Nat)}
    {size k lo hi : Nat} (hal : 2 ^ k < WORD) (hso : FreeSorted lo nodes)
    (hhi : ∀ n ∈ nodes, n.1 + n.2 ≤ hi) (hhw : hi + 16 ≤ 2 ^ 63)
    (hsum : free_list.buffer_used + (nodes.map Prod.snd).sum = free_list.buffer_size)
    (hcap : free_list.buffer_size < WORD)
    (hchk : ¬ wsub free_list.buffer_size free_list.buffer_used < size) :
    16 + 2 ^ k + max size 16 ≤ WORD := by
  have h63 := two_pow_le_half hal
  rw [wsub_of_le (by omega) hcap] at hchk
  have hs : size ≤ hi := by
    rcases free_sorted_sum_le hi nodes lo hso hhi with h | h
    · rw [h] at hsum; simp at hsum; omega
    · omega
  have : max size 16 ≤ hi + 16 := by
    rcases Nat.le_total size 16 with h | h
    · rw [Nat.max_eq_right h]; omega
    · rw [Nat.max_eq_left h]; omega
  unfold WORD
  omega

set_option maxHeartbeats 1000000 in
/-- Claim C18: for a first-fit state whose free list `nodes` is in memory, sorted by address
with no two blocks adjacent, inside a buffer in the lower half of the address space, and
accounts for `capacity - buffer_used`: if `free_list_alloc(size, align)` with a
power-of-two `align` returns a non-null `p`, then `free_list_free(p)` immediately afterwards
returns, and it restores the whole allocator record (`buffer_used` and `head` included) and
the free list `nodes`: same addresses, same sizes, same order, whether or not the alloc
split the chosen block. -/
theorem free_list_alloc_free_roundtrip (fuel fuel1 : Nat) (free_list free_list1 : FreeListAllocator)
    (mem mem1 : Mem) (nodes : List (Nat × Nat)) (size align k p lo hi : Nat)
    (hpol : free_list.allocation_policy = .Allocation_Policy_First_Fit) (hk : align = 2 ^ k)
    (hal : align < WORD) (hl : FreeList mem free_list.head nodes) (hso : FreeSorted lo nodes)
    (hlo : 1 ≤ lo) (hhi : ∀ n ∈ nodes, n.1 + n.2 ≤ hi) (hhw : hi + 16 ≤ 2 ^ 63)
    (hsum : free_list.buffer_used + (nodes.map Prod.snd).sum = free_list.buffer_size)
    (hcap : free_list.buffer_size < WORD) (hfuel : nodes.length < fuel)
    (hfuel1 : nodes.length < fuel1)
    (h : free_list_alloc fuel free_list mem size align = .ok (p, free_list1, mem1))
    (hp : p ≠ 0) :
    ∃ mem2, free_list_free fuel1 free_list1 mem1 p = .ok (free_list, mem2) ∧
      FreeList mem2 free_list.head nodes := by
  subst hk
  have hhW : hi < WORD := by unfold WORD; omega
  have hchk : ¬ wsub free_list.buffer_size free_list.buffer_used < size := by
    intro hc
    rw [free_list_alloc_check (Or.inl hc)] at h
    simp only [Except.ok.injEq, Prod.mk.injEq] at h
    exact hp h.1.symm
  have hno := free_list_request_fits hal hso hhi hhw hsum hcap hchk
  obtain ⟨p1, fl1, m1, r1, r2⟩ := free_list_alloc_first_spec fuel free_list mem nodes size k
    lo hi hpol hal hno hl hso hlo hhi hhW hfuel
  rw [r1] at h
  simp only [Except.ok.injEq, Prod.mk.injEq] at h
  obtain ⟨h1, h2, h3⟩ := h
  subst h1 h2 h3
  rcases r2 with ⟨h0, _⟩ | ⟨pre, a, s, post, e1, _, _, e4, e5, e6, e7, e8, e9, e10, _, _⟩
  · exact absurd h0 hp
  subst e1
  obtain ⟨z1, z2, z3, z4, z5⟩ := free_sorted_split pre lo a s post hso
  have has : a + s ≤ hi := hhi (a, s) (List.mem_append_right _ (List.mem_cons_self _ _))
  have hP16 : 16 ≤ padding_nat (2 ^ k) a 16 :=
    (padding_nat_spec (2 ^ k) a 16 (Nat.two_pow_pos k)).2.1
  have h16 : 16 ≤ max size 16 := Nat.le_max_right _ _
  have hsm : ((pre ++ (a, s) :: post).map Prod.snd).sum =
      (pre.map Prod.snd).sum + (s + (post.map Prod.snd).sum) := by
    simp only [List.map_append, List.map_cons, List.sum_append, List.sum_cons]
  have hpb := free_sorted_mem post _ z5
  have hpa : p1 - padding_nat (2 ^ k) a 16 = a := by omega
  have hhead : (if pre = [] then a else fl1.head) = free_list.head := by
    by_cases hpe : pre = []
    · subst hpe
      rw [if_pos rfl]
      exact hl.1.symm
    · rw [if_neg hpe]
      obtain ⟨b, pre1, rfl⟩ := List.exists_cons_of_ne_nil hpe
      rcases e9 with ⟨_, _, c3, _⟩ | ⟨_, _, c3, _⟩
      · exact free_list_head_eq hl c3
      · exact free_list_head_eq hl c3
  have hrec : ∀ c, c ≤ s → fl1.buffer_used = wadd free_list.buffer_used c →
      ({ fl1 with
          head := if pre = [] then a else fl1.head,
          buffer_used := wsub fl1.buffer_used c } : FreeListAllocator) = free_list := by
    intro c hc hu
    rw [hhead, hu, wadd_of_lt (by omega), wsub_of_le (by omega) (by omega),
      Nat.add_sub_cancel]
    obtain ⟨f1, f2, f3, f4, f5⟩ := free_list
    obtain ⟨g1, g2, g3, g4, g5⟩ := fl1
    dsimp only at e6 e7 e8 ⊢
    rw [e6, e7, e8]
  have hprel : pre.length < fuel1 := by
    simp only [List.length_append, List.length_cons] at hfuel1; omega
  rcases e9 with ⟨c1, c2, c3, c4⟩ | ⟨c1, c2, c3, c4⟩
  · have hso1 : FreeSorted lo (pre ++ (a + (padding_nat (2 ^ k) a 16 + max size 16),
        s - (padding_nat (2 ^ k) a 16 + max size 16)) :: post) := by
      refine free_sorted_append pre lo a _ z3 z4 z1 ⟨by omega, by omega, ?_⟩
      have : a + (padding_nat (2 ^ k) a 16 + max size 16) +
          (s - (padding_nat (2 ^ k) a 16 + max size 16)) + 1 = a + s + 1 := by omega
      rw [this]; exact z5
    obtain ⟨mem2, q1, q2, _⟩ := free_list_free_spec fuel1 fl1 m1 pre
      ((a + (padding_nat (2 ^ k) a 16 + max size 16),
        s - (padding_nat (2 ^ k) a 16 + max size 16)) :: post) p1
      (padding_nat (2 ^ k) a 16) (padding_nat (2 ^ k) a 16 + max size 16) lo hi c3 hso1 hlo
      (by
        intro n hn
        rcases List.mem_append.mp hn with hn | hn
        · exact hhi n (List.mem_append_left _ hn)
        · rcases List.mem_cons.mp hn with rfl | hn
          · dsimp only; omega
          · exact hhi n (List.mem_append_right _ (List.mem_cons_of_mem _ hn)))
      hhW e10 c4 hP16 (by omega) (by omega) (by omega)
      (by
        intro n hn
        have := z4 n hn
        omega)
      (by
        intro n hn
        rcases List.mem_cons.mp hn with rfl | hn
        · dsimp only; omega
        · have := hpb n hn
          omega)
      hprel
    rw [hpa] at q1 q2
    rw [hrec _ e4 c2] at q1
    refine ⟨mem2, q1, ?_⟩
    have hmn : free_merge_next a (padding_nat (2 ^ k) a 16 + max size 16)
        ((a + (padding_nat (2 ^ k) a 16 + max size 16),
          s - (padding_nat (2 ^ k) a 16 + max size 16)) :: post) = (a, s) :: post := by
      simp only [free_merge_next, if_true]
      congr 2
      omega
    rw [hmn, hhead] at q2
    rw [(free_merge_prev_spec pre post a s lo hi z3 (fun n hn => by
      have := z4 n hn
      omega) z1 z2 z5 (fun n hn => hhi n (List.mem_append_right _ (List.mem_cons_of_mem _ hn)))
      has).2.2.2.2 z4] at q2
    exact q2
  · have hso1 : FreeSorted lo (pre ++ post) :=
      free_sorted_append pre lo (a + s + 1) _ z3 (fun n hn => by
        have := z4 n hn
        omega) (by omega) z5
    obtain ⟨mem2, q1, q2, _⟩ := free_list_free_spec fuel1 fl1 m1 pre post p1
      (padding_nat (2 ^ k) a 16) s lo hi c3 hso1 hlo
      (by
        intro n hn
        rcases List.mem_append.mp hn with hn | hn
        · exact hhi n (List.mem_append_left _ hn)
        · exact hhi n (List.mem_append_right _ (List.mem_cons_of_mem _ hn)))
      hhW e10 c4 hP16 (by omega) (by omega) (by omega)
      (by
        intro n hn
        have := z4 n hn
        omega)
      (by
        intro n hn
        have := hpb n hn
        omega)
      hprel
    rw [hpa] at q1 q2
    rw [hrec s (le_refl _) c2] at q1
    refine ⟨mem2, q1, ?_⟩
    have hmn : free_merge_next a s post = (a, s) :: post := by
      cases post with
      | nil => rfl
      | cons c post0 =>
        obtain ⟨c1, c2⟩ := c
        have := hpb (c1, c2) (List.mem_cons_self _ _)
        dsimp only at this
        have hne : ¬ a + s = c1 := by omega
        simp only [free_merge_next, hne, if_false]
    rw [hmn, hhead] at q2
    rw [(free_merge_prev_spec pre post a s lo hi z3 (fun n hn => by
      have := z4 n hn
      omega) z1 z2 z5 (fun n hn => hhi n (List.mem_append_right _ (List.mem_cons_of_mem _ hn)))
      has).2.2.2.2 z4] at q2
    exact q2

/-- On the whole 1024-byte buffer at 4096 as single free block, `free_list_alloc(32, 8)`
returns the address 4112. -/
theorem free_list_example_alloc :
    ∃ free_list1 mem1,
      free_list_alloc 2 ⟨4096, 1024, 0, 4096, .Allocation_Policy_First_Fit⟩
        (store64 (store64 (fun _ => 0) 4104 1024) 4096 0) 32 8 =
          .ok (4112, free_list1, mem1) :=
  ⟨_, _, rfl⟩

/-- Instance of C18: on the whole 1024-byte buffer at 4096 as single free block,
`free_list_alloc(32, 8)` returns 4112 and `free_list_free(4112)` gives back the allocator
record and the single free block `(4096, 1024)`. -/
theorem free_list_alloc_free_roundtrip_witness :
    ∃ free_list1 mem1 mem2,
      free_list_alloc 2 ⟨4096, 1024, 0, 4096, .Allocation_Policy_First_Fit⟩
        (store64 (store64 (fun _ => 0) 4104 1024) 4096 0) 32 8 =
          .ok (4112, free_list1, mem1) ∧
      free_list_free 2 free_list1 mem1 4112 =
        .ok (⟨4096, 1024, 0, 4096, .Allocation_Policy_First_Fit⟩, mem2) ∧
      FreeList mem2 4096 [(4096, 1024)] := by
  obtain ⟨fl1, mem1, h⟩ := free_list_example_alloc
  obtain ⟨mem2, q1, q2⟩ := free_list_alloc_free_roundtrip 2 2
    ⟨4096, 1024, 0, 4096, .Allocation_Policy_First_Fit⟩ fl1
    (store64 (store64 (fun _ => 0) 4104 1024) 4096 0) mem1 [(4096, 1024)] 32 8 3 4112 4096 5120
    rfl rfl (by decide) ⟨rfl, by decide, by decide, rfl⟩ ⟨Nat.le_refl _, by decide, trivial⟩
    (by decide) (by simp) (by decide) (by decide) (by decide) (by decide) (by decide) h
    (by decide)
  exact ⟨fl1, mem1, mem2, h, q1, q2⟩

/-! ## Free-list invariant over reachable states -/

/-- More fuel does not change a result of first-fit `free_list_alloc`. -/
theorem free_list_alloc_mono {fuel fuel1 : Nat} {free_list : FreeListAllocator} {mem : Mem}
    {size align : Nat} {r : Nat × FreeListAllocator × Mem}
    (hpol : free_list.allocation_policy = .Allocation_Policy_First_Fit) (hle : fuel ≤ fuel1)
    (h : free_list_alloc fuel free_list mem size align = .ok r) :
    free_list_alloc fuel1 free_list mem size align = .ok r := by
  unfold free_list_alloc at h ⊢
  by_cases hchk : wsub free_list.buffer_size free_list.buffer_used < size ∨ free_list.head = 0
  · rw [if_pos hchk] at h ⊢; exact h
  · rw [if_neg hchk] at h ⊢
    dsimp only at h ⊢
    cases hs : free_list_search fuel free_list mem
        (if size < FREE_LIST_NODE_SIZE then FREE_LIST_NODE_SIZE else size) align with
    | error e => rw [hs] at h; exact absurd h (by simp)
    | ok r1 =>
      have hs1 : free_list_search fuel1 free_list mem
          (if size < FREE_LIST_NODE_SIZE then FREE_LIST_NODE_SIZE else size) align = .ok r1 := by
        unfold free_list_search at hs ⊢
        rw [hpol] at hs ⊢
        exact free_list_first_fit_mono fuel fuel1 _ _ r1 hle hs
      rw [hs] at h
      rw [hs1]
      exact h

/-- More fuel does not change a result of `free_list_free`. -/
theorem free_list_free_mono {fuel fuel1 : Nat} {free_list : FreeListAllocator} {mem : Mem}
    {ptr : Nat} {r : FreeListAllocator × Mem} (hle : fuel ≤ fuel1)
    (h : free_list_free fuel free_list mem ptr = .ok r) :
    free_list_free fuel1 free_list mem ptr = .ok r := by
  unfold free_list_free at h ⊢
  dsimp only at h ⊢
  cases hs : free_list_walk (store64 mem (wadd (wsub ptr
      (load64 mem (wsub ptr FREE_LIST_HEADER_SIZE))) 8)
      (load64 mem (wadd (wsub ptr FREE_LIST_HEADER_SIZE) 8)))
      (wsub ptr (load64 mem (wsub ptr FREE_LIST_HEADER_SIZE))) fuel 0 free_list.head with
  | error e => rw [hs] at h; exact absurd h (by simp)
  | ok r1 =>
    rw [hs] at h
    rw [free_list_walk_mono fuel fuel1 _ _ r1 hle hs]
    exact h

/-- With the alignment word 0, which `is_power_of_two` accepts, the padding of a node is
the distance from the node to the end of the address space. -/
theorem get_padding_with_header_zero {a : Nat} (h1 : 1 ≤ a) (h2 : a + 16 ≤ WORD) :
    get_padding_with_header a FREE_LIST_HEADER_SIZE 0 = .ok (WORD - a) := by
  have hm : wsub 0 1 = 2 ^ 64 - 1 := by decide
  have ha : a &&& (2 ^ 64 - 1) = a := by
    rw [Nat.and_pow_two_sub_one_eq_mod]
    exact Nat.mod_eq_of_lt (by unfold WORD at h2; omega)
  have hs : wsub 0 a = WORD - a := by
    unfold wsub
    rw [Nat.mod_eq_of_lt (by omega : a < WORD), Nat.zero_add]
    exact Nat.mod_eq_of_lt (by omega)
  have hw : wadd 0 (WORD - a) = WORD - a := by
    unfold wadd
    rw [Nat.zero_add]
    exact Nat.mod_eq_of_lt (by omega)
  unfold get_padding_with_header
  have hp : is_power_of_two 0 = true := by decide
  rw [hp]
  simp only [if_true, hm, ha]
  have hne : a ≠ 0 := by omega
  simp only [ne_eq, hne, not_false_eq_true, if_true, hs, hw]
  have : ¬ WORD - a < FREE_LIST_HEADER_SIZE := by unfold FREE_LIST_HEADER_SIZE; omega
  rw [if_neg this]

/-- With the alignment word 0 the first-fit loop finds nothing or a node whose user
pointer wraps to `NULL`. -/
theorem free_list_first_fit_zero {mem : Mem} {size : Nat} (nodes : List (Nat × Nat)) :
    ∀ (fuel prev_node node : Nat) (r : Nat × Nat × Nat × Nat), FreeList mem node nodes →
      (∀ n ∈ nodes, 1 ≤ n.1 ∧ n.1 + 16 ≤ WORD) →
      free_list_first_fit mem size 0 fuel prev_node node = .ok r →
      r.2.1 = 0 ∨ wadd r.2.1 r.2.2.2 = 0 := by
  induction nodes with
  | nil =>
    intro fuel prev_node node r hl _ h
    cases fuel with
    | zero => exact absurd h (by simp [free_list_first_fit])
    | succ f =>
      have h0 : node = 0 := hl
      unfold free_list_first_fit at h
      rw [if_pos h0] at h
      simp only [Except.ok.injEq] at h
      subst h
      exact Or.inl rfl
  | cons b rest ih =>
    intro fuel prev_node node r hl hb h
    obtain ⟨a, s⟩ := b
    obtain ⟨l1, l2, l3, l4⟩ := hl
    subst l1
    have hba := hb (node, s) (List.mem_cons_self _ _)
    dsimp only at hba
    cases fuel with
    | zero => exact absurd h (by simp [free_list_first_fit])
    | succ f =>
      unfold free_list_first_fit at h
      rw [if_neg l2, get_padding_with_header_zero hba.1 hba.2] at h
      dsimp only at h
      split at h
      · simp only [Except.ok.injEq] at h
        subst h
        right
        dsimp only
        unfold wadd
        have : node + (WORD - node) = WORD := by omega
        rw [this, Nat.mod_self]
      · exact ih f node (load64 mem node) r l4
          (fun n hn => hb n (List.mem_cons_of_mem _ hn)) h

/-- A first-fit `free_list_alloc` that returns on a non-empty sorted list was called with a
power-of-two alignment, or it returned `NULL` and changed nothing. -/
theorem free_list_alloc_align {fuel : Nat} {free_list free_list1 : FreeListAllocator}
    {mem mem1 : Mem} {size align p : Nat} {nodes : List (Nat × Nat)}
    (hpol : free_list.allocation_policy = .Allocation_Policy_First_Fit) (hal : align < WORD)
    (hl : FreeList mem free_list.head nodes) (hb : ∀ n ∈ nodes, 1 ≤ n.1 ∧ n.1 + 16 ≤ WORD)
    (h : free_list_alloc fuel free_list mem size align = .ok (p, free_list1, mem1)) :
    (∃ k, align = 2 ^ k) ∨ (p = 0 ∧ free_list1 = free_list ∧ mem1 = mem) := by
  by_cases hchk : wsub free_list.buffer_size free_list.buffer_used < size ∨ free_list.head = 0
  · rw [free_list_alloc_check hchk] at h
    simp only [Except.ok.injEq, Prod.mk.injEq] at h
    exact Or.inr ⟨h.1.symm, h.2.1.symm, h.2.2.symm⟩
  by_cases ha0 : align = 0
  · subst ha0
    right
    unfold free_list_alloc at h
    rw [if_neg hchk] at h
    dsimp only at h
    cases hs : free_list_search fuel free_list mem
        (if size < FREE_LIST_NODE_SIZE then FREE_LIST_NODE_SIZE else size) 0 with
    | error e => rw [hs] at h; exact absurd h (by simp)
    | ok r =>
      obtain ⟨pv, found, req, pad⟩ := r
      rw [hs] at h
      dsimp only at h
      have hz : found = 0 ∨ wadd found pad = 0 := by
        unfold free_list_search at hs
        rw [hpol] at hs
        exact free_list_first_fit_zero nodes fuel 0 free_list.head _ hl hb hs
      by_cases hf : found = 0
      · rw [if_pos hf] at h
        simp only [Except.ok.injEq, Prod.mk.injEq] at h
        exact ⟨h.1.symm, h.2.1.symm, h.2.2.symm⟩
      · rw [if_neg hf] at h
        have hp0 := hz.resolve_left hf
        rw [hp0] at h
        have hsz : (if size < FREE_LIST_NODE_SIZE then FREE_LIST_NODE_SIZE else size) ≠ 0 := by
          unfold FREE_LIST_NODE_SIZE
          split <;> omega
        unfold memset at h
        rw [if_neg hsz, if_pos (Or.inl rfl)] at h
        exact absurd h (by simp)
  · by_cases hp2 : is_power_of_two align = true
    · exact Or.inl (is_power_of_two_pos hp2 ha0 hal)
    · exfalso
      unfold free_list_alloc at h
      rw [if_neg hchk] at h
      dsimp only at h
      have hs : ∀ sz, free_list_search fuel free_list mem sz align = .error .assertion ∨
          free_list_search fuel free_list mem sz align = .error .out_of_fuel := by
        intro sz
        unfold free_list_search
        rw [hpol]
        dsimp only
        cases fuel with
        | zero => right; rfl
        | succ f =>
          left
          unfold free_list_first_fit
          rw [if_neg (fun h0 => hchk (Or.inr h0))]
          unfold get_padding_with_header
          rw [if_neg hp2]
      rcases hs (if size < FREE_LIST_NODE_SIZE then FREE_LIST_NODE_SIZE else size) with e | e
      · rw [e] at h; exact absurd h (by simp)
      · rw [e] at h; exact absurd h (by simp)

/-- A sorted free list splits around a block that is apart from each of its nodes. -/
theorem free_sorted_partition (a R : Nat) (nodes : List (Nat × Nat)) :
    ∀ lo, FreeSorted lo nodes → (∀ n ∈ nodes, n.1 + n.2 ≤ a ∨ a + R ≤ n.1) →
      ∃ pre post, nodes = pre ++ post ∧ (∀ n ∈ pre, n.1 + n.2 ≤ a) ∧
        ∀ n ∈ post, a + R ≤ n.1 := by
  induction nodes with
  | nil =>
    intro _ _ _
    exact ⟨[], [], rfl, fun n hn => absurd hn (List.not_mem_nil _),
      fun n hn => absurd hn (List.not_mem_nil _)⟩
  | cons b rest ih =>
    intro lo hso hd
    obtain ⟨c, u⟩ := b
    obtain ⟨s1, s2, s3⟩ := hso
    have hc := hd (c, u) (List.mem_cons_self _ _)
    dsimp only at hc
    by_cases hcu : c + u ≤ a
    · obtain ⟨pre, post, e1, e2, e3⟩ := ih _ s3 (fun n hn => hd n (List.mem_cons_of_mem _ hn))
      refine ⟨(c, u) :: pre, post, by rw [e1]; rfl, ?_, e3⟩
      intro n hn
      rcases List.mem_cons.mp hn with rfl | hn
      · exact hcu
      · exact e2 n hn
    · refine ⟨[], (c, u) :: rest, rfl, fun n hn => absurd hn (List.not_mem_nil _), ?_⟩
      intro n hn
      rcases List.mem_cons.mp hn with rfl | hn
      · dsimp only; omega
      · have := (free_sorted_mem rest _ s3 n hn).1
        omega

/-- In a sorted free list each node ends strictly below the start of the next one. -/
theorem free_sorted_chain (nodes : List (Nat × Nat)) :
    ∀ lo, FreeSorted lo nodes →
      List.Chain' (fun n m : Nat × Nat => n.1 < m.1 ∧ n.1 + n.2 < m.1) nodes := by
  induction nodes with
  | nil => intro _ _; exact List.chain'_nil
  | cons b rest ih =>
    intro lo hso
    obtain ⟨c, u⟩ := b
    obtain ⟨s1, s2, s3⟩ := hso
    cases rest with
    | nil => exact List.chain'_singleton _
    | cons b1 rest1 =>
      obtain ⟨c1, u1⟩ := b1
      have h3 := s3
      obtain ⟨t1, t2, t3⟩ := h3
      refine List.Chain'.cons ?_ (ih _ s3)
      dsimp only
      omega

/-- After `free_list_free_all` the whole buffer is the single free block and the
invariant holds with no live allocation. -/
theorem free_list_free_all_inv (free_list : FreeListAllocator) (mem : Mem)
    (hpol : free_list.allocation_policy = .Allocation_Policy_First_Fit)
    (hpos : 1 ≤ free_list.buffer) (hsz : 16 ≤ free_list.buffer_size)
    (hfit : free_list.buffer + free_list.buffer_size + 16 ≤ 2 ^ 63) :
    FreeListInv (free_list_free_all free_list mem).1 (free_list_free_all free_list mem).2 []
      [(free_list.buffer, free_list.buffer_size)] := by
  have hw : wadd free_list.buffer 8 = free_list.buffer + 8 :=
    wadd_of_lt (by unfold WORD; omega)
  have hsw : free_list.buffer_size < WORD := by unfold WORD; omega
  unfold free_list_free_all
  dsimp only
  rw [hw]
  refine ⟨hpol, hpos, hsz, hfit, ⟨rfl, by omega, ?_, ?_⟩, ⟨Nat.le_refl _, hsz, trivial⟩, ?_,
    ?_, ?_, List.Pairwise.nil⟩
  · rw [load64_store64_ne (Or.inr (Nat.le_refl _))]
    exact load64_store64 _ _ _ hsw
  · exact load64_store64 _ _ _ (by decide)
  · intro n hn
    rcases List.mem_singleton.mp hn with rfl
    exact Nat.le_refl _
  · simp
  · intro p hp
    exact absurd hp (List.not_mem_nil _)

/-- The state `free_list_init` returns satisfies the invariant. -/
theorem free_list_init_inv {mem mem1 : Mem} {buffer buffer_size : Nat}
    {free_list : FreeListAllocator} (hpos : 1 ≤ buffer)
    (hfit : buffer + buffer_size + 16 ≤ 2 ^ 63)
    (h : free_list_init mem buffer buffer_size .Allocation_Policy_First_Fit =
      .ok (free_list, mem1)) :
    FreeListInv free_list mem1 [] [(buffer, buffer_size)] := by
  unfold free_list_init at h
  by_cases hsz : buffer_size ≥ FREE_LIST_NODE_SIZE
  · rw [if_pos hsz] at h
    simp only [Except.ok.injEq] at h
    have := free_list_free_all_inv ⟨buffer, buffer_size, 0, 0, .Allocation_Policy_First_Fit⟩
      mem rfl hpos hsz hfit
    rw [h] at this
    exact this
  · rw [if_neg hsz] at h
    exact absurd h (by simp)

/-- The header of a live allocation reads the same in a memory that agrees with the old
one on the allocation's block. -/
theorem free_list_header_frame {mem mem1 : Mem} {q lo : Nat}
    (h1 : 16 ≤ load64 mem (q - 16)) (h2 : load64 mem (q - 16) + 16 ≤ load64 mem (q - 8))
    (h3 : lo + load64 mem (q - 16) ≤ q)
    (hfr : ∀ x, q - load64 mem (q - 16) ≤ x →
      x < q - load64 mem (q - 16) + load64 mem (q - 8) → mem1 x = mem x) :
    load64 mem1 (q - 16) = load64 mem (q - 16) ∧ load64 mem1 (q - 8) = load64 mem (q - 8) :=
  ⟨load64_congr (fun x hx1 hx2 => hfr x (by omega) (by omega)),
    load64_congr (fun x hx1 hx2 => hfr x (by omega) (by omega))⟩

/-- The invariant after a block `[a, a + c)` with padding `P` was carved out of the free
node `(a, s)`, leaving the free list `nodes1`. -/
theorem free_list_inv_take {free_list free_list1 : FreeListAllocator} {mem mem1 : Mem}
    {live : List Nat} {nodes nodes1 : List (Nat × Nat)} {P c a s : Nat}
    (hinv : FreeListInv free_list mem live nodes) (hmem : (a, s) ∈ nodes) (hP : 16 ≤ P)
    (hPc : P + 16 ≤ c) (hcs : c ≤ s)
    (e6 : free_list1.buffer = free_list.buffer)
    (e7 : free_list1.buffer_size = free_list.buffer_size)
    (e8 : free_list1.allocation_policy = free_list.allocation_policy)
    (hu : free_list1.buffer_used = wadd free_list.buffer_used c)
    (hl1 : FreeList mem1 free_list1.head nodes1) (hso1 : FreeSorted free_list.buffer nodes1)
    (hsub : ∀ n1 ∈ nodes1, (∃ n ∈ nodes, n.1 ≤ n1.1 ∧ n1.1 + n1.2 ≤ n.1 + n.2) ∧
      (n1.1 + n1.2 ≤ a ∨ a + c ≤ n1.1))
    (hsum1 : c + (nodes1.map Prod.snd).sum = (nodes.map Prod.snd).sum)
    (h16 : load64 mem1 (a + P - 16) = P) (h8 : load64 mem1 (a + P - 8) = c)
    (hfr : ∀ x, (∀ n ∈ nodes, x < n.1 ∨ n.1 + n.2 ≤ x) → mem1 x = mem x) :
    FreeListInv free_list1 mem1 ((a + P) :: live) nodes1 := by
  obtain ⟨i1, i2, i3, i4, i5, i6, i7, i8, i9, i10⟩ := hinv
  have ha := (free_sorted_mem nodes _ i6 (a, s) hmem).1
  have has := i7 (a, s) hmem
  dsimp only at ha has
  have hld : ∀ q ∈ live, load64 mem1 (q - 16) = load64 mem (q - 16) ∧
      load64 mem1 (q - 8) = load64 mem (q - 8) := by
    intro q hq
    obtain ⟨b1, b2, b3, b4, b5⟩ := i9 q hq
    refine free_list_header_frame b1 b2 b3 (fun x hx1 hx2 => hfr x (fun n hn => ?_))
    have := b5 n hn
    omega
  have hpa : a + P - P = a := by omega
  refine ⟨e8.trans i1, by rw [e6]; exact i2, by rw [e7]; exact i3, by rw [e6, e7]; exact i4,
    hl1, by rw [e6]; exact hso1, ?_, ?_, ?_, ?_⟩
  · intro n1 hn1
    obtain ⟨⟨n, hn, k1, k2⟩, _⟩ := hsub n1 hn1
    have := i7 n hn
    rw [e6, e7]
    omega
  · rw [hu, e7, wadd_of_lt (by unfold WORD; omega)]
    omega
  · intro q hq
    rcases List.mem_cons.mp hq with rfl | hq
    · rw [h16, h8, hpa, e6, e7]
      refine ⟨hP, hPc, by omega, by omega, fun n1 hn1 => (hsub n1 hn1).2⟩
    · obtain ⟨b1, b2, b3, b4, b5⟩ := i9 q hq
      rw [(hld q hq).1, (hld q hq).2, e6, e7]
      refine ⟨b1, b2, b3, b4, fun n1 hn1 => ?_⟩
      obtain ⟨⟨n, hn, k1, k2⟩, _⟩ := hsub n1 hn1
      have := b5 n hn
      omega
  · refine List.pairwise_cons.mpr ⟨fun q hq => ?_, ?_⟩
    · obtain ⟨b1, b2, b3, b4, b5⟩ := i9 q hq
      rw [h16, h8, hpa, (hld q hq).1, (hld q hq).2]
      have := b5 (a, s) hmem
      dsimp only at this
      omega
    · refine i10.imp_of_mem (fun {q1 q2} hq1 hq2 hrel => ?_)
      rw [(hld q1 hq1).1, (hld q1 hq1).2, (hld q2 hq2).1, (hld q2 hq2).2]
      exact hrel

set_option maxHeartbeats 1000000 in
/-- A returning `free_list_alloc` keeps the invariant: it returns `NULL` and changes
nothing, or it returns a new live pointer. -/
theorem free_list_alloc_inv {fuel : Nat} {free_list free_list1 : FreeListAllocator}
    {mem mem1 : Mem} {live : List Nat} {nodes : List (Nat × Nat)} {size align p : Nat}
    (hinv : FreeListInv free_list mem live nodes) (hal : align < WORD)
    (h : free_list_alloc fuel free_list mem size align = .ok (p, free_list1, mem1)) :
    (p = 0 ∧ free_list1 = free_list ∧ mem1 = mem) ∨
      (p ≠ 0 ∧ ∃ nodes1, FreeListInv free_list1 mem1 (p :: live) nodes1) := by
  have hinv0 := hinv
  obtain ⟨i1, i2, i3, i4, i5, i6, i7, i8, i9, i10⟩ := hinv
  have hb : ∀ n ∈ nodes, 1 ≤ n.1 ∧ n.1 + 16 ≤ WORD := by
    intro n hn
    have := (free_sorted_mem nodes _ i6 n hn)
    have := i7 n hn
    unfold WORD
    omega
  rcases free_list_alloc_align i1 hal i5 hb h with ⟨k, rfl⟩ | hnull
  swap
  · exact Or.inl hnull
  by_cases hchk : wsub free_list.buffer_size free_list.buffer_used < size
  · rw [free_list_alloc_check (Or.inl hchk)] at h
    simp only [Except.ok.injEq, Prod.mk.injEq] at h
    exact Or.inl ⟨h.1.symm, h.2.1.symm, h.2.2.symm⟩
  have hcap : free_list.buffer_size < WORD := by unfold WORD; omega
  have hno := free_list_request_fits hal i6 i7 i4 i8 hcap hchk
  obtain ⟨p1, fl1, m1, r1, r2⟩ := free_list_alloc_first_spec (max fuel (nodes.length + 1))
    free_list mem nodes size k free_list.buffer (free_list.buffer + free_list.buffer_size)
    i1 hal hno i5 i6 i2 i7 (by unfold WORD; omega)
    (Nat.lt_of_lt_of_le (Nat.lt_succ_self _) (Nat.le_max_right _ _))
  rw [free_list_alloc_mono i1 (Nat.le_max_left _ _) h] at r1
  simp only [Except.ok.injEq, Prod.mk.injEq] at r1
  obtain ⟨h1, h2, h3⟩ := r1
  subst h1 h2 h3
  rcases r2 with ⟨h0, h1, h2, _⟩ | ⟨pre, a, s, post, e1, _, _, e4, e5, e6, e7, e8, e9, e10, _, e12⟩
  · exact Or.inl ⟨h0, h1, h2⟩
  right
  subst e1 e5
  obtain ⟨z1, z2, z3, z4, z5⟩ := free_sorted_split pre _ a s post i6
  have hP16 : 16 ≤ padding_nat (2 ^ k) a 16 :=
    (padding_nat_spec (2 ^ k) a 16 (Nat.two_pow_pos k)).2.1
  have h16 : 16 ≤ max size 16 := Nat.le_max_right _ _
  have hpb := free_sorted_mem post _ z5
  have hmem : (a, s) ∈ pre ++ (a, s) :: post :=
    List.mem_append_right _ (List.mem_cons_self _ _)
  refine ⟨by omega, ?_⟩
  rcases e9 with ⟨c1, c2, c3, c4⟩ | ⟨c1, c2, c3, c4⟩
  · refine ⟨_, free_list_inv_take hinv0 hmem hP16 (by omega) e4 e6 e7 e8 c2 c3 ?_ ?_ ?_
      e10 c4 e12⟩
    · refine free_sorted_append pre _ a _ z3 z4 z1 ⟨by omega, by omega, ?_⟩
      have : a + (padding_nat (2 ^ k) a 16 + max size 16) +
          (s - (padding_nat (2 ^ k) a 16 + max size 16)) + 1 = a + s + 1 := by omega
      rw [this]; exact z5
    · intro n1 hn1
      rcases List.mem_append.mp hn1 with hn | hn
      · refine ⟨⟨n1, List.mem_append_left _ hn, Nat.le_refl _, Nat.le_refl _⟩, ?_⟩
        have := z4 n1 hn
        omega
      · rcases List.mem_cons.mp hn with rfl | hn
        · refine ⟨⟨(a, s), hmem, ?_, ?_⟩, ?_⟩ <;> dsimp only <;> omega
        · refine ⟨⟨n1, List.mem_append_right _ (List.mem_cons_of_mem _ hn), Nat.le_refl _,
            Nat.le_refl _⟩, ?_⟩
          have := hpb n1 hn
          omega
    · simp only [List.map_append, List.map_cons, List.sum_append, List.sum_cons]
      omega
  · refine ⟨_, free_list_inv_take hinv0 hmem hP16 (by omega) (Nat.le_refl s) e6 e7 e8 c2 c3
      ?_ ?_ ?_ e10 c4 e12⟩
    · exact free_sorted_append pre _ (a + s + 1) _ z3 (fun n hn => by
        have := z4 n hn
        omega) (by omega) z5
    · intro n1 hn1
      rcases List.mem_append.mp hn1 with hn | hn
      · refine ⟨⟨n1, List.mem_append_left _ hn, Nat.le_refl _, Nat.le_refl _⟩, ?_⟩
        have := z4 n1 hn
        omega
      · refine ⟨⟨n1, List.mem_append_right _ (List.mem_cons_of_mem _ hn), Nat.le_refl _,
          Nat.le_refl _⟩, ?_⟩
        have := hpb n1 hn
        omega
    · simp only [List.map_append, List.map_cons, List.sum_append, List.sum_cons]
      omega

theorem free_sorted_parts (pre : List (Nat × Nat)) :
    ∀ lo post, FreeSorted lo (pre ++ post) → FreeSorted lo pre ∧ FreeSorted lo post := by
  induction pre with
  | nil => intro lo post h; exact ⟨trivial, h⟩
  | cons b pre ih =>
    intro lo post h
    obtain ⟨c, u⟩ := b
    obtain ⟨h1, h2, h3⟩ := h
    obtain ⟨k1, k2⟩ := ih _ post h3
    exact ⟨⟨h1, h2, k1⟩, free_sorted_mono post _ lo (by omega) k2⟩

set_option maxHeartbeats 1000000 in
/-- A returning `free_list_free` of a live allocation keeps the invariant. -/
theorem free_list_free_inv {fuel : Nat} {free_list free_list1 : FreeListAllocator}
    {mem mem1 : Mem} {live1 live2 : List Nat} {nodes : List (Nat × Nat)} {p : Nat}
    (hinv : FreeListInv free_list mem (live1 ++ p :: live2) nodes)
    (h : free_list_free fuel free_list mem p = .ok (free_list1, mem1)) :
    ∃ nodes1, FreeListInv free_list1 mem1 (live1 ++ live2) nodes1 := by
  obtain ⟨i1, i2, i3, i4, i5, i6, i7, i8, i9, i10⟩ := hinv
  obtain ⟨b1, b2, b3, b4, b5⟩ := i9 p (List.mem_append_right _ (List.mem_cons_self _ _))
  obtain ⟨pre, post, e, hpre, hpost⟩ := free_sorted_partition _ _ nodes _ i6 b5
  subst e
  obtain ⟨m1, r1, r2, r3⟩ := free_list_free_spec (max fuel (pre.length + 1)) free_list mem
    pre post p _ _ free_list.buffer (free_list.buffer + free_list.buffer_size) i5 i6 i2 i7
    (by unfold WORD; omega) rfl rfl b1 b2 b3 b4 hpre hpost
    (Nat.lt_of_lt_of_le (Nat.lt_succ_self _) (Nat.le_max_right _ _))
  rw [free_list_free_mono (Nat.le_max_left _ _) h] at r1
  simp only [Except.ok.injEq, Prod.mk.injEq] at r1
  obtain ⟨h1, h2⟩ := r1
  subst h1 h2
  generalize hP : load64 mem (p - 16) = P at *
  generalize hR : load64 mem (p - 8) = R at *
  obtain ⟨s1, s2⟩ := free_sorted_parts pre _ post i6
  obtain ⟨R1, rest1, n1, n2, n3, n4, n5, n6, n7, _, _⟩ := free_merge_next_spec (p - P) R
    (free_list.buffer + free_list.buffer_size) free_list.buffer post s2 hpost
    (fun n hn => i7 n (List.mem_append_right _ hn)) b4
  rw [n1] at r2
  obtain ⟨t1, t2, t3, t4, _⟩ := free_merge_prev_spec pre rest1 (p - P) R1 free_list.buffer
    (free_list.buffer + free_list.buffer_size) s1 hpre (by omega) (by omega) n4
    (fun n hn => i7 n (List.mem_append_right _ (n5 n hn))) n3
  have hsm : ((pre ++ post).map Prod.snd).sum =
      (pre.map Prod.snd).sum + (post.map Prod.snd).sum := by
    simp only [List.map_append, List.sum_append]
  have hRu : R ≤ free_list.buffer_used := by
    rcases free_sorted_sum_le _ _ _ t1 t3 with hnil | hle
    · rw [hnil] at t2
      simp only [List.map_nil, List.sum_nil] at t2
      omega
    · omega
  have hdis : ∀ q ∈ live1 ++ live2, p - P + R ≤ q - load64 mem (q - 16) ∨
      q - load64 mem (q - 16) + load64 mem (q - 8) ≤ p - P := by
    obtain ⟨_, pw2, cross⟩ := List.pairwise_append.mp i10
    obtain ⟨pw3, _⟩ := List.pairwise_cons.mp pw2
    intro q hq
    rcases List.mem_append.mp hq with hq | hq
    · have := cross q hq p (List.mem_cons_self _ _)
      rw [hP, hR] at this
      omega
    · have := pw3 q hq
      rw [hP, hR] at this
      omega
  have hin : ∀ q ∈ live1 ++ live2, q ∈ live1 ++ p :: live2 := by
    intro q hq
    rcases List.mem_append.mp hq with hq | hq
    · exact List.mem_append_left _ hq
    · exact List.mem_append_right _ (List.mem_cons_of_mem _ hq)
  have hld : ∀ q ∈ live1 ++ live2, load64 mem1 (q - 16) = load64 mem (q - 16) ∧
      load64 mem1 (q - 8) = load64 mem (q - 8) := by
    intro q hq
    obtain ⟨c1, c2, c3, c4, c5⟩ := i9 q (hin q hq)
    have hd := hdis q hq
    refine free_list_header_frame c1 c2 c3 (fun x hx1 hx2 => r3 x (by omega) (fun n hn => ?_))
    have := c5 n hn
    omega
  refine ⟨_, i1, i2, i3, i4, r2, t1, t3, ?_, ?_, ?_⟩
  · dsimp only
    rw [wsub_of_le hRu (by unfold WORD; omega), t2]
    omega
  · intro q hq
    obtain ⟨c1, c2, c3, c4, c5⟩ := i9 q (hin q hq)
    have hd := hdis q hq
    rw [(hld q hq).1, (hld q hq).2]
    refine ⟨c1, c2, c3, c4, ?_⟩
    refine t4 _ _ (by omega) (fun n hn => c5 n (List.mem_append_left _ hn)) ?_
      (fun n hn => c5 n (List.mem_append_right _ (n5 n hn)))
    exact n7 _ _ (by omega) hd (fun n hn => c5 n (List.mem_append_right _ hn))
  · have hsub : List.Sublist (live1 ++ live2) (live1 ++ p :: live2) :=
      List.Sublist.append (List.Sublist.refl _) (List.sublist_cons_self _ _)
    refine (i10.sublist hsub).imp_of_mem (fun {q1 q2} hq1 hq2 hrel => ?_)
    rw [(hld q1 hq1).1, (hld q1 hq1).2, (hld q2 hq2).1, (hld q2 hq2).2]
    exact hrel

/-- Every reachable first-fit free-list state satisfies the invariant, for some free
list. -/
theorem free_list_reach_inv {free_list : FreeListAllocator} {mem : Mem} {live : List Nat}
    (h : FreeListReach free_list mem live) : ∃ nodes, FreeListInv free_list mem live nodes := by
  induction h with
  | init hpos hfit hinit => exact ⟨_, free_list_init_inv hpos hfit hinit⟩
  | alloc _ hal h hp ih =>
    obtain ⟨nodes, hinv⟩ := ih
    rcases free_list_alloc_inv hinv hal h with ⟨h0, _⟩ | ⟨_, r⟩
    · exact absurd h0 hp
    · exact r
  | alloc_null _ hal h ih =>
    obtain ⟨nodes, hinv⟩ := ih
    rcases free_list_alloc_inv hinv hal h with ⟨_, e1, e2⟩ | ⟨hne, _⟩
    · subst e1 e2
      exact ⟨nodes, hinv⟩
    · exact absurd rfl hne
  | free _ h ih =>
    obtain ⟨nodes, hinv⟩ := ih
    exact free_list_free_inv hinv h
  | @free_all fl fl1 m m1 lv _ h ih =>
    obtain ⟨nodes, hinv⟩ := ih
    have := free_list_free_all_inv fl m hinv.policy hinv.buffer_pos hinv.size_ok hinv.fits
    rw [h] at this
    exact ⟨_, this⟩

/-- From a 1024-byte buffer at 4096, `free_list_init`, then `free_list_alloc(32, 8)`
returning 4112, then `free_list_alloc(100, 16)`, then `free_list_free(4112)` all return. -/
theorem free_list_example_seq :
    ∃ free_list0 mem0 free_list1 mem1 p free_list2 mem2 free_list3 mem3,
      free_list_init (fun _ => 0) 4096 1024 .Allocation_Policy_First_Fit =
        .ok (free_list0, mem0) ∧
      free_list_alloc 2 free_list0 mem0 32 8 = .ok (4112, free_list1, mem1) ∧
      free_list_alloc 2 free_list1 mem1 100 16 = .ok (p, free_list2, mem2) ∧ p ≠ 0 ∧
      free_list_free 2 free_list2 mem2 4112 = .ok (free_list3, mem3) :=
  ⟨_, _, _, _, 4160, _, _, _, _, rfl, rfl, rfl, by decide, rfl⟩

/-- Claim C17: in every state reachable from `free_list_init` with the first-fit policy
(over a non-null buffer in the lower half of the address space) by returning calls of
`free_list_alloc`, `free_list_free` of a currently live allocation and
`free_list_free_all`, the free list visited from `head` is a list `nodes` of
`(address, block_size)` in which each node starts strictly above the one before it and
strictly above its end (no two free blocks are adjacent), every free block lies inside
`[buffer, buffer + buffer_size)`, `buffer_used` plus the sum of the free block sizes is
`buffer_size`, and hence `buffer_used ≤ buffer_size`. -/
theorem free_list_invariant (free_list : FreeListAllocator) (mem : Mem) (live : List Nat)
    (h : FreeListReach free_list mem live) :
    ∃ nodes, FreeList mem free_list.head nodes ∧
      List.Chain' (fun n m : Nat × Nat => n.1 < m.1 ∧ n.1 + n.2 < m.1) nodes ∧
      (∀ n ∈ nodes, free_list.buffer ≤ n.1 ∧
        n.1 + n.2 ≤ free_list.buffer + free_list.buffer_size) ∧
      free_list.buffer_used + (nodes.map Prod.snd).sum = free_list.buffer_size ∧
      free_list.buffer_used ≤ free_list.buffer_size := by
  obtain ⟨nodes, hinv⟩ := free_list_reach_inv h
  refine ⟨nodes, hinv.list, free_sorted_chain nodes _ hinv.sorted, fun n hn =>
    ⟨(free_sorted_mem nodes _ hinv.sorted n hn).1, hinv.inside n hn⟩, hinv.used, ?_⟩
  have := hinv.used
  omega

/-- Instance of C17: the state after `free_list_init` on a 1024-byte buffer at 4096,
two allocations and the release of the first one. -/
theorem free_list_invariant_witness :
    ∃ free_list mem p, FreeListReach free_list mem ([] ++ [p]) ∧
      ∃ nodes, FreeList mem free_list.head nodes ∧
        List.Chain' (fun n m : Nat × Nat => n.1 < m.1 ∧ n.1 + n.2 < m.1) nodes ∧
        (∀ n ∈ nodes, free_list.buffer ≤ n.1 ∧
          n.1 + n.2 ≤ free_list.buffer + free_list.buffer_size) ∧
        free_list.buffer_used + (nodes.map Prod.snd).sum = free_list.buffer_size ∧
        free_list.buffer_used ≤ free_list.buffer_size := by
  obtain ⟨fl0, m0, fl1, m1, p, fl2, m2, fl3, m3, e0, e1, e2, hp, e3⟩ := free_list_example_seq
  have h1 : FreeListReach fl1 m1 [4112] :=
    FreeListReach.alloc (FreeListReach.init (by decide) (by decide) e0)
      (by decide : 8 < WORD) e1 (by decide)
  have h2 : FreeListReach fl2 m2 ([p] ++ 4112 :: []) :=
    FreeListReach.alloc h1 (by decide : 16 < WORD) e2 hp
  have h3 : FreeListReach fl3 m3 ([p] ++ []) := FreeListReach.free h2 e3
  exact ⟨fl3, m3, p, h3, free_list_invariant fl3 m3 _ h3⟩

/-! ## The power-of-two test -/

/-- Claim C31 at its failing input: `is_power_of_two(0)` evaluates `(0 & (0 - 1)) == 0`,
which is true, although 0 has no bit set and is no power of two. Over the machine words the
test accepts exactly 0 and the powers of two. So the assertions on `align` let the
alignment 0 through: `align_forward(4096, 0)` returns 0 instead of stopping,
`get_padding_with_header(4096, 16, 0)` returns `2^64 - 4096`, `arena_alloc(8, 0)` on the
empty 1024-byte arena at 4096 returns `NULL` as if out of memory, `arena_alloc(4096, 0)`
passes the wrapped capacity check and runs `memset` on the null pointer, and
`buddy_init(4096, 128, 0)` reaches the division `buffer % align` by zero. -/
theorem is_power_of_two_accepts_zero :
    is_power_of_two 0 = true ∧ (∀ k, (0 : Nat) ≠ 2 ^ k) ∧
      (∀ x, x < WORD → (is_power_of_two x = true ↔ x = 0 ∨ ∃ k, x = 2 ^ k)) ∧
      align_forward 4096 0 = .ok 0 ∧
      get_padding_with_header 4096 16 0 = .ok (2 ^ 64 - 4096) ∧
      arena_alloc ⟨4096, 1024, 0⟩ (fun _ => 0) 8 0 = .ok (0, ⟨4096, 1024, 0⟩, fun _ => 0) ∧
      arena_alloc ⟨4096, 1024, 0⟩ (fun _ => 0) 4096 0 = .error .segfault ∧
      buddy_init 4096 128 0 = .error .div_by_zero := by
  refine ⟨by decide, fun k h => ?_, fun x hx => ⟨fun h => ?_, fun h => ?_⟩, rfl, rfl, rfl,
    rfl, rfl⟩
  · have := Nat.two_pow_pos k
    omega
  · by_cases h0 : x = 0
    · exact Or.inl h0
    · exact Or.inr (is_power_of_two_pos h h0 hx)
  · rcases h with rfl | ⟨k, rfl⟩
    · decide
    · exact is_power_of_two_two_pow hx

/-! ## Buddy allocator: `buddy_free` returns -/

/-- The climb of `buddy_free` returns within one step per tree level. -/
theorem buddy_free_loop_returns (t : Nat → Nat) :
    ∀ fuel index, index + 1 < 2 ^ fuel → ∃ r, buddy_free_loop t fuel index = .ok r := by
  intro fuel
  induction fuel with
  | zero => intro index h; simp at h
  | succ f ih =>
    intro index h
    unfold buddy_free_loop
    by_cases h0 : index ≠ 0
    · rw [if_pos h0]
      by_cases hA : BUDDY_IS_ALLOC t index = true
      · rw [if_pos hA]; exact ⟨_, rfl⟩
      · rw [if_neg hA]
        by_cases he : index % 2 = 0
        · rw [if_pos he]; exact ⟨_, rfl⟩
        · rw [if_neg he]
          refine ih _ ?_
          rw [pow_succ] at h
          omega
    · rw [if_neg h0]; exact ⟨_, rfl⟩

/-- The inner loop of `buddy_coalescence` returns when the budget exceeds the length of
the row. -/
theorem buddy_coalescence_row_returns (bound : Nat) (hb : bound ≤ 2 ^ 30) :
    ∀ fuel t i, bound - i < fuel → ∃ t1, buddy_coalescence_row bound fuel t i = .ok t1 := by
  intro fuel
  induction fuel with
  | zero => intro t i h; omega
  | succ f ih =>
    intro t i h
    unfold buddy_coalescence_row
    by_cases c : i < bound
    · rw [if_pos c]
      have hw : wadd i 1 = i + 1 := wadd_of_lt (by unfold WORD; omega)
      rw [hw]
      by_cases hs : ¬ BUDDY_IS_SPLIT t i = true
      · rw [if_pos hs]; exact ih _ _ (by omega)
      · rw [if_neg hs]
        dsimp only
        split
        · exact ih _ _ (by omega)
        · exact ih _ _ (by omega)
    · rw [if_neg c]; exact ⟨_, rfl⟩

/-- The outer loop of `buddy_coalescence` returns when the budget exceeds the height and
the row budget exceeds the widest row of parents. -/
theorem buddy_coalescence_loop_returns (row_fuel : Nat) :
    ∀ fuel t height, height ≤ 30 → height < fuel → 2 ^ (height - 1) < row_fuel →
      ∃ t1, buddy_coalescence_loop row_fuel fuel t height = .ok t1 := by
  intro fuel
  induction fuel with
  | zero => intro t height _ h; omega
  | succ f ih =>
    intro t height hh hf hr
    unfold buddy_coalescence_loop
    by_cases c : height > 0
    · rw [if_pos c]
      dsimp only
      unfold POW_OF_2
      rw [if_pos (by omega : height - 1 < 31), if_pos (by omega : height < 31)]
      dsimp only
      obtain ⟨h1, rfl⟩ : ∃ h1, height = h1 + 1 := ⟨height - 1, by omega⟩
      rw [Nat.add_sub_cancel] at hr ⊢
      have hp1 : 2 ^ (h1 + 1) ≤ 2 ^ 30 := Nat.pow_le_pow_right (by decide) hh
      have hpos := Nat.two_pow_pos h1
      have e : 2 ^ (h1 + 1) = 2 * 2 ^ h1 := by rw [pow_succ]; omega
      obtain ⟨t1, ht1⟩ := buddy_coalescence_row_returns (2 ^ (h1 + 1) - 1) (by omega)
        row_fuel t (2 ^ h1 - 1) (by omega)
      rw [ht1]
      dsimp only
      refine ih _ _ (by omega) (by omega) ?_
      have : 2 ^ (h1 - 1) ≤ 2 ^ h1 := Nat.pow_le_pow_right (by decide) (by omega)
      omega
    · rw [if_neg c]; exact ⟨_, rfl⟩

set_option maxHeartbeats 1000000 in
/-- `buddy_free` of a live allocation returns, for every budget above `2^(H - 1)`, the
number of parents in the widest row; only the tree changes. -/
theorem buddy_free_returns {b : BuddyAllocator} {live : List (Nat × Nat)} {fuel p bs : Nat}
    (inv : BuddyInv b live) (hm : (p, bs) ∈ live) (hfuel : 2 ^ (b.tree_height - 1) < fuel) :
    ∃ t2, buddy_free fuel b p = .ok { b with tree := t2 } := by
  obtain ⟨a, ha⟩ := inv.align_pow
  have hfits := inv.fits
  have hbuf := inv.buffer_pos
  have hHp := Nat.two_pow_pos b.tree_height
  have hAp : 0 < b.alignment := by rw [ha]; exact Nat.two_pow_pos a
  have hH : b.tree_height < 31 := inv.height_lt (List.ne_nil_of_mem hm)
  have hH31 : 2 ^ b.tree_height ≤ 2 ^ 30 := Nat.pow_le_pow_right (by decide) (by omega)
  have hHf : b.tree_height + 1 ≤ fuel := by
    have := @Nat.lt_two_pow (b.tree_height - 1)
    have := inv.height_pos
    omega
  obtain ⟨i, hi, hx⟩ := (inv.live_iff _).mp hm
  have hiN := buddy_inv_inside inv (buddy_alloc_not_free hi)
  have hL := buddy_node_level_le hiN
  obtain ⟨l1, l2⟩ := buddy_node_level_spec i
  generalize hLdef : buddy_node_level i = L at *
  have hE := Nat.two_pow_pos (b.tree_height - L)
  have hEL : 2 ^ (b.tree_height - L) * 2 ^ L = 2 ^ b.tree_height := (two_pow_split hL).symm
  have hX : 2 ^ (b.tree_height - L) * (i + 1 - 2 ^ L) + 2 ^ b.tree_height =
      (i + 1) * 2 ^ (b.tree_height - L) := by
    rw [← hEL, ← Nat.mul_add, Nat.sub_add_cancel l1, Nat.mul_comm]
  have hXlt : (i + 1) * 2 ^ (b.tree_height - L) < 2 ^ (b.tree_height + 1) := by
    have := @mul_two_pow_lt i L (b.tree_height - L) l2
    have e : L + (b.tree_height - L) + 1 = b.tree_height + 1 := by omega
    rw [e] at this; exact this
  have e31 : 2 ^ (b.tree_height + 1) = 2 * 2 ^ b.tree_height := by rw [pow_succ]; omega
  have hoff : buddy_node_size b i * (i + 1 - 2 ^ L) =
      2 ^ (b.tree_height - L) * (i + 1 - 2 ^ L) * b.alignment := by
    unfold buddy_node_size; rw [hLdef]; ring
  have hofflt : 2 ^ (b.tree_height - L) * (i + 1 - 2 ^ L) * b.alignment <
      2 ^ b.tree_height * b.alignment :=
    Nat.mul_lt_mul_of_pos_right (by omega) hAp
  simp only [Prod.mk.injEq] at hx
  obtain ⟨hpe, hbse⟩ := hx
  unfold buddy_node_ptr at hpe
  rw [hLdef, hoff] at hpe
  have hnp : ∀ m, 0 < m → BUDDY_IS_ALLOC b.tree ((i + 1) * 2 ^ m - 1) = false := by
    intro m hm0
    cases hc : BUDDY_IS_ALLOC b.tree ((i + 1) * 2 ^ m - 1)
    · rfl
    · obtain ⟨d, rfl⟩ : ∃ d, m = d + 1 := ⟨m - 1, by omega⟩
      have hp : 0 < (i + 1) * 2 ^ (d + 1) := Nat.mul_pos (by omega) (Nat.two_pow_pos _)
      have e : ((i + 1) * 2 ^ (d + 1) - 1 + 1) / 2 ^ (d + 1) = i + 1 := by
        rw [Nat.sub_add_cancel hp, Nat.mul_div_cancel _ (Nat.two_pow_pos _)]
      exact absurd ⟨buddy_anc_split inv.parent_split d _ i e (buddy_alloc_not_free hc), hi⟩
        (inv.excl i)
  unfold buddy_free
  dsimp only
  unfold POW_OF_2 wdiv
  rw [if_pos hH, if_neg (by omega : ¬ b.alignment = 0)]
  dsimp only
  rw [hpe, wsub_of_le (by omega) (by omega), Nat.add_sub_cancel_left,
    Nat.mul_div_cancel _ hAp, wadd_of_lt (by unfold WORD; omega)]
  have hleaf : 2 ^ b.tree_height - 1 + 2 ^ (b.tree_height - L) * (i + 1 - 2 ^ L) =
      (i + 1) * 2 ^ (b.tree_height - L) - 1 := by omega
  rw [hleaf]
  have hidx : (i + 1) * 2 ^ (b.tree_height - L) - 1 + 1 < 2 ^ fuel := by
    have : 2 ^ (b.tree_height + 1) ≤ 2 ^ fuel := Nat.pow_le_pow_right (by decide) hHf
    omega
  obtain ⟨r, hfl⟩ := buddy_free_loop_returns b.tree fuel _ hidx
  rw [hfl]
  have hr := buddy_free_loop_spec hi hnp _ fuel r hfl
  have hroot : (if ¬ r.2 = true ∧
        2 ^ (b.tree_height - L) * (i + 1 - 2 ^ L) * b.alignment = 0 then
      if BUDDY_IS_ALLOC r.1 0 = true then (BUDDY_SET_FREE r.1 0, true) else (r.1, r.2)
      else (r.1, r.2)) = (BUDDY_SET_FREE b.tree i, true) := by
    by_cases h0 : i = 0
    · rw [if_pos h0] at hr
      subst hr
      subst h0
      have hL0 : L = 0 := by
        have : 2 ^ L < 2 ^ 1 := by omega
        have := (Nat.pow_lt_pow_iff_right (by decide : 1 < 2)).mp this
        omega
      subst hL0
      dsimp only
      rw [if_pos ⟨by decide, by simp⟩, if_pos hi]
    · rw [if_neg h0] at hr
      subst hr
      dsimp only
      rw [if_neg (by simp)]
  obtain ⟨r1, r2⟩ := r
  dsimp only at hroot ⊢
  rw [hroot]
  dsimp only
  rw [if_neg (by simp)]
  unfold buddy_coalescence
  dsimp only
  rw [if_neg (by have := inv.height_pos; omega)]
  obtain ⟨t2, hco⟩ := buddy_coalescence_loop_returns fuel fuel (BUDDY_SET_FREE b.tree i)
    b.tree_height (by omega) (by omega) hfuel
  rw [hco]
  exact ⟨t2, rfl⟩

/-- The two equality tests on pairs of naturals agree. -/
theorem beq_inst_eq : (instBEqOfDecidableEq : BEq (Nat × Nat)) = instBEqProd := by
  have ext : ∀ (i1 i2 : BEq (Nat × Nat)),
      (∀ a b, @BEq.beq _ i1 a b = @BEq.beq _ i2 a b) → i1 = i2 := by
    intro i1 i2 h
    cases i1; cases i2
    congr
    funext a b
    exact h a b
  apply ext
  intro a b
  rw [Bool.eq_iff_iff]
  constructor
  · intro h
    have e : a = b := of_decide_eq_true h
    rw [e]
    simp
  · intro h
    have e : a = b := by simpa using h
    rw [e]
    exact decide_eq_true rfl

/-- Removing the head of a permutation of `live` from both sides. -/
theorem perm_erase_head (ps live : List (Nat × Nat)) (x : Nat × Nat) (hm : x ∈ live)
    (hp : (x :: ps).Perm live) : ps.Perm (live.erase x) := by
  have := (hp.trans (List.perm_cons_erase hm)).cons_inv
  rw [beq_inst_eq] at this
  exact this


/-- Freeing the live allocations of a reachable state one after the other, in any order,
returns and reaches a state with no live allocation. -/
theorem buddy_free_seq_returns (fuel : Nat) (ps : List (Nat × Nat)) :
    ∀ (b : BuddyAllocator) (live : List (Nat × Nat)), BuddyReach b live → ps.Perm live →
      2 ^ (b.tree_height - 1) < fuel →
      ∃ b1, buddy_free_seq fuel b (ps.map Prod.fst) = .ok b1 ∧ BuddyReach b1 [] := by
  induction ps with
  | nil =>
    intro b live h hp _
    have : live = [] := List.Perm.eq_nil hp.symm
    subst this
    exact ⟨b, rfl, h⟩
  | cons x ps ih =>
    intro b live h hp hfuel
    obtain ⟨p, bs⟩ := x
    have hm : (p, bs) ∈ live := hp.subset (List.mem_cons_self _ _)
    obtain ⟨t2, hfr⟩ := buddy_free_returns (buddy_reach_inv h) hm hfuel
    have h1 : BuddyReach { b with tree := t2 } (live.erase (p, bs)) := BuddyReach.free h hm hfr
    have hp1 : ps.Perm (live.erase (p, bs)) := perm_erase_head ps live (p, bs) hm hp
    obtain ⟨b1, e1, e2⟩ := ih _ _ h1 hp1 hfuel
    refine ⟨b1, ?_, e2⟩
    simp only [List.map_cons, buddy_free_seq, hfr]
    exact e1

/-- The first two allocations of the example, `alloc(4)` and `alloc(9)`, on the allocator
of height 4. -/
theorem buddy_example_two :
    ∃ b0 b1 b2 m1 m2,
      buddy_init 4096 128 8 = .ok b0 ∧
      buddy_alloc_block 16 b0 (fun _ => 0) 4 = .ok (4096, 8, b1, m1) ∧
      buddy_alloc_block 16 b1 m1 9 = .ok (4112, 16, b2, m2) ∧ b2.tree_height = 4 :=
  ⟨_, _, _, _, _, rfl, rfl, rfl, rfl⟩

/-- Claim C22: in every state reachable from `buddy_init` by `buddy_alloc` (sizes of at
least 1), `buddy_free` of live allocations and `buddy_free_all`, with the live allocations
`live`: for every step budget above `2^(H - 1)`, `buddy_free` of any live allocation
returns; freeing all live allocations one after the other, in any order `ps`, returns; and
in the state it returns no allocation is live, every tree cell is zero and every node is
Free: the tree is the one produced by `buddy_init`, and `buddy_free_all` would not change
it. With `live = []` this says that a reachable state in which every allocation has been
freed has the all-zero tree. -/
theorem buddy_all_freed_zero (b : BuddyAllocator) (live ps : List (Nat × Nat)) (fuel : Nat)
    (h : BuddyReach b live) (hp : ps.Perm live) (hfuel : 2 ^ (b.tree_height - 1) < fuel) :
    (∀ x ∈ live, ∃ b1, buddy_free fuel b x.1 = .ok b1 ∧ BuddyReach b1 (live.erase x)) ∧
      ∃ b1, buddy_free_seq fuel b (ps.map Prod.fst) = .ok b1 ∧ BuddyReach b1 [] ∧
        b1.tree = (fun _ => 0) ∧ (∀ i, BUDDY_IS_FREE b1.tree i = true) ∧
        (∀ buffer size align b0, buddy_init buffer size align = .ok b0 →
          b0.tree = b1.tree) ∧
        (∀ b2, buddy_free_all b1 = .ok b2 → b2.tree = b1.tree) := by
  refine ⟨fun x hx => ?_, ?_⟩
  · obtain ⟨p, bs⟩ := x
    obtain ⟨t2, hfr⟩ := buddy_free_returns (buddy_reach_inv h) hx hfuel
    exact ⟨_, hfr, BuddyReach.free h hx hfr⟩
  · obtain ⟨b1, e1, e2⟩ := buddy_free_seq_returns fuel ps b live h hp hfuel
    exact ⟨b1, e1, e2, buddy_no_live_zero b1 e2⟩

/-- Instance of C22: after `alloc(4)` and `alloc(9)` on the allocator of height 4, the two
blocks are freed in allocation order with the step budget 9. -/
theorem buddy_all_freed_zero_witness :
    ∃ b2, BuddyReach b2 [(4112, 16), (4096, 8)] ∧
      (∀ x ∈ [((4112 : Nat), (16 : Nat)), (4096, 8)],
        ∃ b1, buddy_free 9 b2 x.1 = .ok b1 ∧
          BuddyReach b1 (List.erase [(4112, 16), (4096, 8)] x)) ∧
      ∃ b4, buddy_free_seq 9 b2 (List.map Prod.fst [(4096, 8), (4112, 16)]) = .ok b4 ∧
        BuddyReach b4 [] ∧ b4.tree = (fun _ => 0) ∧ (∀ i, BUDDY_IS_FREE b4.tree i = true) ∧
        (∀ buffer size align b0, buddy_init buffer size align = .ok b0 →
          b0.tree = b4.tree) ∧
        (∀ b5, buddy_free_all b4 = .ok b5 → b5.tree = b4.tree) := by
  obtain ⟨b0, b1, b2, m1, m2, h0, h1, h2, hH⟩ := buddy_example_two
  have h : BuddyReach b2 [(4112, 16), (4096, 8)] :=
    BuddyReach.alloc (BuddyReach.alloc (BuddyReach.init (by decide) h0) (by decide) h1
      (by decide)) (by decide) h2 (by decide)
  exact ⟨b2, h, buddy_all_freed_zero b2 _ [(4096, 8), (4112, 16)] 9 h
    (List.Perm.swap _ _ _) (by rw [hH]; decide)⟩

end Alloc
